import Mathlib

/-!
# Dorado read pipeline: a shallow embedding

Embedding of the node worker loops (`ReadFilterNode`, `ReadToBamType`,
`StereoDuplexEncoderNode`, `ModBaseCallerNode`), of
`StereoDuplexEncoderNode::stereo_encode` and of the `ModBaseCaller` request
deque, followed by the properties established about them.

Conventions.
* C++ `int`, `size_t` and counters are `Int` or `Nat`; no arithmetic in the
  embedded code comes near the width of the machine type.
* `float`, `double` and `c10::Half` data are values of `Fl`; every arithmetic
  operation rounds its exact result to nearest, ties to even, in the format of
  its C++ type (`round16`, `round32`, `round64`).  The sign of zero is not
  represented.
* `std::shared_ptr<Read>` is an address into a `Heap`; dereferencing an address
  that holds no object, indexing outside a buffer and a C++ exception are all a
  `Fault`.
* Functions of the repository or of third-party libraries whose code is not part
  of the embedded sources (`edlibAlign`, `get_trimmed_alignment`, ...) are fields
  of `Env`.
-/

namespace Dorado

/-! ## Floating-point data -/

/-- Value of an IEEE-754 binary floating-point datum: not-a-number, an infinity,
or a finite number given by its rational value. -/
inductive Fl where
  | nan : Fl
  | inf (neg : Bool) : Fl
  | fin (q : ℚ) : Fl
deriving DecidableEq

/-- Nearest integer to `q`, ties going to the even neighbour. -/
def roundHalfEven (q : ℚ) : ℤ :=
  if q - ⌊q⌋ < 1 / 2 then ⌊q⌋
  else if 1 / 2 < q - ⌊q⌋ then ⌊q⌋ + 1
  else if ⌊q⌋ % 2 = 0 then ⌊q⌋ else ⌊q⌋ + 1

/-- The spacing of the numbers of the binary format with `prec` significand bits
and least normal exponent `emin` around `x`: a unit in the last place of the
binade of `x`, and that of the least normal binade below it. -/
def quantum (prec : ℕ) (emin : ℤ) (x : ℚ) : ℚ :=
  (2 : ℚ) ^ (max (Int.log 2 |x|) emin - ((prec : ℤ) - 1))

/-- Rational `x` rounded to the binary format with `prec` significand bits and
normal exponents `emin .. emax` (round to nearest, ties to even, gradual
underflow, overflow to infinity). -/
def roundBinary (prec : ℕ) (emin emax : ℤ) (x : ℚ) : Fl :=
  if x = 0 then Fl.fin 0
  else if (2 : ℚ) ^ (emax + 1) ≤
      |(roundHalfEven (x / quantum prec emin x) : ℚ) * quantum prec emin x| then
    Fl.inf (decide (x < 0))
  else Fl.fin ((roundHalfEven (x / quantum prec emin x) : ℚ) * quantum prec emin x)

/-- Rounding to `c10::Half` (binary16). -/
def round16 (x : ℚ) : Fl := roundBinary 11 (-14) 15 x

/-- Rounding to `float` (binary32). -/
def round32 (x : ℚ) : Fl := roundBinary 24 (-126) 127 x

/-- Rounding to `double` (binary64). -/
def round64 (x : ℚ) : Fl := roundBinary 53 (-1022) 1023 x

/-- Conversion of a floating-point value to another format (`rnd` is the
rounding of the destination format). -/
def Fl.convert (rnd : ℚ → Fl) : Fl → Fl
  | Fl.fin q => rnd q
  | x => x

/-- The C++ conversion `(float)n` of an integer. -/
def Fl.ofInt32 (n : Int) : Fl := round32 (n : ℚ)

/-- IEEE division, the quotient rounded by `rnd`.  A zero divisor is the
positive zero. -/
def Fl.div (rnd : ℚ → Fl) : Fl → Fl → Fl
  | Fl.nan, _ => Fl.nan
  | _, Fl.nan => Fl.nan
  | Fl.inf _, Fl.inf _ => Fl.nan
  | Fl.inf s, Fl.fin b => Fl.inf (xor s (decide (b < 0)))
  | Fl.fin _, Fl.inf _ => Fl.fin 0
  | Fl.fin a, Fl.fin b =>
    if b = 0 then (if a = 0 then Fl.nan else Fl.inf (decide (a < 0))) else rnd (a / b)

/-- IEEE multiplication, the product rounded by `rnd`. -/
def Fl.mul (rnd : ℚ → Fl) : Fl → Fl → Fl
  | Fl.nan, _ => Fl.nan
  | _, Fl.nan => Fl.nan
  | Fl.inf s, Fl.inf t => Fl.inf (xor s t)
  | Fl.inf s, Fl.fin b => if b = 0 then Fl.nan else Fl.inf (xor s (decide (b < 0)))
  | Fl.fin a, Fl.inf t => if a = 0 then Fl.nan else Fl.inf (xor (decide (a < 0)) t)
  | Fl.fin a, Fl.fin b => rnd (a * b)

/-- The C++ comparison `a < b` on floating-point values: false as soon as one
side is not a number. -/
def Fl.lt : Fl → Fl → Bool
  | Fl.nan, _ => false
  | _, Fl.nan => false
  | Fl.inf s, Fl.inf t => s && !t
  | Fl.inf s, Fl.fin _ => s
  | Fl.fin _, Fl.inf t => !t
  | Fl.fin a, Fl.fin b => decide (a < b)

/-- The function `std::min(a, b)`, which is `(b < a) ? b : a`. -/
def Fl.stdMin (a b : Fl) : Fl := if Fl.lt b a then b else a

/-- The function `std::floor` on a floating-point value. -/
def Fl.floor : Fl → Fl
  | Fl.fin q => Fl.fin (⌊q⌋ : ℤ)
  | x => x

/-- The `double` literal `0.2`. -/
def double_0_2 : Fl := round64 (1 / 5)

/-- The `double` literal `0.8`. -/
def double_0_8 : Fl := round64 (4 / 5)

/-! ## Data model -/

/-- Ways in which the embedded C++ code can fail: a dereference of a pointer that
holds no object, an access outside a buffer (undefined behaviour in C++), and
the exceptions `std::bad_variant_access`, `std::out_of_range` and `c10::Error`. -/
inductive Fault where
  | nullDeref : Fault
  | outOfBounds : Fault
  | badVariantAccess : Fault
  | outOfRange : Fault
  | tensorError : Fault
deriving DecidableEq, Repr

/-- A `torch::Tensor` of the shapes the pipeline uses: the default-constructed
(undefined) tensor, a one-dimensional signal, or a two-dimensional feature
matrix given by its rows. -/
inductive Tensor where
  | undefined : Tensor
  | vec (data : List Fl) : Tensor
  | mat (rows : List (List Fl)) : Tensor
deriving DecidableEq

/-- The method `Tensor::ndimension()`.  The undefined tensor reports one
dimension, as a simplex signal does. -/
def Tensor.ndimension : Tensor → Nat
  | Tensor.undefined => 1
  | Tensor.vec _ => 1
  | Tensor.mat _ => 2

/-- The fields of `Read` used by the embedded code; the defaults are those of a
default-constructed `Read`. -/
structure Read where
  read_id : String := ""
  raw_data : Tensor := Tensor.undefined
  seq : List Char := []
  qstring : List Char := []
  moves : List Nat := []
  base_mod_probs : List Nat := []
  num_duplex_candidate_pairs : Int := 0
  read_tag : Nat := 0
  run_id : String := ""
  is_duplex : Bool := false
deriving DecidableEq

/-- Address of a `Read` object (a `std::shared_ptr<Read>`). -/
abbrev ReadPtr := Nat

/-- A `ReadPair`: the template read and the complement read. -/
structure ReadPair where
  read_1 : ReadPtr
  read_2 : ReadPtr
deriving DecidableEq, Repr

/-- A formatted alignment record (`BamPtr`). -/
structure BamRecord where
  line : String
deriving DecidableEq, Repr

/-- The `Message` variant carried by every node queue. -/
inductive Message where
  | read (r : ReadPtr) : Message
  | bam (b : BamRecord) : Message
  | readPair (p : ReadPair) : Message
  | candidatePairRejected : Message
deriving DecidableEq, Repr

/-- The `Read` objects allocated so far; the address of an object is its index. -/
structure Heap where
  reads : List Read
deriving DecidableEq

/-- Dereference of a read pointer. -/
def Heap.deref (h : Heap) (p : ReadPtr) : Except Fault Read :=
  match h.reads[p]? with
  | some r => Except.ok r
  | none => Except.error Fault.nullDeref

/-- Store through a read pointer. -/
def Heap.store (h : Heap) (p : ReadPtr) (r : Read) : Heap := ⟨h.reads.set p r⟩

/-- Allocation of a new object (`std::make_shared<Read>`). -/
def Heap.alloc (h : Heap) (r : Read) : ReadPtr × Heap := (h.reads.length, ⟨h.reads ++ [r]⟩)

/-- The structure `EdlibAlignResult`; a null array is the empty list. -/
structure EdlibAlignResult where
  status : Int
  editDistance : Int
  endLocations : List Int
  startLocations : List Int
  numLocations : Int
  alignment : List Nat
  alignmentLength : Int
deriving DecidableEq, Repr

/-- Collaborators whose code is outside the embedded sources. -/
structure Env where
  /-- The function `edlibAlign(query, target, config)` of edlib with the
  configuration built in `stereo_encode`. -/
  edlibAlign : List Char → List Char → EdlibAlignResult
  /-- The function `utils::reverse_complement`. -/
  reverse_complement : List Char → List Char
  /-- The function `utils::get_trimmed_alignment`: returns
  `((start, end), (query_cursor, target_cursor))`. -/
  get_trimmed_alignment : Int → List Nat → Int → Int → Int → Int → Int → (Int × Int) × (Int × Int)
  /-- The function `utils::base_to_int`. -/
  base_to_int : Char → Int
  /-- The function `utils::mean_qscore_from_qstring`. -/
  mean_qscore_from_qstring : List Char → Fl
  /-- The method `Read::extract_sam_lines(emit_moves, modbase_threshold)`. -/
  extract_sam_lines : Read → Bool → Nat → List BamRecord

/-- Indexing into a buffer; an index outside it is a fault. -/
def getAt {α : Type} (xs : List α) (i : Int) : Except Fault α :=
  if i < 0 then Except.error Fault.outOfBounds
  else
    match xs[i.toNat]? with
    | some x => Except.ok x
    | none => Except.error Fault.outOfBounds

/-! ## StereoDuplexEncoderNode::stereo_encode -/

/-- Indexing `s[i]` into a `std::string`: the index `s.size()` yields the
terminating null character, any other index outside the string is a fault. -/
def string_index (s : List Char) (i : Int) : Except Fault Char :=
  if i = (s.length : Int) then Except.ok (Char.ofNat 0) else getAt s i

/-- The call `s.at(i)` on a `std::string`: throws `std::out_of_range` outside
the string. -/
def string_at (s : List Char) (i : Int) : Except Fault Char :=
  match getAt s i with
  | Except.ok c => Except.ok c
  | Except.error _ => Except.error Fault.outOfRange

/-- The samples of a one-dimensional signal tensor (`raw_data.size(0)` and
`raw_data.data_ptr()`); `stereo_encode` takes simplex reads, any other tensor is
reported as a fault. -/
def Tensor.signal : Tensor → Except Fault (List Fl)
  | Tensor.vec d => Except.ok d
  | _ => Except.error Fault.tensorError

/-- The function `torch::min` of a whole tensor: throws on an empty tensor,
propagates not-a-number. -/
def tensor_min : List Fl → Except Fault Fl
  | [] => Except.error Fault.tensorError
  | x :: xs =>
    Except.ok (xs.foldl
      (fun a b => if a = Fl.nan ∨ b = Fl.nan then Fl.nan else if Fl.lt b a then b else a) x)

/-- The move table expanded to one entry per sample: every move followed by
`stride - 1` zeros, then zero padding up to the signal length. -/
def expand_moves (stride : Int) (signal_size : Nat) (moves : List Nat) : List Nat :=
  (moves.flatMap fun m => m :: List.replicate (stride - 1).toNat 0) ++
    List.replicate
      (signal_size - (moves.flatMap fun m => m :: List.replicate (stride - 1).toNat 0).length) 0

/-- The loop `while (moves_seen < goal) { cursor++; moves_seen += moves_expanded[cursor]; }`.
Every iteration reads one entry further, so `fuel = moves_expanded.length + 1`
iterations are never exhausted before the loop ends or reads outside the
table. -/
def advance_to_base (moves_expanded : List Nat) (goal : Int) : Nat → Nat → Int → Except Fault Nat
  | 0, _, _ => Except.error Fault.outOfBounds
  | fuel + 1, cursor, moves_seen =>
    if moves_seen < goal then
      match moves_expanded[cursor + 1]? with
      | none => Except.error Fault.outOfBounds
      | some m => advance_to_base moves_expanded goal fuel (cursor + 1) (moves_seen + (m : Int))
    else Except.ok cursor

/-- The call `std::memchr(&buf[start], 1, n)`: offset of the first byte equal to 1
among the next `n` bytes, `none` when there is none; scanning outside the buffer
is a fault.  The last argument is the offset reached. -/
def memchr_one (buf : List Nat) (start : Nat) : Nat → Nat → Except Fault (Option Nat)
  | 0, _ => Except.ok none
  | n + 1, j =>
    match buf[start + j]? with
    | none => Except.error Fault.outOfBounds
    | some b => if b = 1 then Except.ok (some j) else memchr_one buf start n (j + 1)

/-- Source side of a `memcpy` of `count` samples starting at `src[pos]`. -/
def read_samples (src : List Fl) (pos count : Nat) : Except Fault (List Fl) :=
  if count = 0 then Except.ok []
  else if pos + count ≤ src.length then Except.ok ((src.drop pos).take count)
  else Except.error Fault.outOfBounds

/-- Destination side of a `memcpy` or `std::fill_n` into
`feature_ptrs[row][pos ..]`. -/
def write_row (tmp : List (List Fl)) (row : Int) (pos : Nat) (vals : List Fl) :
    Except Fault (List (List Fl)) :=
  match getAt tmp row with
  | Except.error e => Except.error e
  | Except.ok r =>
    if vals = [] then Except.ok tmp
    else if pos + vals.length ≤ r.length then
      Except.ok (tmp.set row.toNat (r.take pos ++ vals ++ r.drop (pos + vals.length)))
    else Except.error Fault.outOfBounds

/-- The value of a `char` in integer arithmetic.  A character stands for the
byte of its code point; `char` is a signed 8-bit type on the platforms the code
is built for (x86-64), so a byte above 127 is a negative number. -/
def char_to_int (ch : Char) : Int :=
  if ch.toNat % 256 < 128 then ((ch.toNat % 256 : Nat) : Int)
  else ((ch.toNat % 256 : Nat) : Int) - 256

/-- The lambda `convert_q_score`: `q_in - 33` is computed in `int` from the
`char`, converted to `float`, divided by `90.0f` and converted to `c10::Half`. -/
def convert_q_score (q_in : Char) : Fl :=
  Fl.convert round16 (Fl.div round32 (Fl.ofInt32 (char_to_int q_in - 33)) (Fl.fin 90))

/-- One side of an alignment column: the sample at the signal cursor is copied,
then the samples up to the next move.  Returns the buffer, the new signal cursor
and the segment length. -/
def copy_segment (raw : List Fl) (moves_expanded : List Nat) (feature : Int)
    (tmp : List (List Fl)) (stereo_global_cursor signal_cursor : Nat) :
    Except Fault (List (List Fl) × Nat × Nat) := do
  let first ← read_samples raw signal_cursor 1
  let tmp1 ← write_row tmp feature stereo_global_cursor first
  let found ← memchr_one moves_expanded (signal_cursor + 1) moves_expanded.length 0
  let sample_count : Nat :=
    match found with
    | some k => k
    | none => moves_expanded.length
  let rest ← read_samples raw (signal_cursor + 1) sample_count
  let tmp2 ← write_row tmp1 feature (stereo_global_cursor + 1) rest
  pure (tmp2, signal_cursor + 1 + sample_count, 1 + sample_count)

/-- The data `stereo_encode` has prepared when it enters the alignment walk. -/
structure WalkCtx where
  template_raw : List Fl
  flipped_complement_raw : List Fl
  template_moves_expanded : List Nat
  complement_moves_expanded : List Nat
  template_seq : List Char
  template_qstring : List Char
  complement_sequence_reverse_complement : List Char
  complement_qstring : List Char
  base_to_int : Char → Int

/-- The variables the alignment walk updates. -/
structure WalkState where
  tmp : List (List Fl)
  template_signal_cursor : Nat
  complement_signal_cursor : Nat
  target_cursor : Int
  query_cursor : Int
  stereo_global_cursor : Nat

/-- Body of the alignment walk for one column whose alignment entry is `a`
(0 match, 1 insertion to target, 2 insertion to query, 3 mismatch). -/
def encode_column (c : WalkCtx) (a : Nat) (s : WalkState) : Except Fault WalkState := do
  let (tmp1, template_signal_cursor, template_segment_length) ←
    if a ≠ 2 then
      copy_segment c.template_raw c.template_moves_expanded 0 s.tmp s.stereo_global_cursor
        s.template_signal_cursor
    else pure (s.tmp, s.template_signal_cursor, 0)
  let (tmp2, complement_signal_cursor, complement_segment_length) ←
    if a ≠ 1 then
      copy_segment c.flipped_complement_raw c.complement_moves_expanded 1 tmp1
        s.stereo_global_cursor s.complement_signal_cursor
    else pure (tmp1, s.complement_signal_cursor, 0)
  let total_segment_length := max template_segment_length complement_segment_length
  let start_ts := s.stereo_global_cursor
  let (tmp3, target_cursor) ←
    if a ≠ 2 then do
      let nucleotide ← string_index c.template_seq s.target_cursor
      let t1 ← write_row tmp2 (2 + c.base_to_int nucleotide) start_ts
        (List.replicate total_segment_length (Fl.fin 1))
      let q ← string_index c.template_qstring s.target_cursor
      let t2 ← write_row t1 11 start_ts (List.replicate total_segment_length (convert_q_score q))
      pure (t2, s.target_cursor + 1)
    else pure (tmp2, s.target_cursor)
  let (tmp4, query_cursor) ←
    if a ≠ 1 then do
      let nucleotide ← string_at c.complement_sequence_reverse_complement s.query_cursor
      let t1 ← write_row tmp3 (6 + c.base_to_int nucleotide) start_ts
        (List.replicate total_segment_length (Fl.fin 1))
      let q ← getAt c.complement_qstring ((c.complement_qstring.length : Int) - 1 - s.query_cursor)
      let t2 ← write_row t1 12 start_ts (List.replicate total_segment_length (convert_q_score q))
      pure (t2, s.query_cursor + 1)
    else pure (tmp3, s.query_cursor)
  let tmp5 ← write_row tmp4 10 s.stereo_global_cursor [Fl.fin 1]
  pure
    { tmp := tmp5
      template_signal_cursor := template_signal_cursor
      complement_signal_cursor := complement_signal_cursor
      target_cursor := target_cursor
      query_cursor := query_cursor
      stereo_global_cursor := s.stereo_global_cursor + total_segment_length }

/-- The loop `for (int i = start; i < end; i++)` over `n` remaining columns,
the next one being column `i`. -/
def encode_columns (c : WalkCtx) (alignment : List Nat) : Nat → Int → WalkState → Except Fault WalkState
  | 0, _, s => Except.ok s
  | n + 1, i, s =>
    match getAt alignment i with
    | Except.error e => Except.error e
    | Except.ok a =>
      match encode_column c a s with
      | Except.error e => Except.error e
      | Except.ok s1 => encode_columns c alignment n (i + 1) s1

/-- The constant `kMinTrimmedAlignmentLength`. -/
def kMinTrimmedAlignmentLength : Int := 50

/-- The local `consensus_possible` of `stereo_encode`. -/
def consensus_possible (start_alignment_position end_alignment_position : Int)
    (alignment_error_rate : Fl) : Bool :=
  decide (start_alignment_position < end_alignment_position) &&
    decide (end_alignment_position - start_alignment_position > kMinTrimmedAlignmentLength) &&
    Fl.lt alignment_error_rate double_0_2

/-- The expression `(float)result.editDistance / (float)result.alignmentLength`. -/
def alignment_error_rate (result : EdlibAlignResult) : Fl :=
  Fl.div round32 (Fl.ofInt32 result.editDistance) (Fl.ofInt32 result.alignmentLength)

/-- The part of `stereo_encode` after the early return: builds the 13-row
tensor of an accepted pair. -/
def stereo_encode_tensor (env : Env) (m_input_signal_stride : Int)
    (template_read complement_read : Read) (alignment : List Nat)
    (start_alignment_position end_alignment_position query_cursor target_cursor : Int) :
    Except Fault (List (List Fl)) := do
  let template_raw ← template_read.raw_data.signal
  let complement_raw ← complement_read.raw_data.signal
  let max_size := template_raw.length + complement_raw.length
  let template_moves_expanded :=
    expand_moves m_input_signal_stride template_raw.length template_read.moves
  let template_moves_seen ← getAt template_moves_expanded 0
  let template_signal_cursor ←
    advance_to_base template_moves_expanded (target_cursor + 1)
      (template_moves_expanded.length + 1) 0 (template_moves_seen : Int)
  let complement_moves_expanded :=
    ((expand_moves m_input_signal_stride complement_raw.length complement_read.moves ++
      [1]).reverse).dropLast
  let complement_signal := complement_raw.reverse
  let complement_moves_seen ← getAt complement_read.moves 0
  let complement_signal_cursor ←
    advance_to_base complement_moves_expanded (query_cursor + 1)
      (complement_moves_expanded.length + 1) 0 (complement_moves_seen : Int)
  let complement_min ← tensor_min complement_signal
  let template_min ← tensor_min template_raw
  let pad_value :=
    Fl.convert round32 (Fl.mul round64 double_0_8 (Fl.stdMin complement_min template_min))
  let tmp : List (List Fl) :=
    List.replicate 2 (List.replicate max_size (Fl.convert round16 pad_value)) ++
      List.replicate 11 (List.replicate max_size (Fl.fin 0))
  let final ←
    encode_columns
      { template_raw := template_raw
        flipped_complement_raw := complement_signal
        template_moves_expanded := template_moves_expanded
        complement_moves_expanded := complement_moves_expanded
        template_seq := template_read.seq
        template_qstring := template_read.qstring
        complement_sequence_reverse_complement := env.reverse_complement complement_read.seq
        complement_qstring := complement_read.qstring
        base_to_int := env.base_to_int }
      alignment (end_alignment_position - start_alignment_position).toNat
      start_alignment_position
      { tmp := tmp
        template_signal_cursor := template_signal_cursor
        complement_signal_cursor := complement_signal_cursor
        target_cursor := target_cursor
        query_cursor := query_cursor
        stereo_global_cursor := 0 }
  pure (final.tmp.map (List.take final.stereo_global_cursor))

/-- The read `stereo_encode` returns for an accepted pair (lines 265 to 269);
`tmp` is the encoded tensor. -/
def stereo_encoded_read (template_read complement_read : Read) (tmp : List (List Fl)) : Read :=
  { read_id := template_read.read_id ++ ";" ++ complement_read.read_id
    read_tag := template_read.read_tag
    raw_data := Tensor.mat tmp
    is_duplex := true
    run_id := template_read.run_id }

/-- Lines 26 to 37: the template sequence aligned with the reverse complement of
the complement sequence. -/
def stereo_align (env : Env) (template_read complement_read : Read) : EdlibAlignResult :=
  env.edlibAlign template_read.seq (env.reverse_complement complement_read.seq)

/-- Lines 43 to 45: the call of `get_trimmed_alignment`, which returns
`((start_alignment_position, end_alignment_position), (query_cursor, target_cursor))`. -/
def stereo_trim (env : Env) (result : EdlibAlignResult) (target_cursor end_location : Int) :
    (Int × Int) × (Int × Int) :=
  env.get_trimmed_alignment 11 result.alignment result.alignmentLength target_cursor 0 0
    end_location

/-- The function `StereoDuplexEncoderNode::stereo_encode`.  Besides the read it
returns the new value of the counter `m_num_discarded_pairs`.  Reading
`startLocations[0]` or `endLocations[0]` of a result without locations is a
fault. -/
def stereo_encode (env : Env) (m_input_signal_stride : Int) (template_read complement_read : Read)
    (m_num_discarded_pairs : Nat) : Except Fault (Read × Nat) :=
  match getAt (stereo_align env template_read complement_read).startLocations 0 with
  | Except.error _ => Except.error Fault.nullDeref
  | Except.ok target_cursor =>
    match getAt (stereo_align env template_read complement_read).endLocations 0 with
    | Except.error _ => Except.error Fault.nullDeref
    | Except.ok end_location =>
      match stereo_trim env (stereo_align env template_read complement_read) target_cursor
          end_location with
      | ((start_alignment_position, end_alignment_position), (query_cursor, target_cursor1)) =>
        if consensus_possible start_alignment_position end_alignment_position
            (alignment_error_rate (stereo_align env template_read complement_read)) then
          match stereo_encode_tensor env m_input_signal_stride template_read complement_read
              (stereo_align env template_read complement_read).alignment
              start_alignment_position end_alignment_position query_cursor target_cursor1 with
          | Except.error e => Except.error e
          | Except.ok tmp =>
            Except.ok
              (stereo_encoded_read template_read complement_read tmp, m_num_discarded_pairs)
        else Except.ok ({}, m_num_discarded_pairs + 1)

/-- An aligner and a trimming step for examples: every column is a match, one
location is reported, and the last column is trimmed. -/
def exampleEnv : Env :=
  { edlibAlign := fun t q =>
      { status := 0, editDistance := 0, endLocations := [(q.length : Int) - 1],
        startLocations := [0], numLocations := 1, alignment := List.replicate t.length 0,
        alignmentLength := t.length }
    reverse_complement := fun s => s.reverse
    get_trimmed_alignment := fun _ _ len t q s _ => ((s, len - 1), (q, t))
    base_to_int := fun c => if c = 'A' then 0 else if c = 'C' then 1 else if c = 'G' then 2 else 3
    mean_qscore_from_qstring := fun _ => Fl.fin 10
    extract_sam_lines := fun _ _ _ => [] }

/-- A read of `n` bases for examples: one sample per base. -/
def exampleRead (n : Nat) : Read :=
  { read_id := "r"
    raw_data := Tensor.vec ((List.range n).map fun i => Fl.fin (i : ℚ))
    seq := List.replicate n 'A'
    qstring := List.replicate n '5'
    moves := List.replicate n 1 }

/-- An aligner result for examples: an alignment of `2 ^ 28` columns with
53687091 edits and one location, of which the trimming step keeps the columns
0 to 100.  Only these numbers enter the decision of `stereo_encode`. -/
def longAlignmentEnv : Env :=
  { exampleEnv with
    edlibAlign := fun _ _ =>
      { status := 0, editDistance := 53687091, endLocations := [0], startLocations := [0],
        numLocations := 1, alignment := [], alignmentLength := 268435456 }
    get_trimmed_alignment := fun _ _ _ _ _ _ _ => ((0, 100), (0, 0)) }

/-- An aligner result without any location (null `startLocations`), as edlib
returns for an empty sequence. -/
def noLocationEnv : Env :=
  { exampleEnv with
    edlibAlign := fun _ _ =>
      { status := 0, editDistance := 0, endLocations := [], startLocations := [],
        numLocations := 0, alignment := [], alignmentLength := 0 } }

/-! ## Node worker loops: handling of one message -/

/-- State touched by the worker threads of a `StereoDuplexEncoderNode`: the read
objects, the messages pushed to `m_sink` (oldest first) and the counter of
discarded pairs. -/
structure StereoDuplexEncoderNode where
  heap : Heap
  sink : List Message
  m_num_discarded_pairs : Nat
deriving DecidableEq

/-- Body of the loop of `StereoDuplexEncoderNode::worker_thread` for one popped
message. -/
def StereoDuplexEncoderNode.process_message (env : Env) (m_input_signal_stride : Int)
    (node : StereoDuplexEncoderNode) : Message → Except Fault StereoDuplexEncoderNode
  | Message.readPair read_pair =>
    match node.heap.deref read_pair.read_1, node.heap.deref read_pair.read_2 with
    | Except.ok read_1, Except.ok read_2 =>
      match stereo_encode env m_input_signal_stride read_1 read_2 node.m_num_discarded_pairs with
      | Except.error e => Except.error e
      | Except.ok (stereo_encoded_read, discarded) =>
        if stereo_encoded_read.raw_data.ndimension = 2 then
          Except.ok
            { heap := (node.heap.alloc stereo_encoded_read).2
              sink := node.sink ++ [Message.read (node.heap.alloc stereo_encoded_read).1]
              m_num_discarded_pairs := discarded }
        else
          Except.ok
            { heap := node.heap.store read_pair.read_1
                { read_1 with
                  num_duplex_candidate_pairs := read_1.num_duplex_candidate_pairs - 1 }
              sink := node.sink ++ [Message.candidatePairRejected]
              m_num_discarded_pairs := discarded }
    | Except.error e, _ => Except.error e
    | _, Except.error e => Except.error e
  | Message.read read => Except.ok { node with sink := node.sink ++ [Message.read read] }
  | _ => Except.ok node

/-- State touched by the worker threads of a `ReadFilterNode`. -/
structure ReadFilterNode where
  heap : Heap
  sink : List Message
  m_min_qscore : Nat
  m_min_read_length : Nat
  m_read_ids_to_filter : List String
  m_num_reads_filtered : Nat
deriving DecidableEq

/-- Body of the loop of `ReadFilterNode::worker_thread` for one popped message. -/
def ReadFilterNode.process_message (env : Env) (node : ReadFilterNode) :
    Message → Except Fault ReadFilterNode
  | Message.candidatePairRejected => Except.ok node
  | Message.read p =>
    match node.heap.deref p with
    | Except.error e => Except.error e
    | Except.ok read =>
      if Fl.lt (env.mean_qscore_from_qstring read.qstring) (round32 (node.m_min_qscore : ℚ)) ∨
          read.seq.length < node.m_min_read_length then
        Except.ok { node with m_num_reads_filtered := node.m_num_reads_filtered + 1 }
      else if read.read_id ∈ node.m_read_ids_to_filter then
        Except.ok { node with m_num_reads_filtered := node.m_num_reads_filtered + 1 }
      else Except.ok { node with sink := node.sink ++ [Message.read p] }
  | _ => Except.error Fault.badVariantAccess

/-- State touched by the worker threads of a `ReadToBamType` node. -/
structure ReadToBamType where
  heap : Heap
  sink : List Message
  m_emit_moves : Bool
  m_rna : Bool
  m_modbase_threshold : Nat
deriving DecidableEq

/-- Body of the loop of `ReadToBamType::worker_thread` for one popped message. -/
def ReadToBamType.process_message (env : Env) (node : ReadToBamType) :
    Message → Except Fault ReadToBamType
  | Message.read p =>
    match node.heap.deref p with
    | Except.error e => Except.error e
    | Except.ok read =>
      Except.ok
        { node with
          heap :=
            if node.m_rna then
              node.heap.store p { read with seq := read.seq.reverse, qstring := read.qstring.reverse }
            else node.heap
          sink :=
            node.sink ++
              (env.extract_sam_lines
                (if node.m_rna then
                  { read with seq := read.seq.reverse, qstring := read.qstring.reverse }
                else read)
                node.m_emit_moves node.m_modbase_threshold).map Message.bam }
  | _ => Except.error Fault.badVariantAccess

/-! ## Worker pools and the termination cascade

The workers of one node run the same code and are told apart only by where they
are in it, so a state of the pool records how many workers are at each place.
An interleaving of the threads is a list of actions, each of which is one atomic
step of one thread. -/

/-- Progress of a node destructor: not called; after `terminate()`, waiting in
`join()`; after the final `m_sink.terminate()`. -/
inductive DestructorPc where
  | notCalled : DestructorPc
  | joining : DestructorPc
  | finished : DestructorPc
deriving DecidableEq, Repr

/-- State of a node with a pool of workers. -/
structure Pool where
  /-- Number of messages in `m_work_queue`. -/
  queued : Nat
  /-- The terminate flag of `m_work_queue`. -/
  terminated : Bool
  /-- Workers that have not yet executed their first statement. -/
  unstarted : Nat
  /-- Workers inside the `while (m_work_queue.try_pop(message))` loop. -/
  working : Nat
  /-- Workers that decremented the counter to zero and have not yet called
  `m_sink.terminate()`. -/
  signalling : Nat
  /-- Workers that have returned. -/
  exited : Nat
  /-- The atomic counter `m_active_threads` or `m_num_worker_threads`. -/
  counter : Int
  /-- Number of calls of `m_sink.terminate()` made so far. -/
  sink_terminate_calls : Nat
  dtor : DestructorPc
deriving DecidableEq, Repr

/-- Atomic steps of the threads that touch a node. -/
inductive PoolAction where
  /-- A worker executes its first statement. -/
  | start : PoolAction
  /-- Another thread pushes a message into the node. -/
  | push : PoolAction
  /-- A worker pops a message and handles it. -/
  | pop : PoolAction
  /-- Another thread calls `terminate()` on the node. -/
  | terminate : PoolAction
  /-- In a worker `try_pop` returns false and the worker decrements the counter. -/
  | leave : PoolAction
  /-- A worker that saw the counter reach zero calls `m_sink.terminate()`. -/
  | signal : PoolAction
  /-- The destructor starts: it calls `terminate()`. -/
  | destroy : PoolAction
  /-- The destructor has joined every worker and calls `m_sink.terminate()`. -/
  | finish : PoolAction
deriving DecidableEq, Repr

/-- Outcome of a call of `try_pop` by a worker. -/
inductive TryPop where
  | message : TryPop
  | closed : TryPop
  | waits : TryPop
deriving DecidableEq, Repr

/-- Modelled from the spec: `m_work_queue.try_pop`, whose code is not among the
sources.  It hands out a message while the queue holds one, returns false once
the queue is both empty and terminated, and keeps the worker waiting
otherwise. -/
def try_pop (queued : Nat) (terminated : Bool) : TryPop :=
  if 0 < queued then TryPop.message else if terminated then TryPop.closed else TryPop.waits

/-- Modelled from the spec: `push_message` on the node, whose code is not among
the sources.  A terminated queue accepts no message (`none`); otherwise the
result is the new number of queued messages. -/
def push_message (queued : Nat) (terminated : Bool) : Option Nat :=
  if terminated then none else some (queued + 1)

/-- Steps common to every node: queue traffic, the call of `m_sink.terminate()`
by a worker, and the destructor (`terminate(); join every worker;
m_sink.terminate();`). -/
def Pool.commonStep (s : Pool) : PoolAction → Option Pool
  | PoolAction.push =>
    match push_message s.queued s.terminated with
    | none => none
    | some q => some { s with queued := q }
  | PoolAction.pop =>
    if 0 < s.working ∧ try_pop s.queued s.terminated = TryPop.message then
      some { s with queued := s.queued - 1 }
    else none
  | PoolAction.terminate => some { s with terminated := true }
  | PoolAction.signal =>
    if 0 < s.signalling then
      some
        { s with
          signalling := s.signalling - 1
          exited := s.exited + 1
          sink_terminate_calls := s.sink_terminate_calls + 1 }
    else none
  | PoolAction.destroy =>
    if s.dtor = DestructorPc.notCalled then
      some { s with terminated := true, dtor := DestructorPc.joining }
    else none
  | PoolAction.finish =>
    if s.dtor = DestructorPc.joining ∧ s.unstarted = 0 ∧ s.working = 0 ∧ s.signalling = 0 then
      some { s with sink_terminate_calls := s.sink_terminate_calls + 1, dtor := DestructorPc.finished }
    else none
  | _ => none

/-- A worker leaves its loop because `try_pop` returned false, and executes
`auto n = --counter; if (n == 0)`: the decrement and the test, up to the call of
`m_sink.terminate()`. -/
def Pool.leaveStep (s : Pool) : Option Pool :=
  if 0 < s.working ∧ try_pop s.queued s.terminated = TryPop.closed then
    if s.counter - 1 = 0 then
      some { s with working := s.working - 1, counter := s.counter - 1, signalling := s.signalling + 1 }
    else
      some { s with working := s.working - 1, counter := s.counter - 1, exited := s.exited + 1 }
  else none

/-- A `ReadFilterNode` with `n` workers and `m` queued messages, before any
worker has run: `m_active_threads` is 0. -/
def ReadFilterNode.pool (n m : Nat) : Pool :=
  { queued := m, terminated := false, unstarted := n, working := 0, signalling := 0, exited := 0,
    counter := 0, sink_terminate_calls := 0, dtor := DestructorPc.notCalled }

/-- One step of a `ReadFilterNode`: a worker starts with `m_active_threads++`. -/
def ReadFilterNode.poolStep (s : Pool) : PoolAction → Option Pool
  | PoolAction.start =>
    if 0 < s.unstarted then
      some { s with unstarted := s.unstarted - 1, working := s.working + 1, counter := s.counter + 1 }
    else none
  | PoolAction.leave => s.leaveStep
  | a => s.commonStep a

/-- A `StereoDuplexEncoderNode` with `n` workers and `m` queued messages: the
constructor sets `m_num_worker_threads` to the number of workers, and a worker
executes nothing before its loop. -/
def StereoDuplexEncoderNode.pool (n m : Nat) : Pool :=
  { queued := m, terminated := false, unstarted := 0, working := n, signalling := 0, exited := 0,
    counter := n, sink_terminate_calls := 0, dtor := DestructorPc.notCalled }

/-- One step of a `StereoDuplexEncoderNode`. -/
def StereoDuplexEncoderNode.poolStep (s : Pool) : PoolAction → Option Pool
  | PoolAction.start => none
  | PoolAction.leave => s.leaveStep
  | a => s.commonStep a

/-- Execution of an interleaving from state `s`; `none` when some action is not
enabled where it stands. -/
def runActions {σ α : Type} (step : σ → α → Option σ) : σ → List α → Option σ
  | s, [] => some s
  | s, a :: rest =>
    match step s a with
    | none => none
    | some s1 => runActions step s1 rest

/-- Every worker has returned and the destructor has completed. -/
def Pool.destroyed (s : Pool) : Prop :=
  s.unstarted = 0 ∧ s.working = 0 ∧ s.signalling = 0 ∧ s.dtor = DestructorPc.finished

/-! ## ModBaseCaller: the request deque of one model -/

/-- The structure `ModBaseCaller::ModBaseTask` (without its mutex and condition
variable). -/
structure ModBaseTask where
  input_sigs : Tensor
  input_seqs : Tensor
  out : Tensor := Tensor.undefined
  done : Bool := false
  num_chunks : Int
deriving DecidableEq

/-- Where the dispatch thread of a model is in `modbase_task_thread_fn`: at the
top of its loop; holding the task it has popped (line 234); having written the
output of that task (line 239); returned. -/
inductive DispatchPc where
  | waiting : DispatchPc
  | holding (task : Nat) : DispatchPc
  | computed (task : Nat) : DispatchPc
  | exited : DispatchPc
deriving DecidableEq, Repr

/-- One model of a `ModBaseCaller` with the tasks of its callers.  A task pointer
is the index of the task in `tasks`, which lists the tasks in the order in which
`call_chunks` put them on the deque.  `popped` is a history variable: the task
pointers the dispatch thread has taken off the deque, oldest first. -/
structure ModBaseCaller where
  tasks : List ModBaseTask
  /-- The deque `input_queue`, front first. -/
  input_queue : List Nat
  m_terminate : Bool
  thread : DispatchPc
  m_num_batches_called : Nat
  popped : List Nat
deriving DecidableEq

/-- Atomic steps of the threads that touch one model. -/
inductive CallerAction where
  /-- A caller executes `call_chunks` up to `push_front` (lines 194 to 200). -/
  | submit (input_sigs input_seqs : Tensor) (num_chunks : Int) : CallerAction
  /-- The flag `m_terminate` is set (`terminate()` or the destructor). -/
  | terminate : CallerAction
  /-- The dispatch thread runs lines 223 to 234 after a wake-up. -/
  | take : CallerAction
  /-- The dispatch thread runs lines 236 to 239: the forward pass. -/
  | forward : CallerAction
  /-- The dispatch thread runs lines 247 to 250: `done = true` and notify. -/
  | complete : CallerAction
deriving DecidableEq

/-- A freshly constructed model: no task, the dispatch thread at the top of its
loop. -/
def ModBaseCaller.init : ModBaseCaller :=
  { tasks := [], input_queue := [], m_terminate := false, thread := DispatchPc.waiting,
    m_num_batches_called := 0, popped := [] }

/-- The part of `call_chunks` before the wait: the task is created and pushed
at the front of the deque. -/
def ModBaseCaller.call_chunks (c : ModBaseCaller) (input_sigs input_seqs : Tensor)
    (num_chunks : Int) : ModBaseCaller :=
  { c with
    tasks := c.tasks ++ [{ input_sigs := input_sigs, input_seqs := input_seqs, num_chunks := num_chunks }]
    input_queue := c.tasks.length :: c.input_queue }

/-- The end of `call_chunks` for the task `task`: the caller stays blocked
(`none`) until `done` is set, then returns `task.out`. -/
def ModBaseCaller.call_result (c : ModBaseCaller) (task : Nat) : Option Tensor :=
  match c.tasks[task]? with
  | some t => if t.done then some t.out else none
  | none => none

/-- One wake-up of the dispatch thread at the top of its loop (lines 223 to
234): with an empty deque it keeps waiting unless `m_terminate` is set, in which
case it returns; otherwise it takes the task at the back. -/
def ModBaseCaller.take (c : ModBaseCaller) : Option ModBaseCaller :=
  if c.thread = DispatchPc.waiting then
    match c.input_queue.getLast? with
    | none => if c.m_terminate then some { c with thread := DispatchPc.exited } else some c
    | some task =>
      some
        { c with
          input_queue := c.input_queue.dropLast
          thread := DispatchPc.holding task
          popped := c.popped ++ [task] }
  else none

/-- Lines 236 to 239: the module is run on the inputs of the held task and the
scores are written to the `out` slot of that task. -/
def ModBaseCaller.forward (model : Tensor → Tensor → Tensor) (c : ModBaseCaller) :
    Option ModBaseCaller :=
  match c.thread with
  | DispatchPc.holding task =>
    match c.tasks[task]? with
    | some t =>
      some
        { c with
          tasks := c.tasks.set task { t with out := model t.input_sigs t.input_seqs }
          thread := DispatchPc.computed task }
    | none => none
  | _ => none

/-- Lines 247 to 250: the batch counter is incremented and the task is marked
done. -/
def ModBaseCaller.complete (c : ModBaseCaller) : Option ModBaseCaller :=
  match c.thread with
  | DispatchPc.computed task =>
    match c.tasks[task]? with
    | some t =>
      some
        { c with
          tasks := c.tasks.set task { t with done := true }
          thread := DispatchPc.waiting
          m_num_batches_called := c.m_num_batches_called + 1 }
    | none => none
  | _ => none

/-- One atomic step on a model. -/
def ModBaseCaller.step (model : Tensor → Tensor → Tensor) (c : ModBaseCaller) :
    CallerAction → Option ModBaseCaller
  | CallerAction.submit input_sigs input_seqs num_chunks =>
    some (c.call_chunks input_sigs input_seqs num_chunks)
  | CallerAction.terminate => some { c with m_terminate := true }
  | CallerAction.take => c.take
  | CallerAction.forward => c.forward model
  | CallerAction.complete => c.complete

/-- Whether an action is a submission. -/
def CallerAction.isSubmit : CallerAction → Bool
  | CallerAction.submit _ _ _ => true
  | _ => false

/-- Whether an action is a step of the dispatch thread. -/
def CallerAction.isDispatch : CallerAction → Bool
  | CallerAction.take => true
  | CallerAction.forward => true
  | CallerAction.complete => true
  | _ => false

/-! ## ModBaseCallerNode -/

/-- Collaborators of `ModBaseCallerNode` whose code is outside the embedded
sources. -/
structure RemoraEnv where
  /-- The call `m_model_runner->run(raw_data, seq, moves)`: the rows of
  `results.base_mod_probs`. -/
  run : Tensor → List Char → List Nat → List (List Fl)
  /-- The byte a conversion to `uint8_t` yields for a value whose truncation is
  not within 0 .. 255 (the conversion is then undefined in C++). -/
  uint8_unrepresentable : Fl → Nat

/-- The conversion `uint8_t(x)` of a `float`: truncation towards zero. -/
def RemoraEnv.to_uint8 (env : RemoraEnv) : Fl → Nat
  | Fl.fin q =>
    if -1 < q ∧ q < 256 then (if 0 ≤ q then ⌊q⌋.toNat else 0) else env.uint8_unrepresentable (Fl.fin q)
  | x => env.uint8_unrepresentable x

/-- The expression `uint8_t(std::min(std::floor(p * 256), 255.0f))`. -/
def RemoraEnv.quantize (env : RemoraEnv) (p : Fl) : Nat :=
  env.to_uint8 (Fl.stdMin (Fl.floor (Fl.mul round32 p (Fl.fin 256))) (Fl.fin 255))

/-- A call on the sink of a node that takes reads. -/
inductive SinkCall where
  | push_read (read : ReadPtr) : SinkCall
  | terminate : SinkCall
deriving DecidableEq, Repr

/-- State of a `ModBaseCallerNode`: the read objects, the deque `m_reads` (front
first), the flag `m_terminate`, the calls made on `m_sink` (oldest first) and
whether the worker thread has returned. -/
structure ModBaseCallerNode where
  heap : Heap
  m_reads : List ReadPtr
  m_terminate : Bool
  sink : List SinkCall
  stopped : Bool
deriving DecidableEq

/-- Atomic steps of the threads that touch a `ModBaseCallerNode`. -/
inductive NodeAction where
  /-- Another thread gives the node a read. -/
  | push_read (read : ReadPtr) : NodeAction
  /-- Another thread calls `terminate()` on the node. -/
  | terminate : NodeAction
  /-- The worker thread runs one pass of its loop. -/
  | iterate : NodeAction
deriving DecidableEq, Repr

/-- Modelled from the spec: `ReadSink::push_read` on the node, whose code is not
among the sources: the read is appended at the back of `m_reads`. -/
def ModBaseCallerNode.push_read (node : ModBaseCallerNode) (read : ReadPtr) : ModBaseCallerNode :=
  { node with m_reads := node.m_reads ++ [read] }

/-- Modelled from the spec: `ReadSink::terminate` on the node, whose code is not
among the sources: it sets the flag `m_terminate`. -/
def ModBaseCallerNode.terminate (node : ModBaseCallerNode) : ModBaseCallerNode :=
  { node with m_terminate := true }

/-- The read after lines 42 to 50: the modified-base probabilities of the model,
flattened and quantized, are stored in `base_mod_probs`. -/
def ModBaseCallerNode.call (env : RemoraEnv) (read : Read) : Read :=
  { read with
    base_mod_probs := ((env.run read.raw_data read.seq read.moves).flatten).map env.quantize }

/-- One pass of the loop of `ModBaseCallerNode::worker_thread`; `none` once the
worker has returned. -/
def ModBaseCallerNode.worker_iteration (env : RemoraEnv) (node : ModBaseCallerNode) :
    Option (Except Fault ModBaseCallerNode) :=
  if node.stopped then none
  else
    match node.m_reads with
    | [] =>
      if node.m_terminate then
        some (Except.ok { node with sink := node.sink ++ [SinkCall.terminate], stopped := true })
      else some (Except.ok node)
    | read :: rest =>
      match node.heap.deref read with
      | Except.error e => some (Except.error e)
      | Except.ok r =>
        some (Except.ok
          { node with
            heap := node.heap.store read (ModBaseCallerNode.call env r)
            m_reads := rest
            sink := node.sink ++ [SinkCall.push_read read] })

/-- One atomic step on the node; `none` when the action is not enabled or the
worker faults. -/
def ModBaseCallerNode.step (env : RemoraEnv) (node : ModBaseCallerNode) :
    NodeAction → Option ModBaseCallerNode
  | NodeAction.push_read read => some (node.push_read read)
  | NodeAction.terminate => some node.terminate
  | NodeAction.iterate =>
    match node.worker_iteration env with
    | some (Except.ok node1) => some node1
    | _ => none

/-- A freshly constructed `ModBaseCallerNode` over the read objects `heap`. -/
def ModBaseCallerNode.init (heap : Heap) : ModBaseCallerNode :=
  { heap := heap, m_reads := [], m_terminate := false, sink := [], stopped := false }

/-- The reads given to the node by the actions of an interleaving, in order. -/
def pushedReads : List NodeAction → List ReadPtr
  | [] => []
  | NodeAction.push_read read :: rest => read :: pushedReads rest
  | _ :: rest => pushedReads rest

/-! ## Invariants -/

/-- Invariant of the pool of a `StereoDuplexEncoderNode` with `n` workers. -/
def StereoPoolInv (s : Pool) : Prop :=
  s.unstarted = 0 ∧ s.counter = (s.working : Int) ∧
    s.sink_terminate_calls + s.signalling =
      (if s.working = 0 then 1 else 0) + (if s.dtor = DestructorPc.finished then 1 else 0)

/-- Invariant of the pool of a `ReadFilterNode`. -/
def FilterPoolInv (s : Pool) : Prop :=
  s.counter = (s.working : Int) ∧
    (if s.dtor = DestructorPc.finished then 1 else 0) +
        (if s.working = 0 ∧ 0 < s.signalling + s.exited then 1 else 0) ≤
      s.sink_terminate_calls + s.signalling ∧
    (if s.dtor = DestructorPc.finished then 1 else 0) ≤ s.sink_terminate_calls

/-- The task the dispatch thread has taken off the deque and not yet completed. -/
def DispatchPc.current : DispatchPc → Option Nat
  | DispatchPc.holding task => some task
  | DispatchPc.computed task => some task
  | _ => none

/-- A task the dispatch thread has not touched: not done, no output. -/
def ModBaseTask.untouched (t : ModBaseTask) : Prop :=
  t.done = false ∧ t.out = Tensor.undefined

/-- A task the dispatch thread has completed: done, and its output is the model
applied to its own inputs. -/
def ModBaseTask.finished (model : Tensor → Tensor → Tensor) (t : ModBaseTask) : Prop :=
  t.done = true ∧ t.out = model t.input_sigs t.input_seqs

/-- Invariant of one model of a `ModBaseCaller`: the tasks are taken in the order
of their submission, the deque holds the later ones, newest at the front, and
every task is untouched, in service, or finished according to where it is. -/
def CallerInv (model : Tensor → Tensor → Tensor) (c : ModBaseCaller) : Prop :=
  c.popped = List.range c.popped.length ∧
    c.input_queue = (List.range' c.popped.length c.input_queue.length).reverse ∧
    c.tasks.length = c.popped.length + c.input_queue.length ∧
    (∀ p, c.thread.current = some p → p + 1 = c.popped.length) ∧
    ∀ (p : Nat) (t : ModBaseTask), c.tasks[p]? = some t →
      (c.popped.length ≤ p → t.untouched) ∧
      (p < c.popped.length → c.thread.current ≠ some p → t.finished model) ∧
      (c.thread = DispatchPc.holding p → t.untouched) ∧
      (c.thread = DispatchPc.computed p →
        t.done = false ∧ t.out = model t.input_sigs t.input_seqs)

/-- The tasks of `c` are tasks of `c1` with the same inputs. -/
def SameInputs (c c1 : ModBaseCaller) : Prop :=
  ∀ (p : Nat) (t : ModBaseTask), c.tasks[p]? = some t →
    ∃ t1 : ModBaseTask,
      c1.tasks[p]? = some t1 ∧ t1.input_sigs = t.input_sigs ∧ t1.input_seqs = t.input_seqs

/-- The inputs of the tasks submitted by the actions of an interleaving, in the
order of their submission. -/
def submittedInputs : List CallerAction → List (Tensor × Tensor)
  | [] => []
  | CallerAction.submit input_sigs input_seqs _ :: rest =>
    (input_sigs, input_seqs) :: submittedInputs rest
  | _ :: rest => submittedInputs rest

/-- The inputs of a task. -/
def ModBaseTask.inputs (t : ModBaseTask) : Tensor × Tensor := (t.input_sigs, t.input_seqs)

/-- The steps by which the dispatch thread finishes the task it has taken. -/
def DispatchPc.finishActions : DispatchPc → List CallerAction
  | DispatchPc.holding _ => [CallerAction.forward, CallerAction.complete]
  | DispatchPc.computed _ => [CallerAction.complete]
  | _ => []

/-- The steps by which the dispatch thread serves `n` queued tasks. -/
def serveActions : Nat → List CallerAction
  | 0 => []
  | n + 1 =>
    CallerAction.take :: CallerAction.forward :: CallerAction.complete :: serveActions n

/-- The batch counter counts the tasks taken off the deque and completed. -/
def BatchesInv (c : ModBaseCaller) : Prop :=
  c.m_num_batches_called + (if c.thread.current = none then 0 else 1) = c.popped.length

/-- Once the dispatch thread has returned the deque is empty. -/
def ExitInv (c : ModBaseCaller) : Prop :=
  c.thread = DispatchPc.exited → c.input_queue = []

/-- An example of a model function: it returns its signal input. -/
def exampleModel : Tensor → Tensor → Tensor := fun input_sigs _ => input_sigs

/-- An example of an interleaving: two submissions, then the dispatch thread
takes the first task while the second waits, then the termination flag is set. -/
def exampleSubmissions : List CallerAction :=
  [CallerAction.submit (Tensor.vec [Fl.fin 1]) (Tensor.vec []) 1,
    CallerAction.submit (Tensor.vec [Fl.fin 2]) (Tensor.vec []) 1,
    CallerAction.take, CallerAction.terminate]

/-- The calls on the sink of a `ModBaseCallerNode` are the pushes of the reads
`processed`, followed by `terminate()` once the worker has returned. -/
def SinkLog (node : ModBaseCallerNode) (processed : List ReadPtr) : Prop :=
  node.sink = processed.map SinkCall.push_read ++
    (if node.stopped then [SinkCall.terminate] else [])

/-- An example of a modified-base runner: it reports no probability. -/
def exampleRemoraEnv : RemoraEnv :=
  { run := fun _ _ _ => [], uint8_unrepresentable := fun _ => 0 }

/-! ## The alignment walk, column by column -/

/-- The values of the local variables of one pass of the alignment walk of
`stereo_encode` (lines 155 to 260): the alignment entry, the two sequence
cursors at the start of the pass, the samples copied from either signal, and the
characters read from the sequences and quality strings. -/
structure Column where
  entry : Nat
  target_cursor : Int
  query_cursor : Int
  template_segment : List Fl
  complement_segment : List Fl
  template_nucleotide : Char
  template_q : Char
  complement_nucleotide : Char
  complement_q : Char

/-- The variable `template_segment_length` at the end of the pass. -/
def Column.template_segment_length (col : Column) : Nat := col.template_segment.length

/-- The variable `complement_segment_length` at the end of the pass. -/
def Column.complement_segment_length (col : Column) : Nat := col.complement_segment.length

/-- The variable `total_segment_length` of the pass. -/
def Column.total_segment_length (col : Column) : Nat :=
  max col.template_segment_length col.complement_segment_length

/-- The entries a column is expected to contribute to a feature row of the
output: the copied samples followed by the pad value in the signal rows 0 and 1;
a one in the row of the base and zeros in the other base rows, rows 2 to 5 for
the template and 6 to 9 for the complement, all zero for a side the column
inserts nothing from; a one followed by zeros in the move-table row 10; the
converted quality in rows 11 and 12. -/
def Column.features (base_to_int : Char → Int) (pad : Fl) (col : Column) (row : Nat) : List Fl :=
  if row = 0 then
    col.template_segment ++
      List.replicate (col.total_segment_length - col.template_segment_length) pad
  else if row = 1 then
    col.complement_segment ++
      List.replicate (col.total_segment_length - col.complement_segment_length) pad
  else if row < 6 then
    List.replicate col.total_segment_length
      (if col.entry ≠ 2 ∧ 2 + base_to_int col.template_nucleotide = (row : Int) then Fl.fin 1
        else Fl.fin 0)
  else if row < 10 then
    List.replicate col.total_segment_length
      (if col.entry ≠ 1 ∧ 6 + base_to_int col.complement_nucleotide = (row : Int) then Fl.fin 1
        else Fl.fin 0)
  else if row = 10 then Fl.fin 1 :: List.replicate (col.total_segment_length - 1) (Fl.fin 0)
  else if row = 11 then
    List.replicate col.total_segment_length
      (if col.entry ≠ 2 then convert_q_score col.template_q else Fl.fin 0)
  else
    List.replicate col.total_segment_length
      (if col.entry ≠ 1 then convert_q_score col.complement_q else Fl.fin 0)

/-- The segment of `len` samples copied from the signal cursor `cursor` on ends
at the next boundary of the expanded move table: the sample at the cursor is
taken, then the samples up to the first entry equal to 1 after the cursor, so
none of the entries `cursor + 1` to `cursor + len - 1` is 1 and the entry
`cursor + len` is 1.  (Of an empty table the search covers no entry and the
segment is the one sample at the cursor.) -/
def EndsAtNextBoundary (moves_expanded : List Nat) (cursor len : Nat) : Prop :=
  1 ≤ len ∧
    (∀ j, j + 1 < len → ∃ b, moves_expanded[cursor + 1 + j]? = some b ∧ b ≠ 1) ∧
    (moves_expanded[cursor + len]? = some 1 ∨ (moves_expanded = [] ∧ len = 1))

/-- The column `col` is a pass of the walk entered with the given signal and
sequence cursors: unless its entry is an insertion to the other side, it copies
from a signal the samples from the signal cursor up to the next boundary of the
move table, at least one and all within the signal, and reads its characters at
the sequence cursor. -/
def Column.IsPass (c : WalkCtx) (col : Column) (template_signal_cursor
    complement_signal_cursor : Nat) (target_cursor query_cursor : Int) : Prop :=
  col.target_cursor = target_cursor ∧ col.query_cursor = query_cursor ∧
    (if col.entry = 2 then col.template_segment = []
      else
        col.template_segment ≠ [] ∧
          col.template_segment =
            (c.template_raw.drop template_signal_cursor).take col.template_segment_length ∧
          template_signal_cursor + col.template_segment_length ≤ c.template_raw.length ∧
          string_index c.template_seq target_cursor = Except.ok col.template_nucleotide ∧
          string_index c.template_qstring target_cursor = Except.ok col.template_q ∧
          EndsAtNextBoundary c.template_moves_expanded template_signal_cursor
            col.template_segment_length) ∧
    (if col.entry = 1 then col.complement_segment = []
      else
        col.complement_segment ≠ [] ∧
          col.complement_segment =
            (c.flipped_complement_raw.drop complement_signal_cursor).take
              col.complement_segment_length ∧
          complement_signal_cursor + col.complement_segment_length ≤
            c.flipped_complement_raw.length ∧
          string_at c.complement_sequence_reverse_complement query_cursor =
            Except.ok col.complement_nucleotide ∧
          getAt c.complement_qstring ((c.complement_qstring.length : Int) - 1 - query_cursor) =
            Except.ok col.complement_q ∧
          EndsAtNextBoundary c.complement_moves_expanded complement_signal_cursor
            col.complement_segment_length)

/-- The columns `cols` are the passes of the walk that starts at alignment
position `i` with the given signal and sequence cursors: every column has the
alignment entry of its position, is a pass entered with the cursors the columns
before it have left, and leaves the cursors advanced as the code does. -/
def IsWalk (c : WalkCtx) (alignment : List Nat) :
    Int → Nat → Nat → Int → Int → List Column → Prop
  | _, _, _, _, _, [] => True
  | i, template_signal_cursor, complement_signal_cursor, target_cursor, query_cursor,
      col :: rest =>
    getAt alignment i = Except.ok col.entry ∧
    col.IsPass c template_signal_cursor complement_signal_cursor target_cursor query_cursor ∧
    IsWalk c alignment (i + 1) (template_signal_cursor + col.template_segment_length)
      (complement_signal_cursor + col.complement_segment_length)
      (if col.entry = 2 then target_cursor else target_cursor + 1)
      (if col.entry = 1 then query_cursor else query_cursor + 1) rest

/-- Row `row` of the buffer `tmp`, whose rows have `width` entries, holds the
entries `done` followed by entries equal to `fill`. -/
def RowIs (tmp : List (List Fl)) (width row : Nat) (done : List Fl) (fill : Fl) : Prop :=
  done.length ≤ width ∧ tmp[row]? = some (done ++ List.replicate (width - done.length) fill)

/-- The value a row of the buffer is initialised with: the pad value in the two
signal rows, zero in the others. -/
def initial_fill (pad : Fl) (row : Nat) : Fl := if row < 2 then pad else Fl.fin 0

/-- The data of the alignment walk as `stereo_encode` prepares them from the two
reads and their signals (lines 87 to 132). -/
def stereo_walk_ctx (env : Env) (m_input_signal_stride : Int)
    (template_read complement_read : Read) (template_raw complement_raw : List Fl) : WalkCtx :=
  { template_raw := template_raw
    flipped_complement_raw := complement_raw.reverse
    template_moves_expanded :=
      expand_moves m_input_signal_stride template_raw.length template_read.moves
    complement_moves_expanded :=
      ((expand_moves m_input_signal_stride complement_raw.length complement_read.moves ++
        [1]).reverse).dropLast
    template_seq := template_read.seq
    template_qstring := template_read.qstring
    complement_sequence_reverse_complement := env.reverse_complement complement_read.seq
    complement_qstring := complement_read.qstring
    base_to_int := env.base_to_int }

/-- The sum of the variable `total_segment_length` over the columns. -/
def total_length (cols : List Column) : Nat := (cols.map Column.total_segment_length).sum

/-! ## Auxiliary definitions for the node claims -/

/-- The complementary base of a nucleotide (`A` with `T`, `C` with `G`). -/
def complement_base (base : Char) : Char :=
  if base = 'A' then 'T'
  else if base = 'T' then 'A'
  else if base = 'C' then 'G'
  else if base = 'G' then 'C'
  else base

/-- The reverse complement of a sequence in the usual sense: the complementary
bases in reverse order. -/
def reverse_complement_of (seq : List Char) : List Char := (seq.map complement_base).reverse

/-- An environment for examples whose formatter returns one record holding the
sequence it is given. -/
def echoEnv : Env :=
  { exampleEnv with extract_sam_lines := fun read _ _ => [⟨String.mk read.seq⟩] }

/-- The loop of `ReadFilterNode::worker_thread` over the messages it pops, in
order. -/
def ReadFilterNode.process_messages (env : Env) :
    ReadFilterNode → List Message → Except Fault ReadFilterNode
  | node, [] => Except.ok node
  | node, message :: rest =>
    match ReadFilterNode.process_message env node message with
    | Except.error e => Except.error e
    | Except.ok node1 => ReadFilterNode.process_messages env node1 rest

/-- The number of `Read` messages among `messages`. -/
def countReads : List Message → Nat
  | [] => 0
  | Message.read _ :: rest => countReads rest + 1
  | _ :: rest => countReads rest

/-- Modelled from the spec: the selection of reads by `DataLoader::load_reads`,
whose code is not among the sources (only its tests are): a stored read is
delivered to the sink when its identifier is in the inclusion list, if one is
supplied, and is not in the exclusion list; the exclusion takes precedence. -/
def load_reads (stored : List Read) (read_list : Option (List String))
    (read_ignore_list : List String) : List Read :=
  stored.filter fun read =>
    (match read_list with
      | none => true
      | some ids => decide (read.read_id ∈ ids)) &&
    !decide (read.read_id ∈ read_ignore_list)

/-! ## ModBaseData::get_motif_hits -/

/-- The constant `std::string::npos`, the largest `size_t`. -/
def npos : Nat := 2 ^ 64 - 1

/-- Whether `motif` stands in `seq` at index `i`. -/
def occurs_at (seq motif : List Char) (i : Nat) : Bool :=
  decide ((seq.drop i).take motif.length = motif)

/-- The call `seq.find(motif, pos)` of `std::string`: the least index from `pos`
on at which `motif` stands in `seq`, `npos` when there is none. -/
def string_find (seq motif : List Char) (pos : Nat) : Nat :=
  match (List.range' pos (seq.length + 1 - pos)).find? (occurs_at seq motif) with
  | some i => i
  | none => npos

/-- The loop of `get_motif_hits` with `size_t` arithmetic modulo `2 ^ 64`; `fuel`
bounds the number of evaluations of the loop condition. -/
def get_motif_hits_loop (seq motif : List Char) (motif_offset : Int) :
    Nat → Nat → List Nat → Option (List Nat)
  | 0, _, _ => none
  | fuel + 1, search_pos, context_hits =>
    if (search_pos : Int) < ((seq.length : Int) - (motif.length : Int) + 1) % 2 ^ 64 then
      if string_find seq motif search_pos ≠ npos then
        get_motif_hits_loop seq motif motif_offset fuel
          ((string_find seq motif search_pos + 1) % 2 ^ 64)
          (context_hits ++
            [(((string_find seq motif search_pos : Int) + motif_offset) % 2 ^ 64).toNat])
      else get_motif_hits_loop seq motif motif_offset fuel npos context_hits
    else some context_hits

/-- The function `ModBaseData::get_motif_hits`; the loop condition is evaluated
at most `seq.size() + 3` times. -/
def get_motif_hits (seq motif : List Char) (motif_offset : Int) : Option (List Nat) :=
  get_motif_hits_loop seq motif motif_offset (seq.length + 3) 0 []

/-! ## Quantization of probabilities and the pad value -/

/-- The initialiser of `m_modbase_threshold` in the constructor of `ReadToBamType`
(lines 44 and 45):
`static_cast<uint8_t>(std::min(modbase_threshold_frac * 256.0f, 255.0f))`. -/
def ReadToBamType.modbase_threshold (env : RemoraEnv) (modbase_threshold_frac : Fl) : Nat :=
  env.to_uint8 (Fl.stdMin (Fl.mul round32 modbase_threshold_frac (Fl.fin 256)) (Fl.fin 255))

/-- The `float` variable `pad_value` of `stereo_encode` (lines 134 and 135) for
the minima of the two signals. -/
def pad_value (complement_min template_min : Fl) : Fl :=
  Fl.convert round32 (Fl.mul round64 double_0_8 (Fl.stdMin complement_min template_min))

/-- Lines 101 to 105: the template signal cursor at the start of the walk, found
by skipping the samples of the bases before `target_cursor`. -/
def initial_template_signal_cursor (c : WalkCtx) (target_cursor : Int) : Except Fault Nat := do
  let template_moves_seen ← getAt c.template_moves_expanded 0
  advance_to_base c.template_moves_expanded (target_cursor + 1)
    (c.template_moves_expanded.length + 1) 0 (template_moves_seen : Int)

/-- Lines 128 to 132: the complement signal cursor at the start of the walk; the
count starts from the first entry of the move table of the complement read. -/
def initial_complement_signal_cursor (complement_moves : List Nat) (c : WalkCtx)
    (query_cursor : Int) : Except Fault Nat := do
  let complement_moves_seen ← getAt complement_moves 0
  advance_to_base c.complement_moves_expanded (query_cursor + 1)
    (c.complement_moves_expanded.length + 1) 0 (complement_moves_seen : Int)

/-- Lines 39 to 45: the trimmed window of the pair, `((start, end), (query_cursor,
target_cursor))`, for the first location the aligner reports. -/
def trimmed_alignment (env : Env) (template_read complement_read : Read) :
    Except Fault ((Int × Int) × (Int × Int)) :=
  match getAt (stereo_align env template_read complement_read).startLocations 0 with
  | Except.error _ => Except.error Fault.nullDeref
  | Except.ok target_cursor =>
    match getAt (stereo_align env template_read complement_read).endLocations 0 with
    | Except.error _ => Except.error Fault.nullDeref
    | Except.ok end_location =>
      Except.ok
        (stereo_trim env (stereo_align env template_read complement_read) target_cursor
          end_location)

/-- The pad value of the pair as the half-precision buffer holds it (lines 134
to 138): `pad_value` of the minima of the flipped complement signal and of the
template signal. -/
def stored_pad_value (template_read complement_read : Read) : Except Fault Fl := do
  let template_raw ← template_read.raw_data.signal
  let complement_raw ← complement_read.raw_data.signal
  let complement_min ← tensor_min complement_raw.reverse
  let template_min ← tensor_min template_raw
  pure (Fl.convert round16 (pad_value complement_min template_min))

/-- The columns `cols` are the passes of the alignment walk of `stereo_encode`
for the pair: the trimmed window is `start` to `stop`, there is one column for
each of its alignment positions, in order, and the walk starts from the cursors
of lines 87 to 132. -/
def IsEncodingWalk (env : Env) (m_input_signal_stride : Int) (template_read complement_read : Read)
    (start stop : Int) (cols : List Column) : Prop :=
  ∃ (query_cursor target_cursor : Int) (template_raw complement_raw : List Fl)
      (template_signal_cursor complement_signal_cursor : Nat),
    trimmed_alignment env template_read complement_read =
      Except.ok ((start, stop), (query_cursor, target_cursor)) ∧
    template_read.raw_data.signal = Except.ok template_raw ∧
    complement_read.raw_data.signal = Except.ok complement_raw ∧
    initial_template_signal_cursor
      (stereo_walk_ctx env m_input_signal_stride template_read complement_read template_raw
        complement_raw) target_cursor = Except.ok template_signal_cursor ∧
    initial_complement_signal_cursor complement_read.moves
      (stereo_walk_ctx env m_input_signal_stride template_read complement_read template_raw
        complement_raw) query_cursor = Except.ok complement_signal_cursor ∧
    (cols.length : Int) = stop - start ∧
    IsWalk
      (stereo_walk_ctx env m_input_signal_stride template_read complement_read template_raw
        complement_raw)
      (stereo_align env template_read complement_read).alignment start template_signal_cursor
      complement_signal_cursor target_cursor query_cursor cols

/-- A read of `n` bases for examples: two samples per base, to be used with the
signal stride 2. -/
def strideTwoRead (n : Nat) : Read :=
  { read_id := "r"
    raw_data := Tensor.vec ((List.range (2 * n)).map fun i => Fl.fin (i : ℚ))
    seq := List.replicate n 'A'
    qstring := List.replicate n '5'
    moves := List.replicate n 1 }

/-- Every one of the 13 rows of the buffer `tmp` has `width` entries. -/
def BufferShape (tmp : List (List Fl)) (width : Nat) : Prop :=
  ∀ row, row < 13 → ∃ r, tmp[row]? = some r ∧ r.length = width

/-- Number of boundaries (entries equal to 1) of an expanded move table after
index `k`. -/
def ones_after (moves_expanded : List Nat) (k : Nat) : Nat :=
  (moves_expanded.drop (k + 1)).count 1

/-- The alignment entries of the window `start` to `stop`. -/
def alignment_window (alignment : List Nat) (start stop : Int) : List Nat :=
  (alignment.drop start.toNat).take (stop - start).toNat

/-- Number of columns among the entries `w` that consume a template base: all
but the insertions to the query. -/
def template_bases (w : List Nat) : Nat := (w.filter fun a => decide (a ≠ 2)).length

/-- Number of columns among the entries `w` that consume a complement base: all
but the insertions to the target. -/
def complement_bases (w : List Nat) : Nat := (w.filter fun a => decide (a ≠ 1)).length

/-- The constructor of `ReadToBamType` (lines 33 to 51) over the read objects
`heap`: the members as the initialiser list sets them, with nothing passed to
the sink yet. -/
def ReadToBamType.init (env : RemoraEnv) (heap : Heap) (emit_moves rna : Bool)
    (modbase_threshold_frac : Fl) : ReadToBamType :=
  { heap := heap
    sink := []
    m_emit_moves := emit_moves
    m_rna := rna
    m_modbase_threshold := ReadToBamType.modbase_threshold env modbase_threshold_frac }

/-- An example of a modified-base runner: for every read it reports one row with
the probabilities 1/4 and 1/2. -/
def quarterHalfRemoraEnv : RemoraEnv :=
  { run := fun _ _ _ => [[Fl.fin (1 / 4), Fl.fin (1 / 2)]], uint8_unrepresentable := fun _ => 0 }

/-! ## Rounding -/

theorem roundHalfEven_intCast (k : ℤ) : roundHalfEven (k : ℚ) = k := by
  simp [roundHalfEven]

theorem roundHalfEven_le {q : ℚ} {k : ℤ} (h : q ≤ k) : roundHalfEven q ≤ k := by
  have h1 : ((⌊q⌋ : ℤ) : ℚ) ≤ q := Int.floor_le q
  have h0 : ⌊q⌋ ≤ k := by exact_mod_cast h1.trans h
  unfold roundHalfEven
  split_ifs with c1 c2 c3
  · exact h0
  · have : ((⌊q⌋ : ℤ) : ℚ) < k := by linarith
    have : ⌊q⌋ < k := by exact_mod_cast this
    omega
  · exact h0
  · have : ((⌊q⌋ : ℤ) : ℚ) < k := by linarith
    have : ⌊q⌋ < k := by exact_mod_cast this
    omega

theorem le_roundHalfEven {q : ℚ} {k : ℤ} (h : (k : ℚ) ≤ q) : k ≤ roundHalfEven q := by
  have h0 : k ≤ ⌊q⌋ := Int.le_floor.mpr h
  unfold roundHalfEven
  split_ifs <;> omega

theorem le_roundHalfEven_of_half {q : ℚ} {k : ℤ} (h : (k : ℚ) - 1 / 2 < q) :
    k ≤ roundHalfEven q := by
  have h1 : q < ((⌊q⌋ : ℤ) : ℚ) + 1 := Int.lt_floor_add_one q
  unfold roundHalfEven
  split_ifs with c1 c2 c3
  · have : (k : ℚ) < ((⌊q⌋ : ℤ) : ℚ) + 1 := by linarith
    have : k < ⌊q⌋ + 1 := by exact_mod_cast this
    omega
  · have : (k : ℚ) < ((⌊q⌋ : ℤ) : ℚ) + 1 + 1 := by linarith
    have : k < ⌊q⌋ + 1 + 1 := by exact_mod_cast this
    omega
  · have : q - ⌊q⌋ = 1 / 2 := le_antisymm (not_lt.mp c2) (not_lt.mp c1)
    have : (k : ℚ) < ((⌊q⌋ : ℤ) : ℚ) + 1 := by linarith
    have : k < ⌊q⌋ + 1 := by exact_mod_cast this
    omega
  · have : (k : ℚ) < ((⌊q⌋ : ℤ) : ℚ) + 1 + 1 := by linarith
    have : k < ⌊q⌋ + 1 + 1 := by exact_mod_cast this
    omega

theorem roundHalfEven_le_of_half {q : ℚ} {k : ℤ} (h : q < (k : ℚ) + 1 / 2) :
    roundHalfEven q ≤ k := by
  have h1 : ((⌊q⌋ : ℤ) : ℚ) ≤ q := Int.floor_le q
  unfold roundHalfEven
  split_ifs with c1 c2 c3
  · have : ((⌊q⌋ : ℤ) : ℚ) < (k : ℚ) + 1 := by linarith
    have : ⌊q⌋ < k + 1 := by exact_mod_cast this
    omega
  · have : ((⌊q⌋ : ℤ) : ℚ) < (k : ℚ) := by linarith
    have : ⌊q⌋ < k := by exact_mod_cast this
    omega
  · have : ((⌊q⌋ : ℤ) : ℚ) < (k : ℚ) + 1 := by linarith
    have : ⌊q⌋ < k + 1 := by exact_mod_cast this
    omega
  · have : q - ⌊q⌋ = 1 / 2 := le_antisymm (not_lt.mp c2) (not_lt.mp c1)
    have : ((⌊q⌋ : ℤ) : ℚ) < (k : ℚ) := by linarith
    have : ⌊q⌋ < k := by exact_mod_cast this
    omega

theorem roundHalfEven_eq_of_near {q : ℚ} {k : ℤ} (h1 : (k : ℚ) - 1 / 2 < q)
    (h2 : q < (k : ℚ) + 1 / 2) : roundHalfEven q = k :=
  le_antisymm (roundHalfEven_le_of_half h2) (le_roundHalfEven_of_half h1)

theorem quantum_pos (prec : ℕ) (emin : ℤ) (x : ℚ) : 0 < quantum prec emin x := by
  unfold quantum
  positivity

theorem log_two_eq {x : ℚ} {e : ℤ} (h1 : (2 : ℚ) ^ e ≤ x) (h2 : x < (2 : ℚ) ^ (e + 1)) :
    Int.log 2 x = e := by
  have hx : 0 < x := lt_of_lt_of_le (by positivity) h1
  have a : e ≤ Int.log 2 x := by
    rw [← Int.zpow_le_iff_le_log (by norm_num) hx]
    simpa using h1
  have b : Int.log 2 x < e + 1 := by
    rw [← Int.lt_zpow_iff_log_lt (by norm_num) hx]
    simpa using h2
  omega

theorem two_zpow_log_le {x : ℚ} (hx : 0 < x) : (2 : ℚ) ^ Int.log 2 x ≤ x := by
  simpa using Int.zpow_log_le_self (b := 2) (by norm_num) hx

theorem lt_two_zpow_log_succ (x : ℚ) : x < (2 : ℚ) ^ (Int.log 2 x + 1) := by
  simpa using Int.lt_zpow_succ_log_self (b := 2) (by norm_num) x

theorem quantum_eq (prec : ℕ) (emin : ℤ) {x : ℚ} {e : ℤ} (h1 : (2 : ℚ) ^ e ≤ |x|)
    (h2 : |x| < (2 : ℚ) ^ (e + 1)) (he : emin ≤ e) :
    quantum prec emin x = (2 : ℚ) ^ (e - ((prec : ℤ) - 1)) := by
  unfold quantum
  rw [log_two_eq h1 h2, max_eq_left he]

/-- A value that is a whole multiple of its quantum and below the overflow
threshold is not changed by rounding. -/
theorem roundBinary_exact (prec : ℕ) (emin emax : ℤ) (x : ℚ) (k : ℤ)
    (hk : x = (k : ℚ) * quantum prec emin x) (hov : |x| < (2 : ℚ) ^ (emax + 1)) :
    roundBinary prec emin emax x = Fl.fin x := by
  unfold roundBinary
  by_cases hx : x = 0
  · simp [hx]
  · have hq := quantum_pos prec emin x
    have hdiv : x / quantum prec emin x = (k : ℚ) := by
      rw [div_eq_iff hq.ne']
      exact hk
    rw [if_neg hx, hdiv, roundHalfEven_intCast, ← hk, if_neg (not_le.mpr hov)]
theorem roundBinary_nonpos (prec : ℕ) (emin emax : ℤ) {x : ℚ} (hx : x ≤ 0) :
    (∃ r : ℚ, r ≤ 0 ∧ roundBinary prec emin emax x = Fl.fin r) ∨
      roundBinary prec emin emax x = Fl.inf true := by
  unfold roundBinary
  by_cases h0 : x = 0
  · left
    exact ⟨0, le_refl _, by simp [h0]⟩
  · have hneg : x < 0 := lt_of_le_of_ne hx h0
    rw [if_neg h0]
    split_ifs with hov
    · right
      simp [hneg]
    · left
      refine ⟨_, ?_, rfl⟩
      have hq := quantum_pos prec emin x
      have : roundHalfEven (x / quantum prec emin x) ≤ 0 := by
        apply roundHalfEven_le
        have : x / quantum prec emin x ≤ 0 := div_nonpos_of_nonpos_of_nonneg hx hq.le
        simpa using this
      have : ((roundHalfEven (x / quantum prec emin x) : ℤ) : ℚ) ≤ 0 := by exact_mod_cast this
      exact mul_nonpos_of_nonpos_of_nonneg this hq.le

/-- Rounding a positive value that is at least a power of two of the normal range
yields at least that power of two. -/
theorem roundBinary_ge_two_zpow (prec : ℕ) (hp : 1 ≤ prec) (emin emax : ℤ) {x : ℚ} {k : ℤ}
    (hk : (2 : ℚ) ^ k ≤ x) (hemin : emin ≤ k) :
    (∃ r : ℚ, (2 : ℚ) ^ k ≤ r ∧ roundBinary prec emin emax x = Fl.fin r) ∨
      roundBinary prec emin emax x = Fl.inf false := by
  have hx : 0 < x := lt_of_lt_of_le (by positivity) hk
  have habs : |x| = x := abs_of_pos hx
  have hlog : k ≤ Int.log 2 x := by
    rw [← Int.zpow_le_iff_le_log (by norm_num) hx]
    simpa using hk
  have hquant : quantum prec emin x = (2 : ℚ) ^ (Int.log 2 x - ((prec : ℤ) - 1)) := by
    unfold quantum
    rw [habs, max_eq_left (by omega)]
  have hq := quantum_pos prec emin x
  unfold roundBinary
  rw [if_neg hx.ne']
  split_ifs with hov
  · right
    simp [not_lt.mpr hx.le]
  · left
    refine ⟨_, ?_, rfl⟩
    have h1 : (2 : ℚ) ^ Int.log 2 x ≤ x := two_zpow_log_le hx
    have hpow : (2 : ℚ) ^ Int.log 2 x =
        (((2 : ℤ) ^ (prec - 1) : ℤ) : ℚ) * quantum prec emin x := by
      rw [hquant]
      push_cast
      rw [← zpow_natCast, ← zpow_add₀ (by norm_num : (2 : ℚ) ≠ 0)]
      congr 1
      have : ((prec - 1 : ℕ) : ℤ) = (prec : ℤ) - 1 := by omega
      rw [this]
      ring
    have h2 : (((2 : ℤ) ^ (prec - 1) : ℤ) : ℚ) ≤ x / quantum prec emin x := by
      rw [le_div_iff₀ hq, ← hpow]
      exact h1
    have h3 := le_roundHalfEven h2
    have h4 : (((2 : ℤ) ^ (prec - 1) : ℤ) : ℚ) ≤
        ((roundHalfEven (x / quantum prec emin x) : ℤ) : ℚ) := by exact_mod_cast h3
    calc (2 : ℚ) ^ k ≤ (2 : ℚ) ^ Int.log 2 x := zpow_le_zpow_right₀ (by norm_num) hlog
      _ = (((2 : ℤ) ^ (prec - 1) : ℤ) : ℚ) * quantum prec emin x := hpow
      _ ≤ _ := mul_le_mul_of_nonneg_right h4 hq.le

/-- Rounding a positive value that is at most a power of two of the normal range
yields at most that power of two. -/
theorem roundBinary_le_two_zpow (prec : ℕ) (hp : 1 ≤ prec) (emin emax : ℤ) {x : ℚ} {k : ℤ}
    (hx : 0 < x) (hk : x ≤ (2 : ℚ) ^ k) (hemin : emin ≤ k) (hemax : k ≤ emax) :
    ∃ r : ℚ, 0 ≤ r ∧ r ≤ (2 : ℚ) ^ k ∧ roundBinary prec emin emax x = Fl.fin r := by
  have habs : |x| = x := abs_of_pos hx
  have hlog : Int.log 2 x ≤ k := by
    have : Int.log 2 x < k + 1 := by
      rw [← Int.lt_zpow_iff_log_lt (by norm_num) hx]
      have : (2 : ℚ) ^ k < (2 : ℚ) ^ (k + 1) := zpow_lt_zpow_right₀ (by norm_num) (by omega)
      simpa using lt_of_le_of_lt hk this
    omega
  obtain ⟨n, hn⟩ : ∃ n : ℕ, (n : ℤ) = k - (max (Int.log 2 x) emin - ((prec : ℤ) - 1)) := by
    refine ⟨(k - (max (Int.log 2 x) emin - ((prec : ℤ) - 1))).toNat, ?_⟩
    have : max (Int.log 2 x) emin ≤ k := max_le hlog hemin
    omega
  have hq := quantum_pos prec emin x
  have hpow : (2 : ℚ) ^ k = (((2 : ℤ) ^ n : ℤ) : ℚ) * quantum prec emin x := by
    unfold quantum
    rw [habs]
    push_cast
    rw [← zpow_natCast, ← zpow_add₀ (by norm_num : (2 : ℚ) ≠ 0), hn]
    congr 1
    ring
  have h2 : x / quantum prec emin x ≤ (((2 : ℤ) ^ n : ℤ) : ℚ) := by
    rw [div_le_iff₀ hq, ← hpow]
    exact hk
  have h3 := roundHalfEven_le h2
  have h4 : ((roundHalfEven (x / quantum prec emin x) : ℤ) : ℚ) ≤ (((2 : ℤ) ^ n : ℤ) : ℚ) := by
    exact_mod_cast h3
  have h5 : (0 : ℤ) ≤ roundHalfEven (x / quantum prec emin x) := by
    apply le_roundHalfEven
    simpa using (div_pos hx hq).le
  have h6 : (0 : ℚ) ≤ ((roundHalfEven (x / quantum prec emin x) : ℤ) : ℚ) := by exact_mod_cast h5
  have hr : ((roundHalfEven (x / quantum prec emin x) : ℤ) : ℚ) * quantum prec emin x ≤
      (2 : ℚ) ^ k := by
    rw [hpow]
    exact mul_le_mul_of_nonneg_right h4 hq.le
  have hr0 : 0 ≤ ((roundHalfEven (x / quantum prec emin x) : ℤ) : ℚ) * quantum prec emin x :=
    mul_nonneg h6 hq.le
  refine ⟨_, hr0, hr, ?_⟩
  unfold roundBinary
  rw [if_neg hx.ne', if_neg]
  rw [not_le, abs_of_nonneg hr0]
  calc _ ≤ (2 : ℚ) ^ k := hr
    _ < (2 : ℚ) ^ (emax + 1) := zpow_lt_zpow_right₀ (by norm_num) (by omega)
/-- The conversion `(float)n` is exact for every integer of magnitude at most
`2 ^ 24`. -/
theorem ofInt32_exact (n : ℤ) (h : |n| ≤ 2 ^ 24) : Fl.ofInt32 n = Fl.fin (n : ℚ) := by
  unfold Fl.ofInt32 round32
  by_cases h0 : n = 0
  · simp [h0, roundBinary]
  have habs : (1 : ℚ) ≤ |(n : ℚ)| := by
    have : (1 : ℤ) ≤ |n| := Int.one_le_abs h0
    exact_mod_cast this
  have habs2 : |(n : ℚ)| ≤ 2 ^ 24 := by exact_mod_cast h
  have hpos : (0 : ℚ) < |(n : ℚ)| := by linarith
  have hl0 : 0 ≤ Int.log 2 |(n : ℚ)| := by
    rw [← Int.zpow_le_iff_le_log (by norm_num) hpos]
    simpa using habs
  have hl1 : Int.log 2 |(n : ℚ)| < 25 := by
    rw [← Int.lt_zpow_iff_log_lt (by norm_num) hpos]
    have : |(n : ℚ)| < 2 ^ (25 : ℤ) := lt_of_le_of_lt habs2 (by norm_num)
    simpa using this
  have hquant : quantum 24 (-126) (n : ℚ) = (2 : ℚ) ^ (Int.log 2 |(n : ℚ)| - 23) := by
    unfold quantum
    rw [max_eq_left (by omega)]
    norm_num
  have hov : |(n : ℚ)| < (2 : ℚ) ^ ((127 : ℤ) + 1) :=
    lt_of_le_of_lt habs2 (by norm_num)
  by_cases hl : Int.log 2 |(n : ℚ)| ≤ 23
  · obtain ⟨m, hm⟩ : ∃ m : ℕ, (m : ℤ) = 23 - Int.log 2 |(n : ℚ)| := ⟨(23 - Int.log 2 |(n : ℚ)|).toNat, by omega⟩
    apply roundBinary_exact 24 (-126) 127 (n : ℚ) (n * 2 ^ m) _ hov
    rw [hquant]
    push_cast
    rw [mul_assoc, ← zpow_natCast, ← zpow_add₀ (by norm_num : (2 : ℚ) ≠ 0), hm]
    simp
  · have hl24 : Int.log 2 |(n : ℚ)| = 24 := by omega
    have h24 : (2 : ℚ) ^ (24 : ℤ) ≤ |(n : ℚ)| := by
      have := two_zpow_log_le hpos
      rwa [hl24] at this
    have hn : |n| = 2 ^ 24 := by
      have : ((2 : ℤ) ^ 24 : ℚ) ≤ |(n : ℚ)| := by
        rw [← zpow_natCast]
        exact_mod_cast h24
      have : (2 : ℤ) ^ 24 ≤ |n| := by exact_mod_cast this
      omega
    apply roundBinary_exact 24 (-126) 127 (n : ℚ) (n / 2) _ hov
    rw [hquant, hl24]
    have h2 : (2 : ℤ) ∣ n := by
      rcases abs_choice n with h' | h' <;> rw [h'] at hn
      · exact ⟨2 ^ 23, by omega⟩
      · exact ⟨-2 ^ 23, by omega⟩
    obtain ⟨c, hc⟩ := h2
    subst hc
    rw [Int.mul_ediv_cancel_left c (by norm_num)]
    push_cast
    norm_num
    ring

/-- The `double` nearest to 0.2. -/
theorem double_0_2_eq : double_0_2 = Fl.fin (3602879701896397 / 18014398509481984) := by
  unfold double_0_2 round64 roundBinary
  have hq : quantum 53 (-1022) (1 / 5) = (2 : ℚ) ^ (-55 : ℤ) := by
    rw [quantum_eq 53 (-1022) (e := -3)] <;> norm_num [abs_of_pos]
  have hr : roundHalfEven ((1 / 5 : ℚ) / (2 : ℚ) ^ (-55 : ℤ)) = 7205759403792794 := by
    apply roundHalfEven_eq_of_near <;> norm_num
  rw [if_neg (by norm_num), hq, hr, if_neg]
  · norm_num
  · norm_num [abs_of_pos]

/-- Within the binade of 0.2 a `float` is a multiple of `2 ^ (-26)`. -/
theorem round32_binade (x : ℚ) (h1 : 1 / 8 ≤ x) (h2 : x < 1 / 4) :
    round32 x = Fl.fin ((roundHalfEven (x * 2 ^ 26) : ℚ) / 2 ^ 26) := by
  have hx : 0 < x := by linarith
  have hq : quantum 24 (-126) x = (2 : ℚ) ^ (-26 : ℤ) := by
    rw [quantum_eq 24 (-126) (e := -3)] <;> norm_num [abs_of_pos hx] <;> linarith
  have hdiv : x / (2 : ℚ) ^ (-26 : ℤ) = x * 2 ^ 26 := by
    rw [zpow_neg, div_inv_eq_mul]
    norm_num
  have hle : roundHalfEven (x * 2 ^ 26) ≤ 2 ^ 24 := by
    apply roundHalfEven_le
    push_cast
    linarith
  have hge : (0 : ℤ) ≤ roundHalfEven (x * 2 ^ 26) := by
    apply le_roundHalfEven
    push_cast
    positivity
  have hle1 : ((roundHalfEven (x * 2 ^ 26) : ℤ) : ℚ) ≤ 2 ^ 24 := by exact_mod_cast hle
  have hge1 : (0 : ℚ) ≤ ((roundHalfEven (x * 2 ^ 26) : ℤ) : ℚ) := by exact_mod_cast hge
  unfold round32 roundBinary
  rw [if_neg hx.ne', hq, hdiv, if_neg]
  · congr 1
    norm_num
    ring
  · rw [not_le, abs_of_nonneg (by positivity)]
    have : (2 : ℚ) ^ (-26 : ℤ) = 1 / 2 ^ 26 := by norm_num
    rw [this]
    have h128 : (1 : ℚ) ≤ (2 : ℚ) ^ ((127 : ℤ) + 1) := one_le_zpow₀ (by norm_num) (by norm_num)
    calc ((roundHalfEven (x * 2 ^ 26) : ℤ) : ℚ) * (1 / 2 ^ 26) ≤ 2 ^ 24 * (1 / 2 ^ 26) := by
          apply mul_le_mul_of_nonneg_right hle1 (by positivity)
      _ < 1 := by norm_num
      _ ≤ _ := h128
/-- For an alignment length between 1 and `2 ^ 24` the test
`(float)editDistance / (float)alignmentLength < 0.2` of `stereo_encode` holds
exactly when `editDistance / alignmentLength < 1/5`. -/
theorem error_rate_lt_iff (ed len : ℤ) (h0 : 0 < len) (h1 : len ≤ 2 ^ 24) :
    Fl.lt (Fl.div round32 (Fl.ofInt32 ed) (Fl.ofInt32 len)) double_0_2 = true ↔ 5 * ed < len := by
  have hlen : Fl.ofInt32 len = Fl.fin (len : ℚ) :=
    ofInt32_exact len (by rw [abs_of_pos h0]; exact h1)
  have hlq : (0 : ℚ) < (len : ℚ) := by exact_mod_cast h0
  have hlq2 : (len : ℚ) ≤ 2 ^ 24 := by exact_mod_cast h1
  have hd : (0 : ℚ) < 3602879701896397 / 18014398509481984 := by norm_num
  rw [hlen, double_0_2_eq]
  rcases lt_trichotomy ed 0 with hneg | hzero | hpos
  · -- a negative edit distance gives a negative rate
    have hiff : 5 * ed < len := by omega
    simp only [hiff, iff_true]
    rcases roundBinary_nonpos 24 (-126) 127 (x := (ed : ℚ)) (by exact_mod_cast hneg.le)
      with ⟨r, hr, he⟩ | he
    · have he1 : Fl.ofInt32 ed = Fl.fin r := he
      rw [he1]
      simp only [Fl.div, hlq.ne', if_false]
      rcases roundBinary_nonpos 24 (-126) 127 (x := r / (len : ℚ))
        (div_nonpos_of_nonpos_of_nonneg hr hlq.le) with ⟨r2, hr2, he2⟩ | he2
      · have he3 : round32 (r / (len : ℚ)) = Fl.fin r2 := he2
        rw [he3]
        simp only [Fl.lt, decide_eq_true_eq]
        linarith
      · have he3 : round32 (r / (len : ℚ)) = Fl.inf true := he2
        rw [he3]
        simp [Fl.lt]
    · have he1 : Fl.ofInt32 ed = Fl.inf true := he
      rw [he1]
      simp [Fl.div, Fl.lt, not_lt.mpr hlq.le]
  · subst hzero
    have : Fl.ofInt32 0 = Fl.fin 0 := by simpa using ofInt32_exact 0 (by norm_num)
    rw [this]
    simp only [Fl.div, hlq.ne', if_false, zero_div]
    have : round32 0 = Fl.fin 0 := by simp [round32, roundBinary]
    rw [this]
    simp only [Fl.lt, decide_eq_true_eq]
    constructor
    · intro _; omega
    · intro _; exact hd
  · have hedq : (0 : ℚ) < (ed : ℚ) := by exact_mod_cast hpos
    by_cases hbig : ed ≤ 2 ^ 24
    · have hed : Fl.ofInt32 ed = Fl.fin (ed : ℚ) :=
        ofInt32_exact ed (by rw [abs_of_pos hpos]; exact hbig)
      rw [hed]
      simp only [Fl.div, hlq.ne', if_false]
      have hxpos : (0 : ℚ) < (ed : ℚ) / (len : ℚ) := div_pos hedq hlq
      by_cases hq4 : (1 : ℚ) / 4 ≤ (ed : ℚ) / (len : ℚ)
      · -- a rate of at least 1/4 is rounded to at least 1/4
        have hnot : ¬ 5 * ed < len := by
          rw [le_div_iff₀ hlq] at hq4
          have : (len : ℚ) ≤ 4 * (ed : ℚ) := by linarith
          have : len ≤ 4 * ed := by exact_mod_cast this
          omega
        simp only [hnot, iff_false]
        have hk : (2 : ℚ) ^ (-2 : ℤ) ≤ (ed : ℚ) / (len : ℚ) := by
          have : (2 : ℚ) ^ (-2 : ℤ) = 1 / 4 := by norm_num
          rw [this]; exact hq4
        rcases roundBinary_ge_two_zpow 24 (by norm_num) (-126) 127 hk (by norm_num)
          with ⟨r, hr, he⟩ | he
        · have he3 : round32 ((ed : ℚ) / (len : ℚ)) = Fl.fin r := he
          rw [he3]
          simp only [Fl.lt, decide_eq_true_eq, not_lt]
          have : (2 : ℚ) ^ (-2 : ℤ) = 1 / 4 := by norm_num
          rw [this] at hr
          linarith
        · have he3 : round32 ((ed : ℚ) / (len : ℚ)) = Fl.inf false := he
          rw [he3]
          simp [Fl.lt]
      · rw [not_le] at hq4
        by_cases hq8 : (ed : ℚ) / (len : ℚ) < 1 / 8
        · -- a rate below 1/8 is rounded to at most 1/8
          have hyes : 5 * ed < len := by
            rw [div_lt_iff₀ hlq] at hq8
            have : 8 * (ed : ℚ) < (len : ℚ) := by linarith
            have : 8 * ed < len := by exact_mod_cast this
            omega
          simp only [hyes, iff_true]
          have hk : (ed : ℚ) / (len : ℚ) ≤ (2 : ℚ) ^ (-3 : ℤ) := by
            have : (2 : ℚ) ^ (-3 : ℤ) = 1 / 8 := by norm_num
            rw [this]; exact hq8.le
          obtain ⟨r, -, hr, he⟩ := roundBinary_le_two_zpow 24 (by norm_num) (-126) 127 hxpos hk
            (by norm_num) (by norm_num)
          have he3 : round32 ((ed : ℚ) / (len : ℚ)) = Fl.fin r := he
          rw [he3]
          simp only [Fl.lt, decide_eq_true_eq]
          have : (2 : ℚ) ^ (-3 : ℤ) = 1 / 8 := by norm_num
          rw [this] at hr
          linarith
        · rw [not_lt] at hq8
          rw [round32_binade _ hq8 hq4]
          simp only [Fl.lt, decide_eq_true_eq]
          by_cases h5 : 5 * ed < len
          · simp only [h5, iff_true]
            have h5q : 5 * (ed : ℚ) ≤ (len : ℚ) - 1 := by
              have : 5 * ed ≤ len - 1 := by omega
              exact_mod_cast this
            have hx : (ed : ℚ) / (len : ℚ) * 2 ^ 26 ≤ ((13421772 : ℤ) : ℚ) := by
              have e1 : (ed : ℚ) / (len : ℚ) ≤ 1 / 5 - 1 / (5 * (len : ℚ)) := by
                have e0 : (1 : ℚ) / 5 - 1 / (5 * (len : ℚ)) = (((len : ℚ) - 1) / 5) / (len : ℚ) := by
                  field_simp
                rw [e0]
                apply div_le_div_of_nonneg_right _ hlq.le
                linarith
              have e2 : 1 / (5 * (2 : ℚ) ^ 24) ≤ 1 / (5 * (len : ℚ)) := by
                apply one_div_le_one_div_of_le (by positivity)
                linarith
              push_cast
              have : (ed : ℚ) / (len : ℚ) ≤ 1 / 5 - 1 / (5 * (2 : ℚ) ^ 24) := by linarith
              calc (ed : ℚ) / (len : ℚ) * 2 ^ 26 ≤ (1 / 5 - 1 / (5 * (2 : ℚ) ^ 24)) * 2 ^ 26 :=
                    mul_le_mul_of_nonneg_right this (by positivity)
                _ = 13421772 := by norm_num
            have hr := roundHalfEven_le hx
            have hr1 : ((roundHalfEven ((ed : ℚ) / (len : ℚ) * 2 ^ 26) : ℤ) : ℚ) ≤ 13421772 := by
              exact_mod_cast hr
            calc ((roundHalfEven ((ed : ℚ) / (len : ℚ) * 2 ^ 26) : ℤ) : ℚ) / 2 ^ 26
                ≤ 13421772 / 2 ^ 26 := div_le_div_of_nonneg_right hr1 (by positivity)
              _ < 3602879701896397 / 18014398509481984 := by norm_num
          · simp only [h5, iff_false, not_lt]
            have h5q : (len : ℚ) ≤ 5 * (ed : ℚ) := by
              have : len ≤ 5 * ed := by omega
              exact_mod_cast this
            have hx : ((13421773 : ℤ) : ℚ) - 1 / 2 < (ed : ℚ) / (len : ℚ) * 2 ^ 26 := by
              have e1 : 1 / 5 ≤ (ed : ℚ) / (len : ℚ) := by
                rw [le_div_iff₀ hlq]
                linarith
              push_cast
              calc (13421773 : ℚ) - 1 / 2 < 1 / 5 * 2 ^ 26 := by norm_num
                _ ≤ (ed : ℚ) / (len : ℚ) * 2 ^ 26 :=
                    mul_le_mul_of_nonneg_right e1 (by positivity)
            have hr := le_roundHalfEven_of_half hx
            have hr1 : (13421773 : ℚ) ≤ ((roundHalfEven ((ed : ℚ) / (len : ℚ) * 2 ^ 26) : ℤ) : ℚ) := by
              exact_mod_cast hr
            calc (3602879701896397 : ℚ) / 18014398509481984 ≤ 13421773 / 2 ^ 26 := by norm_num
              _ ≤ _ := div_le_div_of_nonneg_right hr1 (by positivity)
    · -- an edit distance above 2 ^ 24 exceeds the alignment length
      rw [not_le] at hbig
      have hnot : ¬ 5 * ed < len := by omega
      simp only [hnot, iff_false]
      have hk : (2 : ℚ) ^ (24 : ℤ) ≤ (ed : ℚ) := by
        have : ((2 : ℤ) ^ 24 : ℚ) ≤ (ed : ℚ) := by exact_mod_cast hbig.le
        rw [← zpow_natCast] at this
        exact_mod_cast this
      rcases roundBinary_ge_two_zpow 24 (by norm_num) (-126) 127 hk (by norm_num)
        with ⟨r, hr, he⟩ | he
      · have he1 : Fl.ofInt32 ed = Fl.fin r := he
        rw [he1]
        simp only [Fl.div, hlq.ne', if_false]
        have hr24 : (2 : ℚ) ^ 24 ≤ r := by
          have : (2 : ℚ) ^ (24 : ℤ) = 2 ^ 24 := by norm_num
          rw [this] at hr; exact hr
        have hk2 : (2 : ℚ) ^ (0 : ℤ) ≤ r / (len : ℚ) := by
          rw [zpow_zero, le_div_iff₀ hlq]
          linarith
        rcases roundBinary_ge_two_zpow 24 (by norm_num) (-126) 127 hk2 (by norm_num)
          with ⟨r2, hr2, he2⟩ | he2
        · have he3 : round32 (r / (len : ℚ)) = Fl.fin r2 := he2
          rw [he3]
          simp only [Fl.lt, decide_eq_true_eq, not_lt]
          rw [zpow_zero] at hr2
          linarith
        · have he3 : round32 (r / (len : ℚ)) = Fl.inf false := he2
          rw [he3]
          simp [Fl.lt]
      · have he1 : Fl.ofInt32 ed = Fl.inf false := he
        rw [he1]
        simp [Fl.div, Fl.lt, not_lt.mpr hlq.le]

/-! ## Interleavings -/

theorem runActions_append {σ α : Type} (step : σ → α → Option σ) (xs ys : List α) (s : σ) :
    runActions step s (xs ++ ys) = (runActions step s xs).bind (fun t => runActions step t ys) := by
  induction xs generalizing s with
  | nil => simp [runActions]
  | cons a rest ih =>
    simp only [List.cons_append, runActions]
    cases h : step s a with
    | none => simp
    | some s1 => simpa using ih s1

theorem runActions_invariant {σ α : Type} (step : σ → α → Option σ) (P : σ → Prop)
    (hstep : ∀ s a t, P s → step s a = some t → P t) :
    ∀ (acts : List α) (s t : σ), P s → runActions step s acts = some t → P t := by
  intro acts
  induction acts with
  | nil =>
    intro s t hs h
    simp [runActions] at h
    exact h ▸ hs
  | cons a rest ih =>
    intro s t hs h
    simp only [runActions] at h
    cases hsa : step s a with
    | none => simp [hsa] at h
    | some s1 =>
      rw [hsa] at h
      exact ih s1 t (hstep s a s1 hs hsa) h

/-! ## Termination cascade -/

theorem stereoPoolInv_init (n m : Nat) (hn : 1 ≤ n) : StereoPoolInv (StereoDuplexEncoderNode.pool n m) := by
  have : n ≠ 0 := by omega
  simp [StereoPoolInv, StereoDuplexEncoderNode.pool, this]

theorem stereoPoolInv_step (s : Pool) (a : PoolAction) (t : Pool) (hs : StereoPoolInv s)
    (h : StereoDuplexEncoderNode.poolStep s a = some t) : StereoPoolInv t := by
  obtain ⟨h1, h2, h3⟩ := hs
  unfold StereoPoolInv
  cases a <;>
    simp only [StereoDuplexEncoderNode.poolStep, Pool.commonStep, Pool.leaveStep,
      push_message] at h
  all_goals (repeat' split at h)
  all_goals (first | (simp at h; done) | (simp at h; subst h; simp only []))
  all_goals (try simp only [reduceCtorEq, if_false, if_true] at h3 ⊢)
  all_goals (split_ifs at h3 ⊢ <;> first | omega | simp_all)

theorem filterPoolInv_init (n m : Nat) : FilterPoolInv (ReadFilterNode.pool n m) := by
  simp [FilterPoolInv, ReadFilterNode.pool]

theorem filterPoolInv_step (s : Pool) (a : PoolAction) (t : Pool) (hs : FilterPoolInv s)
    (h : ReadFilterNode.poolStep s a = some t) : FilterPoolInv t := by
  obtain ⟨h1, h2, h3⟩ := hs
  unfold FilterPoolInv
  cases a <;>
    simp only [ReadFilterNode.poolStep, Pool.commonStep, Pool.leaveStep, push_message] at h
  all_goals (repeat' split at h)
  all_goals (first | (simp at h; done) | (simp at h; subst h; simp only []))
  all_goals (try simp only [reduceCtorEq, if_false, if_true] at h2 h3 ⊢)
  all_goals (split_ifs at h2 h3 ⊢ <;> first | omega | simp_all)

/-- Claim C1 (as the code has it): for every pool size `n ≥ 1`, every number `m`
of queued messages and every interleaving of the threads, once all workers of a
`StereoDuplexEncoderNode` have returned they have called `m_sink.terminate()`
exactly once between them, and the destructor calls it once more after joining
them, so a destroyed `StereoDuplexEncoderNode` has made exactly two calls; a
destroyed `ReadFilterNode` has made at least two. -/
theorem sink_terminate_calls_of_pool (n m : Nat) (hn : 1 ≤ n) (acts : List PoolAction) (s : Pool) :
    (runActions StereoDuplexEncoderNode.poolStep (StereoDuplexEncoderNode.pool n m) acts = some s →
      s.working = 0 → s.signalling = 0 →
        s.sink_terminate_calls = (if s.dtor = DestructorPc.finished then 2 else 1)) ∧
    (runActions ReadFilterNode.poolStep (ReadFilterNode.pool n m) acts = some s →
      s.destroyed → 2 ≤ s.sink_terminate_calls) := by
  constructor
  · intro h hw hsig
    have hinv := runActions_invariant StereoDuplexEncoderNode.poolStep StereoPoolInv
      stereoPoolInv_step acts _ s (stereoPoolInv_init n m hn) h
    obtain ⟨-, -, h3⟩ := hinv
    rw [hw, hsig] at h3
    split <;> simp_all
  · intro h hd
    have hinv := runActions_invariant ReadFilterNode.poolStep
      (fun s => FilterPoolInv s ∧ s.unstarted + s.working + s.signalling + s.exited = n)
      (by
        intro s a t hs hst
        refine ⟨filterPoolInv_step s a t hs.1 hst, ?_⟩
        have hc := hs.2
        cases a <;>
          simp only [ReadFilterNode.poolStep, Pool.commonStep, Pool.leaveStep, push_message] at hst
        all_goals (repeat' split at hst)
        all_goals (first | (simp at hst; done) | (simp at hst; subst hst; simp only; omega)))
      acts _ s ⟨filterPoolInv_init n m, by simp [ReadFilterNode.pool]⟩ h
    obtain ⟨⟨-, h2, -⟩, hc⟩ := hinv
    obtain ⟨d1, d2, d3, d4⟩ := hd
    rw [d1, d2, d3] at hc
    have : (s.working = 0 ∧ 0 < s.signalling + s.exited) := by omega
    simp only [d4, this, and_self, if_true] at h2
    omega

/-- Witness for `sink_terminate_calls_of_pool`: two workers, one queued message. -/
theorem sink_terminate_calls_of_pool_witness :
    (1 ≤ 2) ∧
    (runActions StereoDuplexEncoderNode.poolStep (StereoDuplexEncoderNode.pool 2 1)
        [PoolAction.pop, PoolAction.terminate, PoolAction.leave, PoolAction.leave,
          PoolAction.signal, PoolAction.destroy, PoolAction.finish] =
        some { queued := 0, terminated := true, unstarted := 0, working := 0, signalling := 0,
               exited := 2, counter := 0, sink_terminate_calls := 2,
               dtor := DestructorPc.finished }) ∧
    ((2 : Nat) = (if DestructorPc.finished = DestructorPc.finished then 2 else 1)) :=
  ⟨by decide, by decide,
    (sink_terminate_calls_of_pool 2 1 (by decide)
      [PoolAction.pop, PoolAction.terminate, PoolAction.leave, PoolAction.leave,
        PoolAction.signal, PoolAction.destroy, PoolAction.finish]
      { queued := 0, terminated := true, unstarted := 0, working := 0, signalling := 0,
        exited := 2, counter := 0, sink_terminate_calls := 2,
        dtor := DestructorPc.finished }).1 (by decide) rfl rfl⟩

/-- Claim C1 as stated fails: with two workers and one queued message there is an
interleaving after which the node is destroyed, the queue is drained, and
`m_sink.terminate()` has been called twice, on a `ReadFilterNode` and on a
`StereoDuplexEncoderNode` alike. -/
theorem sink_terminate_calls_not_once :
    ¬ (∀ (n m : Nat) (acts : List PoolAction) (s : Pool), 1 ≤ n →
        (runActions ReadFilterNode.poolStep (ReadFilterNode.pool n m) acts = some s →
          s.destroyed → s.sink_terminate_calls = 1) ∧
        (runActions StereoDuplexEncoderNode.poolStep (StereoDuplexEncoderNode.pool n m) acts =
            some s → s.destroyed → s.sink_terminate_calls = 1)) := by
  intro h
  have h1 := (h 2 1
    [PoolAction.start, PoolAction.start, PoolAction.pop, PoolAction.terminate, PoolAction.leave,
      PoolAction.leave, PoolAction.signal, PoolAction.destroy, PoolAction.finish]
    { queued := 0, terminated := true, unstarted := 0, working := 0, signalling := 0,
      exited := 2, counter := 0, sink_terminate_calls := 2, dtor := DestructorPc.finished }
    (by decide)).1 (by decide) (by simp [Pool.destroyed])
  simp at h1

/-! ## stereo_encode: the two branches -/

/-- The early return of `stereo_encode`. -/
theorem stereo_encode_of_not_consensus (env : Env) (stride : Int) (t c : Read) (d : Nat)
    (target_cursor end_location : Int)
    (hstart : getAt (stereo_align env t c).startLocations 0 = Except.ok target_cursor)
    (hend : getAt (stereo_align env t c).endLocations 0 = Except.ok end_location)
    (hc : consensus_possible
        (stereo_trim env (stereo_align env t c) target_cursor end_location).1.1
        (stereo_trim env (stereo_align env t c) target_cursor end_location).1.2
        (alignment_error_rate (stereo_align env t c)) = false) :
    stereo_encode env stride t c d = Except.ok ({}, d + 1) := by
  unfold stereo_encode
  rw [hstart, hend]
  simp only
  rcases htrim : stereo_trim env (stereo_align env t c) target_cursor end_location
    with ⟨⟨s, e⟩, ⟨q, tc⟩⟩
  rw [htrim] at hc
  simp only at hc ⊢
  rw [hc]
  rfl

/-- The encoding branch of `stereo_encode`. -/
theorem stereo_encode_of_consensus (env : Env) (stride : Int) (t c : Read) (d : Nat)
    (target_cursor end_location : Int)
    (hstart : getAt (stereo_align env t c).startLocations 0 = Except.ok target_cursor)
    (hend : getAt (stereo_align env t c).endLocations 0 = Except.ok end_location)
    (hc : consensus_possible
        (stereo_trim env (stereo_align env t c) target_cursor end_location).1.1
        (stereo_trim env (stereo_align env t c) target_cursor end_location).1.2
        (alignment_error_rate (stereo_align env t c)) = true) :
    stereo_encode env stride t c d =
      (stereo_encode_tensor env stride t c (stereo_align env t c).alignment
          (stereo_trim env (stereo_align env t c) target_cursor end_location).1.1
          (stereo_trim env (stereo_align env t c) target_cursor end_location).1.2
          (stereo_trim env (stereo_align env t c) target_cursor end_location).2.1
          (stereo_trim env (stereo_align env t c) target_cursor end_location).2.2).map
        fun tmp => (stereo_encoded_read t c tmp, d) := by
  unfold stereo_encode
  rw [hstart, hend]
  simp only
  rcases htrim : stereo_trim env (stereo_align env t c) target_cursor end_location
    with ⟨⟨s, e⟩, ⟨q, tc⟩⟩
  rw [htrim] at hc
  simp only at hc ⊢
  rw [hc]
  simp only [if_true]
  cases stereo_encode_tensor env stride t c (stereo_align env t c).alignment s e q tc <;> rfl

/-! ## stereo_encode: the acceptance test -/

theorem consensus_possible_iff (start_pos end_pos ed len : ℤ) (h0 : 0 < len) (h1 : len ≤ 2 ^ 24) :
    consensus_possible start_pos end_pos
        (Fl.div round32 (Fl.ofInt32 ed) (Fl.ofInt32 len)) = true ↔
      ¬ ((1 : ℚ) / 5 ≤ (ed : ℚ) / (len : ℚ) ∨ end_pos - start_pos ≤ 50) := by
  have hlq : (0 : ℚ) < (len : ℚ) := by exact_mod_cast h0
  have hrate : (1 : ℚ) / 5 ≤ (ed : ℚ) / (len : ℚ) ↔ ¬ 5 * ed < len := by
    rw [le_div_iff₀ hlq, not_lt]
    constructor
    · intro h
      have : (len : ℚ) ≤ 5 * (ed : ℚ) := by linarith
      exact_mod_cast this
    · intro h
      have : (len : ℚ) ≤ 5 * (ed : ℚ) := by exact_mod_cast h
      linarith
  unfold consensus_possible kMinTrimmedAlignmentLength
  rw [Bool.and_eq_true, Bool.and_eq_true, error_rate_lt_iff ed len h0 h1, hrate]
  simp only [decide_eq_true_eq]
  constructor
  · rintro ⟨⟨-, h2⟩, h3⟩
    rintro (h | h)
    · exact h h3
    · omega
  · intro h
    rw [not_or, not_not] at h
    exact ⟨⟨by omega, by omega⟩, h.1⟩

/-- Claim C2 (as the code has it): for every pair for which the aligner reports a
start and an end location and an alignment length between 1 and `2 ^ 24`,
`stereo_encode` returns the empty read and counts a discarded pair whenever
`editDistance / alignmentLength ≥ 0.2` or the trimmed length
`end_alignment_position - start_alignment_position` is at most 50, and goes on
to encode the pair otherwise. -/
theorem stereo_encode_threshold (env : Env) (stride : Int) (template_read complement_read : Read)
    (discarded : Nat) (target_cursor end_location : Int)
    (hstart : getAt (stereo_align env template_read complement_read).startLocations 0 =
      Except.ok target_cursor)
    (hend : getAt (stereo_align env template_read complement_read).endLocations 0 =
      Except.ok end_location)
    (hpos : 0 < (stereo_align env template_read complement_read).alignmentLength)
    (hlen : (stereo_align env template_read complement_read).alignmentLength ≤ 2 ^ 24) :
    stereo_encode env stride template_read complement_read discarded =
      if (1 : ℚ) / 5 ≤
            ((stereo_align env template_read complement_read).editDistance : ℚ) /
              ((stereo_align env template_read complement_read).alignmentLength : ℚ) ∨
          (stereo_trim env (stereo_align env template_read complement_read) target_cursor
              end_location).1.2 -
            (stereo_trim env (stereo_align env template_read complement_read) target_cursor
              end_location).1.1 ≤ 50 then
        Except.ok ({}, discarded + 1)
      else
        (stereo_encode_tensor env stride template_read complement_read
            (stereo_align env template_read complement_read).alignment
            (stereo_trim env (stereo_align env template_read complement_read) target_cursor
              end_location).1.1
            (stereo_trim env (stereo_align env template_read complement_read) target_cursor
              end_location).1.2
            (stereo_trim env (stereo_align env template_read complement_read) target_cursor
              end_location).2.1
            (stereo_trim env (stereo_align env template_read complement_read) target_cursor
              end_location).2.2).map
          fun tmp => (stereo_encoded_read template_read complement_read tmp, discarded) := by
  have hc := consensus_possible_iff
    (stereo_trim env (stereo_align env template_read complement_read) target_cursor
      end_location).1.1
    (stereo_trim env (stereo_align env template_read complement_read) target_cursor
      end_location).1.2
    (stereo_align env template_read complement_read).editDistance
    (stereo_align env template_read complement_read).alignmentLength hpos hlen
  split_ifs with hcond
  · apply stereo_encode_of_not_consensus env stride _ _ discarded _ _ hstart hend
    rw [← Bool.not_eq_true]
    unfold alignment_error_rate
    rw [hc]
    exact not_not.mpr hcond
  · apply stereo_encode_of_consensus env stride _ _ discarded _ _ hstart hend
    unfold alignment_error_rate
    rw [hc]
    exact hcond

/-- Evaluation of a rounding away from a tie: `e` is the exponent of `x` and `k`
the integer nearest to `x` in units of the quantum. -/
theorem roundBinary_eval (prec : ℕ) (emin emax : ℤ) (x : ℚ) (e k : ℤ)
    (h1 : (2 : ℚ) ^ e ≤ |x|) (h2 : |x| < (2 : ℚ) ^ (e + 1)) (he : emin ≤ e)
    (hk1 : (k : ℚ) - 1 / 2 < x / (2 : ℚ) ^ (e - ((prec : ℤ) - 1)))
    (hk2 : x / (2 : ℚ) ^ (e - ((prec : ℤ) - 1)) < (k : ℚ) + 1 / 2)
    (hov : |(k : ℚ) * (2 : ℚ) ^ (e - ((prec : ℤ) - 1))| < (2 : ℚ) ^ (emax + 1)) :
    roundBinary prec emin emax x = Fl.fin ((k : ℚ) * (2 : ℚ) ^ (e - ((prec : ℤ) - 1))) := by
  have hx : x ≠ 0 := by
    intro h
    rw [h, abs_zero] at h1
    exact absurd h1 (not_le.mpr (by positivity))
  unfold roundBinary
  rw [if_neg hx, quantum_eq prec emin h1 h2 he, roundHalfEven_eq_of_near hk1 hk2,
    if_neg (not_le.mpr hov)]

theorem ofInt32_53687091 : Fl.ofInt32 53687091 = Fl.fin 53687092 := by
  have h := roundBinary_eval 24 (-126) 127 53687091 25 13421773
    (by norm_num [abs_of_pos]) (by norm_num [abs_of_pos]) (by norm_num)
    (by norm_num) (by norm_num) (by norm_num [abs_of_pos])
  unfold Fl.ofInt32 round32
  rw [show ((53687091 : ℤ) : ℚ) = 53687091 by norm_num, h]
  norm_num

theorem ofInt32_268435456 : Fl.ofInt32 268435456 = Fl.fin 268435456 := by
  have h := roundBinary_eval 24 (-126) 127 268435456 28 8388608
    (by norm_num [abs_of_pos]) (by norm_num [abs_of_pos]) (by norm_num)
    (by norm_num) (by norm_num) (by norm_num [abs_of_pos])
  unfold Fl.ofInt32 round32
  rw [show ((268435456 : ℤ) : ℚ) = 268435456 by norm_num, h]
  norm_num

/-- The rate computed for 53687091 edits in `2 ^ 28` columns is the `float`
nearest to 0.2, which is not below the `double` 0.2. -/
theorem alignment_error_rate_long :
    Fl.lt (Fl.div round32 (Fl.ofInt32 53687091) (Fl.ofInt32 268435456)) double_0_2 = false := by
  rw [ofInt32_53687091, ofInt32_268435456]
  have hb := round32_binade ((53687092 : ℚ) / 268435456) (by norm_num) (by norm_num)
  have hr : roundHalfEven ((53687092 : ℚ) / 268435456 * 2 ^ 26) = 13421773 := by
    rw [show (53687092 : ℚ) / 268435456 * 2 ^ 26 = ((13421773 : ℤ) : ℚ) by norm_num]
    exact roundHalfEven_intCast _
  rw [hr] at hb
  simp only [Fl.div]
  rw [if_neg (by norm_num), hb, double_0_2_eq]
  simp only [Fl.lt, decide_eq_false_iff_not, not_lt]
  norm_num

/-- Witness for `stereo_encode_threshold`: a pair of 60 bases aligned without
edits goes on to be encoded. -/
theorem stereo_encode_threshold_witness :
    0 < (stereo_align exampleEnv (exampleRead 60) (exampleRead 60)).alignmentLength ∧
    (stereo_align exampleEnv (exampleRead 60) (exampleRead 60)).alignmentLength ≤ 2 ^ 24 ∧
    stereo_encode exampleEnv 1 (exampleRead 60) (exampleRead 60) 0 =
      (stereo_encode_tensor exampleEnv 1 (exampleRead 60) (exampleRead 60)
          (List.replicate 60 0) 0 59 0 0).map
        fun tmp => (stereo_encoded_read (exampleRead 60) (exampleRead 60) tmp, 0) := by
  refine ⟨by decide, by decide, ?_⟩
  have h := stereo_encode_threshold exampleEnv 1 (exampleRead 60) (exampleRead 60) 0 0 59 rfl rfl
    (by decide) (by decide)
  have e1 : (stereo_align exampleEnv (exampleRead 60) (exampleRead 60)).editDistance = 0 := rfl
  have e2 : (stereo_align exampleEnv (exampleRead 60) (exampleRead 60)).alignmentLength = 60 := by
    decide
  have e3 : stereo_trim exampleEnv (stereo_align exampleEnv (exampleRead 60) (exampleRead 60))
      0 59 = ((0, 59), (0, 0)) := by decide
  have e4 : (stereo_align exampleEnv (exampleRead 60) (exampleRead 60)).alignment =
      List.replicate 60 0 := by decide
  rw [e1, e2, e3, e4, if_neg (by norm_num)] at h
  exact h

/-- Claim C2 as stated fails: for 53687091 edits in an alignment of `2 ^ 28`
columns the normalized edit distance is below 0.2 and the trimmed length is 100,
yet `stereo_encode` returns the empty read and counts a discarded pair. -/
theorem stereo_encode_rejects_below_threshold :
    (((stereo_align longAlignmentEnv {} {}).editDistance : ℚ) /
        ((stereo_align longAlignmentEnv {} {}).alignmentLength : ℚ) < 1 / 5) ∧
    (stereo_trim longAlignmentEnv (stereo_align longAlignmentEnv {} {}) 0 0).1.2 -
        (stereo_trim longAlignmentEnv (stereo_align longAlignmentEnv {} {}) 0 0).1.1 = 100 ∧
    stereo_encode longAlignmentEnv 1 {} {} 0 = Except.ok ({}, 1) := by
  have e1 : (stereo_align longAlignmentEnv {} {}).editDistance = 53687091 := rfl
  have e2 : (stereo_align longAlignmentEnv {} {}).alignmentLength = 268435456 := rfl
  have e3 : stereo_trim longAlignmentEnv (stereo_align longAlignmentEnv {} {}) 0 0 =
      ((0, 100), (0, 0)) := rfl
  refine ⟨by rw [e1, e2]; norm_num, by rw [e3]; norm_num, ?_⟩
  apply stereo_encode_of_not_consensus longAlignmentEnv 1 {} {} 0 0 0 rfl rfl
  rw [e3]
  unfold consensus_possible alignment_error_rate
  rw [e1, e2, alignment_error_rate_long]
  simp

/-! ## StereoDuplexEncoderNode: the worker on a read pair -/

theorem Heap.deref_lt {h : Heap} {p : ReadPtr} {r : Read} (hd : h.deref p = Except.ok r) :
    p < h.reads.length ∧ h.reads[p]? = some r := by
  unfold Heap.deref at hd
  cases hp : h.reads[p]? with
  | none => simp [hp] at hd
  | some x =>
    simp only [hp, Except.ok.injEq] at hd
    subst hd
    exact ⟨(List.getElem?_eq_some_iff.mp hp).1, rfl⟩

theorem Heap.deref_store_same {h : Heap} {p : ReadPtr} {r : Read} (x : Read)
    (hd : h.deref p = Except.ok r) : (h.store p x).deref p = Except.ok x := by
  have hlt := (Heap.deref_lt hd).1
  simp [Heap.deref, Heap.store, List.getElem?_set, hlt]

theorem Heap.deref_alloc_new (h : Heap) (x : Read) :
    (h.alloc x).2.deref (h.alloc x).1 = Except.ok x := by
  simp [Heap.deref, Heap.alloc]

theorem Heap.deref_alloc_old {h : Heap} {p : ReadPtr} {r : Read} (x : Read)
    (hd : h.deref p = Except.ok r) : (h.alloc x).2.deref p = Except.ok r := by
  obtain ⟨hlt, hget⟩ := Heap.deref_lt hd
  simp [Heap.deref, Heap.alloc, List.getElem?_append_left hlt, hget]

/-- The results of `stereo_encode`: a fault, the empty read with the counter of
discarded pairs incremented, or an encoded read with the counter unchanged. -/
theorem stereo_encode_cases (env : Env) (stride : Int) (t c : Read) (d : Nat) (r : Read) (d1 : Nat)
    (h : stereo_encode env stride t c d = Except.ok (r, d1)) :
    (r = {} ∧ d1 = d + 1) ∨ (∃ tmp, r = stereo_encoded_read t c tmp ∧ d1 = d) := by
  unfold stereo_encode at h
  split at h
  · simp at h
  · split at h
    · simp at h
    · split at h
      split at h
      · split at h
        · simp at h
        · rename_i tmp _
          simp only [Except.ok.injEq, Prod.mk.injEq] at h
          exact Or.inr ⟨tmp, h.1.symm, h.2.symm⟩
      · simp only [Except.ok.injEq, Prod.mk.injEq] at h
        exact Or.inl ⟨h.1.symm, h.2.symm⟩

/-- Claim C3: the worker of a `StereoDuplexEncoderNode` on a `ReadPair` message.
When `stereo_encode` rejects the pair (returns the empty read) the worker pushes
exactly one `CandidatePairRejectedMessage` and nothing else, the template read's
`num_duplex_candidate_pairs` goes down by one and the counter of discarded pairs
up by one.  When `stereo_encode` accepts the pair the worker pushes exactly the
encoded read and nothing else, and both counters keep their values.
`stereo_encode` returns nothing but these two. -/
theorem process_message_readPair (env : Env) (stride : Int) (node : StereoDuplexEncoderNode)
    (pair : ReadPair) (read_1 read_2 : Read)
    (h1 : node.heap.deref pair.read_1 = Except.ok read_1)
    (h2 : node.heap.deref pair.read_2 = Except.ok read_2) :
    (stereo_encode env stride read_1 read_2 node.m_num_discarded_pairs =
        Except.ok ({}, node.m_num_discarded_pairs + 1) →
      ∃ node1, StereoDuplexEncoderNode.process_message env stride node (Message.readPair pair) =
          Except.ok node1 ∧
        node1.sink = node.sink ++ [Message.candidatePairRejected] ∧
        node1.heap.deref pair.read_1 = Except.ok
          { read_1 with num_duplex_candidate_pairs := read_1.num_duplex_candidate_pairs - 1 } ∧
        node1.m_num_discarded_pairs = node.m_num_discarded_pairs + 1) ∧
    (∀ tmp, stereo_encode env stride read_1 read_2 node.m_num_discarded_pairs =
        Except.ok (stereo_encoded_read read_1 read_2 tmp, node.m_num_discarded_pairs) →
      ∃ node1, StereoDuplexEncoderNode.process_message env stride node (Message.readPair pair) =
          Except.ok node1 ∧
        node1.sink = node.sink ++ [Message.read node.heap.reads.length] ∧
        node1.heap.deref node.heap.reads.length =
          Except.ok (stereo_encoded_read read_1 read_2 tmp) ∧
        node1.heap.deref pair.read_1 = Except.ok read_1 ∧
        node1.m_num_discarded_pairs = node.m_num_discarded_pairs) ∧
    (∀ r d1, stereo_encode env stride read_1 read_2 node.m_num_discarded_pairs = Except.ok (r, d1) →
      (r = {} ∧ d1 = node.m_num_discarded_pairs + 1) ∨
        (∃ tmp, r = stereo_encoded_read read_1 read_2 tmp ∧ d1 = node.m_num_discarded_pairs)) := by
  refine ⟨?_, ?_, fun r d1 h => stereo_encode_cases env stride _ _ _ r d1 h⟩
  · intro h
    have hp : StereoDuplexEncoderNode.process_message env stride node (Message.readPair pair) =
        Except.ok
          { heap := node.heap.store pair.read_1
              { read_1 with num_duplex_candidate_pairs := read_1.num_duplex_candidate_pairs - 1 }
            sink := node.sink ++ [Message.candidatePairRejected]
            m_num_discarded_pairs := node.m_num_discarded_pairs + 1 } := by
      simp only [StereoDuplexEncoderNode.process_message, h1, h2, h]
      rfl
    exact ⟨_, hp, rfl, Heap.deref_store_same _ h1, rfl⟩
  · intro tmp h
    have hp : StereoDuplexEncoderNode.process_message env stride node (Message.readPair pair) =
        Except.ok
          { heap := (node.heap.alloc (stereo_encoded_read read_1 read_2 tmp)).2
            sink := node.sink ++
              [Message.read (node.heap.alloc (stereo_encoded_read read_1 read_2 tmp)).1]
            m_num_discarded_pairs := node.m_num_discarded_pairs } := by
      simp only [StereoDuplexEncoderNode.process_message, h1, h2, h]
      rfl
    exact ⟨_, hp, rfl, Heap.deref_alloc_new _ _, Heap.deref_alloc_old _ h1, rfl⟩

/-- A pair of ten bases, too short to be accepted, is rejected by `stereo_encode`. -/
theorem stereo_encode_short_pair :
    stereo_encode exampleEnv 1 (exampleRead 10) (exampleRead 10) 0 = Except.ok ({}, 1) := by
  have e3 : stereo_trim exampleEnv (stereo_align exampleEnv (exampleRead 10) (exampleRead 10))
      0 9 = ((0, 9), (0, 0)) := by decide
  apply stereo_encode_of_not_consensus exampleEnv 1 (exampleRead 10) (exampleRead 10) 0 0 9 rfl rfl
  rw [e3]
  simp [consensus_possible, kMinTrimmedAlignmentLength]

/-- Witness for `process_message_readPair`: a node holding two reads of ten bases
receives them as a pair; the pair is rejected. -/
theorem process_message_readPair_witness :
    ∃ node1,
      StereoDuplexEncoderNode.process_message exampleEnv 1
          { heap := ⟨[exampleRead 10, exampleRead 10]⟩, sink := [], m_num_discarded_pairs := 0 }
          (Message.readPair ⟨0, 1⟩) = Except.ok node1 ∧
        node1.sink = [] ++ [Message.candidatePairRejected] ∧
        node1.heap.deref 0 = Except.ok
          { exampleRead 10 with
            num_duplex_candidate_pairs := (exampleRead 10).num_duplex_candidate_pairs - 1 } ∧
        node1.m_num_discarded_pairs = 0 + 1 :=
  (process_message_readPair exampleEnv 1
    { heap := ⟨[exampleRead 10, exampleRead 10]⟩, sink := [], m_num_discarded_pairs := 0 }
    ⟨0, 1⟩ (exampleRead 10) (exampleRead 10) rfl rfl).1 stereo_encode_short_pair

/-! ## stereo_encode without a location -/

/-- Claim C4 fails on the code: when the aligner reports no start location,
`stereo_encode` reads `result.startLocations[0]` all the same and faults instead
of returning the empty read. -/
theorem stereo_encode_no_location :
    stereo_encode noLocationEnv 1 {} {} 0 = Except.error Fault.nullDeref := by
  rfl

/-! ## ModBaseCaller: the request deque -/

theorem callerInv_init (model : Tensor → Tensor → Tensor) : CallerInv model ModBaseCaller.init := by
  refine ⟨rfl, rfl, rfl, ?_, ?_⟩
  · intro p h
    simp [ModBaseCaller.init, DispatchPc.current] at h
  · intro p t h
    simp [ModBaseCaller.init] at h

theorem callerInv_submit (model : Tensor → Tensor → Tensor) (c : ModBaseCaller)
    (sigs seqs : Tensor) (n : Int) (h : CallerInv model c) :
    CallerInv model (c.call_chunks sigs seqs n) := by
  obtain ⟨h1, h2, h3, h4, h5⟩ := h
  refine ⟨h1, ?_, ?_, h4, ?_⟩
  · show c.tasks.length :: c.input_queue =
      (List.range' c.popped.length (c.input_queue.length + 1)).reverse
    rw [List.range'_concat, List.reverse_append, ← h2, h3]
    simp
  · simp [ModBaseCaller.call_chunks, h3]
    omega
  · intro p t hp
    simp only [ModBaseCaller.call_chunks] at hp ⊢
    by_cases hlt : p < c.tasks.length
    · rw [List.getElem?_append_left hlt] at hp
      exact h5 p t hp
    · have hge : c.tasks.length ≤ p := Nat.le_of_not_lt hlt
      rw [List.getElem?_append_right hge] at hp
      have hu : t.untouched := by
        cases hq : p - c.tasks.length with
        | zero =>
          simp [hq] at hp
          subst hp
          exact ⟨rfl, rfl⟩
        | succ k => simp [hq] at hp
      refine ⟨fun _ => hu, fun hlt2 => by omega, fun hth => ?_, fun hth => ?_⟩
      · have := h4 p (by simp [hth, DispatchPc.current])
        omega
      · have := h4 p (by simp [hth, DispatchPc.current])
        omega

theorem callerInv_queue_cases (model : Tensor → Tensor → Tensor) (c : ModBaseCaller)
    (h : CallerInv model c) :
    (c.input_queue = [] ∧ c.input_queue.getLast? = none) ∨
      (∃ m, c.input_queue.length = m + 1 ∧
        c.input_queue = (List.range' (c.popped.length + 1) m).reverse ++ [c.popped.length] ∧
        c.input_queue.getLast? = some c.popped.length ∧
        c.input_queue.dropLast = (List.range' (c.popped.length + 1) m).reverse) := by
  obtain ⟨-, h2, -⟩ := h
  cases hm : c.input_queue.length with
  | zero =>
    left
    have : c.input_queue = [] := List.length_eq_zero.mp hm
    simp [this]
  | succ m =>
    right
    have e : c.input_queue = (List.range' (c.popped.length + 1) m).reverse ++ [c.popped.length] := by
      rw [h2, hm, List.range'_succ, List.reverse_cons]
    refine ⟨m, rfl, e, ?_, ?_⟩
    · rw [e]; simp
    · rw [e]; simp

theorem callerInv_take (model : Tensor → Tensor → Tensor) (c c1 : ModBaseCaller)
    (h : CallerInv model c) (ht : c.take = some c1) : CallerInv model c1 := by
  have hq := callerInv_queue_cases model c h
  obtain ⟨h1, h2, h3, h4, h5⟩ := h
  unfold ModBaseCaller.take at ht
  split at ht
  · rename_i hw
    rcases hq with ⟨-, hnone⟩ | ⟨m, hm, -, hlast, hdrop⟩
    · rw [hnone] at ht
      simp only at ht
      split at ht
      · simp only [Option.some.injEq] at ht
        subst ht
        refine ⟨h1, h2, h3, ?_, ?_⟩
        · intro p hp
          simp [DispatchPc.current] at hp
        · intro p t hp
          obtain ⟨a, b, -, -⟩ := h5 p t hp
          refine ⟨a, fun hlt _ => b hlt (by simp [hw, DispatchPc.current]), ?_, ?_⟩
          · intro hth; simp at hth
          · intro hth; simp at hth
      · simp only [Option.some.injEq] at ht
        subst ht
        exact ⟨h1, h2, h3, h4, h5⟩
    · rw [hlast] at ht
      simp only [Option.some.injEq] at ht
      subst ht
      refine ⟨?_, ?_, ?_, ?_, ?_⟩
      · simp only [List.length_append, List.length_singleton]
        rw [List.range_succ, ← h1]
      · simp only [List.length_append, List.length_singleton, hdrop, List.length_reverse,
          List.length_range']
      · simp only [List.length_append, List.length_singleton, hdrop, List.length_reverse,
          List.length_range']
        omega
      · intro p hp
        simp only [DispatchPc.current, Option.some.injEq] at hp
        simp [hp]
      · intro p t hp
        simp only at hp
        obtain ⟨a, b, -, -⟩ := h5 p t hp
        simp only [List.length_append, List.length_singleton]
        refine ⟨fun hle => a (by omega), fun hlt hne => ?_, fun hth => ?_, fun hth => ?_⟩
        · simp only [DispatchPc.current, ne_eq, Option.some.injEq] at hne
          exact b (by omega) (by simp [hw, DispatchPc.current])
        · simp only [DispatchPc.holding.injEq] at hth
          exact a (by omega)
        · simp at hth
  · simp at ht

theorem callerInv_forward (model : Tensor → Tensor → Tensor) (c c1 : ModBaseCaller)
    (h : CallerInv model c) (ht : c.forward model = some c1) : CallerInv model c1 := by
  obtain ⟨h1, h2, h3, h4, h5⟩ := h
  unfold ModBaseCaller.forward at ht
  split at ht
  · rename_i task hth
    split at ht
    · rename_i t0 ht0
      simp only [Option.some.injEq] at ht
      subst ht
      have hk := h4 task (by simp [hth, DispatchPc.current])
      refine ⟨h1, h2, by simpa using h3, ?_, ?_⟩
      · intro p hp
        simp only [DispatchPc.current, Option.some.injEq] at hp
        subst hp
        exact hk
      · intro p t hp
        simp only at hp
        by_cases hpt : p = task
        · subst hpt
          have hlt : p < c.tasks.length := (List.getElem?_eq_some_iff.mp ht0).1
          rw [List.getElem?_set_self hlt] at hp
          simp only [Option.some.injEq] at hp
          subst hp
          obtain ⟨-, -, c3, -⟩ := h5 p t0 ht0
          have hu := c3 hth
          refine ⟨fun hle => by have hle2 : c.popped.length ≤ p := hle; omega, fun _ hne => ?_, fun hth2 => by simp at hth2,
            fun _ => ⟨hu.1, rfl⟩⟩
          simp [DispatchPc.current] at hne
        · rw [List.getElem?_set_ne (Ne.symm hpt)] at hp
          obtain ⟨a, b, -, -⟩ := h5 p t hp
          refine ⟨a, fun hlt _ => b hlt ?_, fun hth2 => by simp at hth2, fun hth2 => ?_⟩
          · simp [hth, DispatchPc.current]
            exact fun e => hpt e.symm
          · simp only [DispatchPc.computed.injEq] at hth2
            exact absurd hth2.symm hpt
    · simp at ht
  · simp at ht

theorem callerInv_complete (model : Tensor → Tensor → Tensor) (c c1 : ModBaseCaller)
    (h : CallerInv model c) (ht : c.complete = some c1) : CallerInv model c1 := by
  obtain ⟨h1, h2, h3, h4, h5⟩ := h
  unfold ModBaseCaller.complete at ht
  split at ht
  · rename_i task hth
    split at ht
    · rename_i t0 ht0
      simp only [Option.some.injEq] at ht
      subst ht
      have hk := h4 task (by simp [hth, DispatchPc.current])
      refine ⟨h1, h2, by simpa using h3, ?_, ?_⟩
      · intro p hp
        simp [DispatchPc.current] at hp
      · intro p t hp
        simp only at hp
        by_cases hpt : p = task
        · subst hpt
          have hlt : p < c.tasks.length := (List.getElem?_eq_some_iff.mp ht0).1
          rw [List.getElem?_set_self hlt] at hp
          simp only [Option.some.injEq] at hp
          subst hp
          obtain ⟨-, -, -, c4⟩ := h5 p t0 ht0
          have hu := c4 hth
          refine ⟨fun hle => by have hle2 : c.popped.length ≤ p := hle; omega, fun _ _ => ⟨rfl, hu.2⟩, fun hth2 => by simp at hth2,
            fun hth2 => by simp at hth2⟩
        · rw [List.getElem?_set_ne (Ne.symm hpt)] at hp
          obtain ⟨a, b, -, -⟩ := h5 p t hp
          refine ⟨a, fun hlt _ => b hlt ?_, fun hth2 => by simp at hth2,
            fun hth2 => by simp at hth2⟩
          simp [hth, DispatchPc.current]
          exact fun e => hpt e.symm
    · simp at ht
  · simp at ht

theorem callerInv_step (model : Tensor → Tensor → Tensor) (c : ModBaseCaller) (a : CallerAction)
    (c1 : ModBaseCaller) (h : CallerInv model c) (hs : ModBaseCaller.step model c a = some c1) :
    CallerInv model c1 := by
  cases a with
  | submit sigs seqs n =>
    simp only [ModBaseCaller.step, Option.some.injEq] at hs
    subst hs
    exact callerInv_submit model c sigs seqs n h
  | terminate =>
    simp only [ModBaseCaller.step, Option.some.injEq] at hs
    subst hs
    exact h
  | take => exact callerInv_take model c c1 h hs
  | forward => exact callerInv_forward model c c1 h hs
  | complete => exact callerInv_complete model c c1 h hs

theorem callerInv_run (model : Tensor → Tensor → Tensor) (acts : List CallerAction)
    (c : ModBaseCaller)
    (h : runActions (ModBaseCaller.step model) ModBaseCaller.init acts = some c) :
    CallerInv model c :=
  runActions_invariant (ModBaseCaller.step model) (CallerInv model) (callerInv_step model) acts
    _ c (callerInv_init model) h
theorem runActions_invariant_of {σ α : Type} (step : σ → α → Option σ) (P : σ → Prop)
    (Q : α → Prop) (hstep : ∀ s a t, Q a → P s → step s a = some t → P t) :
    ∀ (acts : List α) (s t : σ), (∀ a ∈ acts, Q a) → P s → runActions step s acts = some t → P t := by
  intro acts
  induction acts with
  | nil =>
    intro s t _ hs h
    simp [runActions] at h
    exact h ▸ hs
  | cons a rest ih =>
    intro s t hq hs h
    simp only [runActions] at h
    cases hsa : step s a with
    | none => simp [hsa] at h
    | some s1 =>
      rw [hsa] at h
      exact ih s1 t (fun b hb => hq b (List.mem_cons_of_mem _ hb))
        (hstep s a s1 (hq a (List.mem_cons_self _ _)) hs hsa) h

theorem map_inputs_set (tasks : List ModBaseTask) (p : Nat) (t0 t1 : ModBaseTask)
    (h0 : tasks[p]? = some t0) (h1 : t1.inputs = t0.inputs) :
    (tasks.set p t1).map ModBaseTask.inputs = tasks.map ModBaseTask.inputs := by
  apply List.ext_getElem?
  intro i
  rw [List.getElem?_map, List.getElem?_map]
  by_cases hi : p = i
  · subst hi
    have hlt : p < tasks.length := (List.getElem?_eq_some_iff.mp h0).1
    rw [List.getElem?_set_self hlt, h0]
    simp [h1]
  · rw [List.getElem?_set_ne hi]

theorem step_inputs (model : Tensor → Tensor → Tensor) (c : ModBaseCaller) (a : CallerAction)
    (c1 : ModBaseCaller) (hs : ModBaseCaller.step model c a = some c1) :
    c1.tasks.map ModBaseTask.inputs = c.tasks.map ModBaseTask.inputs ++ submittedInputs [a] := by
  cases a with
  | submit sigs seqs n =>
    simp only [ModBaseCaller.step, Option.some.injEq] at hs
    subst hs
    simp [ModBaseCaller.call_chunks, submittedInputs, ModBaseTask.inputs]
  | terminate =>
    simp only [ModBaseCaller.step, Option.some.injEq] at hs
    subst hs
    simp [submittedInputs]
  | take =>
    simp only [ModBaseCaller.step, ModBaseCaller.take] at hs
    split at hs
    · split at hs
      · split at hs <;>
        · simp only [Option.some.injEq] at hs
          subst hs
          simp [submittedInputs]
      · simp only [Option.some.injEq] at hs
        subst hs
        simp [submittedInputs]
    · simp at hs
  | forward =>
    simp only [ModBaseCaller.step, ModBaseCaller.forward] at hs
    split at hs
    · split at hs
      · rename_i t0 ht0
        simp only [Option.some.injEq] at hs
        subst hs
        simp only [submittedInputs, List.append_nil]
        exact map_inputs_set _ _ t0 _ ht0 rfl
      · simp at hs
    · simp at hs
  | complete =>
    simp only [ModBaseCaller.step, ModBaseCaller.complete] at hs
    split at hs
    · split at hs
      · rename_i t0 ht0
        simp only [Option.some.injEq] at hs
        subst hs
        simp only [submittedInputs, List.append_nil]
        exact map_inputs_set _ _ t0 _ ht0 rfl
      · simp at hs
    · simp at hs

theorem submittedInputs_cons (a : CallerAction) (rest : List CallerAction) :
    submittedInputs (a :: rest) = submittedInputs [a] ++ submittedInputs rest := by
  cases a <;> simp [submittedInputs]

theorem run_inputs (model : Tensor → Tensor → Tensor) (acts : List CallerAction) :
    ∀ (c c1 : ModBaseCaller), runActions (ModBaseCaller.step model) c acts = some c1 →
      c1.tasks.map ModBaseTask.inputs = c.tasks.map ModBaseTask.inputs ++ submittedInputs acts := by
  induction acts with
  | nil =>
    intro c c1 h
    simp only [runActions, Option.some.injEq] at h
    subst h
    simp [submittedInputs]
  | cons a rest ih =>
    intro c c1 h
    simp only [runActions] at h
    cases hsa : ModBaseCaller.step model c a with
    | none => simp [hsa] at h
    | some s1 =>
      rw [hsa] at h
      rw [ih s1 c1 h, step_inputs model c a s1 hsa, submittedInputs_cons a rest, List.append_assoc]

theorem submittedInputs_of_no_submit (acts : List CallerAction)
    (h : ∀ a ∈ acts, a.isSubmit = false) : submittedInputs acts = [] := by
  induction acts with
  | nil => rfl
  | cons a rest ih =>
    rw [submittedInputs_cons, ih (fun b hb => h b (List.mem_cons_of_mem _ hb))]
    have := h a (List.mem_cons_self _ _)
    cases a <;> simp_all [submittedInputs, CallerAction.isSubmit]
theorem take_progress (model : Tensor → Tensor → Tensor) (c : ModBaseCaller) (n : Nat)
    (h : CallerInv model c) (hw : c.thread = DispatchPc.waiting)
    (hn : c.input_queue.length = n + 1) :
    ∃ c1, c.take = some c1 ∧ c1.thread = DispatchPc.holding c.popped.length ∧
      c1.input_queue.length = n ∧ c1.m_terminate = c.m_terminate := by
  rcases callerInv_queue_cases model c h with ⟨he, -⟩ | ⟨m, hm, -, hlast, hdrop⟩
  · rw [he] at hn
    simp at hn
  · have e : c.take = some
        { c with
          input_queue := c.input_queue.dropLast
          thread := DispatchPc.holding c.popped.length
          popped := c.popped ++ [c.popped.length] } := by
      unfold ModBaseCaller.take
      rw [if_pos hw, hlast]
    refine ⟨_, e, rfl, ?_, rfl⟩
    show c.input_queue.dropLast.length = n
    rw [hdrop]
    simp
    omega

theorem forward_progress (model : Tensor → Tensor → Tensor) (c : ModBaseCaller) (p : Nat)
    (h : CallerInv model c) (hw : c.thread = DispatchPc.holding p) :
    ∃ c1, c.forward model = some c1 ∧ c1.thread = DispatchPc.computed p ∧
      c1.input_queue = c.input_queue ∧ c1.m_terminate = c.m_terminate := by
  obtain ⟨-, -, h3, h4, -⟩ := h
  have hk := h4 p (by simp [hw, DispatchPc.current])
  have hlt : p < c.tasks.length := by omega
  have e : c.forward model = some
      { c with
        tasks := c.tasks.set p { c.tasks[p] with out := model c.tasks[p].input_sigs c.tasks[p].input_seqs }
        thread := DispatchPc.computed p } := by
    unfold ModBaseCaller.forward
    rw [hw]
    simp only [List.getElem?_eq_getElem hlt]
  exact ⟨_, e, rfl, rfl, rfl⟩

theorem complete_progress (model : Tensor → Tensor → Tensor) (c : ModBaseCaller) (p : Nat)
    (h : CallerInv model c) (hw : c.thread = DispatchPc.computed p) :
    ∃ c1, c.complete = some c1 ∧ c1.thread = DispatchPc.waiting ∧
      c1.input_queue = c.input_queue ∧ c1.m_terminate = c.m_terminate := by
  obtain ⟨-, -, h3, h4, -⟩ := h
  have hk := h4 p (by simp [hw, DispatchPc.current])
  have hlt : p < c.tasks.length := by omega
  have e : c.complete = some
      { c with
        tasks := c.tasks.set p { c.tasks[p] with done := true }
        thread := DispatchPc.waiting
        m_num_batches_called := c.m_num_batches_called + 1 } := by
    unfold ModBaseCaller.complete
    rw [hw]
    simp only [List.getElem?_eq_getElem hlt]
  exact ⟨_, e, rfl, rfl, rfl⟩

theorem finish_progress (model : Tensor → Tensor → Tensor) (c : ModBaseCaller)
    (h : CallerInv model c) (hw : c.thread ≠ DispatchPc.exited) :
    ∃ c1, runActions (ModBaseCaller.step model) c c.thread.finishActions = some c1 ∧
      CallerInv model c1 ∧ c1.thread = DispatchPc.waiting ∧
      c1.input_queue = c.input_queue ∧ c1.m_terminate = c.m_terminate := by
  cases hth : c.thread with
  | waiting => exact ⟨c, by simp [DispatchPc.finishActions, runActions], h, hth, rfl, rfl⟩
  | exited => exact absurd hth hw
  | holding p =>
    obtain ⟨c1, e1, t1, q1, m1⟩ := forward_progress model c p h hth
    have i1 := callerInv_forward model c c1 h e1
    obtain ⟨c2, e2, t2, q2, m2⟩ := complete_progress model c1 p i1 t1
    refine ⟨c2, ?_, callerInv_complete model c1 c2 i1 e2, t2, q2.trans q1, m2.trans m1⟩
    simp [DispatchPc.finishActions, runActions, ModBaseCaller.step, e1, e2]
  | computed p =>
    obtain ⟨c2, e2, t2, q2, m2⟩ := complete_progress model c p h hth
    refine ⟨c2, ?_, callerInv_complete model c c2 h e2, t2, q2, m2⟩
    simp [DispatchPc.finishActions, runActions, ModBaseCaller.step, e2]

theorem serve_progress (model : Tensor → Tensor → Tensor) (n : Nat) :
    ∀ c : ModBaseCaller, CallerInv model c → c.thread = DispatchPc.waiting →
      c.input_queue.length = n →
      ∃ c1, runActions (ModBaseCaller.step model) c (serveActions n) = some c1 ∧
        CallerInv model c1 ∧ c1.thread = DispatchPc.waiting ∧ c1.input_queue = [] ∧
        c1.m_terminate = c.m_terminate := by
  induction n with
  | zero =>
    intro c h hw hn
    exact ⟨c, by simp [serveActions, runActions], h, hw, List.length_eq_zero.mp hn, rfl⟩
  | succ n ih =>
    intro c h hw hn
    obtain ⟨c1, e1, t1, q1, m1⟩ := take_progress model c n h hw hn
    have i1 := callerInv_take model c c1 h e1
    obtain ⟨c2, e2, t2, q2, m2⟩ := forward_progress model c1 _ i1 t1
    have i2 := callerInv_forward model c1 c2 i1 e2
    obtain ⟨c3, e3, t3, q3, m3⟩ := complete_progress model c2 _ i2 t2
    have i3 := callerInv_complete model c2 c3 i2 e3
    obtain ⟨c4, e4, i4, t4, q4, m4⟩ := ih c3 i3 t3 (by rw [q3, q2, q1])
    refine ⟨c4, ?_, i4, t4, q4, by rw [m4, m3, m2, m1]⟩
    simp [serveActions, runActions, ModBaseCaller.step, e1, e2, e3, e4]

theorem finishActions_isDispatch (pc : DispatchPc) : ∀ a ∈ pc.finishActions, a.isDispatch = true := by
  cases pc <;> simp [DispatchPc.finishActions, CallerAction.isDispatch]

theorem serveActions_isDispatch (n : Nat) : ∀ a ∈ serveActions n, a.isDispatch = true := by
  induction n with
  | zero => simp [serveActions]
  | succ n ih =>
    intro a ha
    simp only [serveActions, List.mem_cons] at ha
    rcases ha with rfl | rfl | rfl | ha
    · rfl
    · rfl
    · rfl
    · exact ih a ha

theorem isSubmit_of_isDispatch (a : CallerAction) (h : a.isDispatch = true) : a.isSubmit = false := by
  cases a <;> simp_all [CallerAction.isDispatch, CallerAction.isSubmit]

/-- From every state in which the dispatch thread has not returned, the steps of
the dispatch thread alone empty the deque. -/
theorem drain_progress (model : Tensor → Tensor → Tensor) (c : ModBaseCaller)
    (h : CallerInv model c) (hw : c.thread ≠ DispatchPc.exited) :
    ∃ c1, runActions (ModBaseCaller.step model) c
        (c.thread.finishActions ++ serveActions c.input_queue.length) = some c1 ∧
      CallerInv model c1 ∧ c1.thread = DispatchPc.waiting ∧ c1.input_queue = [] ∧
      c1.m_terminate = c.m_terminate ∧
      c1.tasks.map ModBaseTask.inputs = c.tasks.map ModBaseTask.inputs := by
  obtain ⟨c1, e1, i1, t1, q1, m1⟩ := finish_progress model c h hw
  obtain ⟨c2, e2, i2, t2, q2, m2⟩ := serve_progress model _ c1 i1 t1 (by rw [q1])
  have hrun : runActions (ModBaseCaller.step model) c
      (c.thread.finishActions ++ serveActions c.input_queue.length) = some c2 := by
    rw [runActions_append, e1]
    exact e2
  refine ⟨c2, hrun, i2, t2, q2, m2.trans m1, ?_⟩
  rw [run_inputs model _ c c2 hrun, submittedInputs_of_no_submit, List.append_nil]
  intro a ha
  apply isSubmit_of_isDispatch
  rcases List.mem_append.mp ha with ha | ha
  · exact finishActions_isDispatch _ a ha
  · exact serveActions_isDispatch _ a ha

/-- In a state with an empty deque and the dispatch thread at the top of its
loop every task has been taken and finished. -/
theorem callerInv_drained (model : Tensor → Tensor → Tensor) (c : ModBaseCaller)
    (h : CallerInv model c) (hw : c.thread.current = none) (hq : c.input_queue = []) :
    c.popped = List.range c.tasks.length ∧
      ∀ (p : Nat) (t : ModBaseTask), c.tasks[p]? = some t → t.finished model := by
  obtain ⟨h1, -, h3, -, h5⟩ := h
  rw [hq] at h3
  simp only [List.length_nil, Nat.add_zero] at h3
  refine ⟨by rw [h3]; exact h1, fun p t hp => ?_⟩
  have hlt : p < c.tasks.length := (List.getElem?_eq_some_iff.mp hp).1
  exact (h5 p t hp).2.1 (by omega) (by rw [hw]; simp)

theorem batchesInv_step (model : Tensor → Tensor → Tensor) (c : ModBaseCaller) (a : CallerAction)
    (c1 : ModBaseCaller) (h : BatchesInv c) (hs : ModBaseCaller.step model c a = some c1) :
    BatchesInv c1 := by
  unfold BatchesInv at h ⊢
  cases a with
  | submit sigs seqs n =>
    simp only [ModBaseCaller.step, Option.some.injEq] at hs
    subst hs
    exact h
  | terminate =>
    simp only [ModBaseCaller.step, Option.some.injEq] at hs
    subst hs
    exact h
  | take =>
    simp only [ModBaseCaller.step, ModBaseCaller.take] at hs
    split at hs
    · rename_i hw
      rw [hw] at h
      split at hs
      · split at hs <;>
        · simp only [Option.some.injEq] at hs
          subst hs
          simpa [DispatchPc.current, hw] using h
      · simp only [Option.some.injEq] at hs
        subst hs
        simp [DispatchPc.current] at h ⊢
        omega
    · simp at hs
  | forward =>
    simp only [ModBaseCaller.step, ModBaseCaller.forward] at hs
    split at hs
    · rename_i task hth
      rw [hth] at h
      split at hs
      · simp only [Option.some.injEq] at hs
        subst hs
        simpa [DispatchPc.current] using h
      · simp at hs
    · simp at hs
  | complete =>
    simp only [ModBaseCaller.step, ModBaseCaller.complete] at hs
    split at hs
    · rename_i task hth
      rw [hth] at h
      split at hs
      · simp only [Option.some.injEq] at hs
        subst hs
        simp [DispatchPc.current] at h ⊢
        omega
      · simp at hs
    · simp at hs

theorem batchesInv_run (model : Tensor → Tensor → Tensor) (acts : List CallerAction)
    (c : ModBaseCaller)
    (h : runActions (ModBaseCaller.step model) ModBaseCaller.init acts = some c) :
    BatchesInv c :=
  runActions_invariant (ModBaseCaller.step model) BatchesInv (batchesInv_step model) acts
    _ c (by simp [BatchesInv, ModBaseCaller.init, DispatchPc.current]) h
theorem exitInv_step (model : Tensor → Tensor → Tensor) (c : ModBaseCaller) (a : CallerAction)
    (c1 : ModBaseCaller) (ha : a.isSubmit = false) (h : ExitInv c)
    (hs : ModBaseCaller.step model c a = some c1) : ExitInv c1 := by
  unfold ExitInv at h ⊢
  cases a with
  | submit sigs seqs n => simp [CallerAction.isSubmit] at ha
  | terminate =>
    simp only [ModBaseCaller.step, Option.some.injEq] at hs
    subst hs
    exact h
  | take =>
    simp only [ModBaseCaller.step, ModBaseCaller.take] at hs
    split at hs
    · split at hs
      · rename_i hnone
        have hq : c.input_queue = [] := List.getLast?_eq_none_iff.mp hnone
        split at hs <;>
        · simp only [Option.some.injEq] at hs
          subst hs
          exact fun _ => hq
      · simp only [Option.some.injEq] at hs
        subst hs
        intro hth
        simp at hth
    · simp at hs
  | forward =>
    simp only [ModBaseCaller.step, ModBaseCaller.forward] at hs
    split at hs
    · split at hs
      · simp only [Option.some.injEq] at hs
        subst hs
        intro hth
        simp at hth
      · simp at hs
    · simp at hs
  | complete =>
    simp only [ModBaseCaller.step, ModBaseCaller.complete] at hs
    split at hs
    · split at hs
      · simp only [Option.some.injEq] at hs
        subst hs
        intro hth
        simp at hth
      · simp at hs
    · simp at hs

/-- A step changes the `out` slot of a task only when it is the forward pass on
the task the dispatch thread holds. -/
theorem step_out_changed (model : Tensor → Tensor → Tensor) (c : ModBaseCaller) (a : CallerAction)
    (c1 : ModBaseCaller) (hs : ModBaseCaller.step model c a = some c1) (p : Nat)
    (t t1 : ModBaseTask) (hp : c.tasks[p]? = some t) (hp1 : c1.tasks[p]? = some t1)
    (hne : t1.out ≠ t.out) : c.thread = DispatchPc.holding p := by
  have hlt : p < c.tasks.length := (List.getElem?_eq_some_iff.mp hp).1
  cases a with
  | submit sigs seqs n =>
    simp only [ModBaseCaller.step, Option.some.injEq] at hs
    subst hs
    simp only [ModBaseCaller.call_chunks] at hp1
    rw [List.getElem?_append_left hlt, hp] at hp1
    simp only [Option.some.injEq] at hp1
    subst hp1
    exact absurd rfl hne
  | terminate =>
    simp only [ModBaseCaller.step, Option.some.injEq] at hs
    subst hs
    rw [hp] at hp1
    simp only [Option.some.injEq] at hp1
    subst hp1
    exact absurd rfl hne
  | take =>
    simp only [ModBaseCaller.step, ModBaseCaller.take] at hs
    have ht : c1.tasks = c.tasks := by
      split at hs
      · split at hs
        · split at hs <;>
          · simp only [Option.some.injEq] at hs
            subst hs
            rfl
        · simp only [Option.some.injEq] at hs
          subst hs
          rfl
      · simp at hs
    rw [ht, hp] at hp1
    simp only [Option.some.injEq] at hp1
    subst hp1
    exact absurd rfl hne
  | forward =>
    simp only [ModBaseCaller.step, ModBaseCaller.forward] at hs
    split at hs
    · rename_i task hth
      split at hs
      · simp only [Option.some.injEq] at hs
        subst hs
        by_cases hpt : task = p
        · rw [hth, hpt]
        · simp only at hp1
          rw [List.getElem?_set_ne hpt, hp] at hp1
          simp only [Option.some.injEq] at hp1
          subst hp1
          exact absurd rfl hne
      · simp at hs
    · simp at hs
  | complete =>
    simp only [ModBaseCaller.step, ModBaseCaller.complete] at hs
    split at hs
    · rename_i task hth
      split at hs
      · rename_i t0 ht0
        simp only [Option.some.injEq] at hs
        subst hs
        by_cases hpt : task = p
        · subst hpt
          simp only at hp1
          rw [List.getElem?_set_self hlt] at hp1
          rw [hp] at ht0
          simp only [Option.some.injEq] at hp1 ht0
          subst hp1 ht0
          exact absurd rfl hne
        · simp only at hp1
          rw [List.getElem?_set_ne hpt, hp] at hp1
          simp only [Option.some.injEq] at hp1
          subst hp1
          exact absurd rfl hne
      · simp at hs
    · simp at hs

/-- In every state a task that is done holds the output of the model on its own
inputs. -/
theorem callerInv_done (model : Tensor → Tensor → Tensor) (c : ModBaseCaller)
    (h : CallerInv model c) (p : Nat) (t : ModBaseTask) (hp : c.tasks[p]? = some t)
    (hd : t.done = true) : t.out = model t.input_sigs t.input_seqs := by
  obtain ⟨-, -, -, h4, h5⟩ := h
  obtain ⟨a, b, c3, c4⟩ := h5 p t hp
  by_cases hlt : p < c.popped.length
  · by_cases hcur : c.thread.current = some p
    · cases hth : c.thread with
      | waiting => simp [hth, DispatchPc.current] at hcur
      | exited => simp [hth, DispatchPc.current] at hcur
      | holding q =>
        simp only [hth, DispatchPc.current, Option.some.injEq] at hcur
        subst hcur
        have := (c3 hth).1
        rw [hd] at this
        exact absurd this (by simp)
      | computed q =>
        simp only [hth, DispatchPc.current, Option.some.injEq] at hcur
        subst hcur
        exact (c4 hth).2
    · exact (b hlt hcur).2
  · have := (a (by omega)).1
    rw [hd] at this
    exact absurd this (by simp)

/-- The tasks in the deque are later than every task taken off it. -/
theorem callerInv_popped_lt_queue (model : Tensor → Tensor → Tensor) (c : ModBaseCaller)
    (h : CallerInv model c) (p q : Nat) (hp : p ∈ c.input_queue) (hq : q ∈ c.popped) : q < p := by
  obtain ⟨h1, h2, -⟩ := h
  rw [h1, List.mem_range] at hq
  rw [h2, List.mem_reverse, List.mem_range'_1] at hp
  omega

/-- When every task is finished each caller gets the output of the model on the
inputs it submitted. -/
theorem call_result_of_finished (model : Tensor → Tensor → Tensor) (c : ModBaseCaller)
    (inputs : List (Tensor × Tensor)) (hi : c.tasks.map ModBaseTask.inputs = inputs)
    (hf : ∀ (p : Nat) (t : ModBaseTask), c.tasks[p]? = some t → t.finished model)
    (p : Nat) (x : Tensor × Tensor) (hx : inputs[p]? = some x) :
    c.call_result p = some (model x.1 x.2) := by
  rw [← hi, List.getElem?_map] at hx
  cases ht : c.tasks[p]? with
  | none => simp [ht] at hx
  | some t =>
    rw [ht] at hx
    simp only [Option.map_some', Option.some.injEq] at hx
    subst hx
    obtain ⟨hd, ho⟩ := hf p t ht
    simp [ModBaseCaller.call_result, ht, hd, ho, ModBaseTask.inputs]

/-! ## ModBaseCaller: round trip and service order -/

/-- Claim C5: in every state reached by submissions through `call_chunks`, steps
of the dispatch thread and settings of the termination flag, the tasks are the
submitted ones in order; no task has been taken off the deque twice; a task that
is done holds in its `out` slot the model applied to its own inputs, so a caller
that returns gets the model's output for the inputs it submitted; a step changes
the `out` slot of a task only if the dispatch thread holds that very task; and,
as long as the dispatch thread has not returned, its steps alone lead to a state
where the deque is empty, each of the `K` tasks has been taken off it exactly
once, `K` batches have been counted and each caller gets the model's output for
its own inputs. -/
theorem call_chunks_round_trip (model : Tensor → Tensor → Tensor) (acts : List CallerAction)
    (c : ModBaseCaller)
    (hrun : runActions (ModBaseCaller.step model) ModBaseCaller.init acts = some c) :
    c.tasks.map ModBaseTask.inputs = submittedInputs acts ∧
    c.popped.Nodup ∧
    (∀ (p : Nat) (t : ModBaseTask), c.tasks[p]? = some t → t.done = true →
      t.out = model t.input_sigs t.input_seqs) ∧
    (∀ (p : Nat) (out : Tensor), c.call_result p = some out →
      ∃ x, (submittedInputs acts)[p]? = some x ∧ out = model x.1 x.2) ∧
    (∀ (a : CallerAction) (c1 : ModBaseCaller), ModBaseCaller.step model c a = some c1 →
      ∀ (p : Nat) (t t1 : ModBaseTask), c.tasks[p]? = some t → c1.tasks[p]? = some t1 →
        t1.out ≠ t.out → c.thread = DispatchPc.holding p) ∧
    (c.thread ≠ DispatchPc.exited →
      ∃ ds c1, (∀ a ∈ ds, CallerAction.isDispatch a = true) ∧
        runActions (ModBaseCaller.step model) c ds = some c1 ∧
        c1.input_queue = [] ∧
        c1.popped = List.range (submittedInputs acts).length ∧
        c1.m_num_batches_called = (submittedInputs acts).length ∧
        ∀ (p : Nat) (x : Tensor × Tensor), (submittedInputs acts)[p]? = some x →
          c1.call_result p = some (model x.1 x.2)) := by
  have hinv := callerInv_run model acts c hrun
  have hin : c.tasks.map ModBaseTask.inputs = submittedInputs acts := by
    have := run_inputs model acts _ c hrun
    simpa [ModBaseCaller.init] using this
  refine ⟨hin, ?_, callerInv_done model c hinv, ?_, ?_, ?_⟩
  · rw [hinv.1]
    exact List.nodup_range _
  · intro p out hout
    unfold ModBaseCaller.call_result at hout
    cases ht : c.tasks[p]? with
    | none => simp [ht] at hout
    | some t =>
      rw [ht] at hout
      simp only at hout
      split at hout
      · rename_i hd
        simp only [Option.some.injEq] at hout
        refine ⟨t.inputs, ?_, ?_⟩
        · rw [← hin, List.getElem?_map, ht]
          rfl
        · rw [← hout]
          exact callerInv_done model c hinv p t ht hd
      · simp at hout
  · intro a c1 hs p t t1 hp hp1 hne
    exact step_out_changed model c a c1 hs p t t1 hp hp1 hne
  · intro hth
    obtain ⟨c1, e1, i1, t1, q1, -, n1⟩ := drain_progress model c hinv hth
    have hin1 : c1.tasks.map ModBaseTask.inputs = submittedInputs acts := n1.trans hin
    have hcur : c1.thread.current = none := by rw [t1]; rfl
    obtain ⟨hpop, hfin⟩ := callerInv_drained model c1 i1 hcur q1
    have hlen : c1.tasks.length = (submittedInputs acts).length := by
      rw [← hin1, List.length_map]
    have hall : runActions (ModBaseCaller.step model) ModBaseCaller.init
        (acts ++ (c.thread.finishActions ++ serveActions c.input_queue.length)) = some c1 := by
      rw [runActions_append, hrun]
      exact e1
    have hb := batchesInv_run model _ c1 hall
    unfold BatchesInv at hb
    rw [hcur, if_pos rfl, hpop, List.length_range, hlen] at hb
    refine ⟨_, c1, ?_, e1, q1, by rw [hpop, hlen], hb, ?_⟩
    · intro a ha
      rcases List.mem_append.mp ha with ha | ha
      · exact finishActions_isDispatch _ a ha
      · exact serveActions_isDispatch _ a ha
    · exact call_result_of_finished model c1 _ hin1 hfin

/-- Claim C6: in every reachable state, `call_chunks` puts the new task, whose
number is the count of earlier submissions, at the front of the deque, and the
task the dispatch thread takes is the one at the back, which was submitted
before every other task in the deque. -/
theorem dispatch_oldest_first (model : Tensor → Tensor → Tensor) (acts : List CallerAction)
    (c : ModBaseCaller)
    (hrun : runActions (ModBaseCaller.step model) ModBaseCaller.init acts = some c) :
    c.tasks.length = (submittedInputs acts).length ∧
    (∀ (input_sigs input_seqs : Tensor) (num_chunks : Int),
      (c.call_chunks input_sigs input_seqs num_chunks).input_queue =
        c.tasks.length :: c.input_queue) ∧
    (∀ (c1 : ModBaseCaller) (task : Nat), c.take = some c1 →
      c1.thread = DispatchPc.holding task →
      c.input_queue = c1.input_queue ++ [task] ∧ ∀ q ∈ c.input_queue, task ≤ q) := by
  have hinv := callerInv_run model acts c hrun
  refine ⟨?_, fun _ _ _ => rfl, ?_⟩
  · have := run_inputs model acts _ c hrun
    simp only [ModBaseCaller.init, List.map_nil, List.nil_append] at this
    rw [← this, List.length_map]
  · intro c1 task htake hth
    rcases callerInv_queue_cases model c hinv with ⟨-, hnone⟩ | ⟨m, -, hq, hlast, hdrop⟩
    · unfold ModBaseCaller.take at htake
      rw [hnone] at htake
      by_cases hw : c.thread = DispatchPc.waiting
      · rw [if_pos hw] at htake
        simp only at htake
        split at htake <;>
        · simp only [Option.some.injEq] at htake
          subst htake
          simp [hw] at hth
      · rw [if_neg hw] at htake
        simp at htake
    · unfold ModBaseCaller.take at htake
      rw [hlast] at htake
      by_cases hw : c.thread = DispatchPc.waiting
      · rw [if_pos hw] at htake
        simp only [Option.some.injEq] at htake
        subst htake
        simp only [DispatchPc.holding.injEq] at hth
        subst hth
        refine ⟨?_, ?_⟩
        · show c.input_queue = c.input_queue.dropLast ++ [c.popped.length]
          rw [hdrop]
          exact hq
        · intro q hq1
          rw [hinv.2.1, List.mem_reverse, List.mem_range'_1] at hq1
          exact hq1.1
      · rw [if_neg hw] at htake
        simp at htake

/-- Claim C7 as stated fails: in no reachable state has a task been taken off
the deque while a task submitted before it is still waiting there. -/
theorem no_later_task_dispatched_first :
    ¬ ∃ (model : Tensor → Tensor → Tensor) (acts : List CallerAction) (c : ModBaseCaller)
        (earlier later : Nat),
      runActions (ModBaseCaller.step model) ModBaseCaller.init acts = some c ∧
        earlier < later ∧ earlier ∈ c.input_queue ∧ later ∈ c.popped := by
  rintro ⟨model, acts, c, earlier, later, hrun, hlt, hq, hp⟩
  have := callerInv_popped_lt_queue model c (callerInv_run model acts c hrun) earlier later hq hp
  omega

/-- Claim C7 (as the code has it): the service order of one model is strict
first-in first-out: in every reachable state the tasks taken off the deque are,
in the order of their removal, the first tasks submitted, and every task still
in the deque was submitted after all of them. -/
theorem dispatch_order_fifo (model : Tensor → Tensor → Tensor) (acts : List CallerAction)
    (c : ModBaseCaller)
    (hrun : runActions (ModBaseCaller.step model) ModBaseCaller.init acts = some c) :
    c.popped = List.range c.popped.length ∧
      ∀ p ∈ c.input_queue, ∀ q ∈ c.popped, q < p := by
  have hinv := callerInv_run model acts c hrun
  exact ⟨hinv.1, fun p hp q hq => callerInv_popped_lt_queue model c hinv p q hp hq⟩
/-- Witness for `call_chunks_round_trip`: two submissions, the first of them
taken by the dispatch thread. -/
theorem call_chunks_round_trip_witness :
    ∃ c, runActions (ModBaseCaller.step exampleModel) ModBaseCaller.init exampleSubmissions =
        some c ∧
      c.thread ≠ DispatchPc.exited ∧
      ∃ ds c1, (∀ a ∈ ds, CallerAction.isDispatch a = true) ∧
        runActions (ModBaseCaller.step exampleModel) c ds = some c1 ∧
        c1.input_queue = [] ∧
        c1.popped = List.range (submittedInputs exampleSubmissions).length ∧
        c1.m_num_batches_called = (submittedInputs exampleSubmissions).length ∧
        ∀ (p : Nat) (x : Tensor × Tensor), (submittedInputs exampleSubmissions)[p]? = some x →
          c1.call_result p = some (exampleModel x.1 x.2) :=
  ⟨_, rfl, by decide,
    (call_chunks_round_trip exampleModel exampleSubmissions _ rfl).2.2.2.2.2 (by decide)⟩

/-- Witness for `dispatch_oldest_first`: after two submissions the dispatch
thread takes task 0 and leaves task 1 in the deque. -/
theorem dispatch_oldest_first_witness :
    ∃ c c1, runActions (ModBaseCaller.step exampleModel) ModBaseCaller.init
        (exampleSubmissions.take 2) = some c ∧
      c.take = some c1 ∧ c1.thread = DispatchPc.holding 0 ∧
      c.input_queue = c1.input_queue ++ [0] ∧ ∀ q ∈ c.input_queue, 0 ≤ q :=
  ⟨_, _, rfl, rfl, rfl,
    (dispatch_oldest_first exampleModel (exampleSubmissions.take 2) _ rfl).2.2 _ 0 rfl rfl⟩

/-- Witness for `dispatch_order_fifo`: two submissions, the first of them taken. -/
theorem dispatch_order_fifo_witness :
    ∃ c, runActions (ModBaseCaller.step exampleModel) ModBaseCaller.init exampleSubmissions =
        some c ∧
      c.popped = List.range c.popped.length ∧ ∀ p ∈ c.input_queue, ∀ q ∈ c.popped, q < p :=
  ⟨_, rfl, dispatch_order_fifo exampleModel exampleSubmissions _ rfl⟩

/-! ## ModBaseCaller: termination -/

/-- Claim C8 as stated fails: when the termination flag is set with tasks in the
deque and the dispatch thread still running, and nothing is submitted
afterwards, the dispatch thread does not return before each of these tasks is
done. -/
theorem no_queued_task_left_at_exit :
    ¬ ∃ (model : Tensor → Tensor → Tensor) (acts1 acts2 : List CallerAction)
        (c1 c2 : ModBaseCaller) (p : Nat),
      runActions (ModBaseCaller.step model) ModBaseCaller.init acts1 = some c1 ∧
        c1.m_terminate = true ∧ c1.thread ≠ DispatchPc.exited ∧ p ∈ c1.input_queue ∧
        (∀ a ∈ acts2, CallerAction.isSubmit a = false) ∧
        runActions (ModBaseCaller.step model) c1 acts2 = some c2 ∧
        c2.thread = DispatchPc.exited ∧ c2.call_result p = none := by
  rintro ⟨model, acts1, acts2, c1, c2, p, hrun1, -, hth1, hp, hns, hrun2, hth2, hres⟩
  have hinv1 := callerInv_run model acts1 c1 hrun1
  have hinv2 : CallerInv model c2 :=
    runActions_invariant (ModBaseCaller.step model) (CallerInv model) (callerInv_step model)
      acts2 c1 c2 hinv1 hrun2
  have hexit : ExitInv c2 :=
    runActions_invariant_of (ModBaseCaller.step model) ExitInv
      (fun a => CallerAction.isSubmit a = false)
      (fun s a t ha hs hstep => exitInv_step model s a t ha hs hstep) acts2 c1 c2 hns
      (fun h => absurd h hth1) hrun2
  have hcur : c2.thread.current = none := by rw [hth2]; rfl
  obtain ⟨-, hfin⟩ := callerInv_drained model c2 hinv2 hcur (hexit hth2)
  have hin := run_inputs model acts2 c1 c2 hrun2
  rw [submittedInputs_of_no_submit acts2 hns, List.append_nil] at hin
  have hlt : p < c1.tasks.length := by
    obtain ⟨-, h2, h3, -⟩ := hinv1
    rw [h2, List.mem_reverse, List.mem_range'_1] at hp
    omega
  have hlt2 : p < c2.tasks.length := by
    have := congrArg List.length hin
    simp only [List.length_map] at this
    omega
  have hd := hfin p c2.tasks[p] (List.getElem?_eq_getElem hlt2)
  simp [ModBaseCaller.call_result, List.getElem?_eq_getElem hlt2, hd.1] at hres

/-- Claim C8 (as the code has it): the dispatch thread returns only with an
empty deque.  From a reachable state in which it has not returned, if nothing is
submitted afterwards, then in every later state in which it has returned the
deque is empty and every task submitted, the queued ones included, has been
served: its caller gets the model's output for its inputs.  And once the
termination flag is set the steps of the dispatch thread alone lead to its
return. -/
theorem terminate_drains_queue (model : Tensor → Tensor → Tensor) (acts1 : List CallerAction)
    (c1 : ModBaseCaller)
    (hrun : runActions (ModBaseCaller.step model) ModBaseCaller.init acts1 = some c1)
    (hth : c1.thread ≠ DispatchPc.exited) :
    (∀ (acts2 : List CallerAction) (c2 : ModBaseCaller),
      (∀ a ∈ acts2, CallerAction.isSubmit a = false) →
      runActions (ModBaseCaller.step model) c1 acts2 = some c2 →
      c2.thread = DispatchPc.exited →
      c2.input_queue = [] ∧
        ∀ (p : Nat) (x : Tensor × Tensor), (submittedInputs acts1)[p]? = some x →
          c2.call_result p = some (model x.1 x.2)) ∧
    (c1.m_terminate = true →
      ∃ ds c2, (∀ a ∈ ds, CallerAction.isDispatch a = true) ∧
        runActions (ModBaseCaller.step model) c1 ds = some c2 ∧
        c2.thread = DispatchPc.exited) := by
  have hinv1 := callerInv_run model acts1 c1 hrun
  have hin1 : c1.tasks.map ModBaseTask.inputs = submittedInputs acts1 := by
    have := run_inputs model acts1 _ c1 hrun
    simpa [ModBaseCaller.init] using this
  refine ⟨?_, ?_⟩
  · intro acts2 c2 hns hrun2 hth2
    have hinv2 : CallerInv model c2 :=
      runActions_invariant (ModBaseCaller.step model) (CallerInv model) (callerInv_step model)
        acts2 c1 c2 hinv1 hrun2
    have hexit : ExitInv c2 :=
      runActions_invariant_of (ModBaseCaller.step model) ExitInv
        (fun a => CallerAction.isSubmit a = false)
        (fun s a t ha hs hstep => exitInv_step model s a t ha hs hstep) acts2 c1 c2 hns
        (fun h => absurd h hth) hrun2
    have hcur : c2.thread.current = none := by rw [hth2]; rfl
    obtain ⟨-, hfin⟩ := callerInv_drained model c2 hinv2 hcur (hexit hth2)
    have hin := run_inputs model acts2 c1 c2 hrun2
    rw [submittedInputs_of_no_submit acts2 hns, List.append_nil, hin1] at hin
    exact ⟨hexit hth2, call_result_of_finished model c2 _ hin hfin⟩
  · intro hterm
    obtain ⟨c2, e2, i2, t2, q2, m2, -⟩ := drain_progress model c1 hinv1 hth
    have e3 : ModBaseCaller.step model c2 CallerAction.take =
        some { c2 with thread := DispatchPc.exited } := by
      simp [ModBaseCaller.step, ModBaseCaller.take, t2, q2, m2, hterm]
    refine ⟨(c1.thread.finishActions ++ serveActions c1.input_queue.length) ++ [CallerAction.take],
      { c2 with thread := DispatchPc.exited }, ?_, ?_, rfl⟩
    · intro a ha
      rcases List.mem_append.mp ha with ha | ha
      · rcases List.mem_append.mp ha with ha | ha
        · exact finishActions_isDispatch _ a ha
        · exact serveActions_isDispatch _ a ha
      · simp only [List.mem_singleton] at ha
        subst ha
        rfl
    · rw [runActions_append, e2]
      simp [runActions, e3]

/-- Witness for `terminate_drains_queue`: the flag is set while task 1 waits and
task 0 is held; the dispatch thread then serves both and returns. -/
theorem terminate_drains_queue_witness :
    ∃ c1, runActions (ModBaseCaller.step exampleModel) ModBaseCaller.init exampleSubmissions =
        some c1 ∧
      c1.thread ≠ DispatchPc.exited ∧ c1.m_terminate = true ∧ c1.input_queue = [1] ∧
      ∃ ds c2, (∀ a ∈ ds, CallerAction.isDispatch a = true) ∧
        runActions (ModBaseCaller.step exampleModel) c1 ds = some c2 ∧
        c2.thread = DispatchPc.exited :=
  ⟨_, rfl, by decide, rfl, rfl,
    (terminate_drains_queue exampleModel exampleSubmissions _ rfl (by decide)).2 rfl⟩

/-! ## Messages a node does not interpret -/

theorem sinkLog_run (env : RemoraEnv) (acts : List NodeAction) :
    ∀ (node0 node : ModBaseCallerNode) (processed0 : List ReadPtr),
      SinkLog node0 processed0 →
      runActions (ModBaseCallerNode.step env) node0 acts = some node →
      ∃ processed, processed0 ++ node0.m_reads ++ pushedReads acts = processed ++ node.m_reads ∧
        SinkLog node processed := by
  induction acts with
  | nil =>
    intro node0 node processed0 h0 hrun
    simp only [runActions, Option.some.injEq] at hrun
    subst hrun
    exact ⟨processed0, by simp [pushedReads], h0⟩
  | cons a rest ih =>
    intro node0 node processed0 h0 hrun
    simp only [runActions] at hrun
    cases hsa : ModBaseCallerNode.step env node0 a with
    | none => simp [hsa] at hrun
    | some node1 =>
      rw [hsa] at hrun
      simp only at hrun
      cases a with
      | push_read read =>
        simp only [ModBaseCallerNode.step, Option.some.injEq] at hsa
        subst hsa
        obtain ⟨processed, e, hlog⟩ := ih (node0.push_read read) node processed0 h0 hrun
        refine ⟨processed, ?_, hlog⟩
        rw [← e]
        simp [pushedReads, ModBaseCallerNode.push_read]
      | terminate =>
        simp only [ModBaseCallerNode.step, Option.some.injEq] at hsa
        subst hsa
        obtain ⟨processed, e, hlog⟩ := ih node0.terminate node processed0 h0 hrun
        refine ⟨processed, ?_, hlog⟩
        rw [← e]
        simp [pushedReads, ModBaseCallerNode.terminate]
      | iterate =>
        simp only [ModBaseCallerNode.step, ModBaseCallerNode.worker_iteration] at hsa
        by_cases hst : node0.stopped = true
        · simp [hst] at hsa
        · have hst0 : node0.stopped = false := by simpa using hst
          simp only [hst0, Bool.false_eq_true, if_false] at hsa
          unfold SinkLog at h0
          simp only [hst0, Bool.false_eq_true, if_false, List.append_nil] at h0
          cases hq : node0.m_reads with
          | nil =>
            simp only [hq] at hsa
            by_cases hterm : node0.m_terminate = true
            · simp only [hterm, if_true, Option.some.injEq] at hsa
              subst hsa
              obtain ⟨processed, e, hlog⟩ := ih _ node processed0
                (by simp [SinkLog, h0]) hrun
              refine ⟨processed, ?_, hlog⟩
              rw [← e]
              simp [pushedReads, hq]
            · have hterm0 : node0.m_terminate = false := by simpa using hterm
              simp only [hterm0, Bool.false_eq_true, if_false, Option.some.injEq] at hsa
              subst hsa
              obtain ⟨processed, e, hlog⟩ := ih _ node processed0
                (by simp [SinkLog, h0, hst0]) hrun
              refine ⟨processed, ?_, hlog⟩
              rw [← e]
              simp [pushedReads, hq]
          | cons read tail =>
            simp only [hq] at hsa
            cases hd : node0.heap.deref read with
            | error e => simp [hd] at hsa
            | ok r =>
              simp only [hd, Option.some.injEq] at hsa
              subst hsa
              obtain ⟨processed, e, hlog⟩ := ih _ node (processed0 ++ [read])
                (by simp [SinkLog, h0, hst0]) hrun
              refine ⟨processed, ?_, hlog⟩
              rw [← e]
              simp [pushedReads]

/-- Claim C10: in every state reached from a fresh `ModBaseCallerNode`, the
calls made on the sink are the pushes of a prefix of the reads given to the
node, each once and in the order of the queue, the other reads being those still
in the queue, followed by `terminate()` only once the worker has returned; and a
pass of the worker loop that calls `terminate()` on the sink runs with an empty
queue and the terminate flag set, stops the worker, and comes after the push of
every read given to the node so far. -/
theorem sink_terminate_after_drain (env : RemoraEnv) (heap : Heap) (acts : List NodeAction)
    (node : ModBaseCallerNode)
    (hrun : runActions (ModBaseCallerNode.step env) (ModBaseCallerNode.init heap) acts =
      some node) :
    (∃ processed, pushedReads acts = processed ++ node.m_reads ∧
      node.sink = processed.map SinkCall.push_read ++
        (if node.stopped then [SinkCall.terminate] else [])) ∧
    (∀ node1, ModBaseCallerNode.step env node NodeAction.iterate = some node1 →
      SinkCall.terminate ∈ node1.sink →
      node.m_reads = [] ∧ node.m_terminate = true ∧ node1.stopped = true ∧
        node1.sink = (pushedReads acts).map SinkCall.push_read ++ [SinkCall.terminate]) := by
  obtain ⟨processed, e, hlog⟩ := sinkLog_run env acts (ModBaseCallerNode.init heap) node []
    (by simp [SinkLog, ModBaseCallerNode.init]) hrun
  simp only [ModBaseCallerNode.init, List.nil_append] at e
  refine ⟨⟨processed, e, hlog⟩, ?_⟩
  intro node1 hstep hmem
  simp only [ModBaseCallerNode.step, ModBaseCallerNode.worker_iteration] at hstep
  by_cases hst : node.stopped = true
  · simp [hst] at hstep
  · have hst0 : node.stopped = false := by simpa using hst
    simp only [hst0, Bool.false_eq_true, if_false] at hstep
    unfold SinkLog at hlog
    simp only [hst0, Bool.false_eq_true, if_false, List.append_nil] at hlog
    cases hq : node.m_reads with
    | nil =>
      simp only [hq] at hstep
      rw [hq, List.append_nil] at e
      by_cases hterm : node.m_terminate = true
      · simp only [hterm, if_true, Option.some.injEq] at hstep
        subst hstep
        exact ⟨rfl, hterm, rfl, by simp [hlog, e]⟩
      · have hterm0 : node.m_terminate = false := by simpa using hterm
        simp only [hterm0, Bool.false_eq_true, if_false, Option.some.injEq] at hstep
        subst hstep
        rw [hlog] at hmem
        simp at hmem
    | cons read tail =>
      simp only [hq] at hstep
      cases hd : node.heap.deref read with
      | error e => simp [hd] at hstep
      | ok r =>
        simp only [hd, Option.some.injEq] at hstep
        subst hstep
        simp [hlog] at hmem

/-- Witness for `sink_terminate_after_drain`: one read is given to the node, the
node is terminated, and the worker makes two passes. -/
theorem sink_terminate_after_drain_witness :
    ∃ node node1,
      runActions (ModBaseCallerNode.step exampleRemoraEnv) (ModBaseCallerNode.init ⟨[{}]⟩)
          [NodeAction.push_read 0, NodeAction.terminate, NodeAction.iterate] = some node ∧
        ModBaseCallerNode.step exampleRemoraEnv node NodeAction.iterate = some node1 ∧
        node.m_reads = [] ∧ node.m_terminate = true ∧ node1.stopped = true ∧
        node1.sink = [SinkCall.push_read 0, SinkCall.terminate] :=
  ⟨_, _, rfl, rfl,
    (sink_terminate_after_drain exampleRemoraEnv ⟨[{}]⟩
      [NodeAction.push_read 0, NodeAction.terminate, NodeAction.iterate] _ rfl).2 _ rfl
      (by decide)⟩

/-! ## stereo_encode: the accepted pair -/

/-- What `stereo_encode` has done when it returns a read with a two-dimensional
tensor: the aligner reported locations, the acceptance test passed and the
tensor was built from the trimmed window. -/
theorem stereo_encode_accepted (env : Env) (stride : Int) (t c : Read) (d : Nat) (r : Read)
    (d1 : Nat) (h : stereo_encode env stride t c d = Except.ok (r, d1))
    (hdim : r.raw_data.ndimension = 2) :
    ∃ target_cursor end_location out,
      getAt (stereo_align env t c).startLocations 0 = Except.ok target_cursor ∧
      getAt (stereo_align env t c).endLocations 0 = Except.ok end_location ∧
      consensus_possible
        (stereo_trim env (stereo_align env t c) target_cursor end_location).1.1
        (stereo_trim env (stereo_align env t c) target_cursor end_location).1.2
        (alignment_error_rate (stereo_align env t c)) = true ∧
      stereo_encode_tensor env stride t c (stereo_align env t c).alignment
        (stereo_trim env (stereo_align env t c) target_cursor end_location).1.1
        (stereo_trim env (stereo_align env t c) target_cursor end_location).1.2
        (stereo_trim env (stereo_align env t c) target_cursor end_location).2.1
        (stereo_trim env (stereo_align env t c) target_cursor end_location).2.2 = Except.ok out ∧
      r = stereo_encoded_read t c out ∧ d1 = d := by
  cases hs : getAt (stereo_align env t c).startLocations 0 with
  | error e =>
    unfold stereo_encode at h
    rw [hs] at h
    simp at h
  | ok target_cursor =>
    cases he : getAt (stereo_align env t c).endLocations 0 with
    | error e =>
      unfold stereo_encode at h
      rw [hs, he] at h
      simp at h
    | ok end_location =>
      cases hc : consensus_possible
        (stereo_trim env (stereo_align env t c) target_cursor end_location).1.1
        (stereo_trim env (stereo_align env t c) target_cursor end_location).1.2
        (alignment_error_rate (stereo_align env t c)) with
      | false =>
        rw [stereo_encode_of_not_consensus env stride t c d _ _ hs he hc] at h
        simp only [Except.ok.injEq, Prod.mk.injEq] at h
        rw [← h.1] at hdim
        simp [Tensor.ndimension] at hdim
      | true =>
        rw [stereo_encode_of_consensus env stride t c d _ _ hs he hc] at h
        cases ht : stereo_encode_tensor env stride t c (stereo_align env t c).alignment
          (stereo_trim env (stereo_align env t c) target_cursor end_location).1.1
          (stereo_trim env (stereo_align env t c) target_cursor end_location).1.2
          (stereo_trim env (stereo_align env t c) target_cursor end_location).2.1
          (stereo_trim env (stereo_align env t c) target_cursor end_location).2.2 with
        | error e =>
          rw [ht] at h
          simp [Except.map] at h
        | ok out =>
          rw [ht] at h
          simp only [Except.map, Except.ok.injEq, Prod.mk.injEq] at h
          exact ⟨target_cursor, end_location, out, rfl, rfl, hc, ht, h.1.symm, h.2.symm⟩

set_option maxRecDepth 100000 in
/-- The tensor of the example pair of 60 bases is built without a fault. -/
theorem stereo_encode_tensor_example_ok :
    (stereo_encode_tensor exampleEnv 1 (exampleRead 60) (exampleRead 60)
          (List.replicate 60 0) 0 59 0 0).toBool = true := by
  decide

/-- The example pair of 60 bases aligned without edits is accepted. -/
theorem stereo_encode_example :
    ∃ out, stereo_encode exampleEnv 1 (exampleRead 60) (exampleRead 60) 0 =
      Except.ok (stereo_encoded_read (exampleRead 60) (exampleRead 60) out, 0) := by
  have e3 : stereo_trim exampleEnv (stereo_align exampleEnv (exampleRead 60) (exampleRead 60))
      0 59 = ((0, 59), (0, 0)) := by decide
  have e4 : (stereo_align exampleEnv (exampleRead 60) (exampleRead 60)).alignment =
      List.replicate 60 0 := by decide
  have hc : consensus_possible
      (stereo_trim exampleEnv (stereo_align exampleEnv (exampleRead 60) (exampleRead 60)) 0
        59).1.1
      (stereo_trim exampleEnv (stereo_align exampleEnv (exampleRead 60) (exampleRead 60)) 0
        59).1.2
      (alignment_error_rate (stereo_align exampleEnv (exampleRead 60) (exampleRead 60))) =
      true := by
    have e1 : (stereo_align exampleEnv (exampleRead 60) (exampleRead 60)).editDistance = 0 := rfl
    have e2 : (stereo_align exampleEnv (exampleRead 60) (exampleRead 60)).alignmentLength = 60 := by
      decide
    unfold alignment_error_rate
    rw [e1, e2, e3, consensus_possible_iff 0 59 0 60 (by norm_num) (by norm_num)]
    norm_num
  have h := stereo_encode_of_consensus exampleEnv 1 (exampleRead 60) (exampleRead 60) 0 0 59
    rfl rfl hc
  rw [e3, e4] at h
  have hok := stereo_encode_tensor_example_ok
  cases ht : stereo_encode_tensor exampleEnv 1 (exampleRead 60) (exampleRead 60)
      (List.replicate 60 0) 0 59 0 0 with
  | error e =>
    rw [ht] at hok
    simp [Except.toBool] at hok
  | ok out =>
    rw [ht] at h
    exact ⟨out, h⟩

/-! ## The identifier of the encoded read -/

/-- Claim C11 as stated fails: the identifier of the read encoded from the
example pair, both of whose reads are named `r`, is `r;r` and not `rr`. -/
theorem encoded_read_id_has_separator :
    ∃ r d, stereo_encode exampleEnv 1 (exampleRead 60) (exampleRead 60) 0 = Except.ok (r, d) ∧
      r.raw_data.ndimension = 2 ∧ r.read_id = "r;r" ∧
      r.read_id ≠ (exampleRead 60).read_id ++ (exampleRead 60).read_id := by
  obtain ⟨out, h⟩ := stereo_encode_example
  have e1 : (stereo_encoded_read (exampleRead 60) (exampleRead 60) out).read_id = "r;r" := by
    show "r" ++ ";" ++ "r" = "r;r"
    decide
  refine ⟨_, _, h, rfl, e1, ?_⟩
  rw [e1]
  decide

/-- Claim C11 (as the code has it): for every accepted pair, the identifier of
the encoded read is the identifier of the template read, a semicolon, and the
identifier of the complement read. -/
theorem encoded_read_id (env : Env) (stride : Int) (template_read complement_read : Read)
    (discarded : Nat) (r : Read) (d1 : Nat)
    (h : stereo_encode env stride template_read complement_read discarded = Except.ok (r, d1))
    (hdim : r.raw_data.ndimension = 2) :
    r.read_id = template_read.read_id ++ ";" ++ complement_read.read_id := by
  obtain ⟨_, _, out, -, -, -, -, hr, -⟩ :=
    stereo_encode_accepted env stride _ _ _ r d1 h hdim
  rw [hr]
  rfl

/-- Witness for `encoded_read_id`: the example pair of 60 bases. -/
theorem encoded_read_id_witness :
    ∃ r d, stereo_encode exampleEnv 1 (exampleRead 60) (exampleRead 60) 0 = Except.ok (r, d) ∧
      r.raw_data.ndimension = 2 ∧
      r.read_id = (exampleRead 60).read_id ++ ";" ++ (exampleRead 60).read_id := by
  obtain ⟨out, h⟩ := stereo_encode_example
  exact ⟨_, _, h, rfl, encoded_read_id exampleEnv 1 _ _ 0 _ _ h rfl⟩

/-! ## ReadToBamType: RNA reads -/

/-- Claim C18 as stated fails: on an RNA run the formatter is given the sequence
`AC` reversed, `CA`, and not its reverse complement `GT`. -/
theorem rna_read_not_complemented :
    ∃ node1,
      ReadToBamType.process_message echoEnv
          { heap := ⟨[{ seq := ['A', 'C'], qstring := ['5', '6'] }]⟩, sink := [],
            m_emit_moves := false, m_rna := true, m_modbase_threshold := 0 }
          (Message.read 0) = Except.ok node1 ∧
        node1.sink = [Message.bam ⟨"CA"⟩] ∧
        node1.sink ≠ [Message.bam ⟨String.mk (reverse_complement_of ['A', 'C'])⟩] :=
  ⟨_, rfl, by decide, by decide⟩

/-- Claim C18 (as the code has it): for every `Read` reaching `ReadToBamType`,
when the run is RNA the sequence and the quality string are both reversed in
place, no base being complemented, and the formatter is given the reversed read;
when the run is not RNA the read is given to the formatter as it is and stays
unchanged.  The records of the formatter are pushed to the sink in order. -/
theorem process_message_rna (env : Env) (node : ReadToBamType) (p : ReadPtr) (read : Read)
    (hread : node.heap.deref p = Except.ok read) :
    (node.m_rna = true →
      ReadToBamType.process_message env node (Message.read p) =
        Except.ok
          { node with
            heap := node.heap.store p
              { read with seq := read.seq.reverse, qstring := read.qstring.reverse }
            sink := node.sink ++
              (env.extract_sam_lines
                { read with seq := read.seq.reverse, qstring := read.qstring.reverse }
                node.m_emit_moves node.m_modbase_threshold).map Message.bam }) ∧
    (node.m_rna = false →
      ReadToBamType.process_message env node (Message.read p) =
        Except.ok
          { node with
            sink := node.sink ++
              (env.extract_sam_lines read node.m_emit_moves node.m_modbase_threshold).map
                Message.bam }) := by
  constructor
  · intro hrna
    simp [ReadToBamType.process_message, hread, hrna]
  · intro hrna
    simp [ReadToBamType.process_message, hread, hrna]

/-- Witness for `process_message_rna`: a read with sequence `AC` on an RNA run. -/
theorem process_message_rna_witness :
    ReadToBamType.process_message echoEnv
        { heap := ⟨[{ seq := ['A', 'C'], qstring := ['5', '6'] }]⟩, sink := [],
          m_emit_moves := false, m_rna := true, m_modbase_threshold := 0 }
        (Message.read 0) =
      Except.ok
        { heap := ⟨[{ seq := ['C', 'A'], qstring := ['6', '5'] }]⟩,
          sink := [Message.bam ⟨"CA"⟩],
          m_emit_moves := false, m_rna := true, m_modbase_threshold := 0 } :=
  (process_message_rna echoEnv
    { heap := ⟨[{ seq := ['A', 'C'], qstring := ['5', '6'] }]⟩, sink := [],
      m_emit_moves := false, m_rna := true, m_modbase_threshold := 0 }
    0 { seq := ['A', 'C'], qstring := ['5', '6'] } rfl).1 rfl

/-! ## ReadFilterNode: the filter and its counter -/

theorem ReadFilterNode.process_message_count (env : Env) (node node1 : ReadFilterNode)
    (message : Message)
    (h : ReadFilterNode.process_message env node message = Except.ok node1) :
    node1.sink.length + node1.m_num_reads_filtered =
      node.sink.length + node.m_num_reads_filtered + countReads [message] := by
  cases message with
  | candidatePairRejected =>
    simp only [ReadFilterNode.process_message, Except.ok.injEq] at h
    subst h
    simp [countReads]
  | bam b => simp [ReadFilterNode.process_message] at h
  | readPair q => simp [ReadFilterNode.process_message] at h
  | read p =>
    simp only [ReadFilterNode.process_message] at h
    cases hd : node.heap.deref p with
    | error e => simp [hd] at h
    | ok read =>
      simp only [hd] at h
      split_ifs at h
      all_goals
        simp only [Except.ok.injEq] at h
        subst h
        simp [countReads]
      all_goals omega

theorem countReads_cons (message : Message) (rest : List Message) :
    countReads (message :: rest) = countReads [message] + countReads rest := by
  cases message <;> simp [countReads, Nat.add_comm]

theorem ReadFilterNode.process_messages_count (env : Env) (messages : List Message) :
    ∀ (node node1 : ReadFilterNode),
      ReadFilterNode.process_messages env node messages = Except.ok node1 →
      node1.sink.length + node1.m_num_reads_filtered =
        node.sink.length + node.m_num_reads_filtered + countReads messages := by
  induction messages with
  | nil =>
    intro node node1 h
    simp only [ReadFilterNode.process_messages, Except.ok.injEq] at h
    subst h
    simp [countReads]
  | cons message rest ih =>
    intro node node1 h
    simp only [ReadFilterNode.process_messages] at h
    cases hm : ReadFilterNode.process_message env node message with
    | error e => simp [hm] at h
    | ok node2 =>
      simp only [hm] at h
      rw [ih node2 node1 h, ReadFilterNode.process_message_count env node node2 message hm,
        countReads_cons message rest]
      omega

/-- The conversion of `m_min_qscore` to `float` is exact up to `2 ^ 24`, so the
comparison of the code is the comparison of the numbers. -/
theorem lt_min_qscore (m : ℚ) (min_qscore : Nat) (h : min_qscore ≤ 2 ^ 24) :
    Fl.lt (Fl.fin m) (round32 (min_qscore : ℚ)) = decide (m < (min_qscore : ℚ)) := by
  have e : round32 (min_qscore : ℚ) = Fl.fin (min_qscore : ℚ) := by
    have := ofInt32_exact (min_qscore : ℤ) (by
      rw [abs_of_nonneg (by positivity)]
      exact_mod_cast h)
    simpa [Fl.ofInt32] using this
  rw [e]
  rfl

/-- Claim C21: for every `Read` message, `ReadFilterNode` pushes the read, which
it leaves unchanged, to the sink exactly when the mean q-score is not below
`m_min_qscore`, the sequence has at least `m_min_read_length` bases and the
identifier is not in the filter set, and otherwise pushes nothing and counts one
more filtered read; for a finite mean q-score and a threshold up to `2 ^ 24` the
first condition is `m_min_qscore ≤ mean`.  A `CandidatePairRejectedMessage`
changes nothing.  After any run the reads pushed and the reads filtered add up
to the `Read` messages processed. -/
theorem readFilterNode_filter (env : Env) (node : ReadFilterNode) :
    (∀ (p : ReadPtr) (read : Read), node.heap.deref p = Except.ok read →
      ReadFilterNode.process_message env node (Message.read p) =
        Except.ok
          (if ¬ Fl.lt (env.mean_qscore_from_qstring read.qstring)
                (round32 (node.m_min_qscore : ℚ)) = true ∧
              node.m_min_read_length ≤ read.seq.length ∧
              read.read_id ∉ node.m_read_ids_to_filter then
            { node with sink := node.sink ++ [Message.read p] }
          else { node with m_num_reads_filtered := node.m_num_reads_filtered + 1 })) ∧
    (∀ (read : Read) (mean : ℚ), env.mean_qscore_from_qstring read.qstring = Fl.fin mean →
      node.m_min_qscore ≤ 2 ^ 24 →
      (¬ Fl.lt (env.mean_qscore_from_qstring read.qstring)
          (round32 (node.m_min_qscore : ℚ)) = true ↔ (node.m_min_qscore : ℚ) ≤ mean)) ∧
    ReadFilterNode.process_message env node Message.candidatePairRejected = Except.ok node ∧
    (∀ (messages : List Message) (node1 : ReadFilterNode),
      ReadFilterNode.process_messages env node messages = Except.ok node1 →
      node1.sink.length + node1.m_num_reads_filtered =
        node.sink.length + node.m_num_reads_filtered + countReads messages) := by
  refine ⟨?_, ?_, rfl, fun messages node1 h =>
    ReadFilterNode.process_messages_count env messages node node1 h⟩
  · intro p read hd
    simp only [ReadFilterNode.process_message, hd]
    by_cases h1 : Fl.lt (env.mean_qscore_from_qstring read.qstring)
        (round32 (node.m_min_qscore : ℚ)) = true
    · simp [h1]
    · by_cases h2 : read.seq.length < node.m_min_read_length
      · have h2' : ¬ node.m_min_read_length ≤ read.seq.length := by omega
        simp [h1, h2, h2']
      · by_cases h3 : read.read_id ∈ node.m_read_ids_to_filter
        · simp [h1, h2, h3]
        · have h2' : node.m_min_read_length ≤ read.seq.length := by omega
          simp [h1, h2, h3, h2']
  · intro read mean hmean hq
    rw [hmean, lt_min_qscore mean node.m_min_qscore hq]
    simp

/-- Witness for `readFilterNode_filter`: a node with threshold 5 and minimum
length 5 forwards a read of ten bases with mean q-score 10, and a run over this
read and a rejection message pushes one read and filters none. -/
theorem readFilterNode_filter_witness :
    ReadFilterNode.process_message exampleEnv
        { heap := ⟨[exampleRead 10]⟩, sink := [], m_min_qscore := 5, m_min_read_length := 5,
          m_read_ids_to_filter := [], m_num_reads_filtered := 0 } (Message.read 0) =
      Except.ok
        { heap := ⟨[exampleRead 10]⟩, sink := [Message.read 0], m_min_qscore := 5,
          m_min_read_length := 5, m_read_ids_to_filter := [], m_num_reads_filtered := 0 } := by
  have h := (readFilterNode_filter exampleEnv
    { heap := ⟨[exampleRead 10]⟩, sink := [], m_min_qscore := 5, m_min_read_length := 5,
      m_read_ids_to_filter := [], m_num_reads_filtered := 0 }).1 0 (exampleRead 10) rfl
  have hq := (readFilterNode_filter exampleEnv
    { heap := ⟨[exampleRead 10]⟩, sink := [], m_min_qscore := 5, m_min_read_length := 5,
      m_read_ids_to_filter := [], m_num_reads_filtered := 0 }).2.1 (exampleRead 10) 10 rfl
      (by norm_num)
  rw [h, if_pos]
  · rfl
  · refine ⟨hq.mpr (by norm_num), by decide, by decide⟩

/-! ## The read lists of the loader -/

/-- Claim C19: the loader delivers a stored read exactly when its identifier is
in the inclusion list, if one is supplied, and is not in the exclusion list:
without an inclusion list the reads not excluded are delivered, with an empty
inclusion list or one that names no stored read nothing is delivered, and a read
named in both lists is dropped. -/
theorem load_reads_selection (stored : List Read) (read_list : Option (List String))
    (read_ignore_list : List String) :
    (∀ read, read ∈ load_reads stored read_list read_ignore_list ↔
      read ∈ stored ∧ (∀ ids, read_list = some ids → read.read_id ∈ ids) ∧
        read.read_id ∉ read_ignore_list) ∧
    load_reads stored none read_ignore_list =
      stored.filter (fun read => !decide (read.read_id ∈ read_ignore_list)) ∧
    load_reads stored (some []) read_ignore_list = [] ∧
    (∀ ids, (∀ read ∈ stored, read.read_id ∉ ids) →
      load_reads stored (some ids) read_ignore_list = []) ∧
    (∀ read ids, read.read_id ∈ ids → read.read_id ∈ read_ignore_list →
      read ∉ load_reads stored (some ids) read_ignore_list) := by
  refine ⟨?_, ?_, ?_, ?_, ?_⟩
  · intro read
    cases read_list with
    | none => simp [load_reads]
    | some ids => simp [load_reads]
  · simp [load_reads]
  · simp [load_reads]
  · intro ids h
    simp only [load_reads, List.filter_eq_nil_iff]
    intro read hread
    simp [h read hread]
  · intro read ids h1 h2
    simp [load_reads, h2]

/-! ## get_motif_hits -/

theorem filter_range'_none (p : Nat → Bool) (m : Nat) :
    ∀ s, (∀ i, s ≤ i → i < s + m → p i = false) → (List.range' s m).filter p = [] := by
  intro s h
  rw [List.filter_eq_nil_iff]
  intro i hi
  rw [List.mem_range'_1] at hi
  simp [h i hi.1 hi.2]

theorem filter_range'_first (p : Nat → Bool) (s m q : Nat) (h1 : s ≤ q) (h2 : q < s + m)
    (hq : p q = true) (hnone : ∀ i, s ≤ i → i < q → p i = false) :
    (List.range' s m).filter p = q :: (List.range' (q + 1) (s + m - (q + 1))).filter p := by
  have e : List.range' s m =
      List.range' s (q - s) ++ (q :: List.range' (q + 1) (s + m - (q + 1))) := by
    have e1 : List.range' s m = List.range' s (q - s) ++ List.range' (s + 1 * (q - s)) (m - (q - s)) := by
      rw [List.range'_append]
      congr 1
      omega
    have e2 : s + 1 * (q - s) = q := by omega
    have e3 : m - (q - s) = (s + m - (q + 1)) + 1 := by omega
    rw [e1, e2, e3, List.range'_succ]
  rw [e, List.filter_append, filter_range'_none p (q - s) s (fun i hi1 hi2 => hnone i hi1 (by omega)),
    List.nil_append, List.filter_cons_of_pos hq]

theorem occurs_at_le (seq motif : List Char) (i : Nat) (hi : i ≤ seq.length)
    (h : occurs_at seq motif i = true) : i + motif.length ≤ seq.length := by
  unfold occurs_at at h
  simp only [decide_eq_true_eq] at h
  have := congrArg List.length h
  simp only [List.length_take, List.length_drop] at this
  omega

theorem string_find_spec (seq motif : List Char) (pos : Nat) (hsize : seq.length + 1 < 2 ^ 64) :
    (string_find seq motif pos = npos ∧
        ∀ i, pos ≤ i → i ≤ seq.length → occurs_at seq motif i = false) ∨
      (string_find seq motif pos ≠ npos ∧ pos ≤ string_find seq motif pos ∧
        string_find seq motif pos ≤ seq.length ∧
        occurs_at seq motif (string_find seq motif pos) = true ∧
        ∀ i, pos ≤ i → i < string_find seq motif pos → occurs_at seq motif i = false) := by
  unfold string_find
  cases hf : (List.range' pos (seq.length + 1 - pos)).find? (occurs_at seq motif) with
  | none =>
    left
    refine ⟨rfl, fun i h1 h2 => ?_⟩
    rw [List.find?_eq_none] at hf
    have := hf i (by rw [List.mem_range'_1]; omega)
    simpa using this
  | some q =>
    right
    have hmem := List.mem_of_find?_eq_some hf
    rw [List.mem_range'_1] at hmem
    have hocc := List.find?_some hf
    simp only
    refine ⟨?_, hmem.1, by omega, hocc, ?_⟩
    · unfold npos
      omega
    · intro i h1 h2
      rw [List.find?_eq_some] at hf
      obtain ⟨-, as, bs, hl, hall⟩ := hf
      by_contra hne
      have hi : i ∈ List.range' pos (seq.length + 1 - pos) := by
        rw [List.mem_range'_1]
        omega
      rw [hl, List.mem_append, List.mem_cons] at hi
      rcases hi with hi | hi | hi
      · have := hall i hi
        simp at this
        exact hne this
      · omega
      · have hsorted : (List.range' pos (seq.length + 1 - pos)).Pairwise (· < ·) :=
          List.pairwise_lt_range' pos (seq.length + 1 - pos)
        rw [hl, List.pairwise_append] at hsorted
        have := (List.pairwise_cons.mp hsorted.2.1).1 i hi
        omega
theorem get_motif_hits_loop_npos (seq motif : List Char) (motif_offset : Int) (fuel : Nat)
    (hits : List Nat) :
    get_motif_hits_loop seq motif motif_offset (fuel + 1) npos hits = some hits := by
  have hb : ((seq.length : Int) - (motif.length : Int) + 1) % 2 ^ 64 < 2 ^ 64 :=
    Int.emod_lt_of_pos _ (by norm_num)
  have hn : ¬ ((npos : Nat) : Int) < ((seq.length : Int) - (motif.length : Int) + 1) % 2 ^ 64 := by
    unfold npos
    push_cast
    omega
  simp only [get_motif_hits_loop, hn, if_false]

/-- The loop from `search_pos` on collects the occurrences from `search_pos` on. -/
theorem get_motif_hits_loop_spec (seq motif : List Char) (motif_offset : Int)
    (hsize : seq.length + 1 < 2 ^ 64) (hk : motif.length ≤ seq.length) (m : Nat) :
    ∀ (search_pos fuel : Nat) (hits : List Nat),
      search_pos + m = seq.length + 1 - motif.length → m + 2 ≤ fuel →
      get_motif_hits_loop seq motif motif_offset fuel search_pos hits =
        some (hits ++ ((List.range' search_pos m).filter (occurs_at seq motif)).map
          fun i => (((i : Int) + motif_offset) % 2 ^ 64).toNat) := by
  have hB : ((seq.length : Int) - (motif.length : Int) + 1) % 2 ^ 64 =
      ((seq.length + 1 - motif.length : Nat) : Int) := by
    rw [Int.emod_eq_of_lt (by omega) (by omega)]
    omega
  induction m using Nat.strong_induction_on with
  | _ m ih =>
    intro s fuel hits hs hfuel
    obtain ⟨fuel, rfl⟩ : ∃ f, fuel = f + 1 := ⟨fuel - 1, by omega⟩
    rw [get_motif_hits_loop, hB]
    by_cases hcond : (s : Int) < ((seq.length + 1 - motif.length : Nat) : Int)
    · rw [if_pos hcond]
      have hcond' : s < seq.length + 1 - motif.length := by exact_mod_cast hcond
      rcases string_find_spec seq motif s hsize with ⟨hnp, hnone⟩ | ⟨hne, h1, h2, hocc, hnone⟩
      · rw [if_neg (by simpa using hnp)]
        obtain ⟨fuel, rfl⟩ : ∃ f, fuel = f + 1 := ⟨fuel - 1, by omega⟩
        rw [get_motif_hits_loop_npos,
          filter_range'_none _ m s (fun i hi1 hi2 => hnone i hi1 (by omega))]
        simp
      · rw [if_pos hne]
        have hle := occurs_at_le seq motif _ h2 hocc
        have hmod : (string_find seq motif s + 1) % 2 ^ 64 = string_find seq motif s + 1 :=
          Nat.mod_eq_of_lt (by omega)
        rw [hmod, ih (s + m - (string_find seq motif s + 1)) (by omega) _ fuel _ (by omega)
            (by omega),
          filter_range'_first _ s m (string_find seq motif s) h1 (by omega) hocc hnone]
        simp
    · rw [if_neg hcond]
      have hm : m = 0 := by
        have : ¬ s < seq.length + 1 - motif.length := by
          intro h
          exact hcond (by exact_mod_cast h)
        omega
      subst hm
      simp

/-- When the motif is longer than the sequence the loop ends at once or after
one search without a hit. -/
theorem get_motif_hits_short (seq motif : List Char) (motif_offset : Int)
    (hsize : seq.length + 1 < 2 ^ 64) (hk : seq.length < motif.length) :
    get_motif_hits seq motif motif_offset = some [] := by
  unfold get_motif_hits
  rw [get_motif_hits_loop]
  by_cases hcond : ((0 : Nat) : Int) < ((seq.length : Int) - (motif.length : Int) + 1) % 2 ^ 64
  · rw [if_pos hcond]
    rcases string_find_spec seq motif 0 hsize with ⟨hnp, -⟩ | ⟨hne, -, h2, hocc, -⟩
    · rw [if_neg (by simpa using hnp), get_motif_hits_loop_npos]
    · have := occurs_at_le seq motif _ h2 hocc
      omega
  · rw [if_neg hcond]
/-- Claim C22: for every sequence, motif and offset (the offset not negative and
the sums within `size_t`), `get_motif_hits` returns the values `i + motif_offset`
for exactly the indices `i` from 0 to `|seq| - |motif|` at which the motif stands
in the sequence, in increasing order, each once, overlapping occurrences
included. -/
theorem get_motif_hits_occurrences (seq motif : List Char) (motif_offset : Nat)
    (hsize : seq.length + 1 + motif_offset < 2 ^ 64) :
    get_motif_hits seq motif motif_offset =
        some (((List.range (seq.length + 1 - motif.length)).filter
          fun i => decide ((seq.drop i).take motif.length = motif)).map
            fun i => i + motif_offset) ∧
      List.Pairwise (fun a b => a < b)
        (((List.range (seq.length + 1 - motif.length)).filter
          fun i => decide ((seq.drop i).take motif.length = motif)).map
            fun i => i + motif_offset) := by
  constructor
  · by_cases hk : motif.length ≤ seq.length
    · unfold get_motif_hits
      rw [get_motif_hits_loop_spec seq motif motif_offset (by omega) hk
        (seq.length + 1 - motif.length) 0 _ [] (by omega) (by omega), List.nil_append,
        ← List.range_eq_range']
      congr 1
      apply List.map_congr_left
      intro i hi
      rw [List.mem_filter, List.mem_range] at hi
      have h1 : ((i : Int) + (motif_offset : Int)) % 2 ^ 64 = (i : Int) + (motif_offset : Int) :=
        Int.emod_eq_of_lt (by omega) (by omega)
      rw [h1]
      omega
    · rw [get_motif_hits_short seq motif motif_offset (by omega) (by omega)]
      have : seq.length + 1 - motif.length = 0 := by omega
      rw [this]
      rfl
  · apply List.Pairwise.map _ _ ((List.pairwise_lt_range _).filter _)
    intro a b hab
    omega

/-- Witness for `get_motif_hits_occurrences`: the motif `CG` stands in `ACGCG`
at 1 and 3; with offset 1 the hits are 2 and 4; the motif `AA` stands in `AAA`
at 0 and 1. -/
theorem get_motif_hits_occurrences_witness :
    get_motif_hits ['A', 'C', 'G', 'C', 'G'] ['C', 'G'] 1 = some [2, 4] ∧
      get_motif_hits ['A', 'A', 'A'] ['A', 'A'] 0 = some [0, 1] :=
  ⟨(get_motif_hits_occurrences ['A', 'C', 'G', 'C', 'G'] ['C', 'G'] 1 (by norm_num)).1,
    (get_motif_hits_occurrences ['A', 'A', 'A'] ['A', 'A'] 0 (by norm_num)).1⟩

/-- Claim C23: with `size_t` arithmetic modulo `2 ^ 64`, `get_motif_hits` returns
for every sequence and motif (after at most `|seq| + 3` evaluations of the loop
condition), also when the sequence is shorter than the motif and the bound of
the loop wraps around, when the sequence is empty and when the motif is empty;
when the sequence is shorter than the motif the result is empty. -/
theorem get_motif_hits_terminates (seq motif : List Char) (motif_offset : Int)
    (hsize : seq.length + 1 < 2 ^ 64) :
    (∃ hits, get_motif_hits seq motif motif_offset = some hits) ∧
      (seq.length < motif.length → get_motif_hits seq motif motif_offset = some []) := by
  refine ⟨?_, fun hk => get_motif_hits_short seq motif motif_offset hsize hk⟩
  by_cases hk : motif.length ≤ seq.length
  · unfold get_motif_hits
    rw [get_motif_hits_loop_spec seq motif motif_offset hsize hk
      (seq.length + 1 - motif.length) 0 _ [] (by omega) (by omega)]
    exact ⟨_, rfl⟩
  · exact ⟨[], get_motif_hits_short seq motif motif_offset hsize (by omega)⟩

/-- Witness for `get_motif_hits_terminates`: a sequence of one base and a motif
of three, where `seq.size() - kmer_len + 1` wraps around to `2 ^ 64 - 1`. -/
theorem get_motif_hits_terminates_witness :
    (∃ hits, get_motif_hits ['A'] ['C', 'G', 'T'] (-1) = some hits) ∧
      get_motif_hits ['A'] ['C', 'G', 'T'] (-1) = some [] :=
  ⟨(get_motif_hits_terminates ['A'] ['C', 'G', 'T'] (-1) (by norm_num)).1,
    (get_motif_hits_terminates ['A'] ['C', 'G', 'T'] (-1) (by norm_num)).2 (by decide)⟩

theorem list_set_same {α : Type} (l : List α) (i : Nat) (x : α) (h : l[i]? = some x) :
    l.set i x = l := by
  have hlt : i < l.length := (List.getElem?_eq_some_iff.mp h).1
  apply List.ext_getElem?
  intro j
  by_cases hij : i = j
  · subst hij
    rw [List.getElem?_set_self hlt, h]
  · rw [List.getElem?_set_ne hij]

theorem write_row_inv {tmp tmp1 : List (List Fl)} {row : Int} {pos : Nat} {vals : List Fl}
    (h : write_row tmp row pos vals = Except.ok tmp1) :
    0 ≤ row ∧ ∃ r, tmp[row.toNat]? = some r ∧ (vals ≠ [] → pos + vals.length ≤ r.length) ∧
      tmp1 = tmp.set row.toNat (r.take pos ++ vals ++ r.drop (pos + vals.length)) := by
  unfold write_row getAt at h
  by_cases hneg : row < 0
  · simp [hneg] at h
  · simp only [hneg, if_false] at h
    cases hr : tmp[row.toNat]? with
    | none => simp [hr] at h
    | some r =>
      simp only [hr] at h
      refine ⟨by omega, r, rfl, ?_, ?_⟩
      · intro hv
        simp only [hv, if_false] at h
        by_contra hb
        simp [hb] at h
      · by_cases hv : vals = []
        · simp only [hv, if_true, Except.ok.injEq] at h
          subst h
          subst hv
          simp only [List.append_nil, List.length_nil, Nat.add_zero, List.take_append_drop]
          exact (list_set_same tmp _ r hr).symm
        · simp only [hv, if_false] at h
          by_cases hb : pos + vals.length ≤ r.length
          · simp only [hb, if_true, Except.ok.injEq] at h
            exact h.symm
          · simp [hb] at h

/-- Entries equal to the fill value count as done. -/
theorem RowIs.pad {tmp : List (List Fl)} {width row : Nat} {done : List Fl} {fill : Fl}
    (h : RowIs tmp width row done fill) (k : Nat) (hk : done.length + k ≤ width) :
    RowIs tmp width row (done ++ List.replicate k fill) fill := by
  obtain ⟨h1, h2⟩ := h
  refine ⟨by simpa using hk, ?_⟩
  rw [h2, List.append_assoc, ← List.replicate_add, List.length_append, List.length_replicate]
  congr 3
  omega

/-- A write to a row at the end of its done part extends the done part; a write
to another row leaves the row as it is. -/
theorem RowIs.write {tmp tmp1 : List (List Fl)} {width row : Nat} {done : List Fl} {fill : Fl}
    {target : Int} {pos : Nat} {vals : List Fl}
    (h : RowIs tmp width row done fill)
    (hw : write_row tmp target pos vals = Except.ok tmp1)
    (hpos : target = (row : Int) → pos = done.length) :
    RowIs tmp1 width row (if target = (row : Int) then done ++ vals else done) fill := by
  obtain ⟨hpos0, r, hr, hlen, rfl⟩ := write_row_inv hw
  obtain ⟨h1, h2⟩ := h
  have hlt : row < tmp.length := (List.getElem?_eq_some_iff.mp h2).1
  split_ifs with ht
  · have hp := hpos ht
    subst hp
    subst ht
    simp only [Int.toNat_ofNat] at hr ⊢
    rw [h2] at hr
    simp only [Option.some.injEq] at hr
    subst hr
    by_cases hv : vals = []
    · subst hv
      refine ⟨by simpa using h1, ?_⟩
      rw [List.getElem?_set_self hlt]
      simp
    · have hb := hlen hv
      simp only [List.length_append, List.length_replicate] at hb
      refine ⟨by simp only [List.length_append]; omega, ?_⟩
      rw [List.getElem?_set_self hlt, List.take_left' rfl, List.drop_append_eq_append_drop,
        List.drop_of_length_le (by omega), List.drop_replicate]
      simp only [List.nil_append, List.length_append, List.append_assoc]
      congr 4
      omega
  · refine ⟨h1, ?_⟩
    rw [List.getElem?_set_ne, h2]
    intro e
    apply ht
    omega

theorem write_row_length {tmp tmp1 : List (List Fl)} {row : Int} {pos : Nat} {vals : List Fl}
    (h : write_row tmp row pos vals = Except.ok tmp1) : tmp1.length = tmp.length := by
  obtain ⟨-, r, -, -, rfl⟩ := write_row_inv h
  simp
theorem except_bind_ok {ε α β : Type} {x : Except ε α} {f : α → Except ε β} {b : β}
    (h : (x >>= f) = Except.ok b) : ∃ a, x = Except.ok a ∧ f a = Except.ok b := by
  cases x with
  | error e => simp [bind, Except.bind] at h
  | ok a => exact ⟨a, rfl, h⟩

/-- The steps of one pass of the walk. -/
theorem encode_column_inv (c : WalkCtx) (a : Nat) (s s1 : WalkState)
    (h : encode_column c a s = Except.ok s1) :
    ∃ (tmp1 : List (List Fl)) (tsc tlen : Nat) (tmp2 : List (List Fl)) (csc clen : Nat)
      (tmp3 tmp4 tmp5 : List (List Fl)),
      (if a = 2 then tmp1 = s.tmp ∧ tsc = s.template_signal_cursor ∧ tlen = 0
        else copy_segment c.template_raw c.template_moves_expanded 0 s.tmp
          s.stereo_global_cursor s.template_signal_cursor = Except.ok (tmp1, tsc, tlen)) ∧
      (if a = 1 then tmp2 = tmp1 ∧ csc = s.complement_signal_cursor ∧ clen = 0
        else copy_segment c.flipped_complement_raw c.complement_moves_expanded 1 tmp1
          s.stereo_global_cursor s.complement_signal_cursor = Except.ok (tmp2, csc, clen)) ∧
      (if a = 2 then tmp3 = tmp2
        else ∃ nucleotide q t1,
          string_index c.template_seq s.target_cursor = Except.ok nucleotide ∧
          write_row tmp2 (2 + c.base_to_int nucleotide) s.stereo_global_cursor
            (List.replicate (max tlen clen) (Fl.fin 1)) = Except.ok t1 ∧
          string_index c.template_qstring s.target_cursor = Except.ok q ∧
          write_row t1 11 s.stereo_global_cursor
            (List.replicate (max tlen clen) (convert_q_score q)) = Except.ok tmp3) ∧
      (if a = 1 then tmp4 = tmp3
        else ∃ nucleotide q t1,
          string_at c.complement_sequence_reverse_complement s.query_cursor =
            Except.ok nucleotide ∧
          write_row tmp3 (6 + c.base_to_int nucleotide) s.stereo_global_cursor
            (List.replicate (max tlen clen) (Fl.fin 1)) = Except.ok t1 ∧
          getAt c.complement_qstring ((c.complement_qstring.length : Int) - 1 - s.query_cursor) =
            Except.ok q ∧
          write_row t1 12 s.stereo_global_cursor
            (List.replicate (max tlen clen) (convert_q_score q)) = Except.ok tmp4) ∧
      write_row tmp4 10 s.stereo_global_cursor [Fl.fin 1] = Except.ok tmp5 ∧
      s1 =
        { tmp := tmp5
          template_signal_cursor := tsc
          complement_signal_cursor := csc
          target_cursor := if a = 2 then s.target_cursor else s.target_cursor + 1
          query_cursor := if a = 1 then s.query_cursor else s.query_cursor + 1
          stereo_global_cursor := s.stereo_global_cursor + max tlen clen } := by
  unfold encode_column at h
  by_cases h2 : a = 2
  · have h1 : a ≠ 1 := by omega
    simp only [h2, ne_eq, not_true_eq_false, if_false, OfNat.ofNat_ne_one, not_false_eq_true,
      if_true, pure_bind] at h
    obtain ⟨⟨tmp2, csc, clen⟩, hc, h⟩ := except_bind_ok h
    obtain ⟨nuc, hn, h⟩ := except_bind_ok h
    obtain ⟨t1, ht1, h⟩ := except_bind_ok h
    obtain ⟨q, hq, h⟩ := except_bind_ok h
    obtain ⟨t2, ht2, h⟩ := except_bind_ok h
    obtain ⟨tmp5, h5, h⟩ := except_bind_ok h
    simp only [pure, Except.pure, Except.ok.injEq] at h
    refine ⟨s.tmp, s.template_signal_cursor, 0, tmp2, csc, clen, tmp2, t2, tmp5, ?_⟩
    simp only [h2, if_true, OfNat.ofNat_ne_one, if_false, true_and, and_self]
    exact ⟨hc, ⟨nuc, q, t1, hn, ht1, hq, ht2⟩, h5, h.symm⟩
  · by_cases h1 : a = 1
    · simp only [h1, ne_eq, OfNat.one_ne_ofNat, not_false_eq_true, if_true, not_true_eq_false,
        if_false, pure_bind] at h
      obtain ⟨⟨tmp1, tsc, tlen⟩, hc, h⟩ := except_bind_ok h
      obtain ⟨nuc, hn, h⟩ := except_bind_ok h
      obtain ⟨t1, ht1, h⟩ := except_bind_ok h
      obtain ⟨q, hq, h⟩ := except_bind_ok h
      obtain ⟨t2, ht2, h⟩ := except_bind_ok h
      obtain ⟨tmp5, h5, h⟩ := except_bind_ok h
      simp only [pure, Except.pure, Except.ok.injEq] at h
      refine ⟨tmp1, tsc, tlen, tmp1, s.complement_signal_cursor, 0, t2, t2, tmp5, ?_⟩
      simp only [h1, if_true, OfNat.one_ne_ofNat, if_false, true_and, and_self]
      exact ⟨hc, ⟨nuc, q, t1, hn, ht1, hq, ht2⟩, h5, h.symm⟩
    · simp only [h2, h1, ne_eq, not_false_eq_true, if_true, pure_bind] at h
      obtain ⟨⟨tmp1, tsc, tlen⟩, hc, h⟩ := except_bind_ok h
      obtain ⟨⟨tmp2, csc, clen⟩, hc2, h⟩ := except_bind_ok h
      obtain ⟨nuc, hn, h⟩ := except_bind_ok h
      obtain ⟨t1, ht1, h⟩ := except_bind_ok h
      obtain ⟨q, hq, h⟩ := except_bind_ok h
      obtain ⟨t2, ht2, h⟩ := except_bind_ok h
      obtain ⟨nuc', hn', h⟩ := except_bind_ok h
      obtain ⟨t1', ht1', h⟩ := except_bind_ok h
      obtain ⟨q', hq', h⟩ := except_bind_ok h
      obtain ⟨t2', ht2', h⟩ := except_bind_ok h
      obtain ⟨tmp5, h5, h⟩ := except_bind_ok h
      simp only [pure, Except.pure, Except.ok.injEq] at h
      refine ⟨tmp1, tsc, tlen, tmp2, csc, clen, t2, t2', tmp5, ?_⟩
      simp only [h2, h1, if_false]
      exact ⟨hc, hc2, ⟨nuc, q, t1, hn, ht1, hq, ht2⟩, ⟨nuc', q', t1', hn', ht1', hq', ht2'⟩, h5,
        h.symm⟩
theorem read_samples_ok {src : List Fl} {pos count : Nat} {vals : List Fl}
    (h : read_samples src pos count = Except.ok vals) :
    vals = (src.drop pos).take count ∧ vals.length = count ∧ (count ≠ 0 → pos + count ≤ src.length) := by
  unfold read_samples at h
  by_cases hc : count = 0
  · rw [if_pos hc, Except.ok.injEq] at h
    subst h
    subst hc
    simp
  · rw [if_neg hc] at h
    by_cases hb : pos + count ≤ src.length
    · rw [if_pos hb, Except.ok.injEq] at h
      subst h
      refine ⟨rfl, ?_, fun _ => hb⟩
      rw [List.length_take, List.length_drop]
      omega
    · rw [if_neg hb] at h
      simp at h

theorem copy_segment_aux {raw : List Fl} {feature : Int} {tmp t1 t2 : List (List Fl)}
    {cur sc k : Nat} {first rest : List Fl}
    (hfirst : read_samples raw sc 1 = Except.ok first)
    (ht1 : write_row tmp feature cur first = Except.ok t1)
    (hrest : read_samples raw (sc + 1) k = Except.ok rest)
    (ht2 : write_row t1 feature (cur + 1) rest = Except.ok t2) :
    sc + (1 + k) ≤ raw.length ∧ t2.length = tmp.length ∧
      ((raw.drop sc).take (1 + k)).length = 1 + k ∧
      ∀ (width row : Nat) (done : List Fl) (fill : Fl), RowIs tmp width row done fill →
        (feature = (row : Int) → cur = done.length) →
        RowIs t2 width row
          (if feature = (row : Int) then done ++ (raw.drop sc).take (1 + k) else done) fill := by
  obtain ⟨e1, l1, b1⟩ := read_samples_ok hfirst
  obtain ⟨e2, l2, b2⟩ := read_samples_ok hrest
  have b1' := b1 (by norm_num)
  have hseg : first ++ rest = (raw.drop sc).take (1 + k) := by
    rw [e1, e2, List.take_add, List.drop_drop]
  have hbound : sc + (1 + k) ≤ raw.length := by
    by_cases hk0 : k = 0
    · omega
    · have := b2 hk0
      omega
  refine ⟨hbound, ?_, ?_, ?_⟩
  · rw [write_row_length ht2, write_row_length ht1]
  · rw [List.length_take, List.length_drop]
    omega
  · intro width row done fill hrow hpos
    have r1 := hrow.write ht1 hpos
    have r2 := r1.write ht2 (by
      intro hf
      rw [if_pos hf, List.length_append, l1, hpos hf])
    by_cases hf : feature = (row : Int)
    · rw [if_pos hf] at r2 ⊢
      rw [if_pos hf, List.append_assoc, hseg] at r2
      exact r2
    · rw [if_neg hf] at r2 ⊢
      rw [if_neg hf] at r2
      exact r2

/-- One side of a column: at least one sample is copied, the samples from the
signal cursor on, to the row of the side; the other rows stay as they are. -/
theorem copy_segment_spec {raw : List Fl} {moves_expanded : List Nat} {feature : Int}
    {tmp tmp1 : List (List Fl)} {cur sc sc1 len : Nat}
    (h : copy_segment raw moves_expanded feature tmp cur sc = Except.ok (tmp1, sc1, len)) :
    1 ≤ len ∧ sc1 = sc + len ∧ sc + len ≤ raw.length ∧ tmp1.length = tmp.length ∧
      ((raw.drop sc).take len).length = len ∧
      ∀ (width row : Nat) (done : List Fl) (fill : Fl), RowIs tmp width row done fill →
        (feature = (row : Int) → cur = done.length) →
        RowIs tmp1 width row
          (if feature = (row : Int) then done ++ (raw.drop sc).take len else done) fill := by
  unfold copy_segment at h
  obtain ⟨first, hfirst, h⟩ := except_bind_ok h
  obtain ⟨t1, ht1, h⟩ := except_bind_ok h
  obtain ⟨found, hfound, h⟩ := except_bind_ok h
  cases found with
  | some k =>
    simp only at h
    obtain ⟨rest, hrest, h⟩ := except_bind_ok h
    obtain ⟨t2, ht2, h⟩ := except_bind_ok h
    simp only [pure, Except.pure, Except.ok.injEq, Prod.mk.injEq] at h
    obtain ⟨rfl, rfl, rfl⟩ := h
    obtain ⟨a1, a2, a3, a4⟩ := copy_segment_aux hfirst ht1 hrest ht2
    exact ⟨by omega, by omega, a1, a2, a3, a4⟩
  | none =>
    simp only at h
    obtain ⟨rest, hrest, h⟩ := except_bind_ok h
    obtain ⟨t2, ht2, h⟩ := except_bind_ok h
    simp only [pure, Except.pure, Except.ok.injEq, Prod.mk.injEq] at h
    obtain ⟨rfl, rfl, rfl⟩ := h
    obtain ⟨a1, a2, a3, a4⟩ := copy_segment_aux hfirst ht1 hrest ht2
    exact ⟨by omega, by omega, a1, a2, a3, a4⟩
theorem memchr_one_some (buf : List Nat) (start : Nat) (n : Nat) :
    ∀ (j q : Nat), memchr_one buf start n j = Except.ok (some q) →
      j ≤ q ∧ buf[start + q]? = some 1 ∧
        ∀ p, j ≤ p → p < q → ∃ b, buf[start + p]? = some b ∧ b ≠ 1 := by
  induction n with
  | zero =>
    intro j q h
    simp [memchr_one] at h
  | succ n ih =>
    intro j q h
    unfold memchr_one at h
    cases hb : buf[start + j]? with
    | none => simp [hb] at h
    | some b =>
      simp only [hb] at h
      by_cases h1 : b = 1
      · rw [if_pos h1, Except.ok.injEq, Option.some.injEq] at h
        subst h
        subst h1
        exact ⟨le_refl _, hb, fun p hp1 hp2 => by omega⟩
      · rw [if_neg h1] at h
        obtain ⟨a1, a2, a3⟩ := ih (j + 1) q h
        refine ⟨by omega, a2, ?_⟩
        intro p hp1 hp2
        by_cases e : p = j
        · subst e
          exact ⟨b, hb, h1⟩
        · exact a3 p (by omega) hp2

theorem memchr_one_none (buf : List Nat) (start : Nat) (n : Nat) :
    ∀ (j : Nat), memchr_one buf start n j = Except.ok none →
      ∀ p, j ≤ p → p < j + n → ∃ b, buf[start + p]? = some b ∧ b ≠ 1 := by
  induction n with
  | zero =>
    intro j _ p hp1 hp2
    omega
  | succ n ih =>
    intro j h p hp1 hp2
    unfold memchr_one at h
    cases hb : buf[start + j]? with
    | none => simp [hb] at h
    | some b =>
      simp only [hb] at h
      by_cases h1 : b = 1
      · rw [if_pos h1] at h
        simp at h
      · rw [if_neg h1] at h
        by_cases e : p = j
        · subst e
          exact ⟨b, hb, h1⟩
        · exact ih (j + 1) h p (by omega) (by omega)

/-- The segment one side of a column copies ends at the next boundary of the
move table. -/
theorem copy_segment_boundary {raw : List Fl} {moves_expanded : List Nat} {feature : Int}
    {tmp tmp1 : List (List Fl)} {cur sc sc1 len : Nat}
    (h : copy_segment raw moves_expanded feature tmp cur sc = Except.ok (tmp1, sc1, len)) :
    EndsAtNextBoundary moves_expanded sc len := by
  unfold copy_segment at h
  obtain ⟨first, hfirst, h⟩ := except_bind_ok h
  obtain ⟨t1, ht1, h⟩ := except_bind_ok h
  obtain ⟨found, hfound, h⟩ := except_bind_ok h
  cases found with
  | some k =>
    simp only at h
    obtain ⟨rest, hrest, h⟩ := except_bind_ok h
    obtain ⟨t2, ht2, h⟩ := except_bind_ok h
    simp only [pure, Except.pure, Except.ok.injEq, Prod.mk.injEq] at h
    obtain ⟨-, -, rfl⟩ := h
    obtain ⟨-, a2, a3⟩ := memchr_one_some _ _ _ _ _ hfound
    refine ⟨by omega, ?_, Or.inl ?_⟩
    · intro j hj
      exact a3 j (Nat.zero_le _) (by omega)
    · rw [← a2]
      congr 1
      omega
  | none =>
    simp only at h
    obtain ⟨rest, hrest, h⟩ := except_bind_ok h
    obtain ⟨t2, ht2, h⟩ := except_bind_ok h
    simp only [pure, Except.pure, Except.ok.injEq, Prod.mk.injEq] at h
    obtain ⟨-, -, rfl⟩ := h
    have hall := memchr_one_none _ _ _ _ hfound
    have hnil : moves_expanded = [] := by
      by_contra hne
      have hpos : 0 < moves_expanded.length := List.length_pos.mpr hne
      obtain ⟨b, hb, -⟩ := hall (moves_expanded.length - 1) (Nat.zero_le _) (by omega)
      have := (List.getElem?_eq_some_iff.mp hb).1
      omega
    subst hnil
    exact ⟨by simp, fun j hj => by simp at hj, Or.inr ⟨rfl, by simp⟩⟩

/-- The boundary a segment ends at is the first one after the cursor, so the
length of the segment is determined by the move table and the cursor. -/
theorem EndsAtNextBoundary.length_unique {moves_expanded : List Nat} {cursor len len1 : Nat}
    (h : EndsAtNextBoundary moves_expanded cursor len)
    (h1 : EndsAtNextBoundary moves_expanded cursor len1) : len = len1 := by
  obtain ⟨a1, a2, a3⟩ := h
  obtain ⟨b1, b2, b3⟩ := h1
  rcases a3 with a3 | ⟨hnil, hl⟩
  · rcases b3 with b3 | ⟨hnil, hl⟩
    · by_contra hne
      rcases Nat.lt_or_gt_of_ne hne with hlt | hgt
      · obtain ⟨b, hb, hb1⟩ := b2 (len - 1) (by omega)
        have e : cursor + 1 + (len - 1) = cursor + len := by omega
        rw [e, a3] at hb
        injection hb with hb
        exact hb1 hb.symm
      · obtain ⟨b, hb, hb1⟩ := a2 (len1 - 1) (by omega)
        have e : cursor + 1 + (len1 - 1) = cursor + len1 := by omega
        rw [e, b3] at hb
        injection hb with hb
        exact hb1 hb.symm
    · subst hnil
      simp at a3
  · rcases b3 with b3 | ⟨-, hl1⟩
    · subst hnil
      simp at b3
    · omega

/-- The signal copy of one side of a column, or nothing when the alignment entry
is the insertion `skip` to the other side. -/
theorem signal_stage {raw : List Fl} {moves_expanded : List Nat} {feature : Int} {a skip : Nat}
    {tmp tmp1 : List (List Fl)} {cur sc sc1 len : Nat}
    (h : if a = skip then tmp1 = tmp ∧ sc1 = sc ∧ len = 0
      else copy_segment raw moves_expanded feature tmp cur sc = Except.ok (tmp1, sc1, len)) :
    sc1 = sc + len ∧ tmp1.length = tmp.length ∧
      (if a = skip then len = 0
        else 1 ≤ len ∧ sc + len ≤ raw.length ∧ ((raw.drop sc).take len).length = len) ∧
      ∀ (width row : Nat) (done : List Fl) (fill : Fl), RowIs tmp width row done fill →
        (feature = (row : Int) → cur = done.length) →
        RowIs tmp1 width row
          (if a ≠ skip ∧ feature = (row : Int) then done ++ (raw.drop sc).take len else done)
          fill := by
  by_cases ha : a = skip
  · rw [if_pos ha] at h
    obtain ⟨rfl, rfl, rfl⟩ := h
    refine ⟨rfl, rfl, by rw [if_pos ha], ?_⟩
    intro width row done fill hrow _
    rw [if_neg (by simp [ha])]
    exact hrow
  · rw [if_neg ha] at h
    obtain ⟨h1, h2, h3, h4, h5, h6⟩ := copy_segment_spec h
    refine ⟨h2, h4, by rw [if_neg ha]; exact ⟨h1, h3, h5⟩, ?_⟩
    intro width row done fill hrow hpos
    have := h6 width row done fill hrow hpos
    by_cases hf : feature = (row : Int)
    · rw [if_pos ⟨ha, hf⟩]
      rw [if_pos hf] at this
      exact this
    · rw [if_neg (by simp [hf])]
      rw [if_neg hf] at this
      exact this

/-- The fill of a base row and of a quality row for one side of a column, or
nothing when the alignment entry is the insertion `skip` to the other side. -/
theorem fill_stage {a skip : Nat} {tmp tmp1 : List (List Fl)} {base_row quality_row : Int}
    {base_to_int : Char → Int} {cur total : Nat} {read_nucleotide read_q : Except Fault Char}
    (h : if a = skip then tmp1 = tmp
      else ∃ nucleotide q t1,
        read_nucleotide = Except.ok nucleotide ∧
        write_row tmp (base_row + base_to_int nucleotide) cur
          (List.replicate total (Fl.fin 1)) = Except.ok t1 ∧
        read_q = Except.ok q ∧
        write_row t1 quality_row cur (List.replicate total (convert_q_score q)) =
          Except.ok tmp1) :
    ∃ nucleotide q,
      (a ≠ skip → read_nucleotide = Except.ok nucleotide ∧ read_q = Except.ok q) ∧
      tmp1.length = tmp.length ∧
      ∀ (width row : Nat) (done : List Fl) (fill : Fl), RowIs tmp width row done fill →
        (a ≠ skip → base_row + base_to_int nucleotide = (row : Int) → cur = done.length) →
        (a ≠ skip → quality_row = (row : Int) → cur = done.length) →
        (base_row + base_to_int nucleotide ≠ quality_row) →
        RowIs tmp1 width row
          (if a ≠ skip ∧ base_row + base_to_int nucleotide = (row : Int) then
            done ++ List.replicate total (Fl.fin 1)
          else if a ≠ skip ∧ quality_row = (row : Int) then
            done ++ List.replicate total (convert_q_score q)
          else done) fill := by
  by_cases ha : a = skip
  · rw [if_pos ha] at h
    subst h
    refine ⟨'A', 'A', fun hn => absurd ha hn, rfl, ?_⟩
    intro width row done fill hrow _ _ _
    rw [if_neg (by simp [ha]), if_neg (by simp [ha])]
    exact hrow
  · rw [if_neg ha] at h
    obtain ⟨nucleotide, q, t1, hn, h1, hq, h2⟩ := h
    refine ⟨nucleotide, q, fun _ => ⟨hn, hq⟩, by rw [write_row_length h2, write_row_length h1], ?_⟩
    intro width row done fill hrow hp1 hp2 hne
    have r1 := hrow.write h1 (hp1 ha)
    by_cases hb : base_row + base_to_int nucleotide = (row : Int)
    · rw [if_pos hb] at r1
      rw [if_pos ⟨ha, hb⟩]
      have r2 := r1.write h2 (fun hq => absurd (hb.trans hq.symm) hne)
      rw [if_neg (fun hq => hne (hb.trans hq.symm))] at r2
      exact r2
    · rw [if_neg hb] at r1
      rw [if_neg (by simp [hb])]
      have r2 := r1.write h2 (hp2 ha)
      by_cases hq2 : quality_row = (row : Int)
      · rw [if_pos hq2] at r2
        rw [if_pos ⟨ha, hq2⟩]
        exact r2
      · rw [if_neg hq2] at r2
        rw [if_neg (by simp [hq2])]
        exact r2

/-- A row whose done part has grown by `written` within a column holds the
entries expected of the column once the rest of the column counts as done. -/
theorem RowIs.finish {tmp : List (List Fl)} {width row : Nat}
    {done features : List Fl} {fill : Fl} (written : List Fl) (total : Nat)
    (h : RowIs tmp width row (done ++ written) fill) (hbound : done.length + total ≤ width)
    (hlen : written.length ≤ total)
    (hfeatures : features = written ++ List.replicate (total - written.length) fill) :
    RowIs tmp width row (done ++ features) fill := by
  rw [hfeatures, ← List.append_assoc]
  apply h.pad
  rw [List.length_append]
  omega
theorem Column.features_zero (base_to_int : Char → Int) (pad : Fl) (col : Column) :
    col.features base_to_int pad 0 =
      col.template_segment ++
        List.replicate (col.total_segment_length - col.template_segment_length) pad := rfl

theorem Column.features_one (base_to_int : Char → Int) (pad : Fl) (col : Column) :
    col.features base_to_int pad 1 =
      col.complement_segment ++
        List.replicate (col.total_segment_length - col.complement_segment_length) pad := rfl

theorem Column.features_template_base (base_to_int : Char → Int) (pad : Fl) (col : Column)
    (row : Nat) (h2 : 2 ≤ row) (h5 : row ≤ 5) :
    col.features base_to_int pad row =
      List.replicate col.total_segment_length
        (if col.entry ≠ 2 ∧ 2 + base_to_int col.template_nucleotide = (row : Int) then Fl.fin 1
          else Fl.fin 0) := by
  unfold Column.features
  rw [if_neg (by omega), if_neg (by omega), if_pos (by omega)]

theorem Column.features_complement_base (base_to_int : Char → Int) (pad : Fl) (col : Column)
    (row : Nat) (h6 : 6 ≤ row) (h9 : row ≤ 9) :
    col.features base_to_int pad row =
      List.replicate col.total_segment_length
        (if col.entry ≠ 1 ∧ 6 + base_to_int col.complement_nucleotide = (row : Int) then Fl.fin 1
          else Fl.fin 0) := by
  unfold Column.features
  rw [if_neg (by omega), if_neg (by omega), if_neg (by omega), if_pos (by omega)]

theorem Column.features_move (base_to_int : Char → Int) (pad : Fl) (col : Column) :
    col.features base_to_int pad 10 =
      Fl.fin 1 :: List.replicate (col.total_segment_length - 1) (Fl.fin 0) := rfl

theorem Column.features_template_q (base_to_int : Char → Int) (pad : Fl) (col : Column) :
    col.features base_to_int pad 11 =
      List.replicate col.total_segment_length
        (if col.entry ≠ 2 then convert_q_score col.template_q else Fl.fin 0) := rfl

theorem Column.features_complement_q (base_to_int : Char → Int) (pad : Fl) (col : Column) :
    col.features base_to_int pad 12 =
      List.replicate col.total_segment_length
        (if col.entry ≠ 1 then convert_q_score col.complement_q else Fl.fin 0) := rfl

theorem Column.features_length (base_to_int : Char → Int) (pad : Fl) (col : Column) (row : Nat)
    (hrow : row < 13) (htotal : 1 ≤ col.total_segment_length) :
    (col.features base_to_int pad row).length = col.total_segment_length := by
  have h1 : col.template_segment_length ≤ col.total_segment_length := le_max_left _ _
  have h2 : col.complement_segment_length ≤ col.total_segment_length := le_max_right _ _
  have hclass : row = 0 ∨ row = 1 ∨ (2 ≤ row ∧ row ≤ 5) ∨ (6 ≤ row ∧ row ≤ 9) ∨ row = 10 ∨
      row = 11 ∨ row = 12 := by omega
  rcases hclass with rfl | rfl | h | h | rfl | rfl | rfl
  · rw [Column.features_zero, List.length_append, List.length_replicate]
    unfold Column.template_segment_length at h1 ⊢
    omega
  · rw [Column.features_one, List.length_append, List.length_replicate]
    unfold Column.complement_segment_length at h2 ⊢
    omega
  · rw [Column.features_template_base _ _ _ _ h.1 h.2, List.length_replicate]
  · rw [Column.features_complement_base _ _ _ _ h.1 h.2, List.length_replicate]
  · rw [Column.features_move, List.length_cons, List.length_replicate]
    omega
  · rw [Column.features_template_q, List.length_replicate]
  · rw [Column.features_complement_q, List.length_replicate]
theorem ite_append_nil {α : Type} (p : Prop) [Decidable p] (done written : List α) :
    (if p then done ++ written else done) = done ++ (if p then written else []) := by
  split_ifs <;> simp

theorem ite_ite_append_nil {α : Type} (p q : Prop) [Decidable p] [Decidable q]
    (done written1 written2 : List α) :
    (if p then done ++ written1 else if q then done ++ written2 else done) =
      done ++ (if p then written1 else if q then written2 else []) := by
  split_ifs <;> simp

/-- One pass of the walk: it is a pass in the sense of `Column.IsPass`, advances
the cursors, stays within the width of the buffer, and extends the done part of
every row by the entries expected of the column. -/
theorem encode_column_spec (c : WalkCtx) (a : Nat) (s s1 : WalkState) (width : Nat) (pad : Fl)
    (hbase : ∀ ch, 0 ≤ c.base_to_int ch ∧ c.base_to_int ch ≤ 3)
    (h : encode_column c a s = Except.ok s1) (done : Nat → List Fl)
    (hrows : ∀ row, row < 13 → RowIs s.tmp width row (done row) (initial_fill pad row))
    (hdone : ∀ row, row < 13 → (done row).length = s.stereo_global_cursor) :
    ∃ col : Column, col.entry = a ∧
      col.IsPass c s.template_signal_cursor s.complement_signal_cursor s.target_cursor
        s.query_cursor ∧
      s1.template_signal_cursor = s.template_signal_cursor + col.template_segment_length ∧
      s1.complement_signal_cursor =
        s.complement_signal_cursor + col.complement_segment_length ∧
      s1.target_cursor = (if col.entry = 2 then s.target_cursor else s.target_cursor + 1) ∧
      s1.query_cursor = (if col.entry = 1 then s.query_cursor else s.query_cursor + 1) ∧
      s1.stereo_global_cursor = s.stereo_global_cursor + col.total_segment_length ∧
      1 ≤ col.total_segment_length ∧ s1.stereo_global_cursor ≤ width ∧
      (∀ row, row < 13 →
        RowIs s1.tmp width row (done row ++ col.features c.base_to_int pad row)
          (initial_fill pad row)) ∧
      ∀ row, row < 13 →
        (col.features c.base_to_int pad row).length = col.total_segment_length := by
  obtain ⟨tmp1, tsc, tlen, tmp2, csc, clen, tmp3, tmp4, tmp5, hT, hC, hFT, hFC, h5, rfl⟩ :=
    encode_column_inv c a s s1 h
  obtain ⟨sT, -, bT, rT⟩ := signal_stage hT
  obtain ⟨sC, -, bC, rC⟩ := signal_stage hC
  obtain ⟨nucT, qT, cT, -, rFT⟩ := fill_stage hFT
  obtain ⟨nucC, qC, cC, -, rFC⟩ := fill_stage hFC
  have hbT := hbase nucT
  have hbC := hbase nucC
  -- the segments and their lengths
  have hlenT : ((c.template_raw.drop s.template_signal_cursor).take tlen).length = tlen := by
    by_cases ha : a = 2
    · rw [if_pos ha] at bT
      rw [bT]
      rfl
    · rw [if_neg ha] at bT
      exact bT.2.2
  have hlenC : ((c.flipped_complement_raw.drop s.complement_signal_cursor).take clen).length =
      clen := by
    by_cases ha : a = 1
    · rw [if_pos ha] at bC
      rw [bC]
      rfl
    · rw [if_neg ha] at bC
      exact bC.2.2
  have htotal : 1 ≤ max tlen clen := by
    by_cases ha : a = 2
    · have h1 : a ≠ 1 := by omega
      rw [if_neg h1] at bC
      exact le_max_of_le_right bC.1
    · rw [if_neg ha] at bT
      exact le_max_of_le_left bT.1
  -- the bound on the cursor, from a row that is filled over the whole column
  have hbound : s.stereo_global_cursor + max tlen clen ≤ width := by
    by_cases ha : a = 2
    · have h1 : a ≠ 1 := by omega
      have r0 := hrows 12 (by norm_num)
      have r1 := rT width 12 _ _ r0 (fun hf => by omega)
      rw [if_neg (by omega)] at r1
      have r2 := rC width 12 _ _ r1 (fun hf => by omega)
      rw [if_neg (by omega)] at r2
      have r3 := rFT width 12 _ _ r2 (fun _ hf => by omega) (fun _ hf => by omega) (by omega)
      rw [if_neg (by omega), if_neg (by omega)] at r3
      have r4 := rFC width 12 _ _ r3 (fun _ hf => by omega)
        (fun _ _ => (hdone 12 (by norm_num)).symm) (by omega)
      rw [if_neg (by omega), if_pos ⟨h1, by norm_num⟩] at r4
      have := r4.1
      rw [List.length_append, List.length_replicate, hdone 12 (by norm_num)] at this
      exact this
    · have r0 := hrows 11 (by norm_num)
      have r1 := rT width 11 _ _ r0 (fun hf => by omega)
      rw [if_neg (by omega)] at r1
      have r2 := rC width 11 _ _ r1 (fun hf => by omega)
      rw [if_neg (by omega)] at r2
      have r3 := rFT width 11 _ _ r2 (fun _ hf => by omega)
        (fun _ _ => (hdone 11 (by norm_num)).symm) (by omega)
      rw [if_neg (by omega), if_pos ⟨ha, by norm_num⟩] at r3
      have := r3.1
      rw [List.length_append, List.length_replicate, hdone 11 (by norm_num)] at this
      exact this
  have hmaxT : tlen ≤ max tlen clen := le_max_left _ _
  have hmaxC : clen ≤ max tlen clen := le_max_right _ _
  obtain ⟨col, hcol⟩ : ∃ col : Column, col =
      { entry := a, target_cursor := s.target_cursor, query_cursor := s.query_cursor,
        template_segment := (c.template_raw.drop s.template_signal_cursor).take tlen,
        complement_segment :=
          (c.flipped_complement_raw.drop s.complement_signal_cursor).take clen,
        template_nucleotide := nucT, template_q := qT, complement_nucleotide := nucC,
        complement_q := qC } := ⟨_, rfl⟩
  have hent : col.entry = a := by rw [hcol]
  have hsegT : col.template_segment =
      (c.template_raw.drop s.template_signal_cursor).take tlen := by rw [hcol]
  have hsegC : col.complement_segment =
      (c.flipped_complement_raw.drop s.complement_signal_cursor).take clen := by rw [hcol]
  have hnT : col.template_nucleotide = nucT := by rw [hcol]
  have hnC : col.complement_nucleotide = nucC := by rw [hcol]
  have hqT : col.template_q = qT := by rw [hcol]
  have hqC : col.complement_q = qC := by rw [hcol]
  have htl : col.template_segment_length = tlen := by
    rw [Column.template_segment_length, hsegT, hlenT]
  have hcl : col.complement_segment_length = clen := by
    rw [Column.complement_segment_length, hsegC, hlenC]
  have htot : col.total_segment_length = max tlen clen := by
    rw [Column.total_segment_length, htl, hcl]
  refine ⟨col, hent, ⟨by rw [hcol], by rw [hcol], ?_, ?_⟩, by rw [htl]; exact sT,
    by rw [hcl]; exact sC, by rw [hent], by rw [hent], by rw [htot], by rw [htot]; exact htotal,
    hbound, ?_, fun row hrow =>
      Column.features_length _ _ _ row hrow (by rw [htot]; exact htotal)⟩
  · rw [hent, htl, hnT, hqT, hsegT]
    by_cases ha : a = 2
    · rw [if_pos ha] at bT ⊢
      rw [bT]
      rfl
    · rw [if_neg ha] at bT ⊢
      have hT' := hT
      rw [if_neg ha] at hT'
      have hbd := copy_segment_boundary hT'
      refine ⟨?_, rfl, bT.2.1, (cT ha).1, (cT ha).2, hbd⟩
      intro he
      have := congrArg List.length he
      rw [hlenT, List.length_nil] at this
      omega
  · rw [hent, hcl, hnC, hqC, hsegC]
    by_cases ha : a = 1
    · rw [if_pos ha] at bC ⊢
      rw [bC]
      rfl
    · rw [if_neg ha] at bC ⊢
      have hC' := hC
      rw [if_neg ha] at hC'
      have hbd := copy_segment_boundary hC'
      refine ⟨?_, rfl, bC.2.1, (cC ha).1, (cC ha).2, hbd⟩
      intro he
      have := congrArg List.length he
      rw [hlenC, List.length_nil] at this
      omega
  · intro row hrow
    have hd := hdone row hrow
    have r0 := hrows row hrow
    have r1 := rT width row _ _ r0 (fun _ => hd.symm)
    rw [ite_append_nil] at r1
    have r2 := rC width row _ _ r1 (fun hf => by
      rw [if_neg (by omega)]
      simp [hd])
    rw [ite_append_nil, List.append_assoc] at r2
    have r3 := rFT width row _ _ r2
      (fun _ hf => by
        rw [if_neg (by omega), if_neg (by omega)]
        simp [hd])
      (fun _ hf => by
        rw [if_neg (by omega), if_neg (by omega)]
        simp [hd])
      (by omega)
    rw [ite_ite_append_nil, List.append_assoc] at r3
    have r4 := rFC width row _ _ r3
      (fun _ hf => by
        rw [if_neg (by omega), if_neg (by omega), if_neg (by omega), if_neg (by omega)]
        simp [hd])
      (fun _ hf => by
        rw [if_neg (by omega), if_neg (by omega), if_neg (by omega), if_neg (by omega)]
        simp [hd])
      (by omega)
    rw [ite_ite_append_nil, List.append_assoc] at r4
    have r5 := r4.write h5 (fun hf => by
      rw [if_neg (by omega), if_neg (by omega), if_neg (by omega), if_neg (by omega),
        if_neg (by omega), if_neg (by omega)]
      simp [hd])
    rw [ite_append_nil, List.append_assoc] at r5
    have hb : (done row).length + max tlen clen ≤ width := by rw [hd]; exact hbound
    have hclass : row = 0 ∨ row = 1 ∨ (2 ≤ row ∧ row ≤ 5) ∨ (6 ≤ row ∧ row ≤ 9) ∨ row = 10 ∨
        row = 11 ∨ row = 12 := by omega
    have hfill : 2 ≤ row → initial_fill pad row = Fl.fin 0 := by
      intro h2
      unfold initial_fill
      rw [if_neg (by omega)]
    rcases hclass with hr | hr | hr | hr | hr | hr | hr
    · -- the template signal row
      have k1 : ¬ ((1 : Int) = (row : Int)) := by omega
      have k2 : ¬ (2 + c.base_to_int nucT = (row : Int)) := by omega
      have k3 : ¬ ((11 : Int) = (row : Int)) := by omega
      have k4 : ¬ (6 + c.base_to_int nucC = (row : Int)) := by omega
      have k5 : ¬ ((12 : Int) = (row : Int)) := by omega
      have k6 : ¬ ((10 : Int) = (row : Int)) := by omega
      have k0 : (0 : Int) = (row : Int) := by omega
      simp only [k0, k1, k2, k3, k4, k5, k6, and_false, and_true, if_false, List.append_nil] at r5
      have e : (if a ≠ 2 then (c.template_raw.drop s.template_signal_cursor).take tlen else []) =
          (c.template_raw.drop s.template_signal_cursor).take tlen := by
        by_cases ha : a = 2
        · rw [if_pos ha] at bT
          rw [if_neg (by simp [ha]), bT]
          rfl
        · rw [if_pos ha]
      rw [e] at r5
      subst hr
      refine r5.finish _ _ hb (by rw [hlenT]; exact hmaxT) ?_
      rw [Column.features_zero, htot, htl, hsegT, hlenT]
      rfl
    · -- the complement signal row
      have k0 : ¬ ((0 : Int) = (row : Int)) := by omega
      have k2 : ¬ (2 + c.base_to_int nucT = (row : Int)) := by omega
      have k3 : ¬ ((11 : Int) = (row : Int)) := by omega
      have k4 : ¬ (6 + c.base_to_int nucC = (row : Int)) := by omega
      have k5 : ¬ ((12 : Int) = (row : Int)) := by omega
      have k6 : ¬ ((10 : Int) = (row : Int)) := by omega
      have k1 : (1 : Int) = (row : Int) := by omega
      simp only [k0, k1, k2, k3, k4, k5, k6, and_false, and_true, if_false, List.append_nil,
        List.nil_append] at r5
      have e : (if a ≠ 1 then
            (c.flipped_complement_raw.drop s.complement_signal_cursor).take clen else []) =
          (c.flipped_complement_raw.drop s.complement_signal_cursor).take clen := by
        by_cases ha : a = 1
        · rw [if_pos ha] at bC
          rw [if_neg (by simp [ha]), bC]
          rfl
        · rw [if_pos ha]
      rw [e] at r5
      subst hr
      refine r5.finish _ _ hb (by rw [hlenC]; exact hmaxC) ?_
      rw [Column.features_one, htot, hcl, hsegC, hlenC]
      rfl
    · -- a template base row
      have k0 : ¬ ((0 : Int) = (row : Int)) := by omega
      have k1 : ¬ ((1 : Int) = (row : Int)) := by omega
      have k3 : ¬ ((11 : Int) = (row : Int)) := by omega
      have k4 : ¬ (6 + c.base_to_int nucC = (row : Int)) := by omega
      have k5 : ¬ ((12 : Int) = (row : Int)) := by omega
      have k6 : ¬ ((10 : Int) = (row : Int)) := by omega
      simp only [k0, k1, k3, k4, k5, k6, and_false, if_false, List.append_nil,
        List.nil_append] at r5
      rw [hfill hr.1] at r5 ⊢
      rw [Column.features_template_base _ _ _ _ hr.1 hr.2, hent, hnT, htot]
      by_cases hc : a ≠ 2 ∧ 2 + c.base_to_int nucT = (row : Int)
      · rw [if_pos hc] at r5 ⊢
        exact r5
      · rw [if_neg hc] at r5 ⊢
        exact r5.finish [] _ hb (by simp) (by simp)
    · -- a complement base row
      have k0 : ¬ ((0 : Int) = (row : Int)) := by omega
      have k1 : ¬ ((1 : Int) = (row : Int)) := by omega
      have k2 : ¬ (2 + c.base_to_int nucT = (row : Int)) := by omega
      have k3 : ¬ ((11 : Int) = (row : Int)) := by omega
      have k5 : ¬ ((12 : Int) = (row : Int)) := by omega
      have k6 : ¬ ((10 : Int) = (row : Int)) := by omega
      simp only [k0, k1, k2, k3, k5, k6, and_false, if_false, List.append_nil,
        List.nil_append] at r5
      rw [hfill (by omega)] at r5 ⊢
      rw [Column.features_complement_base _ _ _ _ hr.1 hr.2, hent, hnC, htot]
      by_cases hc : a ≠ 1 ∧ 6 + c.base_to_int nucC = (row : Int)
      · rw [if_pos hc] at r5 ⊢
        exact r5
      · rw [if_neg hc] at r5 ⊢
        exact r5.finish [] _ hb (by simp) (by simp)
    · -- the move table row
      have k0 : ¬ ((0 : Int) = (row : Int)) := by omega
      have k1 : ¬ ((1 : Int) = (row : Int)) := by omega
      have k2 : ¬ (2 + c.base_to_int nucT = (row : Int)) := by omega
      have k3 : ¬ ((11 : Int) = (row : Int)) := by omega
      have k4 : ¬ (6 + c.base_to_int nucC = (row : Int)) := by omega
      have k5 : ¬ ((12 : Int) = (row : Int)) := by omega
      have k6 : (10 : Int) = (row : Int) := by omega
      simp only [k0, k1, k2, k3, k4, k5, k6, and_false, if_false, if_true, List.append_nil,
        List.nil_append] at r5
      rw [hfill (by omega)] at r5 ⊢
      subst hr
      refine r5.finish _ _ hb (by simpa using htotal) ?_
      rw [Column.features_move, htot]
      rfl
    · -- the template quality row
      have k0 : ¬ ((0 : Int) = (row : Int)) := by omega
      have k1 : ¬ ((1 : Int) = (row : Int)) := by omega
      have k2 : ¬ (2 + c.base_to_int nucT = (row : Int)) := by omega
      have k4 : ¬ (6 + c.base_to_int nucC = (row : Int)) := by omega
      have k5 : ¬ ((12 : Int) = (row : Int)) := by omega
      have k6 : ¬ ((10 : Int) = (row : Int)) := by omega
      have k3 : (11 : Int) = (row : Int) := by omega
      simp only [k0, k1, k2, k3, k4, k5, k6, and_false, and_true, if_false, List.append_nil,
        List.nil_append] at r5
      rw [hfill (by omega)] at r5 ⊢
      subst hr
      rw [Column.features_template_q, hent, hqT, htot]
      by_cases ha : a ≠ 2
      · rw [if_pos ha] at r5 ⊢
        exact r5
      · rw [if_neg ha] at r5 ⊢
        exact r5.finish [] _ hb (by simp) (by simp)
    · -- the complement quality row
      have k0 : ¬ ((0 : Int) = (row : Int)) := by omega
      have k1 : ¬ ((1 : Int) = (row : Int)) := by omega
      have k2 : ¬ (2 + c.base_to_int nucT = (row : Int)) := by omega
      have k3 : ¬ ((11 : Int) = (row : Int)) := by omega
      have k4 : ¬ (6 + c.base_to_int nucC = (row : Int)) := by omega
      have k6 : ¬ ((10 : Int) = (row : Int)) := by omega
      have k5 : (12 : Int) = (row : Int) := by omega
      simp only [k0, k1, k2, k3, k4, k5, k6, and_false, and_true, if_false, List.append_nil,
        List.nil_append] at r5
      rw [hfill (by omega)] at r5 ⊢
      subst hr
      rw [Column.features_complement_q, hent, hqC, htot]
      by_cases ha : a ≠ 1
      · rw [if_pos ha] at r5 ⊢
        exact r5
      · rw [if_neg ha] at r5 ⊢
        exact r5.finish [] _ hb (by simp) (by simp)

/-! ## Rounding: numbers of the format and monotonicity -/

/-- A number that rounding leaves unchanged is a whole multiple of its quantum
and lies below the overflow threshold. -/
theorem roundBinary_fixed (prec : ℕ) (emin emax : ℤ) {x : ℚ}
    (h : roundBinary prec emin emax x = Fl.fin x) :
    (∃ k : ℤ, x = (k : ℚ) * quantum prec emin x) ∧ |x| < (2 : ℚ) ^ (emax + 1) := by
  by_cases hx : x = 0
  · subst hx
    exact ⟨⟨0, by simp⟩, by simp; positivity⟩
  · unfold roundBinary at h
    rw [if_neg hx] at h
    split_ifs at h with hov
    simp only [Fl.fin.injEq] at h
    refine ⟨⟨_, h.symm⟩, ?_⟩
    rw [h] at hov
    exact not_le.mp hov

/-- The quantum of a larger number is a power of two times the quantum of a
smaller one. -/
theorem quantum_mul_of_le (prec : ℕ) (emin : ℤ) {x r : ℚ} (hx : 0 < x) (hxr : x ≤ r) :
    ∃ n : ℕ, quantum prec emin r = (((2 : ℤ) ^ n : ℤ) : ℚ) * quantum prec emin x := by
  have hr : 0 < r := lt_of_lt_of_le hx hxr
  have hlog : Int.log 2 x ≤ Int.log 2 r := Int.log_mono_right hx hxr
  obtain ⟨n, hn⟩ : ∃ n : ℕ, (n : ℤ) = max (Int.log 2 r) emin - max (Int.log 2 x) emin := by
    refine ⟨(max (Int.log 2 r) emin - max (Int.log 2 x) emin).toNat, ?_⟩
    have : max (Int.log 2 x) emin ≤ max (Int.log 2 r) emin := max_le_max hlog (le_refl _)
    omega
  refine ⟨n, ?_⟩
  unfold quantum
  rw [abs_of_pos hx, abs_of_pos hr]
  push_cast
  rw [← zpow_natCast, ← zpow_add₀ (by norm_num : (2 : ℚ) ≠ 0), hn]
  congr 1
  ring

/-- Rounding a positive number does not carry it above a number of the format
that lies above it. -/
theorem roundBinary_le_of_le (prec : ℕ) (emin emax : ℤ) {x r : ℚ} (hx : 0 < x) (hxr : x ≤ r)
    (hr : roundBinary prec emin emax r = Fl.fin r) :
    ∃ v : ℚ, 0 ≤ v ∧ v ≤ r ∧ roundBinary prec emin emax x = Fl.fin v := by
  obtain ⟨⟨k, hk⟩, hov⟩ := roundBinary_fixed prec emin emax hr
  obtain ⟨n, hn⟩ := quantum_mul_of_le prec emin hx hxr
  have hq := quantum_pos prec emin x
  have hr0 : 0 < r := lt_of_lt_of_le hx hxr
  have hrq : r = (((k * 2 ^ n : ℤ)) : ℚ) * quantum prec emin x := by
    rw [hk, hn]
    push_cast
    ring
  have h2 : x / quantum prec emin x ≤ ((k * 2 ^ n : ℤ) : ℚ) := by
    rw [div_le_iff₀ hq, ← hrq]
    exact hxr
  have h3 := roundHalfEven_le h2
  have h4 : ((roundHalfEven (x / quantum prec emin x) : ℤ) : ℚ) ≤ ((k * 2 ^ n : ℤ) : ℚ) := by
    exact_mod_cast h3
  have h5 : (0 : ℤ) ≤ roundHalfEven (x / quantum prec emin x) := by
    apply le_roundHalfEven
    simpa using (div_pos hx hq).le
  have h6 : (0 : ℚ) ≤ ((roundHalfEven (x / quantum prec emin x) : ℤ) : ℚ) := by exact_mod_cast h5
  have hv : ((roundHalfEven (x / quantum prec emin x) : ℤ) : ℚ) * quantum prec emin x ≤ r := by
    rw [hrq]
    exact mul_le_mul_of_nonneg_right h4 hq.le
  have hv0 : 0 ≤ ((roundHalfEven (x / quantum prec emin x) : ℤ) : ℚ) * quantum prec emin x :=
    mul_nonneg h6 hq.le
  refine ⟨_, hv0, hv, ?_⟩
  unfold roundBinary
  rw [if_neg hx.ne', if_neg]
  rw [not_le, abs_of_nonneg hv0]
  calc _ ≤ r := hv
    _ = |r| := (abs_of_pos hr0).symm
    _ < (2 : ℚ) ^ (emax + 1) := hov

/-- Rounding a number that is not negative does not carry it above a number of
the format that lies above it. -/
theorem roundBinary_le_of_le' (prec : ℕ) (emin emax : ℤ) {x r : ℚ} (hx : 0 ≤ x) (hxr : x ≤ r)
    (hr : roundBinary prec emin emax r = Fl.fin r) :
    ∃ v : ℚ, 0 ≤ v ∧ v ≤ r ∧ roundBinary prec emin emax x = Fl.fin v := by
  rcases hx.lt_or_eq with h | h
  · exact roundBinary_le_of_le prec emin emax h hxr hr
  · subst h
    exact ⟨0, le_refl _, hxr, by simp [roundBinary]⟩
/-- A number of a format is a number of every format with at least as many
significand bits and at least as wide an exponent range. -/
theorem roundBinary_fixed_of_narrower (prec1 prec2 : ℕ) (emin1 emax1 emin2 emax2 : ℤ) {x : ℚ}
    (hprec : prec1 ≤ prec2) (hemin : emin2 ≤ emin1) (hemax : emax1 ≤ emax2)
    (h : roundBinary prec1 emin1 emax1 x = Fl.fin x) :
    roundBinary prec2 emin2 emax2 x = Fl.fin x := by
  obtain ⟨⟨k, hk⟩, hov⟩ := roundBinary_fixed prec1 emin1 emax1 h
  obtain ⟨n, hn⟩ : ∃ n : ℕ, (n : ℤ) =
      (max (Int.log 2 |x|) emin1 - ((prec1 : ℤ) - 1)) -
        (max (Int.log 2 |x|) emin2 - ((prec2 : ℤ) - 1)) := by
    refine ⟨((max (Int.log 2 |x|) emin1 - ((prec1 : ℤ) - 1)) -
        (max (Int.log 2 |x|) emin2 - ((prec2 : ℤ) - 1))).toNat, ?_⟩
    have h1 : max (Int.log 2 |x|) emin2 ≤ max (Int.log 2 |x|) emin1 :=
      max_le_max (le_refl _) hemin
    have h2 : (prec1 : ℤ) ≤ (prec2 : ℤ) := by exact_mod_cast hprec
    omega
  have hq : quantum prec1 emin1 x = (((2 : ℤ) ^ n : ℤ) : ℚ) * quantum prec2 emin2 x := by
    unfold quantum
    push_cast
    rw [← zpow_natCast, ← zpow_add₀ (by norm_num : (2 : ℚ) ≠ 0), hn]
    congr 1
    ring
  apply roundBinary_exact prec2 emin2 emax2 x (k * 2 ^ n)
  · calc x = (k : ℚ) * quantum prec1 emin1 x := hk
      _ = (k : ℚ) * ((((2 : ℤ) ^ n : ℤ) : ℚ) * quantum prec2 emin2 x) := by rw [hq]
      _ = ((k * 2 ^ n : ℤ) : ℚ) * quantum prec2 emin2 x := by
        push_cast
        ring
  · calc |x| < (2 : ℚ) ^ (emax1 + 1) := hov
      _ ≤ (2 : ℚ) ^ (emax2 + 1) := zpow_le_zpow_right₀ (by norm_num) (by omega)

/-- The exponent of a positive number scaled by a power of two. -/
theorem log_two_mul_pow {x : ℚ} (hx : 0 < x) (j : ℕ) :
    Int.log 2 ((2 : ℚ) ^ j * x) = Int.log 2 x + j := by
  apply log_two_eq
  · have h1 := two_zpow_log_le hx
    rw [zpow_add₀ (by norm_num : (2 : ℚ) ≠ 0), zpow_natCast, mul_comm]
    exact mul_le_mul_of_nonneg_left h1 (by positivity)
  · have h2 := lt_two_zpow_log_succ x
    have e : Int.log 2 x + (j : ℤ) + 1 = (Int.log 2 x + 1) + (j : ℤ) := by ring
    rw [e, zpow_add₀ (by norm_num : (2 : ℚ) ≠ 0), zpow_natCast, mul_comm]
    exact mul_lt_mul_of_pos_right h2 (by positivity)

/-- A number of a format scaled by a power of two is a number of the format as
long as it does not overflow. -/
theorem roundBinary_fixed_scale (prec : ℕ) (emin emax : ℤ) {x : ℚ} (j : ℕ) (hx : 0 ≤ x)
    (h : roundBinary prec emin emax x = Fl.fin x)
    (hov : (2 : ℚ) ^ j * x < (2 : ℚ) ^ (emax + 1)) :
    roundBinary prec emin emax ((2 : ℚ) ^ j * x) = Fl.fin ((2 : ℚ) ^ j * x) := by
  rcases hx.lt_or_eq with hpos | hzero
  · obtain ⟨⟨k, hk⟩, -⟩ := roundBinary_fixed prec emin emax h
    have hpos2 : 0 < (2 : ℚ) ^ j * x := by positivity
    obtain ⟨n, hn⟩ : ∃ n : ℕ, (n : ℤ) =
        (j : ℤ) - (max (Int.log 2 x + j) emin - max (Int.log 2 x) emin) := by
      refine ⟨((j : ℤ) - (max (Int.log 2 x + j) emin - max (Int.log 2 x) emin)).toNat, ?_⟩
      have h1 : max (Int.log 2 x + j) emin ≤ max (Int.log 2 x) emin + j := by
        apply max_le
        · have := le_max_left (Int.log 2 x) emin
          omega
        · have := le_max_right (Int.log 2 x) emin
          omega
      omega
    have hq : (2 : ℚ) ^ j * quantum prec emin x =
        (((2 : ℤ) ^ n : ℤ) : ℚ) * quantum prec emin ((2 : ℚ) ^ j * x) := by
      unfold quantum
      rw [abs_of_pos hpos, abs_of_pos hpos2, log_two_mul_pow hpos j]
      push_cast
      rw [← zpow_natCast, ← zpow_natCast, ← zpow_add₀ (by norm_num : (2 : ℚ) ≠ 0),
        ← zpow_add₀ (by norm_num : (2 : ℚ) ≠ 0), hn]
      congr 1
      ring
    apply roundBinary_exact prec emin emax _ (k * 2 ^ n)
    · calc (2 : ℚ) ^ j * x = (2 : ℚ) ^ j * ((k : ℚ) * quantum prec emin x) := by rw [← hk]
        _ = (k : ℚ) * ((2 : ℚ) ^ j * quantum prec emin x) := by ring
        _ = (k : ℚ) * ((((2 : ℤ) ^ n : ℤ) : ℚ) * quantum prec emin ((2 : ℚ) ^ j * x)) := by
          rw [hq]
        _ = ((k * 2 ^ n : ℤ) : ℚ) * quantum prec emin ((2 : ℚ) ^ j * x) := by
          push_cast
          ring
    · rw [abs_of_pos hpos2]
      exact hov
  · subst hzero
    simp [roundBinary]

/-! ## Quantization of modified-base probabilities -/

/-- The product `p * 256` of the code is exact for a `float` between 0 and 1. -/
theorem mul_256_exact (p : ℚ) (hp : round32 p = Fl.fin p) (h0 : 0 ≤ p) (h1 : p ≤ 1) :
    Fl.mul round32 (Fl.fin p) (Fl.fin 256) = Fl.fin (256 * p) := by
  have h := roundBinary_fixed_scale 24 (-126) 127 8 h0 hp (by
    have : (2 : ℚ) ^ 8 * p ≤ 2 ^ 8 := by nlinarith
    calc (2 : ℚ) ^ 8 * p ≤ 2 ^ 8 := this
      _ < (2 : ℚ) ^ ((127 : ℤ) + 1) := by norm_num)
  have e : (2 : ℚ) ^ 8 * p = 256 * p := by norm_num
  rw [e] at h
  show round32 (p * 256) = _
  rw [mul_comm]
  exact h

theorem to_uint8_of_byte (env : RemoraEnv) (q : ℚ) (h0 : 0 ≤ q) (h1 : q ≤ 255) :
    env.to_uint8 (Fl.fin q) = ⌊q⌋.toNat := by
  show (if -1 < q ∧ q < 256 then (if 0 ≤ q then ⌊q⌋.toNat else 0)
    else env.uint8_unrepresentable (Fl.fin q)) = _
  rw [if_pos ⟨by linarith, by linarith⟩, if_pos h0]

/-- The byte stored by `ModBaseCallerNode` for a `float` probability. -/
theorem quantize_eq (env : RemoraEnv) (p : ℚ) (hp : round32 p = Fl.fin p) (h0 : 0 ≤ p)
    (h1 : p ≤ 1) : env.quantize (Fl.fin p) = (min ⌊256 * p⌋ 255).toNat := by
  unfold RemoraEnv.quantize
  rw [mul_256_exact p hp h0 h1]
  have hf : (0 : ℤ) ≤ ⌊256 * p⌋ := Int.floor_nonneg.mpr (by positivity)
  simp only [Fl.floor, Fl.stdMin, Fl.lt]
  by_cases hc : ((255 : ℚ)) < ((⌊256 * p⌋ : ℤ) : ℚ)
  · have hc' : (255 : ℤ) < ⌊256 * p⌋ := by exact_mod_cast hc
    rw [if_pos (decide_eq_true hc), to_uint8_of_byte env 255 (by norm_num) (le_refl _),
      min_eq_right hc'.le]
    have : ⌊(255 : ℚ)⌋ = 255 := by simp
    rw [this]
  · have hc' : ⌊256 * p⌋ ≤ 255 := by
      have := not_lt.mp hc
      exact_mod_cast this
    rw [if_neg (by simpa using hc),
      to_uint8_of_byte env _ (by exact_mod_cast hf) (by exact_mod_cast hc'), Int.floor_intCast,
      min_eq_left hc']

/-- The threshold byte of `ReadToBamType` for a `float` fraction. -/
theorem modbase_threshold_eq (env : RemoraEnv) (t : ℚ) (ht : round32 t = Fl.fin t) (h0 : 0 ≤ t)
    (h1 : t ≤ 1) : ReadToBamType.modbase_threshold env (Fl.fin t) = (min ⌊256 * t⌋ 255).toNat := by
  unfold ReadToBamType.modbase_threshold
  rw [mul_256_exact t ht h0 h1]
  have hf : (0 : ℤ) ≤ ⌊256 * t⌋ := Int.floor_nonneg.mpr (by positivity)
  simp only [Fl.stdMin, Fl.lt]
  by_cases hc : (255 : ℚ) < 256 * t
  · have hc' : (255 : ℤ) ≤ ⌊256 * t⌋ := Int.le_floor.mpr (by exact_mod_cast hc.le)
    rw [if_pos (decide_eq_true hc), to_uint8_of_byte env 255 (by norm_num) (le_refl _),
      min_eq_right hc']
    have : ⌊(255 : ℚ)⌋ = 255 := by simp
    rw [this]
  · have hle : 256 * t ≤ 255 := not_lt.mp hc
    have hc' : ⌊256 * t⌋ ≤ 255 := by
      have : ((⌊256 * t⌋ : ℤ) : ℚ) ≤ 255 := (Int.floor_le _).trans hle
      exact_mod_cast this
    rw [if_neg (by simpa using hc), to_uint8_of_byte env _ (by positivity) hle,
      min_eq_left hc']

/-- The numbers 1/4 and 1/2 are `float` values. -/
theorem round32_quarter_half :
    round32 (1 / 4) = Fl.fin (1 / 4) ∧ round32 (1 / 2) = Fl.fin (1 / 2) := by
  constructor
  · apply roundBinary_exact 24 (-126) 127 _ (2 ^ 23)
    · rw [quantum_eq 24 (-126) (e := -2)] <;> norm_num [abs_of_pos]
    · norm_num [abs_of_pos]
  · apply roundBinary_exact 24 (-126) 127 _ (2 ^ 23)
    · rw [quantum_eq 24 (-126) (e := -1)] <;> norm_num [abs_of_pos]
    · norm_num [abs_of_pos]

/-- Claim C17: let the worker of a `ModBaseCallerNode` take a read for which the
model reports, at the places `i` and `j` of the flattened result, the `float`
probabilities `p ≤ p'` between 0 and 1, and let `t ≤ p` be a `float` threshold
fraction between 0 and 1.  Then the pass of the worker stores in
`base_mod_probs` of the read one byte per probability, at place `i` the byte
`min(floor(256 p), 255)` and at place `j` the byte `min(floor(256 p'), 255)`,
which is at most 255 and not below the byte for `p`; and the threshold byte with
which the constructor of `ReadToBamType` initialises `m_modbase_threshold` is
the same function `min(floor(256 t), 255)` of `t`, so it is at most the byte
stored for `p`. -/
theorem quantize_byte (env : RemoraEnv) (node : ModBaseCallerNode) (ptr : ReadPtr)
    (rest : List ReadPtr) (read : Read) (heap : Heap) (emit_moves rna : Bool) (i j : Nat)
    (t p p' : ℚ)
    (hrun : node.stopped = false) (hfront : node.m_reads = ptr :: rest)
    (hderef : node.heap.deref ptr = Except.ok read)
    (hi : ((env.run read.raw_data read.seq read.moves).flatten)[i]? = some (Fl.fin p))
    (hj : ((env.run read.raw_data read.seq read.moves).flatten)[j]? = some (Fl.fin p'))
    (ht : round32 t = Fl.fin t) (hp : round32 p = Fl.fin p) (hp' : round32 p' = Fl.fin p')
    (h0 : 0 ≤ t) (htp : t ≤ p) (hpp : p ≤ p') (h1 : p' ≤ 1) :
    ∃ node1 read1, node.worker_iteration env = some (Except.ok node1) ∧
      node1.heap.deref ptr = Except.ok read1 ∧
      node1.sink = node.sink ++ [SinkCall.push_read ptr] ∧
      read1.base_mod_probs.length =
        ((env.run read.raw_data read.seq read.moves).flatten).length ∧
      read1.base_mod_probs[i]? = some (min ⌊256 * p⌋ 255).toNat ∧
      read1.base_mod_probs[j]? = some (min ⌊256 * p'⌋ 255).toNat ∧
      (min ⌊256 * p⌋ 255).toNat ≤ (min ⌊256 * p'⌋ 255).toNat ∧
      (min ⌊256 * p'⌋ 255).toNat ≤ 255 ∧
      (ReadToBamType.init env heap emit_moves rna (Fl.fin t)).m_modbase_threshold =
        (min ⌊256 * t⌋ 255).toNat ∧
      (ReadToBamType.init env heap emit_moves rna (Fl.fin t)).m_modbase_threshold ≤
        (min ⌊256 * p⌋ 255).toNat := by
  have hp0 : 0 ≤ p := h0.trans htp
  have hp1 : p ≤ 1 := hpp.trans h1
  have hp'0 : 0 ≤ p' := hp0.trans hpp
  have ht1 : t ≤ 1 := htp.trans hp1
  have e1 := quantize_eq env p hp hp0 hp1
  have e2 := quantize_eq env p' hp' hp'0 h1
  have e3 := modbase_threshold_eq env t ht h0 ht1
  have mono : ∀ a b : ℚ, a ≤ b → (min ⌊256 * a⌋ 255).toNat ≤ (min ⌊256 * b⌋ 255).toNat := by
    intro a b hab
    apply Int.toNat_le_toNat
    exact min_le_min (Int.floor_mono (by linarith)) (le_refl _)
  have hbound : (min ⌊256 * p'⌋ 255).toNat ≤ 255 := by
    have : min ⌊256 * p'⌋ 255 ≤ 255 := min_le_right _ _
    omega
  have hiter : node.worker_iteration env = some (Except.ok
      { node with
        heap := node.heap.store ptr (ModBaseCallerNode.call env read)
        m_reads := rest
        sink := node.sink ++ [SinkCall.push_read ptr] }) := by
    unfold ModBaseCallerNode.worker_iteration
    rw [if_neg (by rw [hrun]; simp), hfront]
    simp only [hderef]
  refine ⟨_, ModBaseCallerNode.call env read, hiter, Heap.deref_store_same _ hderef, rfl, ?_,
    ?_, ?_, mono p p' hpp, hbound, e3, ?_⟩
  · show (((env.run read.raw_data read.seq read.moves).flatten).map env.quantize).length = _
    rw [List.length_map]
  · show (((env.run read.raw_data read.seq read.moves).flatten).map env.quantize)[i]? = _
    rw [List.getElem?_map, hi, Option.map_some', e1]
  · show (((env.run read.raw_data read.seq read.moves).flatten).map env.quantize)[j]? = _
    rw [List.getElem?_map, hj, Option.map_some', e2]
  · show ReadToBamType.modbase_threshold env (Fl.fin t) ≤ _
    rw [e3]
    exact mono t p htp

/-- Witness for `quantize_byte`: a node that holds one read, a model that reports
the probabilities 1/4 and 1/2 for it, and the threshold fraction 1/4; the bytes
stored are 64 and 128 and the threshold byte is 64. -/
theorem quantize_byte_witness :
    ∃ node1 read1,
      ((ModBaseCallerNode.init ⟨[{}]⟩).push_read 0).worker_iteration quarterHalfRemoraEnv =
        some (Except.ok node1) ∧
      node1.heap.deref 0 = Except.ok read1 ∧
      read1.base_mod_probs.length = 2 ∧
      read1.base_mod_probs[0]? = some 64 ∧
      read1.base_mod_probs[1]? = some 128 ∧
      (ReadToBamType.init quarterHalfRemoraEnv ⟨[]⟩ false false
        (Fl.fin (1 / 4))).m_modbase_threshold = 64 := by
  obtain ⟨node1, read1, a1, a2, -, a3, a4, a5, -, -, a6, -⟩ :=
    quantize_byte quarterHalfRemoraEnv ((ModBaseCallerNode.init ⟨[{}]⟩).push_read 0) 0 [] {}
      ⟨[]⟩ false false 0 1 (1 / 4) (1 / 4) (1 / 2) rfl rfl rfl rfl rfl
      round32_quarter_half.1 round32_quarter_half.1 round32_quarter_half.2
      (by norm_num) (by norm_num) (by norm_num) (by norm_num)
  have b1 : (min ⌊(256 : ℚ) * (1 / 4)⌋ 255).toNat = 64 := by
    have : ⌊(256 : ℚ) * (1 / 4)⌋ = 64 := by
      rw [show (256 : ℚ) * (1 / 4) = ((64 : ℤ) : ℚ) by norm_num, Int.floor_intCast]
    rw [this]
    rfl
  have b2 : (min ⌊(256 : ℚ) * (1 / 2)⌋ 255).toNat = 128 := by
    have : ⌊(256 : ℚ) * (1 / 2)⌋ = 128 := by
      rw [show (256 : ℚ) * (1 / 2) = ((128 : ℤ) : ℚ) by norm_num, Int.floor_intCast]
    rw [this]
    rfl
  rw [b1] at a4 a6
  rw [b2] at a5
  exact ⟨node1, read1, a1, a2, a3, a4, a5, a6⟩

/-! ## The pad value -/

/-- The `double` nearest to 0.8. -/
theorem double_0_8_eq : double_0_8 = Fl.fin (3602879701896397 / 4503599627370496) := by
  have h := roundBinary_eval 53 (-1022) 1023 (4 / 5) (-1) 7205759403792794
    (by norm_num [abs_of_pos]) (by norm_num [abs_of_pos]) (by norm_num)
    (by norm_num) (by norm_num) (by norm_num [abs_of_pos])
  unfold double_0_8 round64
  rw [h]
  norm_num

/-- The pad value stored for two signals whose minimum is -1. -/
theorem pad_value_minus_one :
    Fl.convert round16 (pad_value (Fl.fin (-1)) (Fl.fin (-1))) = Fl.fin (-819 / 1024) := by
  have hmin : Fl.stdMin (Fl.fin (-1)) (Fl.fin (-1)) = Fl.fin (-1) := by
    simp [Fl.stdMin, Fl.lt]
  have h64 : round64 (3602879701896397 / 4503599627370496 * -1) =
      Fl.fin (-3602879701896397 / 4503599627370496) := by
    have h := roundBinary_eval 53 (-1022) 1023 (3602879701896397 / 4503599627370496 * -1) (-1)
      (-7205759403792794)
      (by norm_num [abs_of_neg]) (by norm_num [abs_of_neg]) (by norm_num)
      (by norm_num) (by norm_num) (by norm_num [abs_of_neg])
    unfold round64
    rw [h]
    norm_num
  have h32 : round32 (-3602879701896397 / 4503599627370496) = Fl.fin (-13421773 / 16777216) := by
    have h := roundBinary_eval 24 (-126) 127 (-3602879701896397 / 4503599627370496) (-1)
      (-13421773)
      (by norm_num [abs_of_neg]) (by norm_num [abs_of_neg]) (by norm_num)
      (by norm_num) (by norm_num) (by norm_num [abs_of_neg])
    unfold round32
    rw [h]
    norm_num
  have h16 : round16 (-13421773 / 16777216) = Fl.fin (-819 / 1024) := by
    have h := roundBinary_eval 11 (-14) 15 (-13421773 / 16777216) (-1) (-1638)
      (by norm_num [abs_of_neg]) (by norm_num [abs_of_neg]) (by norm_num)
      (by norm_num) (by norm_num) (by norm_num [abs_of_neg])
    unfold round16
    rw [h]
    norm_num
  unfold pad_value
  rw [hmin, double_0_8_eq]
  simp only [Fl.mul, Fl.convert]
  rw [h64]
  simp only [Fl.convert]
  rw [h32]
  simp only [Fl.convert]
  exact h16

/-- Claim C15 as stated fails: for a template and a complement signal that both
consist of the one sample -1, the pad value stored in the tensor is -819/1024,
which is above the sample. -/
theorem pad_value_above_negative_sample :
    tensor_min [Fl.fin (-1)] = Except.ok (Fl.fin (-1)) ∧
      Fl.convert round16 (pad_value (Fl.fin (-1)) (Fl.fin (-1))) = Fl.fin (-819 / 1024) ∧
      Fl.lt (Fl.fin (-1)) (Fl.convert round16 (pad_value (Fl.fin (-1)) (Fl.fin (-1)))) = true := by
  refine ⟨rfl, pad_value_minus_one, ?_⟩
  rw [pad_value_minus_one]
  simp only [Fl.lt, decide_eq_true_eq]
  norm_num
theorem tensor_min_fold (xs : List Fl) :
    ∀ (x : ℚ) (seen : List Fl), Fl.fin x ∈ seen → (∀ q, Fl.fin q ∈ seen → x ≤ q) →
      (∀ s ∈ xs, ∃ q : ℚ, s = Fl.fin q) →
      ∃ m : ℚ,
        xs.foldl (fun a b => if a = Fl.nan ∨ b = Fl.nan then Fl.nan
          else if Fl.lt b a then b else a) (Fl.fin x) = Fl.fin m ∧
        Fl.fin m ∈ seen ++ xs ∧ ∀ q, Fl.fin q ∈ seen ++ xs → m ≤ q := by
  induction xs with
  | nil =>
    intro x seen hx hmin _
    exact ⟨x, rfl, by simpa using hx, by simpa using hmin⟩
  | cons y ys ih =>
    intro x seen hx hmin hfin
    obtain ⟨q, rfl⟩ := hfin y (List.mem_cons_self _ _)
    have hfin' : ∀ s ∈ ys, ∃ q : ℚ, s = Fl.fin q :=
      fun s hs => hfin s (List.mem_cons_of_mem _ hs)
    simp only [List.foldl_cons, reduceCtorEq, or_self, if_false, Fl.lt]
    by_cases hlt : q < x
    · rw [if_pos (decide_eq_true hlt)]
      obtain ⟨m, e, hm, hle⟩ := ih q (seen ++ [Fl.fin q]) (by simp)
        (by
          intro r hr
          rw [List.mem_append, List.mem_singleton] at hr
          rcases hr with hr | hr
          · exact hlt.le.trans (hmin r hr)
          · rw [Fl.fin.injEq] at hr
            exact hr ▸ le_refl _) hfin'
      exact ⟨m, e, by simpa using hm, by simpa using hle⟩
    · rw [if_neg (by simpa using hlt)]
      obtain ⟨m, e, hm, hle⟩ := ih x (seen ++ [Fl.fin q]) (by simp [hx])
        (by
          intro r hr
          rw [List.mem_append, List.mem_singleton] at hr
          rcases hr with hr | hr
          · exact hmin r hr
          · rw [Fl.fin.injEq] at hr
            exact hr ▸ not_lt.mp hlt) hfin'
      exact ⟨m, e, by simpa using hm, by simpa using hle⟩

/-- The minimum `torch::min` finds in a non-empty signal of finite samples is one
of the samples and at most every sample. -/
theorem tensor_min_spec (signal : List Fl) (hne : signal ≠ [])
    (hfin : ∀ s ∈ signal, ∃ q : ℚ, s = Fl.fin q) :
    ∃ m : ℚ, tensor_min signal = Except.ok (Fl.fin m) ∧ Fl.fin m ∈ signal ∧
      ∀ q, Fl.fin q ∈ signal → m ≤ q := by
  cases signal with
  | nil => exact absurd rfl hne
  | cons x xs =>
    obtain ⟨q, rfl⟩ := hfin x (List.mem_cons_self _ _)
    obtain ⟨m, e, hm, hle⟩ := tensor_min_fold xs q [Fl.fin q] (by simp)
      (by
        intro r hr
        rw [List.mem_singleton, Fl.fin.injEq] at hr
        exact hr ▸ le_refl _)
      (fun s hs => hfin s (List.mem_cons_of_mem _ hs))
    refine ⟨m, ?_, by simpa using hm, by simpa using hle⟩
    show Except.ok _ = _
    rw [e]

/-- The pad value stored for two minima that are `c10::Half` values and not
negative is not negative and at most each of them. -/
theorem pad_value_le (a b : ℚ) (ha : round16 a = Fl.fin a) (hb : round16 b = Fl.fin b)
    (ha0 : 0 ≤ a) (hb0 : 0 ≤ b) :
    ∃ v : ℚ, Fl.convert round16 (pad_value (Fl.fin a) (Fl.fin b)) = Fl.fin v ∧ 0 ≤ v ∧
      v ≤ a ∧ v ≤ b := by
  obtain ⟨m, hm, hma, hmb, hm0, hm16⟩ : ∃ m : ℚ, Fl.stdMin (Fl.fin a) (Fl.fin b) = Fl.fin m ∧
      m ≤ a ∧ m ≤ b ∧ 0 ≤ m ∧ round16 m = Fl.fin m := by
    unfold Fl.stdMin
    simp only [Fl.lt]
    by_cases hlt : b < a
    · exact ⟨b, by rw [if_pos (decide_eq_true hlt)], hlt.le, le_refl _, hb0, hb⟩
    · exact ⟨a, by rw [if_neg (by simpa using hlt)], le_refl _, not_lt.mp hlt, ha0, ha⟩
  have hm32 : round32 m = Fl.fin m :=
    roundBinary_fixed_of_narrower 11 24 (-14) 15 (-126) 127 (by norm_num) (by norm_num)
      (by norm_num) hm16
  have hm64 : round64 m = Fl.fin m :=
    roundBinary_fixed_of_narrower 11 53 (-14) 15 (-1022) 1023 (by norm_num) (by norm_num)
      (by norm_num) hm16
  have hc : (0 : ℚ) ≤ 3602879701896397 / 4503599627370496 := by norm_num
  have hc1 : (3602879701896397 / 4503599627370496 : ℚ) ≤ 1 := by norm_num
  obtain ⟨v1, h10, h1m, e1⟩ := roundBinary_le_of_le' 53 (-1022) 1023
    (x := 3602879701896397 / 4503599627370496 * m) (mul_nonneg hc hm0)
    (by nlinarith) hm64
  obtain ⟨v2, h20, h2m, e2⟩ := roundBinary_le_of_le' 24 (-126) 127 h10 h1m hm32
  obtain ⟨v3, h30, h3m, e3⟩ := roundBinary_le_of_le' 11 (-14) 15 h20 h2m hm16
  refine ⟨v3, ?_, h30, h3m.trans hma, h3m.trans hmb⟩
  unfold pad_value
  rw [hm, double_0_8_eq]
  simp only [Fl.mul, Fl.convert]
  show Fl.convert round16 (Fl.convert round32 (round64 _)) = _
  unfold round64
  rw [e1]
  simp only [Fl.convert]
  unfold round32
  rw [e2]
  simp only [Fl.convert]
  exact e3

/-- Claim C15 (as the code has it): for every pair of non-empty signals whose
samples are `c10::Half` numbers that are not negative, the pad value stored in
the tensor, `0.8 * min(min complement, min template)` in `double` converted to
`float` and then to `c10::Half`, is not negative and at most every sample of
the template signal and of the complement signal. -/
theorem pad_value_below_samples (template_raw complement_signal : List Fl)
    (htemplate : template_raw ≠ []) (hcomplement : complement_signal ≠ [])
    (hsamples : ∀ s ∈ template_raw ++ complement_signal,
      ∃ q : ℚ, s = Fl.fin q ∧ 0 ≤ q ∧ round16 q = Fl.fin q) :
    ∃ (complement_min template_min : Fl) (pad : ℚ),
      tensor_min complement_signal = Except.ok complement_min ∧
      tensor_min template_raw = Except.ok template_min ∧
      Fl.convert round16 (pad_value complement_min template_min) = Fl.fin pad ∧ 0 ≤ pad ∧
      ∀ s ∈ template_raw ++ complement_signal, ∃ q : ℚ, s = Fl.fin q ∧ pad ≤ q := by
  obtain ⟨tm, et, htm, htle⟩ := tensor_min_spec template_raw htemplate
    (fun s hs => (hsamples s (List.mem_append_left _ hs)).imp fun q h => h.1)
  obtain ⟨cm, ec, hcm, hcle⟩ := tensor_min_spec complement_signal hcomplement
    (fun s hs => (hsamples s (List.mem_append_right _ hs)).imp fun q h => h.1)
  obtain ⟨qt, eqt, ht0, ht16⟩ := hsamples _ (List.mem_append_left _ htm)
  obtain ⟨qc, eqc, hc0, hc16⟩ := hsamples _ (List.mem_append_right _ hcm)
  rw [Fl.fin.injEq] at eqt eqc
  subst eqt eqc
  obtain ⟨v, ev, hv0, hvc, hvt⟩ := pad_value_le cm tm hc16 ht16 hc0 ht0
  refine ⟨Fl.fin cm, Fl.fin tm, v, ec, et, ev, hv0, ?_⟩
  intro s hs
  obtain ⟨q, rfl, -, -⟩ := hsamples s hs
  refine ⟨q, rfl, ?_⟩
  rcases List.mem_append.mp hs with h | h
  · exact hvt.trans (htle q h)
  · exact hvc.trans (hcle q h)

/-- The numbers 1 and 2 are `c10::Half` values. -/
theorem round16_one_two : round16 1 = Fl.fin 1 ∧ round16 2 = Fl.fin 2 := by
  constructor
  · apply roundBinary_exact 11 (-14) 15 _ (2 ^ 10)
    · rw [quantum_eq 11 (-14) (e := 0)] <;> norm_num [abs_of_pos]
    · norm_num [abs_of_pos]
  · apply roundBinary_exact 11 (-14) 15 _ (2 ^ 10)
    · rw [quantum_eq 11 (-14) (e := 1)] <;> norm_num [abs_of_pos]
    · norm_num [abs_of_pos]

/-- Witness for `pad_value_below_samples`: a template signal with the samples 1
and 2 and a complement signal with the sample 2. -/
theorem pad_value_below_samples_witness :
    ∃ (complement_min template_min : Fl) (pad : ℚ),
      tensor_min [Fl.fin 2] = Except.ok complement_min ∧
      tensor_min [Fl.fin 1, Fl.fin 2] = Except.ok template_min ∧
      Fl.convert round16 (pad_value complement_min template_min) = Fl.fin pad ∧ 0 ≤ pad ∧
      ∀ s ∈ [Fl.fin 1, Fl.fin 2] ++ [Fl.fin 2], ∃ q : ℚ, s = Fl.fin q ∧ pad ≤ q :=
  pad_value_below_samples [Fl.fin 1, Fl.fin 2] [Fl.fin 2] (by simp) (by simp) (by
    intro s hs
    simp only [List.cons_append, List.nil_append, List.mem_cons, List.mem_singleton,
      List.not_mem_nil, or_false] at hs
    rcases hs with rfl | rfl | rfl
    · exact ⟨1, rfl, by norm_num, round16_one_two.1⟩
    · exact ⟨2, rfl, by norm_num, round16_one_two.2⟩
    · exact ⟨2, rfl, by norm_num, round16_one_two.2⟩)

/-! ## The conversion of quality characters -/

theorem roundHalfEven_abs_sub (y : ℚ) : |(roundHalfEven y : ℚ) - y| ≤ 1 / 2 := by
  have h1 : ((⌊y⌋ : ℤ) : ℚ) ≤ y := Int.floor_le y
  have h2 : y < ((⌊y⌋ : ℤ) : ℚ) + 1 := Int.lt_floor_add_one y
  unfold roundHalfEven
  rw [abs_le]
  split_ifs with c1 c2 c3
  · constructor <;> linarith
  · push_cast
    constructor <;> linarith
  · constructor <;> linarith
  · push_cast
    constructor <;> linarith

/-- A rounded value is within half a quantum of the number rounded. -/
theorem roundBinary_abs_sub (prec : ℕ) (emin emax : ℤ) {x v : ℚ}
    (h : roundBinary prec emin emax x = Fl.fin v) : |v - x| ≤ quantum prec emin x / 2 := by
  have hq := quantum_pos prec emin x
  unfold roundBinary at h
  by_cases hx : x = 0
  · rw [if_pos hx, Fl.fin.injEq] at h
    rw [← h, hx, sub_self, abs_zero]
    exact (half_pos (quantum_pos prec emin 0)).le
  · rw [if_neg hx] at h
    split_ifs at h
    rw [Fl.fin.injEq] at h
    have e : v - x = ((roundHalfEven (x / quantum prec emin x) : ℚ) - x / quantum prec emin x) *
        quantum prec emin x := by
      rw [← h]
      field_simp
    rw [e, abs_mul, abs_of_pos hq]
    have := roundHalfEven_abs_sub (x / quantum prec emin x)
    nlinarith

/-- Below 2 the quantum of a format is at most `2 ^ (1 - prec)`. -/
theorem quantum_le_of_lt_two (prec : ℕ) (emin : ℤ) (hemin : emin ≤ 0) {x : ℚ} (hx : 0 < x)
    (h2 : x < 2) : quantum prec emin x ≤ (2 : ℚ) ^ (1 - (prec : ℤ)) := by
  have hlog : Int.log 2 x < 1 := by
    rw [← Int.lt_zpow_iff_log_lt (by norm_num) hx]
    simpa using h2
  unfold quantum
  rw [abs_of_pos hx]
  apply zpow_le_zpow_right₀ (by norm_num)
  have : max (Int.log 2 x) emin ≤ 0 := max_le (by omega) hemin
  omega

/-- Two roundings of a number between 0 and 2: the result is finite, not
negative, within `2 ^ (-11) + 2 ^ (-24)` of the number, and at most 1 when the
number is. -/
theorem round16_round32_near (x : ℚ) (h0 : 0 ≤ x) (h2 : x ≤ 3 / 2) :
    ∃ v : ℚ, Fl.convert round16 (round32 x) = Fl.fin v ∧ 0 ≤ v ∧
      |v - x| ≤ 1 / 2048 + 1 / 16777216 ∧ (x ≤ 1 → v ≤ 1) := by
  rcases h0.lt_or_eq with hpos | hzero
  · obtain ⟨v1, h10, h12, e1⟩ := roundBinary_le_two_zpow 24 (by norm_num) (-126) 127 (k := 1)
      hpos (by norm_num; linarith) (by norm_num) (by norm_num)
    have d1 := roundBinary_abs_sub 24 (-126) 127 e1
    have q1 := quantum_le_of_lt_two 24 (-126) (by norm_num) hpos (by linarith)
    have q1' : quantum 24 (-126) x ≤ 1 / 8388608 := by
      calc quantum 24 (-126) x ≤ (2 : ℚ) ^ (1 - ((24 : ℕ) : ℤ)) := q1
        _ = 1 / 8388608 := by norm_num
    have hv1 : |v1 - x| ≤ 1 / 16777216 := by linarith
    have hv1lt : v1 < 2 := by
      have := (abs_le.mp hv1).2
      linarith
    have hone1 : x ≤ 1 → v1 ≤ 1 := by
      intro hx1
      obtain ⟨r, -, hr1, er⟩ := roundBinary_le_two_zpow 24 (by norm_num) (-126) 127 (k := 0)
        hpos (by simpa using hx1) (by norm_num) (by norm_num)
      rw [e1, Fl.fin.injEq] at er
      rw [er]
      simpa using hr1
    rcases h10.lt_or_eq with hpos1 | hzero1
    · obtain ⟨v2, h20, h22, e2⟩ := roundBinary_le_two_zpow 11 (by norm_num) (-14) 15 (k := 1)
        hpos1 (by norm_num; linarith) (by norm_num) (by norm_num)
      have d2 := roundBinary_abs_sub 11 (-14) 15 e2
      have q2 := quantum_le_of_lt_two 11 (-14) (by norm_num) hpos1 hv1lt
      have q2' : quantum 11 (-14) v1 ≤ 1 / 1024 := by
        calc quantum 11 (-14) v1 ≤ (2 : ℚ) ^ (1 - ((11 : ℕ) : ℤ)) := q2
          _ = 1 / 1024 := by norm_num
      have hv2 : |v2 - v1| ≤ 1 / 2048 := by linarith
      refine ⟨v2, ?_, h20, ?_, ?_⟩
      · show Fl.convert round16 (roundBinary 24 (-126) 127 x) = _
        rw [e1]
        exact e2
      · calc |v2 - x| = |(v2 - v1) + (v1 - x)| := by ring_nf
          _ ≤ |v2 - v1| + |v1 - x| := abs_add _ _
          _ ≤ 1 / 2048 + 1 / 16777216 := add_le_add hv2 hv1
      · intro hx1
        obtain ⟨r, -, hr1, er⟩ := roundBinary_le_two_zpow 11 (by norm_num) (-14) 15 (k := 0)
          hpos1 (by simpa using hone1 hx1) (by norm_num) (by norm_num)
        rw [e2, Fl.fin.injEq] at er
        rw [er]
        simpa using hr1
    · subst hzero1
      refine ⟨0, ?_, le_refl _, ?_, fun _ => by norm_num⟩
      · show Fl.convert round16 (roundBinary 24 (-126) 127 x) = _
        rw [e1]
        simp [Fl.convert, round16, roundBinary]
      · calc |0 - x| = |0 - x| := rfl
          _ ≤ 1 / 16777216 := hv1
          _ ≤ 1 / 2048 + 1 / 16777216 := by norm_num
  · subst hzero
    exact ⟨0, by simp [Fl.convert, round16, round32, roundBinary], le_refl _, by norm_num,
      fun _ => by norm_num⟩
theorem char_to_int_range (ch : Char) : -128 ≤ char_to_int ch ∧ char_to_int ch ≤ 127 := by
  unfold char_to_int
  split_ifs <;> omega

/-- A character below 128 has the value of its code point. -/
theorem char_to_int_ascii (ch : Char) (h : ch.toNat < 128) : char_to_int ch = (ch.toNat : Int) := by
  unfold char_to_int
  rw [Nat.mod_eq_of_lt (by omega), if_pos h]

/-- The value of `convert_q_score` is the quotient `(q - 33) / 90` rounded to
`float` and then to `c10::Half`. -/
theorem convert_q_score_eq (q : Char) :
    convert_q_score q = Fl.convert round16 (round32 (((char_to_int q : ℚ) - 33) / 90)) := by
  obtain ⟨h1, h2⟩ := char_to_int_range q
  unfold convert_q_score
  have e : Fl.ofInt32 (char_to_int q - 33) = Fl.fin ((char_to_int q : ℚ) - 33) := by
    have := ofInt32_exact (char_to_int q - 33) (by
      rw [abs_le]
      constructor <;> omega)
    rw [this]
    push_cast
    rfl
  rw [e]
  simp only [Fl.div]
  rw [if_neg (by norm_num)]

/-- A number below 2 in absolute value is rounded to a finite number within half
a unit in the last place of the binade of 1. -/
theorem roundBinary_near (prec : ℕ) (hprec : 1 ≤ prec) (emin emax : ℤ) (hemin : emin ≤ 0)
    (hemax : 1 ≤ emax) (x : ℚ) (hx : |x| < 2) :
    ∃ v : ℚ, roundBinary prec emin emax x = Fl.fin v ∧
      |v - x| ≤ (2 : ℚ) ^ (1 - (prec : ℤ)) / 2 := by
  have hpow : (2 : ℚ) ^ (1 - (prec : ℤ)) ≤ 1 := by
    apply zpow_le_one_of_nonpos₀ (by norm_num)
    omega
  have hpow0 : (0 : ℚ) < (2 : ℚ) ^ (1 - (prec : ℤ)) := by positivity
  by_cases h0 : x = 0
  · subst h0
    refine ⟨0, by simp [roundBinary], ?_⟩
    rw [sub_self, abs_zero]
    positivity
  · have habs : 0 < |x| := abs_pos.mpr h0
    have hq : quantum prec emin x ≤ (2 : ℚ) ^ (1 - (prec : ℤ)) := by
      have := quantum_le_of_lt_two prec emin hemin habs hx
      unfold quantum at this ⊢
      rw [abs_abs] at this
      exact this
    have hqpos := quantum_pos prec emin x
    have hnear : |(roundHalfEven (x / quantum prec emin x) : ℚ) * quantum prec emin x - x| ≤
        quantum prec emin x / 2 := by
      have e : (roundHalfEven (x / quantum prec emin x) : ℚ) * quantum prec emin x - x =
          ((roundHalfEven (x / quantum prec emin x) : ℚ) - x / quantum prec emin x) *
            quantum prec emin x := by
        field_simp
      rw [e, abs_mul, abs_of_pos hqpos]
      have := roundHalfEven_abs_sub (x / quantum prec emin x)
      nlinarith
    have hfin : ¬ (2 : ℚ) ^ (emax + 1) ≤
        |(roundHalfEven (x / quantum prec emin x) : ℚ) * quantum prec emin x| := by
      rw [not_le]
      have h4 : (4 : ℚ) ≤ (2 : ℚ) ^ (emax + 1) := by
        calc (4 : ℚ) = (2 : ℚ) ^ ((2 : ℤ)) := by norm_num
          _ ≤ (2 : ℚ) ^ (emax + 1) := zpow_le_zpow_right₀ (by norm_num) (by omega)
      have htri : |(roundHalfEven (x / quantum prec emin x) : ℚ) * quantum prec emin x| ≤
          |(roundHalfEven (x / quantum prec emin x) : ℚ) * quantum prec emin x - x| + |x| := by
        have := abs_add ((roundHalfEven (x / quantum prec emin x) : ℚ) * quantum prec emin x - x) x
        simpa using this
      linarith
    refine ⟨(roundHalfEven (x / quantum prec emin x) : ℚ) * quantum prec emin x, ?_, ?_⟩
    · unfold roundBinary
      rw [if_neg h0, if_neg hfin]
    · linarith

/-- Two roundings, to `float` and then to `c10::Half`, of a number of absolute
value at most 9/5: the result is finite and within `2 ^ (-11) + 2 ^ (-24)` of
the number. -/
theorem round16_round32_close (x : ℚ) (hx : |x| ≤ 9 / 5) :
    ∃ v : ℚ, Fl.convert round16 (round32 x) = Fl.fin v ∧
      |v - x| ≤ 1 / 2048 + 1 / 16777216 := by
  obtain ⟨v1, e1, d1⟩ := roundBinary_near 24 (by norm_num) (-126) 127 (by norm_num)
    (by norm_num) x (by linarith)
  have d1' : |v1 - x| ≤ 1 / 16777216 := by
    have : (2 : ℚ) ^ (1 - ((24 : ℕ) : ℤ)) / 2 = 1 / 16777216 := by norm_num
    rw [this] at d1
    exact d1
  have hv1 : |v1| < 2 := by
    have := abs_add (v1 - x) x
    have e : v1 - x + x = v1 := by ring
    rw [e] at this
    linarith
  obtain ⟨v2, e2, d2⟩ := roundBinary_near 11 (by norm_num) (-14) 15 (by norm_num)
    (by norm_num) v1 hv1
  have d2' : |v2 - v1| ≤ 1 / 2048 := by
    have : (2 : ℚ) ^ (1 - ((11 : ℕ) : ℤ)) / 2 = 1 / 2048 := by norm_num
    rw [this] at d2
    exact d2
  refine ⟨v2, ?_, ?_⟩
  · show Fl.convert round16 (roundBinary 24 (-126) 127 x) = _
    rw [e1]
    exact e2
  · calc |v2 - x| = |(v2 - v1) + (v1 - x)| := by ring_nf
      _ ≤ |v2 - v1| + |v1 - x| := abs_add _ _
      _ ≤ 1 / 2048 + 1 / 16777216 := add_le_add d2' d1'

/-- Claim C16 as stated fails: the value written for the quality character of
code 34 is 91/8192, the `c10::Half` nearest to the `float` quotient, and not
1/90; and the character of the byte 200 is the `char` -56, for which the value
written is -2025/2048 and not (200 - 33)/90, so that it is below the value
written for the code 34. -/
theorem convert_q_score_not_quotient :
    convert_q_score (Char.ofNat 34) = Fl.fin (91 / 8192) ∧
      convert_q_score (Char.ofNat 34) ≠ Fl.fin ((34 - 33) / 90) ∧
      convert_q_score (Char.ofNat 200) = Fl.fin (-2025 / 2048) ∧
      convert_q_score (Char.ofNat 200) ≠ Fl.fin ((200 - 33) / 90) := by
  have a1 : convert_q_score (Char.ofNat 34) = Fl.fin (91 / 8192) := by
    rw [convert_q_score_eq]
    have hc : ((char_to_int (Char.ofNat 34) : ℤ) : ℚ) = 34 := by
      have : char_to_int (Char.ofNat 34) = 34 := by decide
      rw [this]
      norm_num
    rw [hc]
    have h32 : round32 ((34 - 33) / 90) = Fl.fin (11930465 / 1073741824) := by
      have h := roundBinary_eval 24 (-126) 127 ((34 - 33) / 90) (-7) 11930465
        (by norm_num [abs_of_pos]) (by norm_num [abs_of_pos]) (by norm_num)
        (by norm_num) (by norm_num) (by norm_num [abs_of_pos])
      unfold round32
      rw [h]
      norm_num
    have h16 : round16 (11930465 / 1073741824) = Fl.fin (91 / 8192) := by
      have h := roundBinary_eval 11 (-14) 15 (11930465 / 1073741824) (-7) 1456
        (by norm_num [abs_of_pos]) (by norm_num [abs_of_pos]) (by norm_num)
        (by norm_num) (by norm_num) (by norm_num [abs_of_pos])
      unfold round16
      rw [h]
      norm_num
    rw [h32]
    exact h16
  have a2 : convert_q_score (Char.ofNat 200) = Fl.fin (-2025 / 2048) := by
    rw [convert_q_score_eq]
    have hc : ((char_to_int (Char.ofNat 200) : ℤ) : ℚ) = -56 := by
      have : char_to_int (Char.ofNat 200) = -56 := by decide
      rw [this]
      norm_num
    rw [hc]
    have h32 : round32 ((-56 - 33) / 90) = Fl.fin (-8295401 / 8388608) := by
      have h := roundBinary_eval 24 (-126) 127 ((-56 - 33) / 90) (-1) (-16590802)
        (by norm_num [abs_of_neg]) (by norm_num [abs_of_neg]) (by norm_num)
        (by norm_num) (by norm_num) (by norm_num [abs_of_neg])
      unfold round32
      rw [h]
      norm_num
    have h16 : round16 (-8295401 / 8388608) = Fl.fin (-2025 / 2048) := by
      have h := roundBinary_eval 11 (-14) 15 (-8295401 / 8388608) (-1) (-2025)
        (by norm_num [abs_of_neg]) (by norm_num [abs_of_neg]) (by norm_num)
        (by norm_num) (by norm_num) (by norm_num [abs_of_neg])
      unfold round16
      rw [h]
      norm_num
    rw [h32]
    exact h16
  refine ⟨a1, ?_, a2, ?_⟩
  · rw [a1]
    intro h
    injection h with h
    norm_num at h
  · rw [a2]
    intro h
    injection h with h
    norm_num at h

/-- Claim C16 (as the code has it): for every two quality characters whose
`char` values (signed, a byte above 127 being negative) are `q < q'`, the value
written to a quality row for `q` is `(q - 33) / 90` computed in `float` and
converted to `c10::Half`, a finite number within `2 ^ (-11) + 2 ^ (-24)` of the
quotient; the value for `q` is strictly below the value for `q'`; and for a
character from 33 to 123 the value lies between 0 and 1. -/
theorem convert_q_score_increasing (q q' : Char) (hlt : char_to_int q < char_to_int q') :
    convert_q_score q = Fl.convert round16 (round32 (((char_to_int q : ℚ) - 33) / 90)) ∧
      convert_q_score q' = Fl.convert round16 (round32 (((char_to_int q' : ℚ) - 33) / 90)) ∧
      ∃ v v' : ℚ, convert_q_score q = Fl.fin v ∧ convert_q_score q' = Fl.fin v' ∧
        |v - ((char_to_int q : ℚ) - 33) / 90| ≤ 1 / 2048 + 1 / 16777216 ∧
        |v' - ((char_to_int q' : ℚ) - 33) / 90| ≤ 1 / 2048 + 1 / 16777216 ∧
        v < v' ∧
        (33 ≤ char_to_int q → char_to_int q ≤ 123 → 0 ≤ v ∧ v ≤ 1) ∧
        (33 ≤ char_to_int q' → char_to_int q' ≤ 123 → 0 ≤ v' ∧ v' ≤ 1) := by
  have e := convert_q_score_eq q
  have e' := convert_q_score_eq q'
  obtain ⟨l1, u1⟩ := char_to_int_range q
  obtain ⟨l2, u2⟩ := char_to_int_range q'
  have hl1 : (-128 : ℚ) ≤ (char_to_int q : ℚ) := by exact_mod_cast l1
  have hu1 : (char_to_int q : ℚ) ≤ 127 := by exact_mod_cast u1
  have hl2 : (-128 : ℚ) ≤ (char_to_int q' : ℚ) := by exact_mod_cast l2
  have hu2 : (char_to_int q' : ℚ) ≤ 127 := by exact_mod_cast u2
  have hqq : (char_to_int q : ℚ) + 1 ≤ (char_to_int q' : ℚ) := by exact_mod_cast hlt
  have range : ∀ z : ℚ, -128 ≤ z → z ≤ 127 → |(z - 33) / 90| ≤ 9 / 5 := by
    intro z hz1 hz2
    rw [abs_le]
    constructor
    · rw [le_div_iff₀ (by norm_num)]
      linarith
    · rw [div_le_iff₀ (by norm_num)]
      linarith
  obtain ⟨v, ev, hv⟩ := round16_round32_close _ (range _ hl1 hu1)
  obtain ⟨v', ev', hv'⟩ := round16_round32_close _ (range _ hl2 hu2)
  have unit : ∀ (z : ℤ) (w : ℚ),
      Fl.convert round16 (round32 (((z : ℚ) - 33) / 90)) = Fl.fin w → 33 ≤ z → z ≤ 123 →
      0 ≤ w ∧ w ≤ 1 := by
    intro z w hw h33 h123
    have hz1 : (33 : ℚ) ≤ (z : ℚ) := by exact_mod_cast h33
    have hz2 : (z : ℚ) ≤ 123 := by exact_mod_cast h123
    have hx1 : ((z : ℚ) - 33) / 90 ≤ 1 := by
      rw [div_le_iff₀ (by norm_num)]
      linarith
    obtain ⟨w0, ew, hw0, -, hw1⟩ := round16_round32_near (((z : ℚ) - 33) / 90)
      (by apply div_nonneg <;> linarith) (by linarith)
    rw [hw] at ew
    injection ew with ew
    rw [ew]
    exact ⟨hw0, hw1 hx1⟩
  refine ⟨e, e', v, v', e.trans ev, e'.trans ev', hv, hv', ?_, unit _ v ev, unit _ v' ev'⟩
  have h1 := (abs_le.mp hv).2
  have h2 := (abs_le.mp hv').1
  have h3 : ((char_to_int q' : ℚ) - 33) / 90 - ((char_to_int q : ℚ) - 33) / 90 ≥ 1 / 90 := by
    rw [ge_iff_le, ← sub_div, div_le_div_iff_of_pos_right (by norm_num)]
    linarith
  linarith

/-- Witness for `convert_q_score_increasing`: the characters `5` and `6`. -/
theorem convert_q_score_increasing_witness :
    ∃ v v' : ℚ, convert_q_score '5' = Fl.fin v ∧ convert_q_score '6' = Fl.fin v' ∧ v < v' ∧
      0 ≤ v ∧ v' ≤ 1 := by
  obtain ⟨-, -, v, v', h1, h2, -, -, h3, h4, h5⟩ :=
    convert_q_score_increasing '5' '6' (by decide)
  exact ⟨v, v', h1, h2, h3, (h4 (by decide) (by decide)).1, (h5 (by decide) (by decide)).2⟩

theorem encode_column_length (c : WalkCtx) (a : Nat) (s s1 : WalkState)
    (h : encode_column c a s = Except.ok s1) : s1.tmp.length = s.tmp.length := by
  obtain ⟨tmp1, tsc, tlen, tmp2, csc, clen, tmp3, tmp4, tmp5, hT, hC, hFT, hFC, h5, rfl⟩ :=
    encode_column_inv c a s s1 h
  obtain ⟨-, l1, -, -⟩ := signal_stage hT
  obtain ⟨-, l2, -, -⟩ := signal_stage hC
  obtain ⟨-, -, -, l3, -⟩ := fill_stage hFT
  obtain ⟨-, -, -, l4, -⟩ := fill_stage hFC
  show tmp5.length = _
  rw [write_row_length h5, l4, l3, l2, l1]

theorem encode_columns_length (c : WalkCtx) (alignment : List Nat) (n : Nat) :
    ∀ (i : Int) (s final : WalkState), encode_columns c alignment n i s = Except.ok final →
      final.tmp.length = s.tmp.length := by
  induction n with
  | zero =>
    intro i s final h
    simp only [encode_columns, Except.ok.injEq] at h
    rw [h]
  | succ n ih =>
    intro i s final h
    simp only [encode_columns] at h
    cases ha : getAt alignment i with
    | error e => simp [ha] at h
    | ok a =>
      simp only [ha] at h
      cases hc : encode_column c a s with
      | error e => simp [hc] at h
      | ok s1 =>
        simp only [hc] at h
        rw [ih (i + 1) s1 final h, encode_column_length c a s s1 hc]

/-- The alignment walk: its passes are columns in the sense of `IsWalk`, each of
at least one output position, the cursor ends at the sum of their lengths within
the width of the buffer, and the done part of every row grows by the entries
expected of the columns, in order. -/
theorem encode_columns_spec (c : WalkCtx) (alignment : List Nat) (width : Nat) (pad : Fl)
    (hbase : ∀ ch, 0 ≤ c.base_to_int ch ∧ c.base_to_int ch ≤ 3) (n : Nat) :
    ∀ (i : Int) (s final : WalkState) (done : Nat → List Fl),
      encode_columns c alignment n i s = Except.ok final →
      (∀ row, row < 13 → RowIs s.tmp width row (done row) (initial_fill pad row)) →
      (∀ row, row < 13 → (done row).length = s.stereo_global_cursor) →
      ∃ cols : List Column, cols.length = n ∧
        IsWalk c alignment i s.template_signal_cursor s.complement_signal_cursor
          s.target_cursor s.query_cursor cols ∧
        (∀ col ∈ cols, 1 ≤ col.total_segment_length) ∧
        final.stereo_global_cursor = s.stereo_global_cursor + total_length cols ∧
        final.stereo_global_cursor ≤ width ∧
        ∀ row, row < 13 →
          RowIs final.tmp width row
            (done row ++ cols.flatMap fun col => col.features c.base_to_int pad row)
            (initial_fill pad row) := by
  induction n with
  | zero =>
    intro i s final done h hrows hdone
    simp only [encode_columns, Except.ok.injEq] at h
    subst h
    refine ⟨[], rfl, trivial, by simp, by simp [total_length], ?_, ?_⟩
    · rw [← hdone 0 (by norm_num)]
      exact (hrows 0 (by norm_num)).1
    · intro row hrow
      simpa using hrows row hrow
  | succ n ih =>
    intro i s final done h hrows hdone
    simp only [encode_columns] at h
    cases ha : getAt alignment i with
    | error e => simp [ha] at h
    | ok a =>
      simp only [ha] at h
      cases hc : encode_column c a s with
      | error e => simp [hc] at h
      | ok s1 =>
        simp only [hc] at h
        obtain ⟨col, hent, hpass, e1, e2, e3, e4, e5, htot, -, hrows1, hlen1⟩ :=
          encode_column_spec c a s s1 width pad hbase hc done hrows hdone
        obtain ⟨cols, hn, hwalk, hpos, hcur, hbound, hfinal⟩ :=
          ih (i + 1) s1 final (fun row => done row ++ col.features c.base_to_int pad row) h
            hrows1 (fun row hrow => by
              rw [List.length_append, hdone row hrow, hlen1 row hrow, e5])
        refine ⟨col :: cols, by rw [List.length_cons, hn], ?_, ?_, ?_, hbound, ?_⟩
        · refine ⟨by rw [hent]; exact ha, hpass, ?_⟩
          rw [← e1, ← e2, ← e3, ← e4]
          exact hwalk
        · intro x hx
          rcases List.mem_cons.mp hx with rfl | hx
          · exact htot
          · exact hpos x hx
        · rw [hcur, e5]
          simp only [total_length, List.map_cons, List.sum_cons]
          omega
        · intro row hrow
          have := hfinal row hrow
          rw [List.flatMap_cons, ← List.append_assoc]
          exact this
theorem initial_rows (width : Nat) (pad : Fl) (row : Nat) (hrow : row < 13) :
    RowIs (List.replicate 2 (List.replicate width pad) ++
        List.replicate 11 (List.replicate width (Fl.fin 0))) width row [] (initial_fill pad row) := by
  refine ⟨by simp, ?_⟩
  interval_cases row <;> simp [initial_fill, List.replicate]

theorem features_flatMap_length (base_to_int : Char → Int) (pad : Fl) (row : Nat)
    (hrow : row < 13) (cols : List Column) (hpos : ∀ col ∈ cols, 1 ≤ col.total_segment_length) :
    (cols.flatMap fun col => col.features base_to_int pad row).length = total_length cols := by
  induction cols with
  | nil => rfl
  | cons col cols ih =>
    rw [List.flatMap_cons, List.length_append, ih (fun x hx => hpos x (List.mem_cons_of_mem _ hx)),
      Column.features_length base_to_int pad col row hrow (hpos col (List.mem_cons_self _ _))]
    simp [total_length]

/-- The tensor of an accepted pair: its 13 rows are the entries of the columns
of the alignment walk, in order. -/
theorem stereo_encode_tensor_spec (env : Env) (stride : Int) (t c : Read) (alignment : List Nat)
    (start stop qc tc : Int) (out : List (List Fl))
    (hbase : ∀ ch, 0 ≤ env.base_to_int ch ∧ env.base_to_int ch ≤ 3)
    (h : stereo_encode_tensor env stride t c alignment start stop qc tc = Except.ok out) :
    ∃ (template_raw complement_raw : List Fl) (complement_min template_min : Fl)
        (tsc csc : Nat) (cols : List Column),
      t.raw_data.signal = Except.ok template_raw ∧
      c.raw_data.signal = Except.ok complement_raw ∧
      tensor_min complement_raw.reverse = Except.ok complement_min ∧
      tensor_min template_raw = Except.ok template_min ∧
      initial_template_signal_cursor
        (stereo_walk_ctx env stride t c template_raw complement_raw) tc = Except.ok tsc ∧
      initial_complement_signal_cursor c.moves
        (stereo_walk_ctx env stride t c template_raw complement_raw) qc = Except.ok csc ∧
      cols.length = (stop - start).toNat ∧
      IsWalk (stereo_walk_ctx env stride t c template_raw complement_raw) alignment start
        tsc csc tc qc cols ∧
      (∀ col ∈ cols, 1 ≤ col.total_segment_length) ∧
      total_length cols ≤ template_raw.length + complement_raw.length ∧
      out.length = 13 ∧
      ∀ row, row < 13 →
        out[row]? = some (cols.flatMap fun col =>
          col.features env.base_to_int
            (Fl.convert round16 (pad_value complement_min template_min)) row) := by
  unfold stereo_encode_tensor at h
  obtain ⟨template_raw, h1, h⟩ := except_bind_ok h
  obtain ⟨complement_raw, h2, h⟩ := except_bind_ok h
  obtain ⟨tseen, h6, h⟩ := except_bind_ok h
  obtain ⟨tsc, h7, h⟩ := except_bind_ok h
  obtain ⟨cseen, h8, h⟩ := except_bind_ok h
  obtain ⟨csc, h9, h⟩ := except_bind_ok h
  have i1 : initial_template_signal_cursor
      (stereo_walk_ctx env stride t c template_raw complement_raw) tc = Except.ok tsc := by
    unfold initial_template_signal_cursor
    show (getAt (expand_moves stride template_raw.length t.moves) 0 >>= _) = _
    rw [h6]
    exact h7
  have i2 : initial_complement_signal_cursor c.moves
      (stereo_walk_ctx env stride t c template_raw complement_raw) qc = Except.ok csc := by
    unfold initial_complement_signal_cursor
    show (getAt c.moves 0 >>= _) = _
    rw [h8]
    exact h9
  obtain ⟨complement_min, h3, h⟩ := except_bind_ok h
  obtain ⟨template_min, h4, h⟩ := except_bind_ok h
  obtain ⟨final, h5, h⟩ := except_bind_ok h
  simp only [pure, Except.pure, Except.ok.injEq] at h
  obtain ⟨cols, hn, hwalk, hpos, hcur, hbound, hrows⟩ :=
    encode_columns_spec (stereo_walk_ctx env stride t c template_raw complement_raw) alignment
      (template_raw.length + complement_raw.length)
      (Fl.convert round16 (pad_value complement_min template_min)) hbase
      (stop - start).toNat start _ final (fun _ => []) h5
      (fun row hrow => initial_rows _ _ row hrow) (fun _ _ => rfl)
  have hlen := encode_columns_length _ _ _ _ _ _ h5
  refine ⟨template_raw, complement_raw, complement_min, template_min, tsc, csc, cols,
    h1, h2, h3, h4, i1, i2, hn, hwalk, hpos, ?_, ?_, ?_⟩
  · have : final.stereo_global_cursor = 0 + total_length cols := hcur
    omega
  · rw [← h, List.length_map, hlen]
    simp
  · intro row hrow
    obtain ⟨hle, hr⟩ := hrows row hrow
    have hcur2 : final.stereo_global_cursor = 0 + total_length cols := hcur
    have hl : (cols.flatMap fun col =>
        col.features env.base_to_int
          (Fl.convert round16 (pad_value complement_min template_min)) row).length =
        final.stereo_global_cursor := by
      rw [features_flatMap_length _ _ row hrow cols hpos, hcur2, Nat.zero_add]
    rw [← h, List.getElem?_map, hr, Option.map_some']
    simp only [List.nil_append]
    rw [← hl, List.take_left']
    all_goals rfl
theorem consensus_possible_window (start stop : Int) (rate : Fl)
    (h : consensus_possible start stop rate = true) : start < stop ∧ 50 < stop - start := by
  unfold consensus_possible at h
  simp only [Bool.and_eq_true, decide_eq_true_eq, kMinTrimmedAlignmentLength] at h
  exact ⟨h.1.1, h.1.2⟩

/-- The rows of the tensor of an accepted pair, by the columns of its walk. -/
theorem stereo_encode_rows (env : Env) (stride : Int) (t c : Read) (d : Nat) (r : Read)
    (d1 : Nat) (hbase : ∀ ch, 0 ≤ env.base_to_int ch ∧ env.base_to_int ch ≤ 3)
    (h : stereo_encode env stride t c d = Except.ok (r, d1))
    (hdim : r.raw_data.ndimension = 2) :
    ∃ (out : List (List Fl)) (cols : List Column) (start stop : Int) (pad : Fl),
      r = stereo_encoded_read t c out ∧
      50 < stop - start ∧
      IsEncodingWalk env stride t c start stop cols ∧
      stored_pad_value t c = Except.ok pad ∧
      (∀ col ∈ cols, 1 ≤ col.total_segment_length) ∧
      out.length = 13 ∧
      ∀ row, row < 13 →
        out[row]? = some (cols.flatMap fun col => col.features env.base_to_int pad row) := by
  obtain ⟨target_cursor, end_location, out, hs, he, hcons, htensor, hr, -⟩ :=
    stereo_encode_accepted env stride t c d r d1 h hdim
  obtain ⟨template_raw, complement_raw, complement_min, template_min, tsc, csc, cols,
    h1, h2, h3, h4, i1, i2, hn, hwalk, hpos, -, hlen, hrows⟩ :=
    stereo_encode_tensor_spec env stride t c _ _ _ _ _ out hbase htensor
  obtain ⟨hlt, h50⟩ := consensus_possible_window _ _ _ hcons
  refine ⟨out, cols, _, _, Fl.convert round16 (pad_value complement_min template_min), hr, h50,
    ⟨_, _, template_raw, complement_raw, tsc, csc, ?_, h1, h2, i1, i2, ?_, hwalk⟩, ?_, hpos,
    hlen, hrows⟩
  · unfold trimmed_alignment
    rw [hs, he]
  · rw [hn, Int.toNat_of_nonneg (by omega)]
  · unfold stored_pad_value
    rw [h1, h2]
    show (tensor_min complement_raw.reverse >>= _) = _
    rw [h3]
    show (tensor_min template_raw >>= _) = _
    rw [h4]
    rfl
theorem total_length_ge (cols : List Column) (hpos : ∀ col ∈ cols, 1 ≤ col.total_segment_length) :
    cols.length ≤ total_length cols := by
  induction cols with
  | nil => simp [total_length]
  | cons col cols ih =>
    have h1 := hpos col (List.mem_cons_self _ _)
    have h2 := ih (fun x hx => hpos x (List.mem_cons_of_mem _ hx))
    simp only [total_length, List.map_cons, List.sum_cons, List.length_cons] at h2 ⊢
    omega

theorem move_row_count (cols : List Column) :
    (cols.flatMap fun col =>
      Fl.fin 1 :: List.replicate (col.total_segment_length - 1) (Fl.fin 0)).count (Fl.fin 1) =
      cols.length := by
  induction cols with
  | nil => rfl
  | cons col cols ih =>
    rw [List.flatMap_cons, List.count_append, ih, List.count_cons_self, List.count_replicate]
    have hne : ¬ (Fl.fin 0 = Fl.fin 1) := by
      intro h
      injection h with h
      norm_num at h
    simp [hne]
    omega

theorem exampleEnv_base_to_int (ch : Char) :
    0 ≤ exampleEnv.base_to_int ch ∧ exampleEnv.base_to_int ch ≤ 3 := by
  show 0 ≤ (if ch = 'A' then (0 : Int) else if ch = 'C' then 1 else if ch = 'G' then 2 else 3) ∧
    (if ch = 'A' then (0 : Int) else if ch = 'C' then 1 else if ch = 'G' then 2 else 3) ≤ 3
  split_ifs <;> omega

/-- Claim C20: for every accepted pair (with `base_to_int` mapping into 0..3),
every alignment column of the trimmed window contributes at least one output
position, row 10 of the output is, column after column, a one at the first
position of the column followed by zeros at its other positions, and so the
number of ones in row 10 is `end_alignment_position - start_alignment_position`. -/
theorem move_row_marks_columns (env : Env) (stride : Int) (template_read complement_read : Read)
    (discarded : Nat) (r : Read) (d1 : Nat)
    (hbase : ∀ ch, 0 ≤ env.base_to_int ch ∧ env.base_to_int ch ≤ 3)
    (h : stereo_encode env stride template_read complement_read discarded = Except.ok (r, d1))
    (hdim : r.raw_data.ndimension = 2) :
    ∃ (out : List (List Fl)) (cols : List Column) (start stop : Int) (row10 : List Fl),
      r.raw_data = Tensor.mat out ∧
      IsEncodingWalk env stride template_read complement_read start stop cols ∧
      (∀ col ∈ cols, 1 ≤ col.total_segment_length) ∧
      out[10]? = some row10 ∧
      row10 = (cols.flatMap fun col =>
        Fl.fin 1 :: List.replicate (col.total_segment_length - 1) (Fl.fin 0)) ∧
      row10.length = total_length cols ∧
      (row10.count (Fl.fin 1) : Int) = stop - start := by
  obtain ⟨out, cols, start, stop, pad, hr, -, hwalk, -, hpos, -, hrows⟩ :=
    stereo_encode_rows env stride _ _ _ r d1 hbase h hdim
  have hcols : (cols.length : Int) = stop - start := by
    obtain ⟨_, _, _, _, _, _, -, -, -, -, -, hn, -⟩ := hwalk
    exact hn
  have h10 := hrows 10 (by norm_num)
  have hl := features_flatMap_length env.base_to_int pad 10 (by norm_num) cols hpos
  refine ⟨out, cols, start, stop, _, by rw [hr]; rfl, hwalk, hpos, h10, rfl, hl, ?_⟩
  have := move_row_count cols
  simp only [Column.features_move]
  rw [this, hcols]

/-- Witness for `move_row_marks_columns`: the example pair of 60 bases. -/
theorem move_row_marks_columns_witness :
    ∃ r d, stereo_encode exampleEnv 1 (exampleRead 60) (exampleRead 60) 0 = Except.ok (r, d) ∧
      r.raw_data.ndimension = 2 ∧
      ∃ (out : List (List Fl)) (cols : List Column) (start stop : Int) (row10 : List Fl),
        r.raw_data = Tensor.mat out ∧
        IsEncodingWalk exampleEnv 1 (exampleRead 60) (exampleRead 60) start stop cols ∧
        (∀ col ∈ cols, 1 ≤ col.total_segment_length) ∧
        out[10]? = some row10 ∧
        row10 = (cols.flatMap fun col =>
          Fl.fin 1 :: List.replicate (col.total_segment_length - 1) (Fl.fin 0)) ∧
        row10.length = total_length cols ∧
        (row10.count (Fl.fin 1) : Int) = stop - start := by
  obtain ⟨out, h⟩ := stereo_encode_example
  exact ⟨_, _, h, rfl,
    move_row_marks_columns exampleEnv 1 _ _ 0 _ _ exampleEnv_base_to_int h rfl⟩
/-- Claim C13: for every accepted pair (with `base_to_int` mapping the alphabet
into 0..3) the output tensor has exactly 13 rows; over the positions of a
column that is not an insertion to the query exactly one of the template base
rows 2..5 holds 1, the row of the template base at the target cursor, and the
others hold 0, and over a column that is such an insertion all four hold 0; the
same holds for the complement base rows 6..9 with the base of the reverse
complement at the query cursor and insertions to the target. -/
theorem base_rows_one_hot (env : Env) (stride : Int) (template_read complement_read : Read)
    (discarded : Nat) (r : Read) (d1 : Nat)
    (hbase : ∀ ch, 0 ≤ env.base_to_int ch ∧ env.base_to_int ch ≤ 3)
    (h : stereo_encode env stride template_read complement_read discarded = Except.ok (r, d1))
    (hdim : r.raw_data.ndimension = 2) :
    ∃ (out : List (List Fl)) (cols : List Column) (start stop : Int),
      r.raw_data = Tensor.mat out ∧ out.length = 13 ∧
      IsEncodingWalk env stride template_read complement_read start stop cols ∧
      (∀ row : Nat, 2 ≤ row → row ≤ 5 →
        out[row]? = some (cols.flatMap fun col =>
          List.replicate col.total_segment_length
            (if col.entry ≠ 2 ∧ 2 + env.base_to_int col.template_nucleotide = (row : Int)
              then Fl.fin 1 else Fl.fin 0))) ∧
      (∀ row : Nat, 6 ≤ row → row ≤ 9 →
        out[row]? = some (cols.flatMap fun col =>
          List.replicate col.total_segment_length
            (if col.entry ≠ 1 ∧ 6 + env.base_to_int col.complement_nucleotide = (row : Int)
              then Fl.fin 1 else Fl.fin 0))) ∧
      ∀ col ∈ cols, 1 ≤ col.total_segment_length ∧
        (∃ row : Nat, 2 ≤ row ∧ row ≤ 5 ∧
          2 + env.base_to_int col.template_nucleotide = (row : Int)) ∧
        (∃ row : Nat, 6 ≤ row ∧ row ≤ 9 ∧
          6 + env.base_to_int col.complement_nucleotide = (row : Int)) := by
  obtain ⟨out, cols, start, stop, pad, hr, -, hwalk, -, hpos, hlen, hrows⟩ :=
    stereo_encode_rows env stride _ _ _ r d1 hbase h hdim
  refine ⟨out, cols, start, stop, by rw [hr]; rfl, hlen, hwalk, ?_, ?_, ?_⟩
  · intro row h2 h5
    rw [hrows row (by omega)]
    simp only [Column.features_template_base env.base_to_int pad _ row h2 h5]
  · intro row h6 h9
    rw [hrows row (by omega)]
    simp only [Column.features_complement_base env.base_to_int pad _ row h6 h9]
  · intro col hcol
    refine ⟨hpos col hcol, ?_, ?_⟩
    · obtain ⟨h0, h3⟩ := hbase col.template_nucleotide
      refine ⟨(2 + env.base_to_int col.template_nucleotide).toNat, ?_, ?_, ?_⟩ <;> omega
    · obtain ⟨h0, h3⟩ := hbase col.complement_nucleotide
      refine ⟨(6 + env.base_to_int col.complement_nucleotide).toNat, ?_, ?_, ?_⟩ <;> omega

/-- Witness for `base_rows_one_hot`: the example pair of 60 bases. -/
theorem base_rows_one_hot_witness :
    ∃ r d, stereo_encode exampleEnv 1 (exampleRead 60) (exampleRead 60) 0 = Except.ok (r, d) ∧
      r.raw_data.ndimension = 2 ∧
      ∃ (out : List (List Fl)) (cols : List Column) (start stop : Int),
        r.raw_data = Tensor.mat out ∧ out.length = 13 ∧
        IsEncodingWalk exampleEnv 1 (exampleRead 60) (exampleRead 60) start stop cols ∧
        (∀ row : Nat, 2 ≤ row → row ≤ 5 →
          out[row]? = some (cols.flatMap fun col =>
            List.replicate col.total_segment_length
              (if col.entry ≠ 2 ∧
                  2 + exampleEnv.base_to_int col.template_nucleotide = (row : Int)
                then Fl.fin 1 else Fl.fin 0))) ∧
        (∀ row : Nat, 6 ≤ row → row ≤ 9 →
          out[row]? = some (cols.flatMap fun col =>
            List.replicate col.total_segment_length
              (if col.entry ≠ 1 ∧
                  6 + exampleEnv.base_to_int col.complement_nucleotide = (row : Int)
                then Fl.fin 1 else Fl.fin 0))) ∧
        ∀ col ∈ cols, 1 ≤ col.total_segment_length ∧
          (∃ row : Nat, 2 ≤ row ∧ row ≤ 5 ∧
            2 + exampleEnv.base_to_int col.template_nucleotide = (row : Int)) ∧
          (∃ row : Nat, 6 ≤ row ∧ row ≤ 9 ∧
            6 + exampleEnv.base_to_int col.complement_nucleotide = (row : Int)) := by
  obtain ⟨out, h⟩ := stereo_encode_example
  exact ⟨_, _, h, rfl, base_rows_one_hot exampleEnv 1 _ _ 0 _ _ exampleEnv_base_to_int h rfl⟩

/-- The passes of a walk are determined by its start: two lists of columns of
the same length that are walks from the same cursors have the same alignment
entries and copy the same segments. -/
theorem IsWalk.segments_unique (c : WalkCtx) (alignment : List Nat) (cols : List Column) :
    ∀ (cols' : List Column) (i : Int) (tsc csc : Nat) (tc qc : Int),
      IsWalk c alignment i tsc csc tc qc cols → IsWalk c alignment i tsc csc tc qc cols' →
      cols.length = cols'.length →
      cols.map (fun col => (col.entry, col.template_segment, col.complement_segment)) =
        cols'.map (fun col => (col.entry, col.template_segment, col.complement_segment)) := by
  induction cols with
  | nil =>
    intro cols' i tsc csc tc qc _ _ hl
    cases cols' with
    | nil => rfl
    | cons x xs => simp at hl
  | cons col rest ih =>
    intro cols' i tsc csc tc qc hw hw' hl
    cases cols' with
    | nil => simp at hl
    | cons col' rest' =>
      obtain ⟨he, ⟨-, -, ht, hc⟩, hrest⟩ := hw
      obtain ⟨he', ⟨-, -, ht', hc'⟩, hrest'⟩ := hw'
      have hent : col.entry = col'.entry := by
        rw [he] at he'
        injection he'
      have htseg : col.template_segment = col'.template_segment := by
        by_cases h2 : col.entry = 2
        · rw [if_pos h2] at ht
          rw [if_pos (hent ▸ h2)] at ht'
          rw [ht, ht']
        · rw [if_neg h2] at ht
          rw [if_neg (hent ▸ h2)] at ht'
          have hlen := ht.2.2.2.2.2.length_unique ht'.2.2.2.2.2
          rw [ht.2.1, ht'.2.1, hlen]
      have hcseg : col.complement_segment = col'.complement_segment := by
        by_cases h1 : col.entry = 1
        · rw [if_pos h1] at hc
          rw [if_pos (hent ▸ h1)] at hc'
          rw [hc, hc']
        · rw [if_neg h1] at hc
          rw [if_neg (hent ▸ h1)] at hc'
          have hlen := hc.2.2.2.2.2.length_unique hc'.2.2.2.2.2
          rw [hc.2.1, hc'.2.1, hlen]
      have htl : col.template_segment_length = col'.template_segment_length := by
        unfold Column.template_segment_length
        rw [htseg]
      have hcl : col.complement_segment_length = col'.complement_segment_length := by
        unfold Column.complement_segment_length
        rw [hcseg]
      rw [htl, hcl, hent] at hrest
      have := ih rest' _ _ _ _ _ hrest hrest' (by simpa using hl)
      simp only [List.map_cons, this, hent, htseg, hcseg]

theorem total_length_eq_of_segments (cols cols' : List Column)
    (h : cols.map (fun col => (col.entry, col.template_segment, col.complement_segment)) =
      cols'.map (fun col => (col.entry, col.template_segment, col.complement_segment))) :
    total_length cols = total_length cols' := by
  have e : ∀ l : List Column, total_length l =
      ((l.map (fun col => (col.entry, col.template_segment, col.complement_segment))).map
        (fun x => max x.2.1.length x.2.2.length)).sum := by
    intro l
    unfold total_length
    rw [List.map_map]
    rfl
  rw [e cols, e cols', h]

/-- The columns of the walk of a pair are determined by the pair: their
alignment entries, the segments they copy, and so the length of the output. -/
theorem IsEncodingWalk.columns_unique {env : Env} {stride : Int} {t c : Read} {start stop : Int}
    {cols cols' : List Column} (h : IsEncodingWalk env stride t c start stop cols)
    (h' : IsEncodingWalk env stride t c start stop cols') :
    cols'.map (fun col => (col.entry, col.template_segment, col.complement_segment)) =
        cols.map (fun col => (col.entry, col.template_segment, col.complement_segment)) ∧
      total_length cols' = total_length cols := by
  obtain ⟨qc, tc, traw, craw, tsc, csc, a1, a2, a3, a4, a5, a6, a7⟩ := h
  obtain ⟨qc', tc', traw', craw', tsc', csc', b1, b2, b3, b4, b5, b6, b7⟩ := h'
  rw [a1] at b1
  injection b1 with b1
  injection b1 with _ b1
  injection b1 with hq htc
  subst hq
  subst htc
  rw [a2] at b2
  injection b2 with b2
  subst b2
  rw [a3] at b3
  injection b3 with b3
  subst b3
  rw [a4] at b4
  injection b4 with b4
  subst b4
  rw [a5] at b5
  injection b5 with b5
  subst b5
  have hl : cols'.length = cols.length := by
    have : (cols'.length : Int) = (cols.length : Int) := by rw [a6, b6]
    exact_mod_cast this
  have hs := IsWalk.segments_unique _ _ cols' cols _ _ _ _ _ b7 a7 hl
  exact ⟨hs, total_length_eq_of_segments _ _ hs⟩

set_option maxRecDepth 1000000 in
/-- The tensor of the example pair of 52 bases with two samples per base has 13
rows of 102 entries. -/
theorem stereo_encode_tensor_stride_two :
    (match stereo_encode_tensor exampleEnv 2 (strideTwoRead 52) (strideTwoRead 52)
        (List.replicate 52 0) 0 51 0 0 with
      | Except.ok out => decide (out.map List.length = List.replicate 13 102)
      | Except.error _ => false) = true := by
  decide

/-- The example pair of 52 bases with two samples per base is accepted, and its
tensor has 13 rows of 102 entries. -/
theorem stereo_encode_stride_two :
    ∃ out, stereo_encode exampleEnv 2 (strideTwoRead 52) (strideTwoRead 52) 0 =
        Except.ok (stereo_encoded_read (strideTwoRead 52) (strideTwoRead 52) out, 0) ∧
      out.map List.length = List.replicate 13 102 := by
  have e3 : stereo_trim exampleEnv
      (stereo_align exampleEnv (strideTwoRead 52) (strideTwoRead 52)) 0 51 =
      ((0, 51), (0, 0)) := by decide
  have e4 : (stereo_align exampleEnv (strideTwoRead 52) (strideTwoRead 52)).alignment =
      List.replicate 52 0 := by decide
  have hc : consensus_possible
      (stereo_trim exampleEnv (stereo_align exampleEnv (strideTwoRead 52) (strideTwoRead 52)) 0
        51).1.1
      (stereo_trim exampleEnv (stereo_align exampleEnv (strideTwoRead 52) (strideTwoRead 52)) 0
        51).1.2
      (alignment_error_rate (stereo_align exampleEnv (strideTwoRead 52) (strideTwoRead 52))) =
      true := by
    have e1 : (stereo_align exampleEnv (strideTwoRead 52) (strideTwoRead 52)).editDistance =
        0 := rfl
    have e2 : (stereo_align exampleEnv (strideTwoRead 52) (strideTwoRead 52)).alignmentLength =
        52 := by decide
    unfold alignment_error_rate
    rw [e1, e2, e3, consensus_possible_iff 0 51 0 52 (by norm_num) (by norm_num)]
    norm_num
  have h := stereo_encode_of_consensus exampleEnv 2 (strideTwoRead 52) (strideTwoRead 52) 0 0 51
    rfl rfl hc
  rw [e3, e4] at h
  have hok := stereo_encode_tensor_stride_two
  cases ht : stereo_encode_tensor exampleEnv 2 (strideTwoRead 52) (strideTwoRead 52)
      (List.replicate 52 0) 0 51 0 0 with
  | error e =>
    rw [ht] at hok
    simp at hok
  | ok out =>
    rw [ht] at h hok
    exact ⟨out, h, by simpa using hok⟩

/-- Claim C12 as stated fails: the example pair of 52 bases with two samples per
base is accepted with the trimmed window 0 to 51, and every row of its tensor
has 102 entries, not 51. -/
theorem output_longer_than_window :
    ∃ r d out,
      stereo_encode exampleEnv 2 (strideTwoRead 52) (strideTwoRead 52) 0 = Except.ok (r, d) ∧
      r.raw_data = Tensor.mat out ∧
      trimmed_alignment exampleEnv (strideTwoRead 52) (strideTwoRead 52) =
        Except.ok ((0, 51), (0, 0)) ∧
      out.map List.length = List.replicate 13 102 ∧
      ∀ row ∈ out, (row.length : Int) ≠ 51 - 0 := by
  obtain ⟨out, h, hlen⟩ := stereo_encode_stride_two
  refine ⟨_, _, out, h, rfl, rfl, hlen, ?_⟩
  intro row hrow
  have : row.length ∈ out.map List.length := List.mem_map_of_mem _ hrow
  rw [hlen] at this
  have := List.eq_of_mem_replicate this
  omega

/-- Claim C12 (as the code has it): for every accepted pair (with `base_to_int`
mapping into 0..3) the walk consumes
`end_alignment_position - start_alignment_position` alignment columns, and the
length of every row of the output tensor is the sum over these columns of the
larger of the two segment lengths of the column, which is at least the number of
columns.  The segment of a side is the run of samples the column copies, from
the signal cursor to the next boundary of the move table (`Column.IsPass`), so
the columns are determined by the pair: any other list of columns that is the
walk of the pair has the same entries and segments and the same sum. -/
theorem output_length (env : Env) (stride : Int) (template_read complement_read : Read)
    (discarded : Nat) (r : Read) (d1 : Nat)
    (hbase : ∀ ch, 0 ≤ env.base_to_int ch ∧ env.base_to_int ch ≤ 3)
    (h : stereo_encode env stride template_read complement_read discarded = Except.ok (r, d1))
    (hdim : r.raw_data.ndimension = 2) :
    ∃ (out : List (List Fl)) (cols : List Column) (start stop : Int),
      r.raw_data = Tensor.mat out ∧ out.length = 13 ∧
      IsEncodingWalk env stride template_read complement_read start stop cols ∧
      (cols.length : Int) = stop - start ∧
      (∀ row ∈ out, row.length = total_length cols) ∧
      stop - start ≤ (total_length cols : Int) ∧
      ∀ cols', IsEncodingWalk env stride template_read complement_read start stop cols' →
        cols'.map (fun col => (col.entry, col.template_segment, col.complement_segment)) =
          cols.map (fun col => (col.entry, col.template_segment, col.complement_segment)) ∧
        total_length cols' = total_length cols := by
  obtain ⟨out, cols, start, stop, pad, hr, -, hwalk, -, hpos, hlen, hrows⟩ :=
    stereo_encode_rows env stride _ _ _ r d1 hbase h hdim
  have hcols : (cols.length : Int) = stop - start := by
    obtain ⟨_, _, _, _, _, _, -, -, -, -, -, hn, -⟩ := hwalk
    exact hn
  refine ⟨out, cols, start, stop, by rw [hr]; rfl, hlen, hwalk, hcols, ?_, ?_,
    fun cols' h' => hwalk.columns_unique h'⟩
  · intro row hrow
    obtain ⟨i, hi, rfl⟩ := List.mem_iff_getElem.mp hrow
    have h1 := hrows i (by omega)
    rw [List.getElem?_eq_getElem hi] at h1
    injection h1 with h1
    rw [h1, features_flatMap_length _ _ i (by omega) cols hpos]
  · have := total_length_ge cols hpos
    omega

/-- Witness for `output_length`: the example pair of 52 bases with two samples
per base; its walk has 51 columns and the rows have 102 entries. -/
theorem output_length_witness :
    ∃ r d, stereo_encode exampleEnv 2 (strideTwoRead 52) (strideTwoRead 52) 0 =
        Except.ok (r, d) ∧
      r.raw_data.ndimension = 2 ∧
      ∃ (out : List (List Fl)) (cols : List Column) (start stop : Int),
        r.raw_data = Tensor.mat out ∧ out.length = 13 ∧
        IsEncodingWalk exampleEnv 2 (strideTwoRead 52) (strideTwoRead 52) start stop cols ∧
        (cols.length : Int) = stop - start ∧
        (∀ row ∈ out, row.length = total_length cols) ∧
        stop - start ≤ (total_length cols : Int) ∧
        (∀ cols', IsEncodingWalk exampleEnv 2 (strideTwoRead 52) (strideTwoRead 52) start stop
            cols' →
          cols'.map (fun col => (col.entry, col.template_segment, col.complement_segment)) =
            cols.map (fun col => (col.entry, col.template_segment, col.complement_segment)) ∧
          total_length cols' = total_length cols) ∧
        stop - start = 51 ∧ total_length cols = 102 := by
  obtain ⟨out0, h, hlen0⟩ := stereo_encode_stride_two
  obtain ⟨out, cols, start, stop, hr, h13, hwalk, hcols, hrows, hle, huniq⟩ :=
    output_length exampleEnv 2 _ _ 0 _ _ exampleEnv_base_to_int h rfl
  have hout : out0 = out := by
    have e : (stereo_encoded_read (strideTwoRead 52) (strideTwoRead 52) out0).raw_data =
        Tensor.mat out0 := rfl
    rw [e] at hr
    injection hr
  subst hout
  have hwin : stop - start = 51 := by
    obtain ⟨qc, tc, _, _, _, _, a1, -⟩ := hwalk
    have e : trimmed_alignment exampleEnv (strideTwoRead 52) (strideTwoRead 52) =
        Except.ok ((0, 51), (0, 0)) := rfl
    rw [e] at a1
    injection a1 with a1
    injection a1 with a1 _
    injection a1 with h1 h2
    omega
  have htot : total_length cols = 102 := by
    cases out0 with
    | nil => simp at h13
    | cons row rest =>
      have h1 := hrows row (List.mem_cons_self _ _)
      have h2 : row.length ∈ (row :: rest).map List.length :=
        List.mem_map_of_mem _ (List.mem_cons_self _ _)
      rw [hlen0] at h2
      have := List.eq_of_mem_replicate h2
      omega
  exact ⟨_, _, h, rfl, out0, cols, start, stop, hr, h13, hwalk, hcols, hrows, hle, huniq, hwin,
    htot⟩

theorem write_row_ok (tmp : List (List Fl)) (row : Int) (pos : Nat) (vals : List Fl) (width : Nat)
    (hshape : BufferShape tmp width) (h0 : 0 ≤ row) (h13 : row < 13)
    (hfit : pos + vals.length ≤ width) :
    ∃ tmp1, write_row tmp row pos vals = Except.ok tmp1 ∧ BufferShape tmp1 width := by
  obtain ⟨r, hr, hlen⟩ := hshape row.toNat (by omega)
  have hlt : row.toNat < tmp.length := (List.getElem?_eq_some_iff.mp hr).1
  unfold write_row getAt
  rw [if_neg (by omega)]
  simp only [hr]
  by_cases hv : vals = []
  · rw [if_pos hv]
    exact ⟨tmp, rfl, hshape⟩
  · rw [if_neg hv, if_pos (by omega)]
    refine ⟨_, rfl, ?_⟩
    intro row1 hrow1
    by_cases he : row.toNat = row1
    · subst he
      rw [List.getElem?_set_self hlt]
      refine ⟨_, rfl, ?_⟩
      simp only [List.length_append, List.length_take, List.length_drop]
      omega
    · rw [List.getElem?_set_ne he]
      exact hshape row1 hrow1

theorem memchr_one_progress (buf : List Nat) (start : Nat) (n : Nat) :
    ∀ j, (∃ p, j ≤ p ∧ p < j + n ∧ buf[start + p]? = some 1) →
      ∃ q, memchr_one buf start n j = Except.ok (some q) ∧ j ≤ q ∧ q < j + n ∧
        buf[start + q]? = some 1 ∧
        ∀ p, j ≤ p → p < q → ∃ b, buf[start + p]? = some b ∧ b ≠ 1 := by
  induction n with
  | zero =>
    intro j ⟨p, h1, h2, _⟩
    omega
  | succ n ih =>
    intro j ⟨p, h1, h2, h3⟩
    have hp : start + p < buf.length := (List.getElem?_eq_some_iff.mp h3).1
    have hj : start + j < buf.length := by omega
    unfold memchr_one
    rw [List.getElem?_eq_getElem hj]
    simp only
    by_cases hb : buf[start + j] = 1
    · rw [if_pos hb]
      refine ⟨j, rfl, le_refl _, by omega, ?_, ?_⟩
      · rw [List.getElem?_eq_getElem hj, hb]
      · intro p1 h4 h5
        omega
    · rw [if_neg hb]
      have hpj : p ≠ j := by
        intro e
        subst e
        rw [List.getElem?_eq_getElem hj] at h3
        injection h3 with h3
        exact hb h3
      obtain ⟨q, e, hq1, hq2, hq3, hq4⟩ := ih (j + 1) ⟨p, by omega, by omega, h3⟩
      refine ⟨q, e, by omega, by omega, hq3, ?_⟩
      intro p1 h4 h5
      by_cases e1 : p1 = j
      · subst e1
        exact ⟨_, List.getElem?_eq_getElem hj, hb⟩
      · exact hq4 p1 (by omega) h5
theorem ones_after_pos (m : List Nat) (k : Nat) (h : 1 ≤ ones_after m k) :
    ∃ p, k + 1 + p < m.length ∧ m[k + 1 + p]? = some 1 := by
  unfold ones_after at h
  have hmem : 1 ∈ m.drop (k + 1) := List.count_pos_iff.mp (by omega)
  obtain ⟨p, hp, he⟩ := List.mem_iff_getElem.mp hmem
  rw [List.getElem_drop] at he
  rw [List.length_drop] at hp
  exact ⟨p, by omega, by rw [List.getElem?_eq_getElem (by omega), he]⟩

theorem ones_after_step (m : List Nat) (q : Nat) :
    ∀ k, m[k + 1 + q]? = some 1 → (∀ p, p < q → ∃ b, m[k + 1 + p]? = some b ∧ b ≠ 1) →
      ones_after m (k + 1 + q) + 1 = ones_after m k := by
  induction q with
  | zero =>
    intro k h1 _
    have hlt : k + 1 < m.length := (List.getElem?_eq_some_iff.mp h1).1
    have hv : m[k + 1] = 1 := by
      rw [List.getElem?_eq_getElem hlt] at h1
      injection h1
    unfold ones_after
    rw [Nat.add_zero, List.drop_eq_getElem_cons hlt, hv, List.count_cons_self]
  | succ q ih =>
    intro k h1 h2
    obtain ⟨b, hb, hne⟩ := h2 0 (by omega)
    have hlt : k + 1 < m.length := (List.getElem?_eq_some_iff.mp hb).1
    have hv : m[k + 1] = b := by
      rw [List.getElem?_eq_getElem hlt] at hb
      injection hb
    have e : k + 1 + (q + 1) = (k + 1) + 1 + q := by omega
    rw [e] at h1 ⊢
    rw [ih (k + 1) h1 (fun p hp => by
      obtain ⟨b1, hb1, hne1⟩ := h2 (p + 1) (by omega)
      exact ⟨b1, by rw [← hb1]; congr 1; omega, hne1⟩)]
    unfold ones_after
    rw [List.drop_eq_getElem_cons hlt, hv, List.count_cons]
    simp [hne]

/-- One side of a column is copied without a fault when the move table is as
long as the signal, has a boundary after the signal cursor, and the buffer has
room for the samples from the cursor to the end of the signal. -/
theorem copy_segment_progress (raw : List Fl) (moves : List Nat) (feature : Int)
    (tmp : List (List Fl)) (g k width : Nat) (h0 : 0 ≤ feature) (h13 : feature < 13)
    (hshape : BufferShape tmp width) (hl : moves.length = raw.length)
    (hones : 1 ≤ ones_after moves k) (hroom : g + raw.length ≤ width + k) :
    ∃ tmp2 j, copy_segment raw moves feature tmp g k = Except.ok (tmp2, k + 1 + j, 1 + j) ∧
      BufferShape tmp2 width ∧ k + 1 + j < raw.length ∧
      ones_after moves (k + 1 + j) + 1 = ones_after moves k := by
  obtain ⟨p, hp, hp1⟩ := ones_after_pos moves k hones
  obtain ⟨q, hq, -, hq2, hq3, hq4⟩ :=
    memchr_one_progress moves (k + 1) moves.length 0 ⟨p, by omega, by omega, hp1⟩
  have hqlt : k + 1 + q < moves.length := (List.getElem?_eq_some_iff.mp hq3).1
  have hstep := ones_after_step moves q k hq3 (fun p1 hp1 => hq4 p1 (by omega) hp1)
  have e1 : read_samples raw k 1 = Except.ok ((raw.drop k).take 1) := by
    unfold read_samples
    rw [if_neg (by omega), if_pos (by omega)]
  have e2 : ∃ rest, read_samples raw (k + 1) q = Except.ok rest ∧ rest.length = q := by
    unfold read_samples
    by_cases hq0 : q = 0
    · rw [if_pos hq0]
      exact ⟨[], rfl, by rw [hq0]; rfl⟩
    · rw [if_neg hq0, if_pos (by omega)]
      refine ⟨_, rfl, ?_⟩
      rw [List.length_take, List.length_drop]
      omega
  obtain ⟨rest, e2, hrest⟩ := e2
  have hfirst : ((raw.drop k).take 1).length = 1 := by
    rw [List.length_take, List.length_drop]
    omega
  obtain ⟨tmp1, w1, s1⟩ := write_row_ok tmp feature g _ width hshape h0 h13
    (by rw [hfirst]; omega)
  obtain ⟨tmp2, w2, s2⟩ := write_row_ok tmp1 feature (g + 1) rest width s1 h0 h13
    (by rw [hrest]; omega)
  refine ⟨tmp2, q, ?_, s2, by omega, hstep⟩
  unfold copy_segment
  rw [e1]
  show (write_row tmp feature g _ >>= _) = _
  rw [w1]
  show (memchr_one moves (k + 1) moves.length 0 >>= _) = _
  rw [hq]
  show (read_samples raw (k + 1) q >>= _) = _
  rw [e2]
  show (write_row tmp1 feature (g + 1) rest >>= _) = _
  rw [w2]
  rfl
theorem except_ok_bind {ε α β : Type} (a : α) (f : α → Except ε β) :
    (Except.ok a >>= f) = f a := rfl

/-- The passes of `encode_column` in the other direction: when every step
returns, the column returns the state they build. -/
theorem encode_column_of_steps (c : WalkCtx) (a : Nat) (s : WalkState)
    (tmp1 : List (List Fl)) (tsc tlen : Nat) (tmp2 : List (List Fl)) (csc clen : Nat)
    (tmp3 tmp4 tmp5 : List (List Fl))
    (hT : if a = 2 then tmp1 = s.tmp ∧ tsc = s.template_signal_cursor ∧ tlen = 0
        else copy_segment c.template_raw c.template_moves_expanded 0 s.tmp
          s.stereo_global_cursor s.template_signal_cursor = Except.ok (tmp1, tsc, tlen))
    (hC : if a = 1 then tmp2 = tmp1 ∧ csc = s.complement_signal_cursor ∧ clen = 0
        else copy_segment c.flipped_complement_raw c.complement_moves_expanded 1 tmp1
          s.stereo_global_cursor s.complement_signal_cursor = Except.ok (tmp2, csc, clen))
    (hFT : if a = 2 then tmp3 = tmp2
        else ∃ nucleotide q t1,
          string_index c.template_seq s.target_cursor = Except.ok nucleotide ∧
          write_row tmp2 (2 + c.base_to_int nucleotide) s.stereo_global_cursor
            (List.replicate (max tlen clen) (Fl.fin 1)) = Except.ok t1 ∧
          string_index c.template_qstring s.target_cursor = Except.ok q ∧
          write_row t1 11 s.stereo_global_cursor
            (List.replicate (max tlen clen) (convert_q_score q)) = Except.ok tmp3)
    (hFC : if a = 1 then tmp4 = tmp3
        else ∃ nucleotide q t1,
          string_at c.complement_sequence_reverse_complement s.query_cursor =
            Except.ok nucleotide ∧
          write_row tmp3 (6 + c.base_to_int nucleotide) s.stereo_global_cursor
            (List.replicate (max tlen clen) (Fl.fin 1)) = Except.ok t1 ∧
          getAt c.complement_qstring ((c.complement_qstring.length : Int) - 1 - s.query_cursor) =
            Except.ok q ∧
          write_row t1 12 s.stereo_global_cursor
            (List.replicate (max tlen clen) (convert_q_score q)) = Except.ok tmp4)
    (h5 : write_row tmp4 10 s.stereo_global_cursor [Fl.fin 1] = Except.ok tmp5) :
    encode_column c a s = Except.ok
      { tmp := tmp5
        template_signal_cursor := tsc
        complement_signal_cursor := csc
        target_cursor := if a = 2 then s.target_cursor else s.target_cursor + 1
        query_cursor := if a = 1 then s.query_cursor else s.query_cursor + 1
        stereo_global_cursor := s.stereo_global_cursor + max tlen clen } := by
  unfold encode_column
  by_cases h2 : a = 2
  · have h1 : a ≠ 1 := by omega
    rw [if_pos h2] at hT hFT
    rw [if_neg h1] at hC hFC
    obtain ⟨rfl, rfl, rfl⟩ := hT
    subst hFT
    obtain ⟨nuc, q, t1, hn, ht1, hq, ht2⟩ := hFC
    simp only [h2, ne_eq, not_true_eq_false, if_false, OfNat.ofNat_ne_one, not_false_eq_true,
      if_true, pure_bind]
    rw [hC, except_ok_bind]
    rw [hn, except_ok_bind, ht1, except_ok_bind, hq, except_ok_bind, ht2, except_ok_bind]
    rw [h5, except_ok_bind]
    rfl
  · by_cases h1 : a = 1
    · rw [if_neg h2] at hT hFT
      rw [if_pos h1] at hC hFC
      obtain ⟨rfl, rfl, rfl⟩ := hC
      subst hFC
      obtain ⟨nuc, q, t1, hn, ht1, hq, ht2⟩ := hFT
      simp only [h1, ne_eq, OfNat.one_ne_ofNat, not_false_eq_true, if_true, not_true_eq_false,
        if_false, pure_bind]
      rw [hT, except_ok_bind]
      rw [hn, except_ok_bind, ht1, except_ok_bind, hq, except_ok_bind, ht2, except_ok_bind]
      rw [h5, except_ok_bind]
      rfl
    · rw [if_neg h2] at hT hFT
      rw [if_neg h1] at hC hFC
      obtain ⟨nuc, q, t1, hn, ht1, hq, ht2⟩ := hFT
      obtain ⟨nuc', q', t1', hn', ht1', hq', ht2'⟩ := hFC
      simp only [h2, h1, ne_eq, not_false_eq_true, if_true, pure_bind]
      rw [hT, except_ok_bind]
      rw [hC, except_ok_bind]
      rw [hn, except_ok_bind, ht1, except_ok_bind, hq, except_ok_bind, ht2, except_ok_bind]
      rw [hn', except_ok_bind, ht1', except_ok_bind, hq', except_ok_bind, ht2', except_ok_bind]
      rw [h5, except_ok_bind]
      simp only [h2, h1, if_false]
      rfl
theorem getAt_ok {α : Type} (xs : List α) (i : Int) (h0 : 0 ≤ i) (h1 : i < xs.length) :
    ∃ x, getAt xs i = Except.ok x := by
  unfold getAt
  rw [if_neg (by omega)]
  have hlt : i.toNat < xs.length := by omega
  rw [List.getElem?_eq_getElem hlt]
  exact ⟨_, rfl⟩

theorem string_index_ok (s : List Char) (i : Int) (h0 : 0 ≤ i) (h1 : i < s.length) :
    ∃ ch, string_index s i = Except.ok ch := by
  unfold string_index
  rw [if_neg (by omega)]
  exact getAt_ok s i h0 h1

theorem string_at_ok (s : List Char) (i : Int) (h0 : 0 ≤ i) (h1 : i < s.length) :
    ∃ ch, string_at s i = Except.ok ch := by
  obtain ⟨ch, h⟩ := getAt_ok s i h0 h1
  unfold string_at
  rw [h]
  exact ⟨ch, rfl⟩

theorem signal_stage_progress (raw : List Fl) (moves : List Nat) (feature : Int) (a skip : Nat)
    (tmp : List (List Fl)) (g k width : Nat) (h0 : 0 ≤ feature) (h13 : feature < 13)
    (hshape : BufferShape tmp width) (hl : moves.length = raw.length) (hk : k ≤ raw.length)
    (hroom : g + raw.length ≤ width + k) (hones : a ≠ skip → 1 ≤ ones_after moves k) :
    ∃ tmp1 k1 len,
      (if a = skip then tmp1 = tmp ∧ k1 = k ∧ len = 0
        else copy_segment raw moves feature tmp g k = Except.ok (tmp1, k1, len)) ∧
      BufferShape tmp1 width ∧ k1 = k + len ∧ k1 ≤ raw.length ∧ (a ≠ skip → 1 ≤ len) ∧
      ones_after moves k1 + (if a = skip then 0 else 1) = ones_after moves k := by
  by_cases ha : a = skip
  · refine ⟨tmp, k, 0, ?_, hshape, rfl, hk, fun h => absurd ha h, ?_⟩
    · rw [if_pos ha]
      exact ⟨rfl, rfl, rfl⟩
    · rw [if_pos ha, Nat.add_zero]
  · obtain ⟨tmp2, j, hc, hs, hj, ho⟩ :=
      copy_segment_progress raw moves feature tmp g k width h0 h13 hshape hl (hones ha) hroom
    refine ⟨tmp2, k + 1 + j, 1 + j, ?_, hs, by omega, by omega, fun _ => by omega, ?_⟩
    · rw [if_neg ha]
      exact hc
    · rw [if_neg ha]
      exact ho

theorem fill_stage_progress (a skip : Nat) (tmp : List (List Fl)) (base_row quality_row : Int)
    (base_to_int : Char → Int) (g total width : Nat) (read_nucleotide read_q : Except Fault Char)
    (hshape : BufferShape tmp width) (hfit : g + total ≤ width)
    (hb0 : 0 ≤ base_row) (hb : base_row + 3 < 13) (hq0 : 0 ≤ quality_row)
    (hq13 : quality_row < 13)
    (hbase : ∀ ch, 0 ≤ base_to_int ch ∧ base_to_int ch ≤ 3)
    (hreads : a ≠ skip → (∃ n, read_nucleotide = Except.ok n) ∧ ∃ q, read_q = Except.ok q) :
    ∃ tmp1,
      (if a = skip then tmp1 = tmp
        else ∃ nucleotide q t1,
          read_nucleotide = Except.ok nucleotide ∧
          write_row tmp (base_row + base_to_int nucleotide) g
            (List.replicate total (Fl.fin 1)) = Except.ok t1 ∧
          read_q = Except.ok q ∧
          write_row t1 quality_row g (List.replicate total (convert_q_score q)) =
            Except.ok tmp1) ∧
      BufferShape tmp1 width := by
  by_cases ha : a = skip
  · refine ⟨tmp, ?_, hshape⟩
    rw [if_pos ha]
  · obtain ⟨⟨n, hn⟩, q, hq⟩ := hreads ha
    obtain ⟨b0, b3⟩ := hbase n
    obtain ⟨t1, w1, s1⟩ := write_row_ok tmp (base_row + base_to_int n) g
      (List.replicate total (Fl.fin 1)) width hshape (by omega) (by omega)
      (by rw [List.length_replicate]; exact hfit)
    obtain ⟨t2, w2, s2⟩ := write_row_ok t1 quality_row g
      (List.replicate total (convert_q_score q)) width s1 hq0 hq13
      (by rw [List.length_replicate]; exact hfit)
    refine ⟨t2, ?_, s2⟩
    rw [if_neg ha]
    exact ⟨n, q, t1, hn, w1, hq, w2⟩

/-- One pass of the walk returns when the move tables are as long as the
signals and have a boundary after the cursor of every side the column takes a
base from, the sequence cursors of these sides are inside the sequences and
quality strings, and the buffer has one entry per sample of the two signals. -/
theorem encode_column_progress (c : WalkCtx) (a : Nat) (s : WalkState) (width : Nat)
    (hbase : ∀ ch, 0 ≤ c.base_to_int ch ∧ c.base_to_int ch ≤ 3)
    (hlt : c.template_moves_expanded.length = c.template_raw.length)
    (hlc : c.complement_moves_expanded.length = c.flipped_complement_raw.length)
    (hw : width = c.template_raw.length + c.flipped_complement_raw.length)
    (hshape : BufferShape s.tmp width)
    (htsc : s.template_signal_cursor ≤ c.template_raw.length)
    (hcsc : s.complement_signal_cursor ≤ c.flipped_complement_raw.length)
    (hg : s.stereo_global_cursor ≤ s.template_signal_cursor + s.complement_signal_cursor)
    (ht : a ≠ 2 → 1 ≤ ones_after c.template_moves_expanded s.template_signal_cursor ∧
      0 ≤ s.target_cursor ∧ s.target_cursor < c.template_seq.length ∧
      s.target_cursor < c.template_qstring.length)
    (hc : a ≠ 1 → 1 ≤ ones_after c.complement_moves_expanded s.complement_signal_cursor ∧
      0 ≤ s.query_cursor ∧
      s.query_cursor < c.complement_sequence_reverse_complement.length ∧
      s.query_cursor < c.complement_qstring.length) :
    ∃ s1, encode_column c a s = Except.ok s1 ∧ BufferShape s1.tmp width ∧
      s1.template_signal_cursor ≤ c.template_raw.length ∧
      s1.complement_signal_cursor ≤ c.flipped_complement_raw.length ∧
      s1.stereo_global_cursor ≤ s1.template_signal_cursor + s1.complement_signal_cursor ∧
      ones_after c.template_moves_expanded s1.template_signal_cursor +
        (if a = 2 then 0 else 1) =
        ones_after c.template_moves_expanded s.template_signal_cursor ∧
      ones_after c.complement_moves_expanded s1.complement_signal_cursor +
        (if a = 1 then 0 else 1) =
        ones_after c.complement_moves_expanded s.complement_signal_cursor ∧
      s1.target_cursor = (if a = 2 then s.target_cursor else s.target_cursor + 1) ∧
      s1.query_cursor = (if a = 1 then s.query_cursor else s.query_cursor + 1) := by
  obtain ⟨tmp1, tsc, tlen, hT, s1, e1, b1, p1, o1⟩ :=
    signal_stage_progress c.template_raw c.template_moves_expanded 0 a 2 s.tmp
      s.stereo_global_cursor s.template_signal_cursor width (by norm_num) (by norm_num) hshape
      hlt htsc (by omega) (fun h => (ht h).1)
  obtain ⟨tmp2, csc, clen, hC, s2, e2, b2, p2, o2⟩ :=
    signal_stage_progress c.flipped_complement_raw c.complement_moves_expanded 1 a 1 tmp1
      s.stereo_global_cursor s.complement_signal_cursor width (by norm_num) (by norm_num) s1
      hlc hcsc (by omega) (fun h => (hc h).1)
  have hpos : 1 ≤ max tlen clen := by
    by_cases h2 : a = 2
    · have := p2 (by omega)
      exact le_trans this (le_max_right _ _)
    · have := p1 h2
      exact le_trans this (le_max_left _ _)
  have hfit : s.stereo_global_cursor + max tlen clen ≤ width := by
    rcases max_cases tlen clen with ⟨e, -⟩ | ⟨e, -⟩ <;> rw [e] <;> omega
  obtain ⟨tmp3, hFT, s3⟩ :=
    fill_stage_progress a 2 tmp2 2 11 c.base_to_int s.stereo_global_cursor (max tlen clen) width
      (string_index c.template_seq s.target_cursor)
      (string_index c.template_qstring s.target_cursor) s2 hfit (by norm_num) (by norm_num)
      (by norm_num) (by norm_num) hbase
      (fun h => ⟨string_index_ok _ _ (ht h).2.1 (ht h).2.2.1,
        string_index_ok _ _ (ht h).2.1 (ht h).2.2.2⟩)
  obtain ⟨tmp4, hFC, s4⟩ :=
    fill_stage_progress a 1 tmp3 6 12 c.base_to_int s.stereo_global_cursor (max tlen clen) width
      (string_at c.complement_sequence_reverse_complement s.query_cursor)
      (getAt c.complement_qstring ((c.complement_qstring.length : Int) - 1 - s.query_cursor))
      s3 hfit (by norm_num) (by norm_num) (by norm_num) (by norm_num) hbase
      (fun h => ⟨string_at_ok _ _ (hc h).2.1 (hc h).2.2.1,
        getAt_ok _ _ (by have := (hc h).2.2.2; omega) (by have := (hc h).2.1; omega)⟩)
  obtain ⟨tmp5, h5, s5⟩ := write_row_ok tmp4 10 s.stereo_global_cursor [Fl.fin 1] width s4
    (by norm_num) (by norm_num) (by simp only [List.length_singleton]; omega)
  refine ⟨_, encode_column_of_steps c a s tmp1 tsc tlen tmp2 csc clen tmp3 tmp4 tmp5 hT hC hFT
    hFC h5, s5, ?_, ?_, ?_, ?_, ?_, rfl, rfl⟩
  · exact b1
  · exact b2
  · show s.stereo_global_cursor + max tlen clen ≤ tsc + csc
    rcases max_cases tlen clen with ⟨e, -⟩ | ⟨e, -⟩ <;> rw [e] <;> omega
  · exact o1
  · exact o2
theorem template_bases_cons (a : Nat) (w : List Nat) :
    template_bases (a :: w) = (if a = 2 then 0 else 1) + template_bases w := by
  unfold template_bases
  by_cases h : a = 2
  · simp [h]
  · simp [h]
    omega

theorem complement_bases_cons (a : Nat) (w : List Nat) :
    complement_bases (a :: w) = (if a = 1 then 0 else 1) + complement_bases w := by
  unfold complement_bases
  by_cases h : a = 1
  · simp [h]
  · simp [h]
    omega

/-- The walk over the alignment entries `w` returns when the move tables are as
long as the signals and have as many boundaries after the signal cursors as `w`
takes bases from either side, these bases are inside the sequences and quality
strings, and the buffer has one entry per sample of the two signals. -/
theorem encode_columns_progress (c : WalkCtx) (alignment : List Nat) (width : Nat)
    (hbase : ∀ ch, 0 ≤ c.base_to_int ch ∧ c.base_to_int ch ≤ 3)
    (hlt : c.template_moves_expanded.length = c.template_raw.length)
    (hlc : c.complement_moves_expanded.length = c.flipped_complement_raw.length)
    (hw : width = c.template_raw.length + c.flipped_complement_raw.length) (w : List Nat) :
    ∀ (i : Int) (s : WalkState), 0 ≤ i → (∃ rest, alignment.drop i.toNat = w ++ rest) →
      BufferShape s.tmp width →
      s.template_signal_cursor ≤ c.template_raw.length →
      s.complement_signal_cursor ≤ c.flipped_complement_raw.length →
      s.stereo_global_cursor ≤ s.template_signal_cursor + s.complement_signal_cursor →
      template_bases w ≤ ones_after c.template_moves_expanded s.template_signal_cursor →
      complement_bases w ≤ ones_after c.complement_moves_expanded s.complement_signal_cursor →
      0 ≤ s.target_cursor →
      s.target_cursor + template_bases w ≤ c.template_seq.length →
      s.target_cursor + template_bases w ≤ c.template_qstring.length →
      0 ≤ s.query_cursor →
      s.query_cursor + complement_bases w ≤ c.complement_sequence_reverse_complement.length →
      s.query_cursor + complement_bases w ≤ c.complement_qstring.length →
      ∃ final, encode_columns c alignment w.length i s = Except.ok final := by
  induction w with
  | nil =>
    intro i s _ _ _ _ _ _ _ _ _ _ _ _ _ _
    exact ⟨s, rfl⟩
  | cons a w ih =>
    intro i s hi ⟨rest, hrest⟩ hshape htsc hcsc hg hto hco htc hts htq hqc hqs hqq
    rw [template_bases_cons] at hto hts htq
    rw [complement_bases_cons] at hco hqs hqq
    have ha : getAt alignment i = Except.ok a := by
      have h0 : (alignment.drop i.toNat)[0]? = some a := by rw [hrest]; simp
      rw [List.getElem?_drop, Nat.add_zero] at h0
      unfold getAt
      rw [if_neg (by omega), h0]
    have hnext : alignment.drop (i + 1).toNat = w ++ rest := by
      have e : (i + 1).toNat = i.toNat + 1 := by omega
      rw [e, ← List.drop_drop, hrest]
      rfl
    obtain ⟨s1, hs1, shape1, b1, b2, g1, o1, o2, t1, q1⟩ :=
      encode_column_progress c a s width hbase hlt hlc hw hshape htsc hcsc hg
        (fun h => by
          rw [if_neg h] at hto hts htq
          exact ⟨by omega, htc, by omega, by omega⟩)
        (fun h => by
          rw [if_neg h] at hco hqs hqq
          exact ⟨by omega, hqc, by omega, by omega⟩)
    obtain ⟨final, hfinal⟩ := ih (i + 1) s1 (by omega) ⟨rest, hnext⟩ shape1 b1 b2 g1
      (by omega) (by omega)
      (by rw [t1]; split_ifs <;> omega)
      (by rw [t1]; split_ifs at hts ⊢ <;> omega)
      (by rw [t1]; split_ifs at htq ⊢ <;> omega)
      (by rw [q1]; split_ifs <;> omega)
      (by rw [q1]; split_ifs at hqs ⊢ <;> omega)
      (by rw [q1]; split_ifs at hqq ⊢ <;> omega)
    refine ⟨final, ?_⟩
    rw [List.length_cons]
    simp only [encode_columns, ha, hs1]
    exact hfinal
theorem count_take_succ (m : List Nat) (hm : ∀ x ∈ m, x ≤ 1) (k : Nat) (hk : k < m.length) :
    ((m.take (k + 1)).count 1 : Int) = ((m.take k).count 1 : Int) + (m[k] : Int) := by
  rw [List.take_succ, List.getElem?_eq_getElem hk, Option.toList_some, List.count_append]
  have hx : m[k] ≤ 1 := hm _ (List.getElem_mem hk)
  by_cases h1 : m[k] = 1
  · rw [h1]
    simp
  · have h0 : m[k] = 0 := by omega
    rw [h0]
    simp

theorem count_take_add_ones_after (m : List Nat) (k : Nat) :
    (m.take (k + 1)).count 1 + ones_after m k = m.count 1 := by
  unfold ones_after
  rw [← List.count_append, List.take_append_drop]

/-- The loop that looks for the signal cursor of a base ends inside a table of
entries 0 and 1 that has at least `goal` boundaries; the boundaries up to the
cursor it returns are `goal` many. -/
theorem advance_to_base_progress (m : List Nat) (hm : ∀ x ∈ m, x ≤ 1) (goal : Int)
    (hgoal : goal ≤ (m.count 1 : Int)) :
    ∀ (fuel cursor : Nat) (seen : Int), cursor < m.length →
      seen = ((m.take (cursor + 1)).count 1 : Int) → seen ≤ goal →
      m.length - cursor ≤ fuel →
      ∃ k, advance_to_base m goal fuel cursor seen = Except.ok k ∧ k < m.length ∧
        ((m.take (k + 1)).count 1 : Int) = goal := by
  intro fuel
  induction fuel with
  | zero =>
    intro cursor seen h1 _ _ h4
    omega
  | succ fuel ih =>
    intro cursor seen h1 h2 h3 h4
    unfold advance_to_base
    by_cases hlt : seen < goal
    · rw [if_pos hlt]
      have hsum := count_take_add_ones_after m cursor
      have hpos : 1 ≤ ones_after m cursor := by omega
      obtain ⟨p, hp, -⟩ := ones_after_pos m cursor hpos
      have hc1 : cursor + 1 < m.length := by omega
      rw [List.getElem?_eq_getElem hc1]
      simp only
      have hstep := count_take_succ m hm (cursor + 1) hc1
      have hx : m[cursor + 1] ≤ 1 := hm _ (List.getElem_mem hc1)
      exact ih (cursor + 1) (seen + (m[cursor + 1] : Int)) hc1 (by rw [hstep, h2]) (by omega)
        (by omega)
    · rw [if_neg hlt]
      exact ⟨cursor, rfl, h1, by omega⟩
theorem initial_cursor_progress (m : List Nat) (hm : ∀ x ∈ m, x ≤ 1) (h0 : m[0]? = some 1)
    (cur : Int) (n : Nat) (hcur : 0 ≤ cur) (hcount : cur + 1 + (n : Int) ≤ (m.count 1 : Int)) :
    ∃ k, advance_to_base m (cur + 1) (m.length + 1) 0 ((1 : Nat) : Int) = Except.ok k ∧
      k < m.length ∧ n ≤ ones_after m k := by
  have hlen : 0 < m.length := (List.getElem?_eq_some_iff.mp h0).1
  have hseen : (((1 : Nat) : Int)) = ((m.take (0 + 1)).count 1 : Int) := by
    rw [List.take_succ, h0]
    simp
  obtain ⟨k, hk, hlt, hc⟩ := advance_to_base_progress m hm (cur + 1) (by omega)
    (m.length + 1) 0 _ hlen hseen (by push_cast; omega) (by omega)
  refine ⟨k, hk, hlt, ?_⟩
  have := count_take_add_ones_after m k
  omega

theorem tensor_min_ok (l : List Fl) (h : l ≠ []) : ∃ x, tensor_min l = Except.ok x := by
  cases l with
  | nil => exact absurd rfl h
  | cons x xs => exact ⟨_, rfl⟩

theorem initial_shape (width : Nat) (pad : Fl) :
    BufferShape (List.replicate 2 (List.replicate width pad) ++
        List.replicate 11 (List.replicate width (Fl.fin 0))) width := by
  intro row hrow
  interval_cases row <;> simp [List.replicate]

theorem alignment_window_drop (alignment : List Nat) (start stop : Int)
    (hstop : stop ≤ alignment.length) (hstart : 0 ≤ start) :
    (alignment_window alignment start stop).length = (stop - start).toNat ∧
      ∃ rest, alignment.drop start.toNat = alignment_window alignment start stop ++ rest := by
  unfold alignment_window
  constructor
  · rw [List.length_take, List.length_drop]
    omega
  · exact ⟨_, (List.take_append_drop _ _).symm⟩

/-- The tensor of a pair is built without a fault when the expanded move tables
are as long as the signals, hold entries 0 and 1, start with a boundary and have
a boundary for each base up to the last one the walk takes and one after it, and
the window lies inside the alignment, the sequences and the quality strings. -/
theorem stereo_encode_tensor_progress (env : Env) (stride : Int) (t c : Read)
    (alignment : List Nat) (start stop qc tc : Int) (template_raw complement_raw : List Fl)
    (hbase : ∀ ch, 0 ≤ env.base_to_int ch ∧ env.base_to_int ch ≤ 3)
    (ht : t.raw_data.signal = Except.ok template_raw)
    (hc : c.raw_data.signal = Except.ok complement_raw)
    (hlt : (stereo_walk_ctx env stride t c template_raw complement_raw).template_moves_expanded.length
      = template_raw.length)
    (hlc : (stereo_walk_ctx env stride t c template_raw
      complement_raw).complement_moves_expanded.length = complement_raw.length)
    (hmt : ∀ x ∈ (stereo_walk_ctx env stride t c template_raw
      complement_raw).template_moves_expanded, x ≤ 1)
    (hmc : ∀ x ∈ (stereo_walk_ctx env stride t c template_raw
      complement_raw).complement_moves_expanded, x ≤ 1)
    (hst : (stereo_walk_ctx env stride t c template_raw
      complement_raw).template_moves_expanded[0]? = some 1)
    (hsc : (stereo_walk_ctx env stride t c template_raw
      complement_raw).complement_moves_expanded[0]? = some 1)
    (hsm : c.moves[0]? = some 1)
    (hstart : 0 ≤ start) (hstop : stop ≤ alignment.length)
    (htc : 0 ≤ tc) (hqc : 0 ≤ qc)
    (hbt : tc + 1 + (template_bases (alignment_window alignment start stop) : Int) ≤
      ((stereo_walk_ctx env stride t c template_raw
        complement_raw).template_moves_expanded.count 1 : Int))
    (hbc : qc + 1 + (complement_bases (alignment_window alignment start stop) : Int) ≤
      ((stereo_walk_ctx env stride t c template_raw
        complement_raw).complement_moves_expanded.count 1 : Int))
    (hts : tc + (template_bases (alignment_window alignment start stop) : Int) ≤ t.seq.length)
    (htq : tc + (template_bases (alignment_window alignment start stop) : Int) ≤
      t.qstring.length)
    (hqs : qc + (complement_bases (alignment_window alignment start stop) : Int) ≤
      (env.reverse_complement c.seq).length)
    (hqq : qc + (complement_bases (alignment_window alignment start stop) : Int) ≤
      c.qstring.length) :
    ∃ out, stereo_encode_tensor env stride t c alignment start stop qc tc = Except.ok out := by
  obtain ⟨tsc, a1, b1, o1⟩ := initial_cursor_progress _ hmt hst tc _ htc hbt
  obtain ⟨csc, a2, b2, o2⟩ := initial_cursor_progress _ hmc hsc qc _ hqc hbc
  have hT : 0 < template_raw.length := by
    rw [← hlt]
    exact (List.getElem?_eq_some_iff.mp hst).1
  have hC : 0 < complement_raw.length := by
    rw [← hlc]
    exact (List.getElem?_eq_some_iff.mp hsc).1
  obtain ⟨cmin, m1⟩ := tensor_min_ok complement_raw.reverse (by
    intro h
    rw [List.reverse_eq_nil_iff] at h
    rw [h] at hC
    exact absurd hC (by simp))
  obtain ⟨tmin, m2⟩ := tensor_min_ok template_raw (by
    intro h
    rw [h] at hT
    exact absurd hT (by simp))
  obtain ⟨hwl, hrest⟩ := alignment_window_drop alignment start stop hstop hstart
  obtain ⟨final, hfinal⟩ :=
    encode_columns_progress (stereo_walk_ctx env stride t c template_raw complement_raw)
      alignment (template_raw.length + complement_raw.length) hbase hlt
      (by rw [hlc]; exact (List.length_reverse _).symm)
      (by show _ = template_raw.length + complement_raw.reverse.length
          rw [List.length_reverse])
      (alignment_window alignment start stop) start
      { tmp := List.replicate 2 (List.replicate (template_raw.length + complement_raw.length)
            (Fl.convert round16 (pad_value cmin tmin))) ++
          List.replicate 11 (List.replicate (template_raw.length + complement_raw.length)
            (Fl.fin 0))
        template_signal_cursor := tsc
        complement_signal_cursor := csc
        target_cursor := tc
        query_cursor := qc
        stereo_global_cursor := 0 }
      hstart hrest (initial_shape _ _)
      (by have h1 := b1; rw [hlt] at h1; exact h1.le)
      (by have h2 := b2
          rw [hlc] at h2
          show csc ≤ complement_raw.reverse.length
          rw [List.length_reverse]
          exact h2.le)
      (Nat.zero_le _) o1 o2 htc hts htq hqc hqs hqq
  rw [hwl] at hfinal
  have e1 : getAt (expand_moves stride template_raw.length t.moves) 0 = Except.ok 1 := by
    unfold getAt
    rw [if_neg (by norm_num)]
    have : (expand_moves stride template_raw.length t.moves)[(0 : Int).toNat]? = some 1 := hst
    rw [this]
  have e2 : getAt c.moves 0 = Except.ok 1 := by
    unfold getAt
    rw [if_neg (by norm_num)]
    have : c.moves[(0 : Int).toNat]? = some 1 := hsm
    rw [this]
  refine ⟨final.tmp.map (List.take final.stereo_global_cursor), ?_⟩
  unfold stereo_encode_tensor
  rw [ht, except_ok_bind, hc, except_ok_bind]
  simp only []
  rw [e1, except_ok_bind]
  have a1' : advance_to_base (expand_moves stride template_raw.length t.moves) (tc + 1)
      ((expand_moves stride template_raw.length t.moves).length + 1) 0 ((1 : Nat) : Int) =
      Except.ok tsc := a1
  rw [a1', except_ok_bind, e2, except_ok_bind]
  have a2' : advance_to_base
      ((expand_moves stride complement_raw.length c.moves ++ [1]).reverse).dropLast (qc + 1)
      (((expand_moves stride complement_raw.length c.moves ++ [1]).reverse).dropLast.length + 1)
      0 ((1 : Nat) : Int) = Except.ok csc := a2
  rw [a2', except_ok_bind, m1, except_ok_bind, m2, except_ok_bind]
  have hfinal' := hfinal
  unfold stereo_walk_ctx pad_value at hfinal'
  rw [hfinal', except_ok_bind]
  rfl

theorem IsWalk.cursor_bound (c : WalkCtx) (alignment : List Nat) (cols : List Column) :
    ∀ (i : Int) (tsc csc : Nat) (tc qc : Int), IsWalk c alignment i tsc csc tc qc cols →
      tsc ≤ c.template_raw.length → csc ≤ c.flipped_complement_raw.length →
      tsc + (cols.map Column.template_segment_length).sum ≤ c.template_raw.length ∧
        csc + (cols.map Column.complement_segment_length).sum ≤
          c.flipped_complement_raw.length := by
  induction cols with
  | nil =>
    intro i tsc csc tc qc _ h1 h2
    simpa using ⟨h1, h2⟩
  | cons col rest ih =>
    intro i tsc csc tc qc hw h1 h2
    obtain ⟨-, ⟨-, -, ht, hc⟩, hrest⟩ := hw
    have b1 : tsc + col.template_segment_length ≤ c.template_raw.length := by
      by_cases he : col.entry = 2
      · rw [if_pos he] at ht
        unfold Column.template_segment_length
        rw [ht]
        simpa using h1
      · rw [if_neg he] at ht
        exact ht.2.2.1
    have b2 : csc + col.complement_segment_length ≤ c.flipped_complement_raw.length := by
      by_cases he : col.entry = 1
      · rw [if_pos he] at hc
        unfold Column.complement_segment_length
        rw [hc]
        simpa using h2
      · rw [if_neg he] at hc
        exact hc.2.2.1
    obtain ⟨r1, r2⟩ := ih _ _ _ _ _ hrest b1 b2
    simp only [List.map_cons, List.sum_cons]
    omega

theorem trimmed_alignment_ok (env : Env) (t c : Read) (w : (Int × Int) × (Int × Int))
    (h : trimmed_alignment env t c = Except.ok w) :
    ∃ target_cursor end_location,
      getAt (stereo_align env t c).startLocations 0 = Except.ok target_cursor ∧
      getAt (stereo_align env t c).endLocations 0 = Except.ok end_location ∧
      stereo_trim env (stereo_align env t c) target_cursor end_location = w := by
  unfold trimmed_alignment at h
  cases hs : getAt (stereo_align env t c).startLocations 0 with
  | error e => simp [hs] at h
  | ok target_cursor =>
    cases he : getAt (stereo_align env t c).endLocations 0 with
    | error e => simp [hs, he] at h
    | ok end_location =>
      simp only [hs, he, Except.ok.injEq] at h
      exact ⟨_, _, rfl, rfl, h⟩

/-- Claim C24: take a pair that passes the acceptance test (with `base_to_int`
mapping into 0..3) whose two expanded move tables are as long as the raw
signals, hold entries 0 and 1, start with a boundary, and have a boundary for
every base up to the last one the walk takes and one after it, and whose trimmed
window lies inside the alignment, the sequences and the quality strings.  Then
`stereo_encode` returns the encoded read without a fault, so that no read of a
signal or a move table and no write to the 13 rows of
`template signal length + complement signal length` entries leaves its array;
the signal cursors end inside their signals; and the length of the output, the
sum over the columns of the larger of the two segment lengths, is at least the
number of columns walked and at most the sum of the two signal lengths. -/
theorem walk_within_bounds (env : Env) (stride : Int) (template_read complement_read : Read)
    (discarded : Nat) (start stop query_cursor target_cursor : Int)
    (template_raw complement_raw : List Fl)
    (hbase : ∀ ch, 0 ≤ env.base_to_int ch ∧ env.base_to_int ch ≤ 3)
    (htrim : trimmed_alignment env template_read complement_read =
      Except.ok ((start, stop), (query_cursor, target_cursor)))
    (hacc : consensus_possible start stop
      (alignment_error_rate (stereo_align env template_read complement_read)) = true)
    (ht : template_read.raw_data.signal = Except.ok template_raw)
    (hc : complement_read.raw_data.signal = Except.ok complement_raw)
    (hlt : (stereo_walk_ctx env stride template_read complement_read template_raw
      complement_raw).template_moves_expanded.length = template_raw.length)
    (hlc : (stereo_walk_ctx env stride template_read complement_read template_raw
      complement_raw).complement_moves_expanded.length = complement_raw.length)
    (hmt : ∀ x ∈ (stereo_walk_ctx env stride template_read complement_read template_raw
      complement_raw).template_moves_expanded, x ≤ 1)
    (hmc : ∀ x ∈ (stereo_walk_ctx env stride template_read complement_read template_raw
      complement_raw).complement_moves_expanded, x ≤ 1)
    (hst : (stereo_walk_ctx env stride template_read complement_read template_raw
      complement_raw).template_moves_expanded[0]? = some 1)
    (hsc : (stereo_walk_ctx env stride template_read complement_read template_raw
      complement_raw).complement_moves_expanded[0]? = some 1)
    (hsm : complement_read.moves[0]? = some 1)
    (hstart : 0 ≤ start)
    (hstop : stop ≤ (stereo_align env template_read complement_read).alignment.length)
    (htc : 0 ≤ target_cursor) (hqc : 0 ≤ query_cursor)
    (hbt : target_cursor + 1 +
        (template_bases (alignment_window
          (stereo_align env template_read complement_read).alignment start stop) : Int) ≤
      ((stereo_walk_ctx env stride template_read complement_read template_raw
        complement_raw).template_moves_expanded.count 1 : Int))
    (hbc : query_cursor + 1 +
        (complement_bases (alignment_window
          (stereo_align env template_read complement_read).alignment start stop) : Int) ≤
      ((stereo_walk_ctx env stride template_read complement_read template_raw
        complement_raw).complement_moves_expanded.count 1 : Int))
    (hts : target_cursor +
        (template_bases (alignment_window
          (stereo_align env template_read complement_read).alignment start stop) : Int) ≤
      template_read.seq.length)
    (htq : target_cursor +
        (template_bases (alignment_window
          (stereo_align env template_read complement_read).alignment start stop) : Int) ≤
      template_read.qstring.length)
    (hqs : query_cursor +
        (complement_bases (alignment_window
          (stereo_align env template_read complement_read).alignment start stop) : Int) ≤
      (env.reverse_complement complement_read.seq).length)
    (hqq : query_cursor +
        (complement_bases (alignment_window
          (stereo_align env template_read complement_read).alignment start stop) : Int) ≤
      complement_read.qstring.length) :
    ∃ (out : List (List Fl)) (cols : List Column) (tsc csc : Nat),
      stereo_encode env stride template_read complement_read discarded =
        Except.ok (stereo_encoded_read template_read complement_read out, discarded) ∧
      initial_template_signal_cursor
        (stereo_walk_ctx env stride template_read complement_read template_raw complement_raw)
        target_cursor = Except.ok tsc ∧
      initial_complement_signal_cursor complement_read.moves
        (stereo_walk_ctx env stride template_read complement_read template_raw complement_raw)
        query_cursor = Except.ok csc ∧
      (cols.length : Int) = stop - start ∧
      IsWalk
        (stereo_walk_ctx env stride template_read complement_read template_raw complement_raw)
        (stereo_align env template_read complement_read).alignment start tsc csc target_cursor
        query_cursor cols ∧
      tsc + (cols.map Column.template_segment_length).sum ≤ template_raw.length ∧
      csc + (cols.map Column.complement_segment_length).sum ≤ complement_raw.length ∧
      out.length = 13 ∧ (∀ row ∈ out, row.length = total_length cols) ∧
      cols.length ≤ total_length cols ∧
      total_length cols ≤ template_raw.length + complement_raw.length := by
  obtain ⟨tc0, el, hs, he, htr⟩ := trimmed_alignment_ok env _ _ _ htrim
  obtain ⟨out, hout⟩ := stereo_encode_tensor_progress env stride template_read complement_read
    _ start stop query_cursor target_cursor template_raw complement_raw hbase ht hc hlt hlc hmt
    hmc hst hsc hsm hstart hstop htc hqc hbt hbc hts htq hqs hqq
  have henc := stereo_encode_of_consensus env stride template_read complement_read discarded
    tc0 el hs he (by rw [htr]; exact hacc)
  rw [htr] at henc
  simp only at henc
  rw [hout] at henc
  obtain ⟨template_raw1, complement_raw1, cmin, tmin, tsc, csc, cols,
    h1, h2, -, -, i1, i2, hn, hwalk, hpos, hL, hlen, hrows⟩ :=
    stereo_encode_tensor_spec env stride template_read complement_read _ _ _ _ _ out hbase hout
  rw [ht] at h1
  rw [hc] at h2
  injection h1 with h1
  injection h2 with h2
  subst h1
  subst h2
  obtain ⟨hlt0, -⟩ := consensus_possible_window _ _ _ hacc
  have hb1 : tsc ≤ template_raw.length := by
    obtain ⟨k, a1, b1, -⟩ := initial_cursor_progress _ hmt hst target_cursor _ htc hbt
    have e : initial_template_signal_cursor
        (stereo_walk_ctx env stride template_read complement_read template_raw complement_raw)
        target_cursor = Except.ok k := by
      unfold initial_template_signal_cursor getAt
      rw [if_neg (by norm_num)]
      have : (stereo_walk_ctx env stride template_read complement_read template_raw
        complement_raw).template_moves_expanded[(0 : Int).toNat]? = some 1 := hst
      rw [this]
      exact a1
    rw [e] at i1
    injection i1 with i1
    omega
  have hb2 : csc ≤ complement_raw.length := by
    obtain ⟨k, a1, b1, -⟩ := initial_cursor_progress _ hmc hsc query_cursor _ hqc hbc
    have e : initial_complement_signal_cursor complement_read.moves
        (stereo_walk_ctx env stride template_read complement_read template_raw complement_raw)
        query_cursor = Except.ok k := by
      unfold initial_complement_signal_cursor getAt
      rw [if_neg (by norm_num)]
      have : complement_read.moves[(0 : Int).toNat]? = some 1 := hsm
      rw [this]
      exact a1
    rw [e] at i2
    injection i2 with i2
    omega
  obtain ⟨c1, c2⟩ := IsWalk.cursor_bound _ _ cols _ _ _ _ _ hwalk hb1
    (by show csc ≤ complement_raw.reverse.length
        rw [List.length_reverse]
        exact hb2)
  refine ⟨out, cols, tsc, csc, henc, i1, i2, ?_, hwalk, c1, ?_, hlen, ?_,
    total_length_ge cols hpos, hL⟩
  · rw [hn, Int.toNat_of_nonneg (by omega)]
  · have : (stereo_walk_ctx env stride template_read complement_read template_raw
        complement_raw).flipped_complement_raw.length = complement_raw.length :=
      List.length_reverse _
    omega
  · intro row hrow
    obtain ⟨i, hi, rfl⟩ := List.mem_iff_getElem.mp hrow
    have h1 := hrows i (by omega)
    rw [List.getElem?_eq_getElem hi] at h1
    injection h1 with h1
    rw [h1, features_flatMap_length _ _ i (by omega) cols hpos]
theorem example_consensus :
    consensus_possible 0 59
      (alignment_error_rate (stereo_align exampleEnv (exampleRead 60) (exampleRead 60))) =
      true := by
  have e1 : (stereo_align exampleEnv (exampleRead 60) (exampleRead 60)).editDistance = 0 := rfl
  have e2 : (stereo_align exampleEnv (exampleRead 60) (exampleRead 60)).alignmentLength = 60 := by
    decide
  unfold alignment_error_rate
  rw [e1, e2, consensus_possible_iff 0 59 0 60 (by norm_num) (by norm_num)]
  norm_num

set_option maxRecDepth 100000 in
/-- Witness for `walk_within_bounds`: the example pair of 60 bases, one sample
per base, with the window 0 to 59. -/
theorem walk_within_bounds_witness :
    ∃ (out : List (List Fl)) (cols : List Column) (tsc csc : Nat),
      stereo_encode exampleEnv 1 (exampleRead 60) (exampleRead 60) 0 =
        Except.ok (stereo_encoded_read (exampleRead 60) (exampleRead 60) out, 0) ∧
      initial_template_signal_cursor
        (stereo_walk_ctx exampleEnv 1 (exampleRead 60) (exampleRead 60)
          ((List.range 60).map fun i => Fl.fin (i : ℚ))
          ((List.range 60).map fun i => Fl.fin (i : ℚ))) 0 = Except.ok tsc ∧
      initial_complement_signal_cursor (exampleRead 60).moves
        (stereo_walk_ctx exampleEnv 1 (exampleRead 60) (exampleRead 60)
          ((List.range 60).map fun i => Fl.fin (i : ℚ))
          ((List.range 60).map fun i => Fl.fin (i : ℚ))) 0 = Except.ok csc ∧
      (cols.length : Int) = 59 - 0 ∧
      IsWalk
        (stereo_walk_ctx exampleEnv 1 (exampleRead 60) (exampleRead 60)
          ((List.range 60).map fun i => Fl.fin (i : ℚ))
          ((List.range 60).map fun i => Fl.fin (i : ℚ)))
        (stereo_align exampleEnv (exampleRead 60) (exampleRead 60)).alignment 0 tsc csc 0 0
        cols ∧
      tsc + (cols.map Column.template_segment_length).sum ≤
        ((List.range 60).map fun i => Fl.fin (i : ℚ)).length ∧
      csc + (cols.map Column.complement_segment_length).sum ≤
        ((List.range 60).map fun i => Fl.fin (i : ℚ)).length ∧
      out.length = 13 ∧ (∀ row ∈ out, row.length = total_length cols) ∧
      cols.length ≤ total_length cols ∧
      total_length cols ≤ ((List.range 60).map fun i => Fl.fin (i : ℚ)).length +
        ((List.range 60).map fun i => Fl.fin (i : ℚ)).length :=
  walk_within_bounds exampleEnv 1 (exampleRead 60) (exampleRead 60) 0 0 59 0 0
    ((List.range 60).map fun i => Fl.fin (i : ℚ)) ((List.range 60).map fun i => Fl.fin (i : ℚ))
    exampleEnv_base_to_int rfl example_consensus rfl rfl (by decide) (by decide) (by decide)
    (by decide) (by decide) (by decide) (by decide) (by decide) (by decide) (by decide)
    (by decide) (by decide) (by decide) (by decide) (by decide) (by decide) (by decide)

end Dorado
